import Mathlib

/-!
# IpContainer: a Patricia trie of IPv4 prefixes in a relocating node arena

A shallow embedding of `ChunkAllocator.hpp`, `IpContainer.hpp` and `IpContainer.cpp`.

Conventions of the embedding.

* `uint32_t` values are natural numbers; where the source shifts a 32-bit value to the left the
  result is reduced modulo `2 ^ 32`.  A shift of a 32-bit value by a count outside `0 .. 31`
  (`<< 32` for the mask of length 0, `>> 32` in the validator) has no defined value in C++; the
  embedding takes the value of the compiled code, whose shift instructions use the count modulo
  32: a shift by 32 leaves the word unshifted.
* `char` values (mask lengths, the divergence bit) are integers.
* A `ChunkPointer` is an arena index; the default-constructed pointer (`index(-1)`, the "empty"
  pointer) is `none`.  Arena indices are unbounded naturals: exhaustion of the 32-bit index space
  coincides with memory exhaustion, which the embedding does not model.
* The `Node` union is a sum of its three variants.  The flag word shared by the variants is
  recovered by `Node.flag`, the `parent` word by `Node.getParent`/`Node.parentField`.
* A leaf owns its `DataNode` (allocated with `std::allocator`); the embedding stores the record
  in the leaf.
* Operations that dereference an empty pointer, index outside the live slots, read a field of the
  wrong variant, or fail an `assert`, have no result (`none`).
* Loops over the tree carry fuel equal to the number of arena slots: a descent that needs more
  steps than there are slots revisits a slot and never ends.
-/

set_option autoImplicit false

/-! ## DataNode -/

/-- The payload of a leaf: the key and the ascending sequence of mask lengths. -/
structure DataNode where
  ip : Nat
  prefixes : List Int
deriving DecidableEq, Repr

namespace DataNode

/-- `std::lower_bound(prefixes.begin(), prefixes.end(), p)`: the position of the first element
that is not less than `p` (for a sorted sequence this is what the binary search returns). -/
def lower_bound : List Int → Int → Nat
  | [], _ => 0
  | x :: xs, p => if x < p then lower_bound xs p + 1 else 0

/-- `std::binary_search`: `it = lower_bound(..); it != end && !(p < *it)`. -/
def binary_search (ps : List Int) (p : Int) : Bool :=
  match ps[lower_bound ps p]? with
  | none => false
  | some x => !(decide (p < x))

/-- `DataNode::contain`. -/
def contain (d : DataNode) (p : Int) : Bool :=
  binary_search d.prefixes p

/-- `swap(prefixes[i], prefixes[j])`. -/
def swapAt (ps : List Int) (i j : Nat) : List Int :=
  match ps[i]?, ps[j]? with
  | some a, some b => (ps.set i b).set j a
  | _, _ => ps

/-- The loop of `DataNode::addPrefix`: `for (i = n; i > 0; --i)`, comparing `prefixes[i-1]`
with `prefixes[i]`. -/
def addPrefixLoop (ps : List Int) : Nat → List Int
  | 0 => ps
  | i + 1 =>
    match ps[i]?, ps[i + 1]? with
    | some a, some b =>
      if !(decide (a < b)) then addPrefixLoop (swapAt ps i (i + 1)) i else addPrefixLoop ps i
    | _, _ => addPrefixLoop ps i

/-- `DataNode::addPrefix`. -/
def addPrefix (d : DataNode) (p : Int) : DataNode :=
  if d.contain p then d
  else
    let ps := d.prefixes ++ [p]
    { d with prefixes := addPrefixLoop ps (ps.length - 1) }

/-- `DataNode::removePrefix`: the record after the call and the returned value. -/
def removePrefix (d : DataNode) (p : Int) : DataNode × Int :=
  let it := lower_bound d.prefixes p
  match d.prefixes[it]? with
  | some x => if !(decide (p < x)) then ({ d with prefixes := d.prefixes.eraseIdx it }, 0) else (d, -1)
  | none => (d, -1)

/-- `static_cast<uint32_t>(-1) << (32 - p)`, the shift count taken modulo 32: for `p = 0` the
count is 32 and the mask is `0xFFFFFFFF`. -/
def netmask (p : Int) : Nat :=
  (4294967295 <<< ((32 - p) % 32).toNat) % 4294967296

/-- The loop of `DataNode::getMaxPrefixForIp`: `for (i = n - 1; i >= 0; --i)`; the argument is
`i + 1`. -/
def getMaxPrefixLoop (ip : Nat) (ps : List Int) (ip_ : Nat) : Nat → Int
  | 0 => -1
  | i + 1 =>
    match ps[i]? with
    | some p =>
      if ip &&& netmask p = ip_ &&& netmask p then p else getMaxPrefixLoop ip ps ip_ i
    | none => getMaxPrefixLoop ip ps ip_ i

/-- `DataNode::getMaxPrefixForIp`. -/
def getMaxPrefixForIp (d : DataNode) (ip_ : Nat) : Int :=
  getMaxPrefixLoop d.ip d.prefixes ip_ d.prefixes.length

end DataNode

/-! ## Node -/

/-- A `ChunkPointer`: `none` is the default-constructed (empty) pointer. -/
abbrev pointer := Option Nat

/-- The `Node` union as a sum of `RootNode`, `InnerNode` and `LeafNode`. -/
inductive Node where
  | root (parent child : pointer)
  | inner (branchMask : Nat) (parent one zero : pointer)
  | leaf (parent : pointer) (data : DataNode)
deriving DecidableEq, Repr

namespace Node

/-- The first word of the union: `root.flag`, `leaf.flag`, `inner.branchMask`. -/
def flag : Node → Nat
  | root _ _ => 4294967294
  | leaf _ _ => 4294967295
  | inner b _ _ _ => b

def isRoot (n : Node) : Bool := n.flag == 4294967294

def isLeaf (n : Node) : Bool := n.flag == 4294967295

def isInner (n : Node) : Bool := !n.isLeaf && !n.isRoot

/-- The second word of the union, the `parent` member of every variant. -/
def parentField : Node → pointer
  | root p _ => p
  | leaf p _ => p
  | inner _ p _ _ => p

/-- `Node::getParent`. -/
def getParent : Node → pointer
  | leaf p _ => p
  | inner _ p _ _ => p
  | root _ _ => none

/-- `Node::setParent`; it asserts `isInner()` on a node that is not a leaf. -/
def setParent (n : Node) (p : pointer) : Option Node :=
  match n with
  | leaf _ d => some (leaf p d)
  | inner b _ o z => some (inner b p o z)
  | root _ _ => none

end Node

/-! ## ChunkBuff: the node arena -/

def MIN_CAPACITY : Nat := 8

/-- The arena.  `buf` lists the slots `0 .. size - 1`; slot `0` is never handed out. -/
structure ChunkBuff where
  capacity : Nat
  buf : List Node
deriving DecidableEq, Repr

namespace ChunkBuff

/-- The `size` member: the number of slots in use, slot `0` included. -/
def size (c : ChunkBuff) : Nat := c.buf.length

/-- `ChunkBuff()`: `capacity = MIN_CAPACITY`, `size = 1`. -/
def new : ChunkBuff := { capacity := MIN_CAPACITY, buf := [Node.root none none] }

/-- `*p`: the node a pointer refers to. -/
def get (c : ChunkBuff) (p : pointer) : Option Node :=
  match p with
  | none => none
  | some i => c.buf[i]?

/-- `buf[i] = n` for a slot in use. -/
def put (c : ChunkBuff) (i : Nat) (n : Node) : Option ChunkBuff :=
  if i < c.size then some { c with buf := c.buf.set i n } else none

/-- `ChunkBuff::allocate`: the arena with a fresh default-constructed slot, and its index. -/
def allocate (c : ChunkBuff) : Option (ChunkBuff × Nat) :=
  let capacity := if c.capacity ≤ c.size then c.capacity * 2 else c.capacity
  -- assert(!capacity <= size)
  if (if capacity = 0 then 1 else 0) ≤ c.size then
    some ({ capacity := capacity, buf := c.buf ++ [Node.root none none] }, c.size)
  else none

/-- `p->setParent(v)`. -/
def setParentAt (c : ChunkBuff) (p : pointer) (v : pointer) : Option ChunkBuff :=
  match p with
  | none => none
  | some i =>
    match c.buf[i]? with
    | none => none
    | some n =>
      match n.setParent v with
      | none => none
      | some n1 => c.put i n1

/-- `p->getParent()`. -/
def getParentAt (c : ChunkBuff) (p : pointer) : Option pointer :=
  match c.get p with
  | none => none
  | some n => some n.getParent

/-- The first half of `Node::UpdateChunk`: the parent `q` of the moved node replaces
`oldPointer` by `newPointer` among its children. -/
def updateParentLink (c : ChunkBuff) (q newPointer oldPointer : Nat) : Option ChunkBuff :=
  match c.buf[q]? with
  | some (Node.root par child) =>
    if child = some oldPointer then
      match c.put q (Node.root par (some newPointer)) with
      | none => none
      | some c1 =>
        if c1.getParentAt (some newPointer) = some (some q) then some c1 else none
    else none
  | some (Node.inner b par one zero) =>
    let upd : Option (ChunkBuff × pointer × pointer) :=
      if zero = some oldPointer then
        (c.put q (Node.inner b par one (some newPointer))).map (fun c1 => (c1, one, some newPointer))
      else if one = some oldPointer then
        (c.put q (Node.inner b par (some newPointer) zero)).map (fun c1 => (c1, some newPointer, zero))
      else none
    match upd with
    | none => none
    | some (c1, one1, zero1) =>
      if c1.getParentAt zero1 = some (some q) ∧ c1.getParentAt one1 = some (some q) then some c1
      else none
  | _ => none

/-- `Node::UpdateChunk(newPointer, oldPointer)`, called on the node now stored at `newPointer`. -/
def UpdateChunk (c : ChunkBuff) (newPointer oldPointer : Nat) : Option ChunkBuff :=
  match c.buf[newPointer]? with
  | none => none
  | some self =>
    if self.isRoot then none
    else
      match self.getParent with
      | none => some c
      | some q =>
        match c.updateParentLink q newPointer oldPointer with
        | none => none
        | some c1 =>
          match c1.buf[newPointer]? with
          | some (Node.inner b par one zero) =>
            if (Node.inner b par one zero).isInner ∧ zero ≠ none then
              if one ≠ none then
                match c1.setParentAt zero (some newPointer) with
                | none => none
                | some c2 => c2.setParentAt one (some newPointer)
              else none
            else some c1
          | some _ => some c1
          | none => none

/-- `ChunkBuff::deallocate(index)` (with the `assert(p > 0)` of `ChunkAllocator::deallocate`). -/
def deallocate (c : ChunkBuff) (index : Nat) : Option ChunkBuff :=
  if index = 0 then none
  else
    let moved : Option ChunkBuff :=
      if index ≠ c.size - 1 then
        match c.buf[c.size - 1]? with
        | none => none
        | some last =>
          match c.put index last with
          | none => none
          | some c1 => c1.UpdateChunk index (c.size - 1)
      else if index < c.size then some c else none
    match moved with
    | none => none
    | some c1 =>
      let c2 : ChunkBuff := { c1 with buf := c1.buf.dropLast }
      if c2.capacity / 3 ≥ MIN_CAPACITY ∧ c2.size < c2.capacity / 3 then
        some { c2 with capacity := c2.capacity / 3 }
      else some c2

end ChunkBuff

/-! ## IpContainer: the trie engine -/

/-- The engine: the node arena (the static `ChunkBuff` of `ChunkAllocator`) and `root`. -/
structure IpContainer where
  node_alloc : ChunkBuff
  root : pointer
deriving DecidableEq, Repr

namespace IpContainer

/-- `*p` in the engine's arena. -/
def get (s : IpContainer) (p : pointer) : Option Node := s.node_alloc.get p

/-- `*p = n` in the engine's arena. -/
def put (s : IpContainer) (p : pointer) (n : Node) : Option IpContainer :=
  match p with
  | none => none
  | some i => (s.node_alloc.put i n).map (fun c => { s with node_alloc := c })

/-- `IpContainer::IpContainer()`. -/
def new : Option IpContainer :=
  match ChunkBuff.new.allocate with
  | none => none
  | some (c, r) =>
    -- construct(root, node_type()); setRoot(); root.parent = pointer(); root.child = pointer()
    (c.put r (Node.root none none)).map (fun c1 => { node_alloc := c1, root := some r })

/-- `IpContainer::validate`.  `1 << 31` is `INT_MIN`, which the comparison with the unsigned
`base` converts to `2 ^ 31`.  The shift count of `static_cast<uint32_t>(-1) >> mask` is taken
modulo 32: for `mask = 32` the word stays `0xFFFFFFFF`. -/
def validate (base : Nat) (mask : Int) : Bool :=
  let v1 := decide (mask ≥ 0) && decide (mask ≤ 32) && decide (base ≤ 2147483648)
  v1 && ((base &&& (4294967295 >>> (mask % 32).toNat)) == 0)

/-- The loop of `IpContainer::getDiffBit`; the argument is `diffBit`.  Decrementing below `0`
leads to a shift by a negative amount: no result. -/
def getDiffBitLoop (v1 v2 : Nat) : Nat → Option Nat
  | 0 => if (v1 ^^^ v2) &&& (1 <<< 0) = 0 then none else some 0
  | d + 1 => if (v1 ^^^ v2) &&& (1 <<< (d + 1)) = 0 then getDiffBitLoop v1 v2 d else some (d + 1)

/-- `IpContainer::getDiffBit`. -/
def getDiffBit (v1 v2 : Nat) : Option Nat := getDiffBitLoop v1 v2 31

/-- `root->root.child`. -/
def rootChild (s : IpContainer) : Option pointer :=
  match s.get s.root with
  | some (Node.root _ child) => some child
  | _ => none

/-- `root->root.child = v`. -/
def setRootChild (s : IpContainer) (v : pointer) : Option IpContainer :=
  match s.get s.root with
  | some (Node.root par _) => s.put s.root (Node.root par v)
  | _ => none

/-- `p->leaf.data`. -/
def leafData (s : IpContainer) (p : pointer) : Option DataNode :=
  match s.get p with
  | some (Node.leaf _ d) => some d
  | _ => none

/-- `*p->leaf.data = d`. -/
def setLeafData (s : IpContainer) (p : pointer) (d : DataNode) : Option IpContainer :=
  match s.get p with
  | some (Node.leaf par _) => s.put p (Node.leaf par d)
  | _ => none

/-- `p->leaf.parent = v`, `p->inner.parent = v`: a write to the `parent` word. -/
def setParentField (s : IpContainer) (p : pointer) (v : pointer) : Option IpContainer :=
  match s.get p with
  | some (Node.root _ child) => s.put p (Node.root v child)
  | some (Node.inner b _ one zero) => s.put p (Node.inner b v one zero)
  | some (Node.leaf _ d) => s.put p (Node.leaf v d)
  | none => none

/-- `IpContainer::createLeafNode`. -/
def createLeafNode (s : IpContainer) (ip : Nat) (mask : Int) : Option (IpContainer × pointer) :=
  match s.node_alloc.allocate with
  | none => none
  | some (c, node) =>
    let d : DataNode := DataNode.addPrefix { ip := ip, prefixes := [] } mask
    (c.put node (Node.leaf none d)).map (fun c1 => ({ s with node_alloc := c1 }, some node))

/-- `IpContainer::createInnerNode`; the children, which the source leaves unset, are empty. -/
def createInnerNode (s : IpContainer) : Option (IpContainer × pointer) :=
  match s.node_alloc.allocate with
  | none => none
  | some (c, node) =>
    (c.put node (Node.inner 0 none none none)).map (fun c1 => ({ s with node_alloc := c1 }, some node))

/-- The two symmetric halves of `IpContainer::createParentNode` after the new inner node is
filled in: the child `ch` gets `parent` as its parent; a leaf child must have bit `diffBit` of its
key equal to `side`. -/
def adoptChild (s : IpContainer) (ch parent : pointer) (diffBit : Nat) (side : Bool) :
    Option IpContainer :=
  match s.get ch with
  | some (Node.leaf _ d) =>
    if (decide (d.ip &&& (1 <<< diffBit) ≠ 0)) = side then s.put ch (Node.leaf parent d) else none
  | some (Node.inner b _ one zero) =>
    if (Node.inner b parent one zero).isInner then s.put ch (Node.inner b parent one zero) else none
  | _ => none

/-- `IpContainer::createParentNode`. -/
def createParentNode (s : IpContainer) (newNode siblingNode : pointer) (diffBit : Nat) :
    Option (IpContainer × pointer) :=
  match s.leafData newNode with
  | none => none
  | some d =>
    let swapped : Bool := decide (d.ip &&& (1 <<< diffBit) ≠ 0)
    let zeroNode := if swapped then siblingNode else newNode
    let oneNode := if swapped then newNode else siblingNode
    match s.createInnerNode with
    | none => none
    | some (s1, parent) =>
      match s1.put parent (Node.inner diffBit none oneNode zeroNode) with
      | none => none
      | some s2 =>
        match s2.adoptChild zeroNode parent diffBit false with
        | none => none
        | some s3 => (s3.adoptChild oneNode parent diffBit true).map (fun s4 => (s4, parent))

/-- `IpContainer::deleteNode`. -/
def deleteNode (s : IpContainer) (node : pointer) : Option IpContainer :=
  match node, s.get node with
  | some i, some n =>
    if n.getParent ≠ none then none
    else
      let ok : Bool :=
        match n with
        | Node.leaf _ _ => true
        | Node.inner _ _ one zero => decide (zero = none) && decide (one = none)
        | Node.root _ child => decide (child = none)
      if ok then (s.node_alloc.deallocate i).map (fun c => { s with node_alloc := c }) else none
  | _, _ => none

/-- `IpContainer::disconnectNode`. -/
def disconnectNode (s : IpContainer) (node : pointer) : Option IpContainer :=
  match s.get node with
  | some (Node.inner b _ _ _) => s.put node (Node.inner b none none none)
  | some (Node.leaf _ d) => s.put node (Node.leaf none d)
  | some (Node.root par _) => if par = none then s.put node (Node.root par none) else none
  | none => none

/-- The loop of `IpContainer::findNode`. -/
def findNodeLoop (c : ChunkBuff) (ip : Nat) : Nat → pointer → Option pointer
  | 0, _ => none
  | fuel + 1, node =>
    match c.get node with
    | none => none
    | some n =>
      if n.isInner then
        match n with
        | Node.inner b _ one zero =>
          if (1 <<< b) &&& ip ≠ 0 then findNodeLoop c ip fuel one else findNodeLoop c ip fuel zero
        | _ => none
      else some node

/-- `IpContainer::findNode`. -/
def findNode (s : IpContainer) (ip : Nat) : Option pointer :=
  match s.rootChild with
  | none => none
  | some none => none
  | some (some i) =>
    match findNodeLoop s.node_alloc ip s.node_alloc.size (some i) with
    | none => none
    | some node =>
      match s.get node with
      | some n => if n.isLeaf then some node else none
      | none => none

/-- The loop of `IpContainer::findAny`. -/
def findAnyLoop (c : ChunkBuff) : Nat → pointer → Option pointer
  | 0, _ => none
  | fuel + 1, node =>
    match c.get node with
    | none => none
    | some n =>
      if n.isInner then
        match n with
        | Node.inner _ _ one _ => findAnyLoop c fuel one
        | _ => none
      else some node

/-- `IpContainer::findAny`. -/
def findAny (s : IpContainer) : Option pointer :=
  match s.rootChild with
  | none => none
  | some ch =>
    match findAnyLoop s.node_alloc s.node_alloc.size ch with
    | none => none
    | some node =>
      match s.get node with
      | some n => if n.isLeaf then some node else none
      | none => none

/-- `IpContainer::empty`. -/
def empty (s : IpContainer) : Option Bool :=
  s.rootChild.map (fun ch => decide (ch = none))

/-- `IpContainer::check`. -/
def check (s : IpContainer) (ip : Nat) : Option Int :=
  match s.rootChild with
  | none => none
  | some none => some (-1)
  | some (some _) =>
    match s.findNode ip with
    | none => none
    | some node => (s.leafData node).map (fun d => d.getMaxPrefixForIp ip)

/-- The statement shared by `add` and `del`: `if (p->inner.zero == old) p->inner.zero = v; else
{ assert(p->inner.one == old); p->inner.one = v; }`. -/
def replaceChild (s : IpContainer) (p old v : pointer) : Option IpContainer :=
  match s.get p with
  | some (Node.inner b par one zero) =>
    if zero = old then s.put p (Node.inner b par one v)
    else if one = old then s.put p (Node.inner b par v zero)
    else none
  | _ => none

/-- The first two branches of `add` that put a new inner node on top of the tree:
`node = createLeafNode(base, mask); root->root.child = createParentNode(node, root->root.child,
diffBit); root->root.child->inner.parent = root`. -/
def addOnTop (s : IpContainer) (base : Nat) (mask : Int) (diffBit : Nat) : Option IpContainer :=
  match s.createLeafNode base mask with
  | none => none
  | some (s1, node) =>
    match s1.rootChild with
    | none => none
    | some ch =>
      match s1.createParentNode node ch diffBit with
      | none => none
      | some (s2, parent) =>
        match s2.setRootChild parent with
        | none => none
        | some s3 => s3.setParentField parent s3.root

/-- The walk up of `add`: `while (parentNode->inner.branchMask < diffBit) { node = parentNode;
parentNode = parentNode->inner.parent; }`; the result is `(node, parentNode)`. -/
def walkUpLoop (c : ChunkBuff) (diffBit : Nat) : Nat → pointer → pointer → Option (pointer × pointer)
  | 0, _, _ => none
  | fuel + 1, node, parentNode =>
    match c.get parentNode with
    | none => none
    | some pn =>
      if pn.flag < diffBit then walkUpLoop c diffBit fuel parentNode pn.parentField
      else some (node, parentNode)

/-- The last branch of `add`: walk up from the candidate leaf and splice the new leaf in. -/
def addBelow (s : IpContainer) (base : Nat) (mask : Int) (diffBit : Nat) (leaf : pointer) :
    Option IpContainer :=
  match s.get leaf with
  | none => none
  | some ln =>
    match walkUpLoop s.node_alloc diffBit s.node_alloc.size leaf ln.parentField with
    | none => none
    | some (node, parentNode) =>
      match s.get parentNode with
      | none => none
      | some pn =>
        if pn.flag > diffBit then
          match s.createLeafNode base mask with
          | none => none
          | some (s1, newLeafNode) =>
            match s1.createParentNode newLeafNode node diffBit with
            | none => none
            | some (s2, newInnerNode) =>
              match s2.setParentField newInnerNode parentNode with
              | none => none
              | some s3 => s3.replaceChild parentNode node newInnerNode
        else none

/-- `IpContainer::add`: the engine after the call and the returned value. -/
def add (s : IpContainer) (base : Nat) (mask : Int) : Option (IpContainer × Int) :=
  if !validate base mask then some (s, -1)
  else
    match s.rootChild with
    | none => none
    | some none =>
      match s.createLeafNode base mask with
      | none => none
      | some (s1, leaf) =>
        match s1.setRootChild leaf with
        | none => none
        | some s2 =>
          match s2.rootChild with
          | none => none
          | some ch => (s2.setParentField ch s2.root).map (fun s3 => (s3, 0))
    | some (some ch) =>
      match s.findNode base with
      | none => none
      | some node =>
        match s.leafData node with
        | none => none
        | some d =>
          if d.ip = base then
            (s.setLeafData node (d.addPrefix mask)).map (fun s1 => (s1, 0))
          else
            match getDiffBit d.ip base with
            | none => none
            | some diffBit =>
              if node = some ch then
                (s.addOnTop base mask diffBit).map (fun s1 => (s1, 0))
              else
                match s.get (some ch) with
                | none => none
                | some rc =>
                  if !rc.isInner then none
                  else if rc.flag < diffBit then
                    (s.addOnTop base mask diffBit).map (fun s1 => (s1, 0))
                  else (s.addBelow base mask diffBit node).map (fun s1 => (s1, 0))

/-- The last part of `del`: the leaf `node`, emptied of masks, has an inner parent; the sibling
takes the parent's place and both nodes are freed, the one with the larger index first. -/
def unlinkLeaf (s : IpContainer) (node : pointer) : Option IpContainer :=
  match s.get node with
  | none => none
  | some ln =>
    let oldParent := ln.parentField
    match s.get oldParent with
    | some (Node.inner _ newParent one zero) =>
      let child : Option pointer :=
        if zero = node then some one else if one = node then some zero else none
      match child with
      | none => none
      | some child =>
        match s.setParentField child newParent with
        | none => none
        | some s1 =>
          match s1.get newParent with
          | none => none
          | some np =>
            let linked : Option IpContainer :=
              if !np.isRoot then
                match s1.replaceChild newParent oldParent child with
                | none => none
                | some s2 =>
                  match s2.get newParent with
                  | some (Node.inner _ _ one2 zero2) =>
                    if s2.node_alloc.getParentAt one2 = some newParent
                        ∧ s2.node_alloc.getParentAt zero2 = some newParent then some s2
                    else none
                  | _ => none
              else if newParent = s1.root then
                match s1.setRootChild child with
                | none => none
                | some s2 =>
                  if s2.node_alloc.getParentAt child = some s2.root then some s2 else none
              else none
            match linked with
            | none => none
            | some s2 =>
              if s2.node_alloc.getParentAt child = some newParent then
                match node, oldParent with
                | some n, some o =>
                  let first : Nat := if n < o then o else n
                  let second : Nat := if n < o then n else o
                  match s2.disconnectNode (some first) with
                  | none => none
                  | some s3 =>
                    match s3.disconnectNode (some second) with
                    | none => none
                    | some s4 =>
                      match s4.deleteNode (some first) with
                      | none => none
                      | some s5 => s5.deleteNode (some second)
                | _, _ => none
              else none
    | _ => none

/-- `IpContainer::del`: the engine after the call and the returned value.  The last path of the
source ends without a `return` statement: the returned value is then `none`. -/
def del (s : IpContainer) (base : Nat) (mask : Int) : Option (IpContainer × Option Int) :=
  match s.rootChild with
  | none => none
  | some none => some (s, some (-1))
  | some (some _) =>
    match s.findNode base with
    | none => none
    | some node =>
      match s.leafData node with
      | none => none
      | some d =>
        match s.setLeafData node (d.removePrefix mask).1 with
        | none => none
        | some s1 =>
          if (d.removePrefix mask).2 = -1 then some (s1, some (-1))
          else if (d.removePrefix mask).1.prefixes ≠ [] then some (s1, some 0)
          else
            match s1.rootChild with
            | none => none
            | some ch =>
              if node = ch then
                match s1.disconnectNode ch with
                | none => none
                | some s2 =>
                  match s2.rootChild with
                  | none => none
                  | some ch2 =>
                    match s2.deleteNode ch2 with
                    | none => none
                    | some s3 => (s3.setRootChild none).map (fun s4 => (s4, some 0))
              else (s1.unlinkLeaf node).map (fun s2 => (s2, none))

end IpContainer



/-- A strictly increasing sequence of mask lengths. -/
abbrev DataNode.Ascending (ps : List Int) : Prop := List.Pairwise (fun a b => a < b) ps

/-! ## Calls, reachable states and the stored set -/

namespace IpContainer

/-- A call of the public interface. -/
inductive Call where
  | add (base : Nat) (mask : Int)
  | del (base : Nat) (mask : Int)
deriving DecidableEq, Repr

/-- The arguments fit their C++ types: `unsigned int base`, `char mask`. -/
def Call.wellTyped : Call → Bool
  | Call.add base mask => decide (base < 4294967296) && decide (-128 ≤ mask) && decide (mask ≤ 127)
  | Call.del base mask => decide (base < 4294967296) && decide (-128 ≤ mask) && decide (mask ≤ 127)

/-- The engine after one call, whatever the call returns. -/
def step (s : IpContainer) : Call → Option IpContainer
  | Call.add base mask => (s.add base mask).map Prod.fst
  | Call.del base mask => (s.del base mask).map Prod.fst

/-- The engine after a sequence of calls. -/
def runFrom : IpContainer → List Call → Option IpContainer
  | s, [] => some s
  | s, c :: cs =>
    match s.step c with
    | none => none
    | some s1 => runFrom s1 cs

/-- The engine after construction and a sequence of calls. -/
def run (cs : List Call) : Option IpContainer :=
  match IpContainer.new with
  | none => none
  | some s => runFrom s cs

/-- A state reached from the freshly constructed engine by `add` and `del` calls. -/
def Reachable (s : IpContainer) : Prop :=
  ∃ cs : List Call, (∀ c ∈ cs, c.wellTyped = true) ∧ run cs = some s

/-- The prefix `(b, m)` is stored: some leaf has key `b` and holds the mask length `m`. -/
def stored (s : IpContainer) (b : Nat) (m : Int) : Prop :=
  ∃ (i : Nat) (par : pointer) (d : DataNode),
    s.node_alloc.buf[i]? = some (Node.leaf par d) ∧ d.ip = b ∧ m ∈ d.prefixes

/-- The prefix `(b, m)` matches the address `k`: `(b & mask(m)) == (k & mask(m))`, the
comparison of `getMaxPrefixForIp`. -/
def covers (b : Nat) (m : Int) (k : Nat) : Prop :=
  b &&& DataNode.netmask m = k &&& DataNode.netmask m

instance (b : Nat) (m : Int) (k : Nat) : Decidable (covers b m k) := by
  unfold covers; infer_instance

end IpContainer

/-! ## Single-word updates of a node -/

namespace Node

/-- The node with its `parent` word set to `v`. -/
def withParent (n : Node) (v : pointer) : Node :=
  match n with
  | root _ c => root v c
  | inner b _ o z => inner b v o z
  | leaf _ d => leaf v d

/-- The inner node with the child word that equals `old` set to `v`, the `zero` word tried
first; no result for a node that is not inner or has no such child. -/
def withChild (n : Node) (old v : pointer) : Option Node :=
  match n with
  | inner b par one zero =>
    if zero = old then some (inner b par one v)
    else if one = old then some (inner b par v zero)
    else none
  | _ => none

end Node

/-- The capacity after `ChunkBuff::allocate` on an arena of the given capacity and size. -/
def ChunkBuff.grown (capacity size : Nat) : Nat :=
  if capacity ≤ size then capacity * 2 else capacity

/-- The capacity after `ChunkBuff::deallocate` on an arena of the given capacity, `size` being
the size after the call. -/
def ChunkBuff.shrunk (capacity size : Nat) : Nat :=
  if capacity / 3 ≥ MIN_CAPACITY ∧ size < capacity / 3 then capacity / 3 else capacity

/-- An arena reached from `ChunkBuff()` by `allocate` calls, `deallocate` calls that succeed
(hence on live indices) and writes to live slots. -/
inductive ChunkBuff.Reach : ChunkBuff → Prop where
  | new : ChunkBuff.Reach ChunkBuff.new
  | allocate (c c1 : ChunkBuff) (i : Nat) :
      ChunkBuff.Reach c → c.allocate = some (c1, i) → ChunkBuff.Reach c1
  | deallocate (c c1 : ChunkBuff) (i : Nat) :
      ChunkBuff.Reach c → c.deallocate i = some c1 → ChunkBuff.Reach c1
  | put (c c1 : ChunkBuff) (i : Nat) (n : Node) :
      ChunkBuff.Reach c → c.put i n = some c1 → ChunkBuff.Reach c1

/-! ## The tree an arena denotes -/

/-- A binary trie whose nodes carry the arena index of their slot. -/
inductive LTree where
  | leaf (i : Nat) (d : DataNode)
  | inner (i : Nat) (b : Nat) (zero one : LTree)
deriving DecidableEq, Repr

namespace LTree

/-- The arena index of the top node. -/
def idx : LTree → Nat
  | leaf i _ => i
  | inner i _ _ _ => i

/-- The arena indices of all nodes. -/
def indices : LTree → List Nat
  | leaf i _ => [i]
  | inner i _ z o => i :: (z.indices ++ o.indices)

/-- The leaf records, from the `zero` side to the `one` side. -/
def leaves : LTree → List DataNode
  | leaf _ d => [d]
  | inner _ _ z o => z.leaves ++ o.leaves

/-- The keys of the leaves. -/
def keys (t : LTree) : List Nat := t.leaves.map DataNode.ip

/-- The leaf the descent on `ip` ends at: its index and its record. -/
def find (ip : Nat) : LTree → Nat × DataNode
  | leaf i d => (i, d)
  | inner _ b z o => if (1 <<< b) &&& ip ≠ 0 then o.find ip else z.find ip

/-- The parent of the leaf the descent on `ip` ends at; `p` is the parent of the top node. -/
def findParent (ip : Nat) : LTree → Nat → Nat
  | leaf _ _, p => p
  | inner i b z o, _ => if (1 <<< b) &&& ip ≠ 0 then o.findParent ip i else z.findParent ip i

/-- The number of inner nodes the descent on `ip` passes. -/
def pathLen (ip : Nat) : LTree → Nat
  | leaf _ _ => 0
  | inner _ b z o => (if (1 <<< b) &&& ip ≠ 0 then o.pathLen ip else z.pathLen ip) + 1

/-- The arena `buf` holds the tree `t` below the slot `p`: every node sits in the slot of its
index, with its parent word and child words naming the slots of its neighbours. -/
def Rep (buf : List Node) : LTree → Nat → Prop
  | leaf i d, p => buf[i]? = some (Node.leaf (some p) d)
  | inner i b z o, p =>
    b < 32 ∧ buf[i]? = some (Node.inner b (some p) (some o.idx) (some z.idx)) ∧
      Rep buf z i ∧ Rep buf o i

/-- The invariant of a leaf record. -/
def LeafOk (d : DataNode) : Prop :=
  DataNode.Ascending d.prefixes ∧ d.prefixes ≠ [] ∧ ∀ m ∈ d.prefixes, IpContainer.validate d.ip m = true

/-- The Patricia invariant: below an inner node with branch bit `b` the keys on the `zero` side
have bit `b` clear, those on the `one` side have it set, and all keys agree above `b`. -/
def Inv : LTree → Prop
  | leaf _ d => LeafOk d
  | inner i b z o =>
    (∀ k ∈ z.keys, k.testBit b = false) ∧ (∀ k ∈ o.keys, k.testBit b = true) ∧
      (∀ k ∈ (inner i b z o).keys, ∀ k2 ∈ (inner i b z o).keys, ∀ j, b < j →
        k.testBit j = k2.testBit j) ∧
      Inv z ∧ Inv o

/-- The tree with the record of the leaf the descent on `ip` ends at replaced by its image
under `f`. -/
def modifyAt (ip : Nat) (f : DataNode → DataNode) : LTree → LTree
  | leaf i d => leaf i (f d)
  | inner i b z o =>
    if (1 <<< b) &&& ip ≠ 0 then inner i b z (modifyAt ip f o) else inner i b (modifyAt ip f z) o

/-- A new inner node `n2` with branch bit `d` over the subtree `t` and the new leaf `n1`. -/
def fork (base d n1 n2 : Nat) (nd : DataNode) (t : LTree) : LTree :=
  if base &&& (1 <<< d) ≠ 0 then inner n2 d t (leaf n1 nd) else inner n2 d (leaf n1 nd) t

/-- The tree after `add` splices in the leaf `n1` for a new key `base` that diverges from the
candidate leaf at bit `d`: the new inner node `n2` goes above the first node on the path of
`base` that is a leaf or branches below `d`. -/
def splice (base d n1 n2 : Nat) (nd : DataNode) : LTree → LTree
  | leaf i x => fork base d n1 n2 nd (leaf i x)
  | inner i b z o =>
    if b < d then fork base d n1 n2 nd (inner i b z o)
    else if (1 <<< b) &&& base ≠ 0 then inner i b z (splice base d n1 n2 nd o)
    else inner i b (splice base d n1 n2 nd z) o

/-- The node above which `splice` puts the new inner node, and that node's parent. -/
def spliceAt (base d : Nat) : LTree → Nat → Nat × Nat
  | leaf i _, p => (i, p)
  | inner i b z o, p =>
    if b < d then (i, p)
    else if (1 <<< b) &&& base ≠ 0 then o.spliceAt base d i
    else z.spliceAt base d i

/-- The tree without the leaf the descent on `ip` ends at: the sibling of the leaf takes the
place of their parent.  A tree that is a single leaf is left as it is. -/
def removeAt (ip : Nat) : LTree → LTree
  | leaf i d => leaf i d
  | inner i b z o =>
    if (1 <<< b) &&& ip ≠ 0 then
      match o with
      | leaf _ _ => z
      | inner _ _ _ _ => inner i b z (removeAt ip o)
    else
      match z with
      | leaf _ _ => o
      | inner _ _ _ _ => inner i b (removeAt ip z) o

/-- The tree with the slot index `a` renamed to `c`. -/
def rename (a c : Nat) : LTree → LTree
  | leaf i d => leaf (if i = a then c else i) d
  | inner i b z o => inner (if i = a then c else i) b (rename a c z) (rename a c o)

end LTree

namespace IpContainer

/-- The engine `s` denotes the tree `t` (`none`: the empty tree): slot `1` is the root, the
slots from `2` on are exactly the nodes of the tree, linked as the tree says, and the tree
satisfies the Patricia invariant. -/
def WF (s : IpContainer) : Option LTree → Prop
  | none => s.root = some 1 ∧ s.node_alloc.buf = [Node.root none none, Node.root none none]
  | some t =>
    s.root = some 1 ∧ s.node_alloc.buf[0]? = some (Node.root none none) ∧
      s.node_alloc.buf[1]? = some (Node.root none (some t.idx)) ∧
      t.Rep s.node_alloc.buf 1 ∧ t.indices.Nodup ∧
      (∀ i, i ∈ t.indices ↔ 2 ≤ i ∧ i < s.node_alloc.buf.length) ∧ t.Inv

end IpContainer

/-! ## Concrete states used as examples -/

namespace IpContainer

/-- The engine right after construction. -/
def stateEmpty : IpContainer :=
  { node_alloc := { capacity := 8, buf := [Node.root none none, Node.root none none] },
    root := some 1 }

/-- The engine after `add(0.0.0.128, 25)`. -/
def stateOne : IpContainer :=
  { node_alloc := { capacity := 8, buf := [Node.root none none, Node.root none (some 2),
      Node.leaf (some 1) { ip := 128, prefixes := [25] }] },
    root := some 1 }

/-- The engine after `add(0.0.0.128, 25)` and `add(0.0.0.130, 31)`. -/
def stateTwo : IpContainer :=
  { node_alloc := { capacity := 8, buf := [Node.root none none, Node.root none (some 4),
      Node.leaf (some 4) { ip := 128, prefixes := [25] },
      Node.leaf (some 4) { ip := 130, prefixes := [31] },
      Node.inner 1 (some 1) (some 3) (some 2)] },
    root := some 1 }

/-- The engine after `add(128.0.0.0, 1)`. -/
def stateHalf : IpContainer :=
  { node_alloc := { capacity := 8, buf := [Node.root none none, Node.root none (some 2),
      Node.leaf (some 1) { ip := 2147483648, prefixes := [1] }] },
    root := some 1 }

/-- The engine after `add(10.0.0.0, 8)` and `add(10.1.0.0, 16)`. -/
def stateTen : IpContainer :=
  { node_alloc := { capacity := 8, buf := [Node.root none none, Node.root none (some 4),
      Node.leaf (some 4) { ip := 167772160, prefixes := [8] },
      Node.leaf (some 4) { ip := 167837696, prefixes := [16] },
      Node.inner 16 (some 1) (some 3) (some 2)] },
    root := some 1 }

end IpContainer


namespace Node

/-- The node with every pointer word that names the slot `a` made to name the slot `c`. -/
def renamePtr (a c : Nat) (n : Node) : Node :=
  match n with
  | root p ch => root (if p = some a then some c else p) (if ch = some a then some c else ch)
  | inner b p o z =>
    inner b (if p = some a then some c else p) (if o = some a then some c else o)
      (if z = some a then some c else z)
  | leaf p d => leaf (if p = some a then some c else p) d

end Node

namespace LTree

/-- The sibling of the leaf the descent on `ip` ends at, and the node above the parent of that
leaf; `p` is the parent of the top node. -/
def unlinkAt (ip : Nat) : LTree → Nat → Nat × Nat
  | leaf i _, p => (i, p)
  | inner i b z o, p =>
    if (1 <<< b) &&& ip ≠ 0 then
      match o with
      | leaf _ _ => (z.idx, p)
      | inner _ _ _ _ => unlinkAt ip o i
    else
      match z with
      | leaf _ _ => (o.idx, p)
      | inner _ _ _ _ => unlinkAt ip z i

end LTree

namespace LTree

/-- The leaf the descent that always takes the `one` child ends at: its index and record. -/
def rightmost : LTree → Nat × DataNode
  | leaf i d => (i, d)
  | inner _ _ _ o => rightmost o

/-- The number of inner nodes on the way to the rightmost leaf. -/
def rightLen : LTree → Nat
  | leaf _ _ => 0
  | inner _ _ _ o => rightLen o + 1

/-- The stored prefixes of a tree: the pairs of a key and one of its mask lengths. -/
def pairs (t : LTree) : List (Nat × Int) :=
  t.leaves.flatMap (fun d => d.prefixes.map (fun m => (d.ip, m)))

end LTree

namespace IpContainer

/-- One iteration of the loop of `IpContainer::~IpContainer`: `pointer p = findAny();
del(p->leaf.data->ip, *p->leaf.data->prefixes.rbegin())`. -/
def teardownStep (s : IpContainer) : Option (IpContainer × Option Int) :=
  match s.findAny with
  | none => none
  | some p =>
    match s.leafData p with
    | none => none
    | some d =>
      match d.prefixes.getLast? with
      | none => none
      | some m => s.del d.ip m

/-- The loop `while (!empty()) { ... }` of `IpContainer::~IpContainer`: the engine when the
loop ends and the number of iterations. -/
def teardownLoop : Nat → IpContainer → Option (IpContainer × Nat)
  | 0, _ => none
  | fuel + 1, s =>
    match s.empty with
    | none => none
    | some true => some (s, 0)
    | some false =>
      match s.teardownStep with
      | none => none
      | some (s1, _) => (teardownLoop fuel s1).map (fun r => (r.1, r.2 + 1))

/-- The engine after `add(0.0.0.0, 0)` on the empty engine. -/
def stateZero : IpContainer :=
  { node_alloc := { capacity := 8, buf := [Node.root none none, Node.root none (some 2),
      Node.leaf (some 1) { ip := 0, prefixes := [0] }] },
    root := some 1 }

/-- The engine after `add(0.0.0.128, 25)`, `add(0.0.0.128, 26)` and `add(0.0.0.128, 27)`. -/
def stateThreeMasks : IpContainer :=
  { node_alloc := { capacity := 8, buf := [Node.root none none, Node.root none (some 2),
      Node.leaf (some 1) { ip := 128, prefixes := [25, 26, 27] }] },
    root := some 1 }

/-- The engine after `add(0.0.0.128, 25)`, `add(0.0.0.128, 26)`, `add(0.0.0.128, 27)` and
`del(0.0.0.128, 27)`. -/
def stateTwoMasks : IpContainer :=
  { node_alloc := { capacity := 8, buf := [Node.root none none, Node.root none (some 2),
      Node.leaf (some 1) { ip := 128, prefixes := [25, 26] }] },
    root := some 1 }

/-- An arena in the middle of `del`: slot `2` holds a disconnected leaf, slot `3` the only
leaf of the tree. -/
def arenaFree : ChunkBuff :=
  { capacity := 8, buf := [Node.root none none, Node.root none (some 3),
      Node.leaf none { ip := 128, prefixes := [] },
      Node.leaf (some 1) { ip := 130, prefixes := [31] }] }

/-- The arena after sixteen `allocate` calls, the eighth and the sixteenth of which double
the capacity, and seven `deallocate` calls on the last slot. -/
def arenaGrown : ChunkBuff :=
  { capacity := 32, buf := List.replicate 10 (Node.root none none) }

end IpContainer

namespace LTree

/-- The number of inner nodes on the longest way from the top node to a leaf. -/
def height : LTree → Nat
  | leaf _ _ => 0
  | inner _ _ z o => max z.height o.height + 1

end LTree

namespace ChunkBuff

/-- The slots visited by the traversal that starts at slot `i` and follows the child words:
the child of a root, the `zero` and then the `one` child of an inner node. -/
def slotsBelow (buf : List Node) : Nat → Nat → List Nat
  | 0, _ => []
  | fuel + 1, i =>
    match buf[i]? with
    | some (Node.root _ (some c)) => i :: slotsBelow buf fuel c
    | some (Node.inner _ _ (some o) (some z)) =>
      i :: (slotsBelow buf fuel z ++ slotsBelow buf fuel o)
    | some _ => [i]
    | none => []

/-- The slot `i` is in use and its node satisfies `f`. -/
def slotIs (buf : List Node) (f : Node → Bool) (i : Nat) : Bool :=
  match buf[i]? with
  | some n => f n
  | none => false

/-- The number of slots in use, slot `0` apart, whose node satisfies `f`. -/
def liveCount (c : ChunkBuff) (f : Node → Bool) : Nat :=
  ((List.range' 1 (c.size - 1)).filter (slotIs c.buf f)).length

end ChunkBuff

namespace IpContainer

open Nat in
theorem and_one_shiftLeft_ne_zero (x b : Nat) : (x &&& (1 <<< b) ≠ 0) ↔ x.testBit b = true := by
  rw [Nat.one_shiftLeft]
  constructor
  · intro h
    by_contra hb
    apply h
    apply Nat.eq_of_testBit_eq
    intro i
    simp only [Nat.testBit_and, Nat.zero_testBit, Nat.testBit_two_pow]
    by_cases hi : b = i
    · subst hi; simp [hb]
    · simp [hi]
  · intro h h0
    have := congrArg (fun y => y.testBit b) h0
    simp [Nat.testBit_two_pow_self, h] at this

theorem one_shiftLeft_and_ne_zero (x b : Nat) : ((1 <<< b) &&& x ≠ 0) ↔ x.testBit b = true := by
  rw [Nat.and_comm]; exact and_one_shiftLeft_ne_zero x b

theorem allOnes_shiftRight (n : Nat) (h : n ≤ 32) : 4294967295 >>> n = 2 ^ (32 - n) - 1 := by
  interval_cases n <;> rfl

theorem validate_eq_true_iff (base : Nat) (mask : Int) :
    validate base mask = true ↔
      0 ≤ mask ∧ mask ≤ 32 ∧ base ≤ 2147483648 ∧ base % 2 ^ (32 - mask).toNat = 0 ∧
        (mask = 32 → base = 0) := by
  unfold validate
  by_cases h0 : 0 ≤ mask
  · by_cases h1 : mask ≤ 32
    · obtain ⟨n, rfl⟩ := Int.eq_ofNat_of_zero_le h0
      have hn : n ≤ 32 := by omega
      by_cases h32 : n = 32
      · subst h32
        have e1 : (((32 : Nat) : Int) % 32).toNat = 0 := by decide
        have e2 : (32 - ((32 : Nat) : Int)).toNat = 0 := by decide
        have e3 : (4294967295 : Nat) >>> 0 = 2 ^ 32 - 1 := by decide
        rw [e1, e2, e3, Nat.and_pow_two_sub_one_eq_mod]
        simp only [ge_iff_le, h0, decide_True, h1, Bool.and_self, Bool.true_and, Bool.and_eq_true,
          decide_eq_true_eq, beq_iff_eq, pow_zero, Nat.mod_one, true_and]
        constructor
        · rintro ⟨hb, hm⟩
          exact ⟨hb, fun _ => by omega⟩
        · rintro ⟨hb, hz⟩
          exact ⟨hb, by rw [hz rfl]⟩
      · have hn31 : n ≤ 31 := by omega
        have e : (32 - (n : Int)).toNat = 32 - n := by omega
        have e1 : ((n : Int) % 32).toNat = n := by omega
        have hne : ¬ ((n : Int) = 32) := by omega
        rw [e1, allOnes_shiftRight n hn, Nat.and_pow_two_sub_one_eq_mod, e]
        simp [h0, h1, hne]
    · simp [h1]
  · simp [h0]

/-- The mask of a length in `1 .. 32` has the top `p` bits set. -/
theorem netmask_eq (p : Int) (h1 : 1 ≤ p) (h32 : p ≤ 32) :
    DataNode.netmask p = (4294967295 <<< (32 - p).toNat) % 4294967296 := by
  unfold DataNode.netmask
  have e : ((32 - p) % 32).toNat = (32 - p).toNat := by omega
  rw [e]

/-- The mask of the length 0 is the unshifted word. -/
theorem netmask_zero : DataNode.netmask 0 = 4294967295 := by decide

end IpContainer

namespace IpContainer

theorem list_set_same {α : Type} (l : List α) (i : Nat) (x : α) (h : l[i]? = some x) :
    l.set i x = l := by
  have hi : i < l.length := by
    by_contra hc
    rw [List.getElem?_eq_none (by omega)] at h
    cases h
  apply List.ext_getElem?
  intro j
  by_cases hij : i = j
  · subst hij; simp [List.getElem?_set, hi, h]
  · simp [List.getElem?_set, hij]

theorem put_same (s : IpContainer) (p : pointer) (n : Node) (h : s.get p = some n) :
    s.put p n = some s := by
  cases p with
  | none => simp [get, ChunkBuff.get] at h
  | some i =>
    simp only [get, ChunkBuff.get] at h
    have hi : i < s.node_alloc.buf.length := by
      by_contra hc
      rw [List.getElem?_eq_none (by omega)] at h
      cases h
    simp [put, ChunkBuff.put, ChunkBuff.size, hi, list_set_same _ _ _ h]

theorem removePrefix_fail (d : DataNode) (p : Int) (h : (d.removePrefix p).2 = -1) :
    (d.removePrefix p).1 = d := by
  unfold DataNode.removePrefix at h ⊢
  dsimp only at h ⊢
  split
  · next x hx =>
    rw [hx] at h
    split
    · next hlt => simp [hlt] at h
    · rfl
  · rfl

theorem add_result (s s1 : IpContainer) (base : Nat) (mask : Int) (r : Int)
    (h : s.add base mask = some (s1, r)) :
    (validate base mask = false ∧ r = -1 ∧ s1 = s) ∨ (validate base mask = true ∧ r = 0) := by
  unfold add at h
  by_cases hv : validate base mask = true
  · right
    refine ⟨hv, ?_⟩
    simp only [hv, Bool.not_true, Bool.false_eq_true, if_false] at h
    repeat' split at h
    all_goals first
      | cases h
      | (simp only [Option.map_eq_some', Prod.mk.injEq] at h
         obtain ⟨_, _, _, h2⟩ := h
         exact h2.symm)
  · left
    simp only [Bool.not_eq_true] at hv
    have hv2 := hv
    simp only [hv, Bool.not_false, if_true, Option.some.injEq, Prod.mk.injEq] at h
    exact ⟨hv2, h.2.symm, h.1.symm⟩

theorem del_fail (s s1 : IpContainer) (base : Nat) (mask : Int)
    (h : s.del base mask = some (s1, some (-1))) : s1 = s := by
  unfold del at h
  repeat' split at h
  all_goals try (first | (cases h; done) | (cases h; rfl))
  all_goals try (simp at h; done)
  next node _ _ d hd _ s3 hs3 hret =>
    cases h
    rw [removePrefix_fail d mask hret] at hs3
    unfold leafData at hd
    unfold setLeafData at hs3
    split at hd
    · next par d1 hg =>
      cases hd
      rw [hg] at hs3
      simp only [put_same s node _ hg] at hs3
      cases hs3; rfl
    · cases hd

end IpContainer


namespace DataNode

theorem lower_bound_le (ps : List Int) (p : Int) : lower_bound ps p ≤ ps.length := by
  induction ps with
  | nil => simp [lower_bound]
  | cons x xs ih =>
    unfold lower_bound
    split
    · simp; exact ih
    · simp

theorem lower_bound_spec (ps : List Int) (p : Int) (h : Ascending ps) :
    (∀ x, ps[lower_bound ps p]? = some x → (p < x ↔ p ∉ ps)) ∧
    (ps[lower_bound ps p]? = none → p ∉ ps) := by
  induction ps with
  | nil => simp [lower_bound]
  | cons a xs ih =>
    have hxs : Ascending xs := (List.pairwise_cons.1 h).2
    have ha : ∀ b ∈ xs, a < b := (List.pairwise_cons.1 h).1
    unfold lower_bound
    by_cases hap : a < p
    · simp only [hap, if_true, List.getElem?_cons_succ]
      have hne : p ≠ a := by omega
      constructor
      · intro x hx
        rw [(ih hxs).1 x hx]
        simp [hne]
      · intro hx
        have := (ih hxs).2 hx
        simp [hne, this]
    · simp only [hap, if_false, List.getElem?_cons_zero, Option.some.injEq]
      constructor
      · intro x hx
        subst hx
        constructor
        · intro hlt hmem
          rcases List.mem_cons.1 hmem with e | e
          · omega
          · have := ha p e; omega
        · intro hmem
          have : p ≠ a := fun e => hmem (by simp [e])
          omega
      · intro hx; cases hx

theorem binary_search_iff (ps : List Int) (p : Int) (h : Ascending ps) :
    binary_search ps p = true ↔ p ∈ ps := by
  unfold binary_search
  split
  · next hn => simp [(lower_bound_spec ps p h).2 hn]
  · next x hx =>
    have := (lower_bound_spec ps p h).1 x hx
    simp only [Bool.not_eq_true', decide_eq_false_iff_not]
    constructor
    · intro hlt; by_contra hc; exact hlt (this.2 hc)
    · intro hm hlt; exact (this.1 hlt) hm

end DataNode

namespace DataNode

theorem eraseIdx_lower_bound (ps : List Int) (p : Int) (h : Ascending ps) (hp : p ∈ ps) :
    ps.eraseIdx (lower_bound ps p) = ps.filter (fun m => decide (m ≠ p)) := by
  induction ps with
  | nil => simp at hp
  | cons a xs ih =>
    have hxs : Ascending xs := (List.pairwise_cons.1 h).2
    have ha : ∀ b ∈ xs, a < b := (List.pairwise_cons.1 h).1
    unfold lower_bound
    by_cases hap : a < p
    · have hne : a ≠ p := by omega
      have hp2 : p ∈ xs := by
        rcases List.mem_cons.1 hp with e | e
        · omega
        · exact e
      simp only [hap, if_true, List.eraseIdx_cons_succ, ih hxs hp2]
      simp [List.filter_cons, hne]
    · have hpa : p = a := by
        rcases List.mem_cons.1 hp with e | e
        · exact e
        · have := ha p e; omega
      subst hpa
      simp only [hap, if_false, List.eraseIdx_cons_zero]
      rw [List.filter_cons]
      simp only [ne_eq, not_true_eq_false, decide_False, Bool.false_eq_true, if_false]
      symm
      rw [List.filter_eq_self]
      intro b hb
      have := ha b hb
      simp; omega

theorem removePrefix_mem (d : DataNode) (p : Int) (h : Ascending d.prefixes) (hp : p ∈ d.prefixes) :
    (d.removePrefix p).2 = 0 ∧ (d.removePrefix p).1.ip = d.ip ∧
      (d.removePrefix p).1.prefixes = d.prefixes.filter (fun m => decide (m ≠ p)) := by
  unfold removePrefix
  dsimp only
  have hs := lower_bound_spec d.prefixes p h
  split
  · next x hx =>
    have hnlt : ¬ p < x := fun hlt => ((hs.1 x hx).1 hlt) hp
    simp only [hnlt, decide_False, Bool.not_false, if_true, true_and]
    exact eraseIdx_lower_bound _ _ h hp
  · next hn => exact absurd hp (hs.2 hn)

theorem removePrefix_not_mem (d : DataNode) (p : Int) (h : Ascending d.prefixes)
    (hp : p ∉ d.prefixes) : d.removePrefix p = (d, -1) := by
  unfold removePrefix
  dsimp only
  have hs := lower_bound_spec d.prefixes p h
  split
  · next x hx =>
    have hlt : p < x := (hs.1 x hx).2 hp
    simp [hlt]
  · rfl

theorem removePrefix_ret (d : DataNode) (p : Int) :
    (d.removePrefix p).2 = 0 ∨ (d.removePrefix p).2 = -1 := by
  unfold removePrefix
  dsimp only
  split
  · split <;> simp
  · simp

end DataNode

namespace DataNode

theorem addPrefixLoop_sorted (ps : List Int) (i : Nat) (h : Ascending (ps.take (i + 1))) :
    addPrefixLoop ps i = ps := by
  induction i with
  | zero => rfl
  | succ i ih =>
    have h1 : Ascending (ps.take (i + 1)) := by
      have : ps.take (i + 1) = (ps.take (i + 1 + 1)).take (i + 1) := by
        rw [List.take_take]; simp
      rw [this]
      exact List.Pairwise.sublist (List.take_sublist _ _) h
    unfold addPrefixLoop
    split
    · next a b ha hb =>
      have hab : a < b := by
        have hi : i + 1 < ps.length := by
          by_contra hc
          rw [List.getElem?_eq_none (by omega)] at hb; cases hb
        have h := List.pairwise_iff_getElem.1 h
        have ha2 : ps[i] = a := by
          rw [List.getElem?_eq_getElem (by omega)] at ha; exact Option.some.inj ha
        have hb2 : ps[i + 1] = b := by
          rw [List.getElem?_eq_getElem (by omega)] at hb; exact Option.some.inj hb
        have := h i (i + 1) (by simp; omega) (by simp; omega) (by omega)
        simp only [List.getElem_take] at this
        rw [ha2, hb2] at this
        exact this
      simp only [hab, decide_True, Bool.not_true, Bool.false_eq_true, if_false]
      exact ih h1
    · exact ih h1

theorem getElem?_mid0 (l : List Int) (a : Int) (r : List Int) :
    (l ++ a :: r)[l.length]? = some a := by
  induction l with
  | nil => simp
  | cons x xs ih => simpa using ih

theorem getElem?_mid1 (l : List Int) (a p : Int) (r : List Int) :
    (l ++ a :: p :: r)[l.length + 1]? = some p := by
  induction l with
  | nil => simp
  | cons x xs ih => simpa using ih

theorem set_set_mid (l : List Int) (a p : Int) (r : List Int) :
    ((l ++ a :: p :: r).set l.length p).set (l.length + 1) a = l ++ p :: a :: r := by
  induction l with
  | nil => simp [List.set]
  | cons x xs ih => simp [List.set, ih]

theorem swapAt_mid (l : List Int) (a p : Int) (r : List Int) :
    swapAt (l ++ a :: p :: r) l.length (l.length + 1) = l ++ p :: a :: r := by
  unfold swapAt
  rw [getElem?_mid0, getElem?_mid1]
  exact set_set_mid l a p r

theorem addPrefixLoop_insert (l1 : List Int) (p : Int) (h : Ascending l1) (hp : p ∉ l1) :
    ∀ l2 : List Int, ∃ r : List Int, addPrefixLoop (l1 ++ p :: l2) l1.length = r ++ l2 ∧
      Ascending r ∧ ∀ m, m ∈ r ↔ m ∈ l1 ∨ m = p := by
  induction l1 using List.reverseRecOn with
  | nil =>
    intro l2
    exact ⟨[p], by simp [addPrefixLoop], by simp [Ascending], by simp⟩
  | append_singleton l a ih =>
    intro l2
    have hl : Ascending l := (List.pairwise_append.1 h).1
    have hla : ∀ x ∈ l, x < a := fun x hx => (List.pairwise_append.1 h).2.2 x hx a (by simp)
    have hpl : p ∉ l := fun hm => hp (by simp [hm])
    have hpa : p ≠ a := fun e => hp (by simp [e])
    have e0 : l ++ [a] ++ p :: l2 = l ++ a :: p :: l2 := by simp
    rw [List.length_append, List.length_singleton, e0]
    unfold addPrefixLoop
    rw [getElem?_mid0, getElem?_mid1]
    dsimp only
    by_cases hap : a < p
    · simp only [hap, decide_True, Bool.not_true, Bool.false_eq_true, if_false]
      rw [addPrefixLoop_sorted]
      · refine ⟨l ++ [a] ++ [p], by simp, ?_, by intro m; simp [or_assoc]⟩
        refine List.pairwise_append.2 ⟨h, by simp, ?_⟩
        intro x hx y hy
        simp at hy; subst hy
        rcases List.mem_append.1 hx with hx | hx
        · have := hla x hx; omega
        · simp at hx; omega
      · have : (l ++ a :: p :: l2).take (l.length + 1) = l ++ [a] := by
          rw [List.take_append_eq_append_take]
          simp
        rw [this]; exact h
    · simp only [hap, decide_False, Bool.not_false, if_true]
      rw [swapAt_mid]
      obtain ⟨r, hr, hasc, hmem⟩ := ih hl hpl (a :: l2)
      refine ⟨r ++ [a], by rw [hr]; simp, ?_, ?_⟩
      · refine List.pairwise_append.2 ⟨hasc, by simp, ?_⟩
        intro x hx y hy
        simp at hy; subst hy
        rcases (hmem x).1 hx with hx | hx
        · exact hla x hx
        · omega
      · intro m
        simp only [List.mem_append, hmem, List.mem_singleton]
        tauto

theorem addPrefix_spec (d : DataNode) (p : Int) (h : Ascending d.prefixes) :
    (d.addPrefix p).ip = d.ip ∧ Ascending (d.addPrefix p).prefixes ∧
      ∀ m, m ∈ (d.addPrefix p).prefixes ↔ m ∈ d.prefixes ∨ m = p := by
  unfold addPrefix contain
  by_cases hc : binary_search d.prefixes p = true
  · have hm := (binary_search_iff _ _ h).1 hc
    simp only [hc, if_true, true_and]
    refine ⟨h, fun m => ?_⟩
    constructor
    · intro x; exact Or.inl x
    · rintro (x | x)
      · exact x
      · rw [x]; exact hm
  · have hm : p ∉ d.prefixes := fun x => hc ((binary_search_iff _ _ h).2 x)
    simp only [hc, if_false, true_and, Bool.false_eq_true]
    obtain ⟨r, hr, hasc, hmem⟩ := addPrefixLoop_insert d.prefixes p h hm []
    have e : (d.prefixes ++ [p]).length - 1 = d.prefixes.length := by simp
    rw [e, hr]
    simpa using ⟨hasc, hmem⟩

theorem addPrefix_spec' (d : DataNode) (p : Int) : (d.addPrefix p).ip = d.ip := by
  unfold addPrefix
  split <;> rfl

theorem addPrefix_nil (ip : Nat) (p : Int) :
    DataNode.addPrefix { ip := ip, prefixes := [] } p = { ip := ip, prefixes := [p] } := by
  simp [addPrefix, contain, binary_search, lower_bound, addPrefixLoop]

end DataNode

namespace DataNode

theorem getMaxPrefixLoop_spec (ip : Nat) (ps : List Int) (q : Nat) (n : Nat) :
    (getMaxPrefixLoop ip ps q n = -1 ∧
        ∀ i, i < n → ∀ p, ps[i]? = some p → ¬ IpContainer.covers ip p q) ∨
    (∃ i, i < n ∧ ps[i]? = some (getMaxPrefixLoop ip ps q n) ∧
        IpContainer.covers ip (getMaxPrefixLoop ip ps q n) q ∧
        ∀ j, i < j → j < n → ∀ p, ps[j]? = some p → ¬ IpContainer.covers ip p q) := by
  induction n with
  | zero => left; simp [getMaxPrefixLoop]
  | succ n ih =>
    unfold getMaxPrefixLoop
    split
    · next p hp =>
      by_cases hc : ip &&& netmask p = q &&& netmask p
      · right
        simp only [hc, if_true]
        refine ⟨n, by omega, hp, hc, ?_⟩
        intro j h1 h2; omega
      · simp only [hc, if_false]
        rcases ih with ⟨h1, h2⟩ | ⟨i, hi, h1, h2, h3⟩
        · left
          refine ⟨h1, ?_⟩
          intro i hi p2 hp2
          by_cases hin : i = n
          · subst hin; rw [hp] at hp2; cases hp2; exact hc
          · exact h2 i (by omega) p2 hp2
        · right
          refine ⟨i, by omega, h1, h2, ?_⟩
          intro j hj1 hj2 p2 hp2
          by_cases hjn : j = n
          · subst hjn; rw [hp] at hp2; cases hp2; exact hc
          · exact h3 j hj1 (by omega) p2 hp2
    · next hp =>
      rcases ih with ⟨h1, h2⟩ | ⟨i, hi, h1, h2, h3⟩
      · left
        refine ⟨h1, ?_⟩
        intro i hi p2 hp2
        by_cases hin : i = n
        · subst hin; rw [hp] at hp2; cases hp2
        · exact h2 i (by omega) p2 hp2
      · right
        refine ⟨i, by omega, h1, h2, ?_⟩
        intro j hj1 hj2 p2 hp2
        by_cases hjn : j = n
        · subst hjn; rw [hp] at hp2; cases hp2
        · exact h3 j hj1 (by omega) p2 hp2

/-- What `getMaxPrefixForIp` returns on an ascending prefix set: the largest stored mask length
that matches the query, or `-1` when none matches. -/
theorem getMaxPrefixForIp_spec (d : DataNode) (q : Nat) (h : Ascending d.prefixes) :
    (d.getMaxPrefixForIp q ∈ d.prefixes ∧ IpContainer.covers d.ip (d.getMaxPrefixForIp q) q ∧
        ∀ m ∈ d.prefixes, IpContainer.covers d.ip m q → m ≤ d.getMaxPrefixForIp q) ∨
    (d.getMaxPrefixForIp q = -1 ∧ ∀ m ∈ d.prefixes, ¬ IpContainer.covers d.ip m q) := by
  unfold getMaxPrefixForIp
  rcases getMaxPrefixLoop_spec d.ip d.prefixes q d.prefixes.length with
    ⟨h1, h2⟩ | ⟨i, hi, h1, h2, h3⟩
  · right
    refine ⟨h1, ?_⟩
    intro m hm
    obtain ⟨i, hi, e⟩ := List.getElem_of_mem hm
    exact h2 i hi m (by rw [List.getElem?_eq_getElem hi, e])
  · left
    refine ⟨List.getElem?_mem h1, h2, ?_⟩
    intro m hm hc
    obtain ⟨j, hj, e⟩ := List.getElem_of_mem hm
    by_contra hlt
    have hlt : getMaxPrefixLoop d.ip d.prefixes q d.prefixes.length < m := by omega
    have hr : d.prefixes[i] = getMaxPrefixLoop d.ip d.prefixes q d.prefixes.length := by
      rw [List.getElem?_eq_getElem hi] at h1; exact Option.some.inj h1
    have hij : i < j := by
      by_contra hc2
      rcases Nat.lt_or_eq_of_le (Nat.le_of_not_lt hc2) with h4 | h4
      · have := List.pairwise_iff_getElem.1 h j i hj hi h4
        rw [e, hr] at this; omega
      · subst h4; rw [e] at hr; omega
    exact h3 j hij hj m (by rw [List.getElem?_eq_getElem hj, e]) hc

theorem covers_self (ip : Nat) (m : Int) : IpContainer.covers ip m ip := rfl

/-- On the leaf's own key the scan returns the largest stored mask length. -/
theorem getMaxPrefixForIp_self (d : DataNode) (h : Ascending d.prefixes) (hne : d.prefixes ≠ []) :
    d.getMaxPrefixForIp d.ip ∈ d.prefixes ∧ ∀ m ∈ d.prefixes, m ≤ d.getMaxPrefixForIp d.ip := by
  rcases getMaxPrefixForIp_spec d d.ip h with ⟨h1, _, h3⟩ | ⟨_, h2⟩
  · exact ⟨h1, fun m hm => h3 m hm (covers_self _ _)⟩
  · obtain ⟨m, hm⟩ := List.exists_mem_of_ne_nil _ hne
    exact absurd (covers_self _ _) (h2 m hm)

end DataNode


namespace LTree

theorem idx_mem_indices (t : LTree) : t.idx ∈ t.indices := by
  cases t <;> simp [idx, indices]

theorem Rep.lt_length {buf : List Node} {t : LTree} {p : Nat} (h : Rep buf t p) :
    ∀ i ∈ t.indices, i < buf.length := by
  induction t generalizing p with
  | leaf i d =>
    intro j hj
    simp only [indices, List.mem_singleton] at hj
    subst hj
    simp only [Rep] at h
    by_contra hc
    rw [List.getElem?_eq_none (by omega)] at h
    cases h
  | inner i b z o ihz iho =>
    intro j hj
    simp only [Rep] at h
    simp only [indices, List.mem_cons, List.mem_append] at hj
    rcases hj with hj | hj | hj
    · subst hj
      by_contra hc
      rw [List.getElem?_eq_none (by omega)] at h
      cases h.2.1
    · exact ihz h.2.2.1 j hj
    · exact iho h.2.2.2 j hj

theorem Rep.frame {buf buf2 : List Node} {t : LTree} {p : Nat} (h : Rep buf t p)
    (hf : ∀ i ∈ t.indices, buf2[i]? = buf[i]?) : Rep buf2 t p := by
  induction t generalizing p with
  | leaf i d =>
    simp only [Rep] at h ⊢
    rw [hf i (by simp [indices])]; exact h
  | inner i b z o ihz iho =>
    simp only [Rep] at h ⊢
    refine ⟨h.1, ?_, ihz h.2.2.1 ?_, iho h.2.2.2 ?_⟩
    · rw [hf i (by simp [indices])]; exact h.2.1
    · intro j hj; exact hf j (by simp [indices, hj])
    · intro j hj; exact hf j (by simp [indices, hj])

theorem isRoot_inner (b : Nat) (p o z : pointer) (h : b < 32) :
    (Node.inner b p o z).isRoot = false := by
  have hb : b ≠ 4294967294 := by omega
  unfold Node.isRoot Node.flag
  exact beq_false_of_ne hb

theorem isLeaf_inner (b : Nat) (p o z : pointer) (h : b < 32) :
    (Node.inner b p o z).isLeaf = false := by
  have hb : b ≠ 4294967295 := by omega
  unfold Node.isLeaf Node.flag
  exact beq_false_of_ne hb

theorem isInner_inner (b : Nat) (p o z : pointer) (h : b < 32) :
    (Node.inner b p o z).isInner = true := by
  unfold Node.isInner
  rw [isRoot_inner b p o z h, isLeaf_inner b p o z h]
  rfl

theorem isInner_leaf (p : pointer) (d : DataNode) : (Node.leaf p d).isInner = false := by
  simp only [Node.isInner, Node.isLeaf, Node.isRoot, Node.flag]; decide
theorem isLeaf_leaf (p : pointer) (d : DataNode) : (Node.leaf p d).isLeaf = true := by
  simp only [Node.isLeaf, Node.flag]; decide
theorem isRoot_leaf (p : pointer) (d : DataNode) : (Node.leaf p d).isRoot = false := by
  simp only [Node.isRoot, Node.flag]; decide
theorem isInner_root (p c : pointer) : (Node.root p c).isInner = false := by
  simp only [Node.isInner, Node.isLeaf, Node.isRoot, Node.flag]; decide
theorem isRoot_root (p c : pointer) : (Node.root p c).isRoot = true := by
  simp only [Node.isRoot, Node.flag]; decide

theorem Rep.top {buf : List Node} {t : LTree} {p : Nat} (h : Rep buf t p) :
    ∃ n, buf[t.idx]? = some n ∧ n.parentField = some p ∧ n.getParent = some p ∧
      n.isRoot = false := by
  cases t with
  | leaf i d => exact ⟨_, h, rfl, rfl, isRoot_leaf _ _⟩
  | inner i b z o =>
    simp only [Rep] at h
    exact ⟨_, h.2.1, rfl, rfl, isRoot_inner _ _ _ _ h.1⟩

end LTree


namespace IpContainer

/-! ### Symbolic execution of the primitives on an explicit arena -/

theorem get_mk (cap : Nat) (buf : List Node) (r : pointer) (i : Nat) :
    (IpContainer.mk ⟨cap, buf⟩ r).get (some i) = buf[i]? := rfl

theorem put_mk (cap : Nat) (buf : List Node) (r : pointer) (i : Nat) (n : Node)
    (h : i < buf.length) :
    (IpContainer.mk ⟨cap, buf⟩ r).put (some i) n = some (IpContainer.mk ⟨cap, buf.set i n⟩ r) := by
  simp [put, ChunkBuff.put, ChunkBuff.size, h]

theorem cput_mk (cap : Nat) (buf : List Node) (i : Nat) (n : Node) (h : i < buf.length) :
    (ChunkBuff.mk cap buf).put i n = some ⟨cap, buf.set i n⟩ := by
  simp [ChunkBuff.put, ChunkBuff.size, h]

theorem lt_of_getElem? {α : Type} {l : List α} {i : Nat} {x : α} (h : l[i]? = some x) :
    i < l.length := by
  by_contra hc
  rw [List.getElem?_eq_none (by omega)] at h
  cases h

theorem set_append_last {α : Type} (l : List α) (x y : α) :
    (l ++ [x]).set l.length y = l ++ [y] := by
  induction l with
  | nil => rfl
  | cons a l ih => simp [List.set, ih]

theorem allocate_mk (cap : Nat) (buf : List Node) (h : 1 ≤ buf.length) :
    (ChunkBuff.mk cap buf).allocate =
      some (⟨ChunkBuff.grown cap buf.length, buf ++ [Node.root none none]⟩, buf.length) := by
  unfold ChunkBuff.allocate ChunkBuff.grown
  simp only [ChunkBuff.size]
  have : (if (if cap ≤ buf.length then cap * 2 else cap) = 0 then 1 else 0) ≤ buf.length := by
    split <;> split <;> omega
  simp [this]

theorem createLeafNode_mk (cap : Nat) (buf : List Node) (r : pointer) (ip : Nat) (mask : Int)
    (h : 1 ≤ buf.length) :
    (IpContainer.mk ⟨cap, buf⟩ r).createLeafNode ip mask =
      some (IpContainer.mk ⟨ChunkBuff.grown cap buf.length,
        buf ++ [Node.leaf none { ip := ip, prefixes := [mask] }]⟩ r, some buf.length) := by
  unfold createLeafNode
  simp only [allocate_mk cap buf h]
  rw [cput_mk _ _ _ _ (by simp)]
  simp [set_append_last, DataNode.addPrefix_nil]

theorem createInnerNode_mk (cap : Nat) (buf : List Node) (r : pointer) (h : 1 ≤ buf.length) :
    (IpContainer.mk ⟨cap, buf⟩ r).createInnerNode =
      some (IpContainer.mk ⟨ChunkBuff.grown cap buf.length,
        buf ++ [Node.inner 0 none none none]⟩ r, some buf.length) := by
  unfold createInnerNode
  simp only [allocate_mk cap buf h]
  rw [cput_mk _ _ _ _ (by simp)]
  simp [set_append_last]

theorem setParentField_mk (cap : Nat) (buf : List Node) (r : pointer) (i : Nat) (n : Node)
    (v : pointer) (h : buf[i]? = some n) :
    (IpContainer.mk ⟨cap, buf⟩ r).setParentField (some i) v =
      some (IpContainer.mk ⟨cap, buf.set i (n.withParent v)⟩ r) := by
  unfold setParentField
  rw [get_mk, h]
  cases n <;> simp [Node.withParent, put_mk _ _ _ _ _ (lt_of_getElem? h)]

theorem replaceChild_mk (cap : Nat) (buf : List Node) (r : pointer) (i : Nat) (n n2 : Node)
    (old v : pointer) (h : buf[i]? = some n) (h2 : n.withChild old v = some n2) :
    (IpContainer.mk ⟨cap, buf⟩ r).replaceChild (some i) old v =
      some (IpContainer.mk ⟨cap, buf.set i n2⟩ r) := by
  unfold replaceChild
  rw [get_mk, h]
  cases n with
  | inner b par one zero =>
    simp only [Node.withChild] at h2
    dsimp only
    split at h2
    · next hz => cases h2; simp [hz, put_mk _ _ _ _ _ (lt_of_getElem? h)]
    · next hz =>
      split at h2
      · next ho => cases h2; simp [hz, ho, put_mk _ _ _ _ _ (lt_of_getElem? h)]
      · cases h2
  | root _ _ => simp [Node.withChild] at h2
  | leaf _ _ => simp [Node.withChild] at h2

theorem rootChild_mk (cap : Nat) (buf : List Node) (par ch : pointer)
    (h : buf[1]? = some (Node.root par ch)) :
    (IpContainer.mk ⟨cap, buf⟩ (some 1)).rootChild = some ch := by
  unfold rootChild
  rw [get_mk, h]

theorem setRootChild_mk (cap : Nat) (buf : List Node) (par ch v : pointer)
    (h : buf[1]? = some (Node.root par ch)) :
    (IpContainer.mk ⟨cap, buf⟩ (some 1)).setRootChild v =
      some (IpContainer.mk ⟨cap, buf.set 1 (Node.root par v)⟩ (some 1)) := by
  unfold setRootChild
  rw [get_mk, h]
  simp [put_mk _ _ _ _ _ (lt_of_getElem? h)]

theorem leafData_mk (cap : Nat) (buf : List Node) (r : pointer) (i : Nat) (par : pointer)
    (d : DataNode) (h : buf[i]? = some (Node.leaf par d)) :
    (IpContainer.mk ⟨cap, buf⟩ r).leafData (some i) = some d := by
  unfold leafData
  rw [get_mk, h]

theorem setLeafData_mk (cap : Nat) (buf : List Node) (r : pointer) (i : Nat) (par : pointer)
    (d d2 : DataNode) (h : buf[i]? = some (Node.leaf par d)) :
    (IpContainer.mk ⟨cap, buf⟩ r).setLeafData (some i) d2 =
      some (IpContainer.mk ⟨cap, buf.set i (Node.leaf par d2)⟩ r) := by
  unfold setLeafData
  rw [get_mk, h]
  simp [put_mk _ _ _ _ _ (lt_of_getElem? h)]

end IpContainer

namespace ChunkBuff

theorem put_shape {c c1 : ChunkBuff} {i : Nat} {n : Node} (h : c.put i n = some c1) :
    c1.capacity = c.capacity ∧ c1.buf = c.buf.set i n ∧ i < c.buf.length := by
  unfold put at h
  split at h
  · next hi => cases h; exact ⟨rfl, rfl, hi⟩
  · cases h

theorem setParentAt_shape {c c1 : ChunkBuff} {p v : pointer} (h : c.setParentAt p v = some c1) :
    c1.capacity = c.capacity ∧ c1.buf.length = c.buf.length := by
  unfold setParentAt at h
  repeat' split at h
  all_goals first
    | cases h
    | exact ⟨(put_shape h).1, by rw [(put_shape h).2.1]; simp⟩

theorem updateParentLink_shape {c c1 : ChunkBuff} {q a b : Nat}
    (h : c.updateParentLink q a b = some c1) :
    c1.capacity = c.capacity ∧ c1.buf.length = c.buf.length := by
  unfold updateParentLink at h
  split at h
  · split at h
    · split at h
      · cases h
      · next c2 hc2 =>
        split at h
        · cases h
          have := put_shape hc2
          exact ⟨this.1, by rw [this.2.1]; simp⟩
        · cases h
    · cases h
  · next b0 par one zero hq =>
    dsimp only at h
    split at h
    · cases h
    · next c2 one1 zero1 hupd =>
      split at h
      · cases h
        split at hupd
        · simp only [Option.map_eq_some', Prod.mk.injEq] at hupd
          obtain ⟨c3, hc3, e, _⟩ := hupd
          subst e
          have := put_shape hc3
          exact ⟨this.1, by rw [this.2.1]; simp⟩
        · split at hupd
          · simp only [Option.map_eq_some', Prod.mk.injEq] at hupd
            obtain ⟨c3, hc3, e, _⟩ := hupd
            subst e
            have := put_shape hc3
            exact ⟨this.1, by rw [this.2.1]; simp⟩
          · cases hupd
      · cases h
  · cases h

theorem UpdateChunk_shape {c c1 : ChunkBuff} {a b : Nat} (h : c.UpdateChunk a b = some c1) :
    c1.capacity = c.capacity ∧ c1.buf.length = c.buf.length := by
  unfold UpdateChunk at h
  split at h
  · cases h
  · split at h
    · cases h
    · split at h
      · cases h; exact ⟨rfl, rfl⟩
      · split at h
        · cases h
        · next c2 hc2 =>
          have h2 := updateParentLink_shape hc2
          split at h
          · split at h
            · split at h
              · split at h
                · cases h
                · next c3 hc3 =>
                  have h3 := setParentAt_shape hc3
                  have h4 := setParentAt_shape h
                  exact ⟨by rw [h4.1, h3.1, h2.1], by rw [h4.2, h3.2, h2.2]⟩
              · cases h
            · cases h; exact h2
          · cases h; exact h2
          · cases h

theorem deallocate_shape {c c1 : ChunkBuff} {i : Nat} (h : c.deallocate i = some c1) :
    1 ≤ i ∧ i < c.size ∧ c1.size = c.size - 1 ∧ c1.capacity = shrunk c.capacity (c.size - 1) := by
  unfold deallocate at h
  split at h
  · cases h
  · next hi0 =>
    dsimp only at h
    split at h
    · cases h
    · next c2 hm =>
      have key : i < c.size ∧ c2.capacity = c.capacity ∧ c2.buf.length = c.buf.length := by
        split at hm
        · split at hm
          · cases hm
          · split at hm
            · cases hm
            · next last hl c3 hc3 =>
              have h3 := put_shape hc3
              have h4 := UpdateChunk_shape hm
              exact ⟨h3.2.2, by rw [h4.1, h3.1], by rw [h4.2, h3.2.1]; simp⟩
        · split at hm
          · next hlt => cases hm; exact ⟨hlt, rfl, rfl⟩
          · cases hm
      obtain ⟨k1, k2, k3⟩ := key
      have hsz : ({ c2 with buf := c2.buf.dropLast } : ChunkBuff).size = c.size - 1 := by
        simp [size, k3]
      have hcap : ({ c2 with buf := c2.buf.dropLast } : ChunkBuff).capacity = c.capacity := k2
      refine ⟨by omega, k1, ?_⟩
      unfold shrunk
      rw [← hsz, ← hcap]
      by_cases hsh : ({ c2 with buf := c2.buf.dropLast } : ChunkBuff).capacity / 3 ≥ MIN_CAPACITY ∧
          ({ c2 with buf := c2.buf.dropLast } : ChunkBuff).size <
            ({ c2 with buf := c2.buf.dropLast } : ChunkBuff).capacity / 3
      · rw [if_pos hsh] at h
        rw [if_pos hsh]
        cases h
        exact ⟨rfl, rfl⟩
      · rw [if_neg hsh] at h
        rw [if_neg hsh]
        cases h
        exact ⟨rfl, rfl⟩

theorem allocate_shape {c c1 : ChunkBuff} {i : Nat} (h : c.allocate = some (c1, i)) :
    i = c.size ∧ c1.buf = c.buf ++ [Node.root none none] ∧
      c1.capacity = grown c.capacity c.size := by
  unfold allocate at h
  dsimp only at h
  by_cases hg : (if (if c.capacity ≤ c.size then c.capacity * 2 else c.capacity) = 0 then 1 else 0)
      ≤ c.size
  · rw [if_pos hg] at h
    cases h
    exact ⟨rfl, rfl, rfl⟩
  · rw [if_neg hg] at h
    cases h

/-- The size and capacity bounds of every arena reached by `allocate`, `deallocate` and slot
writes. -/
theorem Reach.bounds {c : ChunkBuff} (h : Reach c) :
    1 ≤ c.size ∧ c.size ≤ c.capacity ∧ MIN_CAPACITY ≤ c.capacity := by
  induction h with
  | new => decide
  | allocate c c1 i _ ha ih =>
    obtain ⟨_, h2, h3⟩ := allocate_shape ha
    have hs : c1.size = c.size + 1 := by simp [size, h2]
    rw [hs, h3]
    unfold grown
    unfold MIN_CAPACITY at *
    split <;> omega
  | deallocate c c1 i _ hd ih =>
    obtain ⟨h1, h2, h3, h4⟩ := deallocate_shape hd
    rw [h3, h4]
    unfold shrunk
    unfold MIN_CAPACITY at *
    split <;> omega
  | put c c1 i n _ hp ih =>
    obtain ⟨h1, h2, _⟩ := put_shape hp
    have hs : c1.size = c.size := by simp [size, h2]
    rw [hs, h1]; exact ih

end ChunkBuff

namespace ChunkBuff

/-- The arena with another capacity and the same slots. -/
theorem put_cap (cap cap2 : Nat) (buf : List Node) (i : Nat) (n : Node) :
    (ChunkBuff.mk cap buf).put i n =
      ((ChunkBuff.mk cap2 buf).put i n).map (fun c => ⟨cap, c.buf⟩) := by
  unfold put
  simp only [size]
  split <;> rfl

theorem setParentAt_cap (cap cap2 : Nat) (buf : List Node) (p v : pointer) :
    (ChunkBuff.mk cap buf).setParentAt p v =
      ((ChunkBuff.mk cap2 buf).setParentAt p v).map (fun c => ⟨cap, c.buf⟩) := by
  unfold setParentAt
  cases p with
  | none => rfl
  | some i =>
    dsimp only
    cases buf[i]? with
    | none => rfl
    | some n =>
      dsimp only
      cases n.setParent v with
      | none => rfl
      | some n1 => exact put_cap cap cap2 buf i n1

theorem getParentAt_cap (cap cap2 : Nat) (buf : List Node) (p : pointer) :
    (ChunkBuff.mk cap buf).getParentAt p = (ChunkBuff.mk cap2 buf).getParentAt p := by
  cases p <;> rfl

theorem put_mk_eq (cap : Nat) (buf : List Node) (i : Nat) (n : Node) :
    (ChunkBuff.mk cap buf).put i n =
      if i < buf.length then some ⟨cap, buf.set i n⟩ else none := rfl

theorem updateParentLink_cap (cap cap2 : Nat) (buf : List Node) (q a b : Nat) :
    (ChunkBuff.mk cap buf).updateParentLink q a b =
      ((ChunkBuff.mk cap2 buf).updateParentLink q a b).map (fun c => ⟨cap, c.buf⟩) := by
  unfold updateParentLink
  dsimp only
  cases hq : buf[q]? with
  | none => rfl
  | some n =>
    cases n with
    | leaf par d => rfl
    | root par child =>
      dsimp only
      by_cases hc : child = some b
      · have hlt : q < buf.length := IpContainer.lt_of_getElem? hq
        simp only [hc, if_true, put_mk_eq, hlt]
        rw [getParentAt_cap cap cap2]
        split <;> rfl
      · simp only [hc, if_false]
        rfl
    | inner b0 par one zero =>
      dsimp only
      simp only [put_mk_eq]
      have hlt : q < buf.length := IpContainer.lt_of_getElem? hq
      simp only [hlt, if_true, Option.map_some']
      by_cases hz : zero = some b
      · simp only [hz, if_true]
        rw [getParentAt_cap cap cap2, getParentAt_cap cap cap2 _ one]
        split <;> rfl
      · simp only [hz, if_false]
        by_cases ho : one = some b
        · simp only [ho, if_true]
          rw [getParentAt_cap cap cap2, getParentAt_cap cap cap2 _ (some a)]
          split <;> rfl
        · simp only [ho, if_false]
          rfl

end ChunkBuff

namespace ChunkBuff

theorem UpdateChunk_cap (cap cap2 : Nat) (buf : List Node) (a b : Nat) :
    (ChunkBuff.mk cap buf).UpdateChunk a b =
      ((ChunkBuff.mk cap2 buf).UpdateChunk a b).map (fun c => ⟨cap, c.buf⟩) := by
  unfold UpdateChunk
  dsimp only
  cases buf[a]? with
  | none => rfl
  | some self =>
    dsimp only
    cases self.isRoot with
    | true => rfl
    | false =>
      simp only [Bool.false_eq_true, if_false]
      cases self.getParent with
      | none => rfl
      | some q =>
        dsimp only
        rw [updateParentLink_cap cap cap2]
        cases (ChunkBuff.mk cap2 buf).updateParentLink q a b with
        | none => rfl
        | some c1 =>
          obtain ⟨cap3, buf1⟩ := c1
          simp only [Option.map_some']
          cases buf1[a]? with
          | none => rfl
          | some n =>
            cases n with
            | root _ _ => rfl
            | leaf _ _ => rfl
            | inner b0 par one zero =>
              dsimp only
              split
              · split
                · rw [setParentAt_cap cap cap3]
                  cases (ChunkBuff.mk cap3 buf1).setParentAt zero (some a) with
                  | none => rfl
                  | some c2 =>
                    obtain ⟨cap4, buf2⟩ := c2
                    simp only [Option.map_some']
                    exact setParentAt_cap cap cap4 buf2 one (some a)
                · rfl
              · rfl

theorem deallocate_finish (cap cap3 : Nat) (l : List Node) (P : Prop) [Decidable P] :
    (if P then some (ChunkBuff.mk cap3 l) else some (ChunkBuff.mk cap l)).map ChunkBuff.buf =
      some l := by
  split <;> rfl

/-- The slots after `deallocate` do not depend on the capacity, hence not on whether the
capacity is divided by 3. -/
theorem deallocate_cap (cap cap2 : Nat) (buf : List Node) (i : Nat) :
    ((ChunkBuff.mk cap buf).deallocate i).map ChunkBuff.buf =
      ((ChunkBuff.mk cap2 buf).deallocate i).map ChunkBuff.buf := by
  unfold deallocate
  by_cases hi : i = 0
  · simp only [hi, if_true]
  · simp only [hi, if_false, size]
    by_cases hl : i = buf.length - 1
    · simp only [hl, ne_eq, not_true_eq_false, if_false]
      by_cases hlt : buf.length - 1 < buf.length
      · simp only [hlt, if_true]
        rw [deallocate_finish, deallocate_finish]
      · simp only [hlt, if_false]
    · simp only [hl, ne_eq, not_false_eq_true, if_true]
      cases buf[buf.length - 1]? with
      | none => rfl
      | some last =>
        dsimp only
        rw [put_mk_eq, put_mk_eq]
        by_cases hlt : i < buf.length
        · simp only [hlt, if_true]
          rw [UpdateChunk_cap cap cap2]
          cases (ChunkBuff.mk cap2 (buf.set i last)).UpdateChunk i (buf.length - 1) with
          | none => rfl
          | some c1 =>
            simp only [Option.map_some']
            rw [deallocate_finish, deallocate_finish]
        · simp only [hlt, if_false]

end ChunkBuff


namespace LTree

theorem idx_leaf (i : Nat) (d : DataNode) : (leaf i d).idx = i := rfl

theorem idx_inner (i b : Nat) (z o : LTree) : (inner i b z o).idx = i := rfl

theorem find_mem_indices (ip : Nat) (t : LTree) : (t.find ip).1 ∈ t.indices := by
  induction t with
  | leaf i d => simp [find, indices]
  | inner i b z o ihz iho =>
    unfold find
    split
    · simp [indices, iho]
    · simp [indices, ihz]

theorem find_mem_leaves (ip : Nat) (t : LTree) : (t.find ip).2 ∈ t.leaves := by
  induction t with
  | leaf i d => simp [find, leaves]
  | inner i b z o ihz iho =>
    unfold find
    split
    · simp [leaves, iho]
    · simp [leaves, ihz]

theorem Rep.find {buf : List Node} {t : LTree} {p : Nat} (ip : Nat) (h : Rep buf t p) :
    buf[(t.find ip).1]? = some (Node.leaf (some (t.findParent ip p)) (t.find ip).2) := by
  induction t generalizing p with
  | leaf i d => exact h
  | inner i b z o ihz iho =>
    simp only [Rep] at h
    unfold LTree.find LTree.findParent
    split
    · exact iho h.2.2.2
    · exact ihz h.2.2.1

theorem findNodeLoop_rep {buf : List Node} {t : LTree} {p : Nat} (cap : Nat) (ip : Nat)
    (h : Rep buf t p) :
    ∀ fuel, t.pathLen ip < fuel →
      IpContainer.findNodeLoop ⟨cap, buf⟩ ip fuel (some t.idx) = some (some (t.find ip).1) := by
  induction t generalizing p with
  | leaf i d =>
    intro fuel hf
    obtain ⟨f, rfl⟩ : ∃ f, fuel = f + 1 := ⟨fuel - 1, by omega⟩
    simp only [Rep] at h
    unfold IpContainer.findNodeLoop
    simp only [ChunkBuff.get, idx_leaf, h, isInner_leaf, Bool.false_eq_true, if_false, LTree.find]
  | inner i b z o ihz iho =>
    intro fuel hf
    simp only [pathLen] at hf
    obtain ⟨f, rfl⟩ : ∃ f, fuel = f + 1 := ⟨fuel - 1, by omega⟩
    simp only [Rep] at h
    unfold IpContainer.findNodeLoop
    simp only [ChunkBuff.get, idx_inner, h.2.1, isInner_inner _ _ _ _ h.1, if_true]
    unfold LTree.find
    by_cases hb : (1 <<< b) &&& ip ≠ 0
    · rw [if_pos hb] at hf
      rw [if_pos hb, if_pos hb]
      exact iho h.2.2.2 f (by omega)
    · rw [if_neg hb] at hf
      rw [if_neg hb, if_neg hb]
      exact ihz h.2.2.1 f (by omega)

theorem pathLen_lt_length (ip : Nat) (t : LTree) : t.pathLen ip < t.indices.length := by
  induction t with
  | leaf i d => simp [pathLen, indices]
  | inner i b z o ihz iho =>
    simp only [pathLen, indices, List.length_cons, List.length_append]
    split <;> omega

theorem nodup_range_length (l : List Nat) (n : Nat) (hn : l.Nodup)
    (hr : ∀ i ∈ l, 2 ≤ i ∧ i < n) : l.length ≤ n - 2 := by
  have hsub : l.toFinset ⊆ Finset.Ico 2 n := by
    intro i hi
    rw [List.mem_toFinset] at hi
    rw [Finset.mem_Ico]
    exact hr i hi
  have hc := Finset.card_le_card hsub
  rw [List.toFinset_card_of_nodup hn, Nat.card_Ico] at hc
  exact hc

end LTree


namespace IpContainer

theorem WF.length_bound {cap : Nat} {buf : List Node} {r : pointer} {t : LTree}
    (h : WF ⟨⟨cap, buf⟩, r⟩ (some t)) : t.indices.length + 2 ≤ buf.length := by
  obtain ⟨_, _, _, _, hnd, hrange, _⟩ := h
  have h1 := LTree.nodup_range_length t.indices buf.length hnd (fun i hi => (hrange i).1 hi)
  have h2 := (hrange t.idx).1 (LTree.idx_mem_indices t)
  dsimp only at h1 h2
  omega

theorem WF.findNode {s : IpContainer} {t : LTree} (h : WF s (some t)) (ip : Nat) :
    s.findNode ip = some (some (t.find ip).1) := by
  obtain ⟨⟨cap, buf⟩, r⟩ := s
  have hlen := WF.length_bound h
  obtain ⟨hr, h0, h1, hrep, hnd, hrange, hinv⟩ := h
  dsimp only at hr h0 h1 hrep hrange
  subst hr
  unfold IpContainer.findNode
  rw [rootChild_mk _ _ _ _ h1]
  dsimp only
  have hp := LTree.pathLen_lt_length ip t
  rw [LTree.findNodeLoop_rep cap ip hrep _ (by simp only [ChunkBuff.size]; omega)]
  dsimp only
  rw [get_mk, LTree.Rep.find ip hrep]
  dsimp only
  rw [LTree.isLeaf_leaf]
  rfl

theorem WF.leafData {s : IpContainer} {t : LTree} (h : WF s (some t)) (ip : Nat) :
    s.leafData (some (t.find ip).1) = some (t.find ip).2 := by
  obtain ⟨⟨cap, buf⟩, r⟩ := s
  obtain ⟨hr, h0, h1, hrep, hnd, hrange, hinv⟩ := h
  exact leafData_mk _ _ _ _ _ _ (LTree.Rep.find ip hrep)

theorem WF.rootChild {s : IpContainer} {t : LTree} (h : WF s (some t)) :
    s.rootChild = some (some t.idx) := by
  obtain ⟨⟨cap, buf⟩, r⟩ := s
  obtain ⟨hr, h0, h1, hrep, hnd, hrange, hinv⟩ := h
  dsimp only at hr h1
  subst hr
  exact rootChild_mk _ _ _ _ h1

theorem WF.rootChild_none {s : IpContainer} (h : WF s none) : s.rootChild = some none := by
  obtain ⟨⟨cap, buf⟩, r⟩ := s
  obtain ⟨hr, hb⟩ := h
  dsimp only at hr hb
  subst hr
  subst hb
  rfl

/-- In a well-formed engine `check` returns what the scan of the candidate leaf returns. -/
theorem WF.check {s : IpContainer} {t : LTree} (h : WF s (some t)) (ip : Nat) :
    s.check ip = some ((t.find ip).2.getMaxPrefixForIp ip) := by
  unfold IpContainer.check
  rw [WF.rootChild h]
  dsimp only
  rw [WF.findNode h ip]
  dsimp only
  rw [WF.leafData h ip]
  rfl

theorem WF.check_none {s : IpContainer} (h : WF s none) (ip : Nat) :
    s.check ip = some (-1) := by
  unfold IpContainer.check
  rw [WF.rootChild_none h]

end IpContainer


namespace LTree

theorem Rep.leaf_of_mem {buf : List Node} {t : LTree} {p : Nat} (h : Rep buf t p)
    {i : Nat} {par : pointer} {d : DataNode} (hi : i ∈ t.indices)
    (hb : buf[i]? = some (Node.leaf par d)) : d ∈ t.leaves := by
  induction t generalizing p with
  | leaf j x =>
    simp only [indices, List.mem_singleton] at hi
    subst hi
    simp only [Rep] at h
    rw [h] at hb
    cases hb
    simp [leaves]
  | inner j b z o ihz iho =>
    simp only [Rep] at h
    simp only [indices, List.mem_cons, List.mem_append] at hi
    simp only [leaves, List.mem_append]
    rcases hi with hi | hi | hi
    · subst hi
      rw [h.2.1] at hb
      cases hb
    · exact Or.inl (ihz h.2.2.1 hi)
    · exact Or.inr (iho h.2.2.2 hi)

theorem Rep.mem_leaves {buf : List Node} {t : LTree} {p : Nat} (h : Rep buf t p)
    {d : DataNode} (hd : d ∈ t.leaves) :
    ∃ (i : Nat) (par : pointer), buf[i]? = some (Node.leaf par d) := by
  induction t generalizing p with
  | leaf j x =>
    simp only [leaves, List.mem_singleton] at hd
    subst hd
    exact ⟨j, _, h⟩
  | inner j b z o ihz iho =>
    simp only [Rep] at h
    simp only [leaves, List.mem_append] at hd
    rcases hd with hd | hd
    · exact ihz h.2.2.1 hd
    · exact iho h.2.2.2 hd

theorem leaves_ne_nil (t : LTree) : t.leaves ≠ [] := by
  induction t with
  | leaf i d => simp [leaves]
  | inner i b z o ihz _ => simp [leaves, ihz]

theorem keys_ne_nil (t : LTree) : t.keys ≠ [] := by
  unfold keys
  simp [leaves_ne_nil]

theorem mem_keys {t : LTree} {k : Nat} : k ∈ t.keys ↔ ∃ d ∈ t.leaves, d.ip = k := by
  unfold keys
  simp

theorem keys_inner (i b : Nat) (z o : LTree) : (inner i b z o).keys = z.keys ++ o.keys := by
  simp [keys, leaves]

theorem keys_leaf (i : Nat) (d : DataNode) : (leaf i d).keys = [d.ip] := rfl

end LTree

namespace IpContainer

/-- In a well-formed engine the stored prefixes are those of the leaves of the tree. -/
theorem WF.stored_iff {s : IpContainer} {t : LTree} (h : WF s (some t)) (b : Nat) (m : Int) :
    stored s b m ↔ ∃ d ∈ t.leaves, d.ip = b ∧ m ∈ d.prefixes := by
  obtain ⟨⟨cap, buf⟩, r⟩ := s
  obtain ⟨hr, h0, h1, hrep, hnd, hrange, hinv⟩ := h
  dsimp only at hr h0 h1 hrep hrange
  constructor
  · rintro ⟨i, par, d, hb, hip, hm⟩
    dsimp only at hb
    refine ⟨d, ?_, hip, hm⟩
    have hlt : i < buf.length := lt_of_getElem? hb
    have hi2 : 2 ≤ i := by
      by_contra hc
      have : i = 0 ∨ i = 1 := by omega
      rcases this with e | e
      · subst e; rw [h0] at hb; cases hb
      · subst e; rw [h1] at hb; cases hb
    exact LTree.Rep.leaf_of_mem hrep ((hrange i).2 ⟨hi2, hlt⟩) hb
  · rintro ⟨d, hd, hip, hm⟩
    obtain ⟨i, par, hb⟩ := LTree.Rep.mem_leaves hrep hd
    exact ⟨i, par, d, hb, hip, hm⟩

theorem WF.stored_none {s : IpContainer} (h : WF s none) (b : Nat) (m : Int) :
    ¬ stored s b m := by
  obtain ⟨⟨cap, buf⟩, r⟩ := s
  obtain ⟨hr, hb⟩ := h
  dsimp only at hb
  subst hb
  rintro ⟨i, par, d, hb, _, _⟩
  dsimp only at hb
  have hlt : i < 2 := lt_of_getElem? hb
  interval_cases i
  · cases hb
  · cases hb

end IpContainer


namespace LTree

theorem bit_iff (b ip : Nat) : ((1 <<< b) &&& ip ≠ 0) ↔ ip.testBit b = true :=
  IpContainer.one_shiftLeft_and_ne_zero ip b

theorem Inv.leafOk {t : LTree} (h : Inv t) : ∀ d ∈ t.leaves, LeafOk d := by
  induction t with
  | leaf i d => intro x hx; simp only [leaves, List.mem_singleton] at hx; subst hx; exact h
  | inner i b z o ihz iho =>
    intro x hx
    simp only [leaves, List.mem_append] at hx
    simp only [Inv] at h
    rcases hx with hx | hx
    · exact ihz h.2.2.2.1 x hx
    · exact iho h.2.2.2.2 x hx

theorem Inv.find_key {t : LTree} (h : Inv t) {k : Nat} (hk : k ∈ t.keys) :
    (t.find k).2.ip = k := by
  induction t with
  | leaf i d =>
    simp only [keys_leaf, List.mem_singleton] at hk
    simp [find, hk]
  | inner i b z o ihz iho =>
    simp only [Inv] at h
    obtain ⟨hz, ho, _, hiz, hio⟩ := h
    rw [keys_inner, List.mem_append] at hk
    unfold find
    by_cases hb : (1 <<< b) &&& k ≠ 0
    · rw [if_pos hb]
      have hbit := (bit_iff b k).1 hb
      rcases hk with hk | hk
      · have := hz k hk
        rw [this] at hbit
        cases hbit
      · exact iho hio hk
    · rw [if_neg hb]
      have hbit : k.testBit b = false := by
        cases hx : k.testBit b
        · rfl
        · exact absurd ((bit_iff b k).2 hx) hb
      rcases hk with hk | hk
      · exact ihz hiz hk
      · have := ho k hk
        rw [this] at hbit
        cases hbit

/-- The candidate leaf agrees with the query on every branch bit of the path. -/
theorem Inv.keys_nodup {t : LTree} (h : Inv t) : t.keys.Nodup := by
  induction t with
  | leaf i d => simp [keys_leaf]
  | inner i b z o ihz iho =>
    simp only [Inv] at h
    obtain ⟨hz, ho, _, hiz, hio⟩ := h
    rw [keys_inner, List.nodup_append]
    refine ⟨ihz hiz, iho hio, ?_⟩
    intro k hk1 hk2
    have h1 := hz k hk1
    have h2 := ho k hk2
    rw [h1] at h2
    cases h2

theorem leaves_modifyAt (ip : Nat) (f : DataNode → DataNode) (t : LTree) :
    ∃ l1 l2, t.leaves = l1 ++ (t.find ip).2 :: l2 ∧
      (t.modifyAt ip f).leaves = l1 ++ f (t.find ip).2 :: l2 := by
  induction t with
  | leaf i d => exact ⟨[], [], rfl, rfl⟩
  | inner i b z o ihz iho =>
    unfold find modifyAt
    by_cases hb : (1 <<< b) &&& ip ≠ 0
    · rw [if_pos hb, if_pos hb]
      obtain ⟨l1, l2, e1, e2⟩ := iho
      exact ⟨z.leaves ++ l1, l2, by simp [leaves, e1], by simp [leaves, e2]⟩
    · rw [if_neg hb, if_neg hb]
      obtain ⟨l1, l2, e1, e2⟩ := ihz
      exact ⟨l1, l2 ++ o.leaves, by simp [leaves, e1], by simp [leaves, e2]⟩

theorem leaves_removeAt (ip : Nat) (t : LTree) :
    (∃ i d, t = leaf i d) ∨
    ∃ l1 l2, t.leaves = l1 ++ (t.find ip).2 :: l2 ∧ (t.removeAt ip).leaves = l1 ++ l2 := by
  induction t with
  | leaf i d => exact Or.inl ⟨i, d, rfl⟩
  | inner i b z o ihz iho =>
    right
    unfold find removeAt
    by_cases hb : (1 <<< b) &&& ip ≠ 0
    · rw [if_pos hb, if_pos hb]
      cases o with
      | leaf j d => exact ⟨z.leaves, [], by simp [leaves, find], by simp⟩
      | inner j b2 z2 o2 =>
        rcases iho with ⟨_, _, e⟩ | ⟨l1, l2, e1, e2⟩
        · cases e
        · exact ⟨z.leaves ++ l1, l2, by rw [leaves, e1]; simp, by
            show (inner i b z (removeAt ip (inner j b2 z2 o2))).leaves = _
            rw [leaves, e2]; simp⟩
    · rw [if_neg hb, if_neg hb]
      cases z with
      | leaf j d => exact ⟨[], o.leaves, by simp [leaves, find], by simp⟩
      | inner j b2 z2 o2 =>
        rcases ihz with ⟨_, _, e⟩ | ⟨l1, l2, e1, e2⟩
        · cases e
        · exact ⟨l1, l2 ++ o.leaves, by rw [leaves, e1]; simp, by
            show (inner i b (removeAt ip (inner j b2 z2 o2)) o).leaves = _
            rw [leaves, e2]; simp⟩

theorem leaves_fork (base d n1 n2 : Nat) (nd : DataNode) (t : LTree) :
    (fork base d n1 n2 nd t).leaves = t.leaves ++ [nd] ∨
      (fork base d n1 n2 nd t).leaves = nd :: t.leaves := by
  unfold fork
  split
  · left; rfl
  · right; rfl

theorem leaves_splice (base d n1 n2 : Nat) (nd : DataNode) (t : LTree) :
    ∃ l1 l2, t.leaves = l1 ++ l2 ∧ (t.splice base d n1 n2 nd).leaves = l1 ++ nd :: l2 := by
  induction t with
  | leaf i x =>
    unfold splice
    rcases leaves_fork base d n1 n2 nd (leaf i x) with e | e
    · exact ⟨(leaf i x).leaves, [], by simp, by rw [e]⟩
    · exact ⟨[], (leaf i x).leaves, by simp, by rw [e]; simp⟩
  | inner i b z o ihz iho =>
    unfold splice
    by_cases hbd : b < d
    · rw [if_pos hbd]
      rcases leaves_fork base d n1 n2 nd (inner i b z o) with e | e
      · exact ⟨(inner i b z o).leaves, [], by simp, by rw [e]⟩
      · exact ⟨[], (inner i b z o).leaves, by simp, by rw [e]; simp⟩
    · rw [if_neg hbd]
      by_cases hb : (1 <<< b) &&& base ≠ 0
      · rw [if_pos hb]
        obtain ⟨l1, l2, e1, e2⟩ := iho
        exact ⟨z.leaves ++ l1, l2, by rw [leaves, e1]; simp, by rw [leaves, e2]; simp⟩
      · rw [if_neg hb]
        obtain ⟨l1, l2, e1, e2⟩ := ihz
        exact ⟨l1, l2 ++ o.leaves, by rw [leaves, e1]; simp, by rw [leaves, e2]; simp⟩

end LTree


namespace LTree

theorem keys_modifyAt (ip : Nat) (f : DataNode → DataNode) (hf : ∀ d, (f d).ip = d.ip)
    (t : LTree) : (t.modifyAt ip f).keys = t.keys := by
  obtain ⟨l1, l2, e1, e2⟩ := leaves_modifyAt ip f t
  unfold keys
  rw [e1, e2]
  simp [hf]

theorem find_modifyAt (ip : Nat) (f : DataNode → DataNode) (t : LTree) :
    (t.modifyAt ip f).find ip = ((t.find ip).1, f (t.find ip).2) := by
  induction t with
  | leaf i d => rfl
  | inner i b z o ihz iho =>
    unfold modifyAt
    by_cases hb : (1 <<< b) &&& ip ≠ 0
    · rw [if_pos hb]; unfold find; rw [if_pos hb, if_pos hb]; exact iho
    · rw [if_neg hb]; unfold find; rw [if_neg hb, if_neg hb]; exact ihz

theorem Inv.modifyAt {t : LTree} (h : Inv t) (ip : Nat) (f : DataNode → DataNode)
    (hf : ∀ d, (f d).ip = d.ip) (hok : LeafOk (f (t.find ip).2)) : Inv (t.modifyAt ip f) := by
  induction t with
  | leaf i d => exact hok
  | inner i b z o ihz iho =>
    simp only [Inv] at h
    obtain ⟨hz, ho, hag, hiz, hio⟩ := h
    unfold LTree.modifyAt
    unfold find at hok
    by_cases hb : (1 <<< b) &&& ip ≠ 0
    · rw [if_pos hb] at hok ⊢
      simp only [Inv]
      rw [keys_inner, keys_modifyAt ip f hf, ← keys_inner i b]
      exact ⟨hz, ho, hag, hiz, iho hio hok⟩
    · rw [if_neg hb] at hok ⊢
      simp only [Inv]
      rw [keys_inner, keys_modifyAt ip f hf, ← keys_inner i b]
      exact ⟨hz, ho, hag, ihz hiz hok, hio⟩

theorem keys_removeAt_subset (ip : Nat) (t : LTree) : ∀ k ∈ (t.removeAt ip).keys, k ∈ t.keys := by
  rcases leaves_removeAt ip t with ⟨i, d, e⟩ | ⟨l1, l2, e1, e2⟩
  · subst e; intro k hk; exact hk
  · intro k hk
    unfold keys at hk ⊢
    rw [e2] at hk
    rw [e1]
    simp only [List.map_append, List.mem_append, List.map_cons, List.mem_cons] at hk ⊢
    tauto

theorem Inv.removeAt {t : LTree} (h : Inv t) (ip : Nat) : Inv (t.removeAt ip) := by
  induction t with
  | leaf i d => exact h
  | inner i b z o ihz iho =>
    simp only [Inv] at h
    obtain ⟨hz, ho, hag, hiz, hio⟩ := h
    unfold LTree.removeAt
    by_cases hb : (1 <<< b) &&& ip ≠ 0
    · rw [if_pos hb]
      cases o with
      | leaf j d => exact hiz
      | inner j b2 z2 o2 =>
        dsimp only
        simp only [Inv]
        refine ⟨hz, ?_, ?_, hiz, ?_⟩
        · intro k hk; exact ho k (keys_removeAt_subset ip _ k hk)
        · intro k hk k2 hk2 j2 hj
          apply hag k _ k2 _ j2 hj
          · rw [keys_inner, List.mem_append] at hk ⊢
            rcases hk with hk | hk
            · exact Or.inl hk
            · exact Or.inr (keys_removeAt_subset ip _ k hk)
          · rw [keys_inner, List.mem_append] at hk2 ⊢
            rcases hk2 with hk2 | hk2
            · exact Or.inl hk2
            · exact Or.inr (keys_removeAt_subset ip _ k2 hk2)
        · exact iho hio
    · rw [if_neg hb]
      cases z with
      | leaf j d => exact hio
      | inner j b2 z2 o2 =>
        dsimp only
        simp only [Inv]
        refine ⟨?_, ho, ?_, ?_, hio⟩
        · intro k hk; exact hz k (keys_removeAt_subset ip _ k hk)
        · intro k hk k2 hk2 j2 hj
          apply hag k _ k2 _ j2 hj
          · rw [keys_inner, List.mem_append] at hk ⊢
            rcases hk with hk | hk
            · exact Or.inl (keys_removeAt_subset ip _ k hk)
            · exact Or.inr hk
          · rw [keys_inner, List.mem_append] at hk2 ⊢
            rcases hk2 with hk2 | hk2
            · exact Or.inl (keys_removeAt_subset ip _ k2 hk2)
            · exact Or.inr hk2
        · exact ihz hiz

theorem leaves_rename (a c : Nat) (t : LTree) : (t.rename a c).leaves = t.leaves := by
  induction t with
  | leaf i d => rfl
  | inner i b z o ihz iho => simp [rename, leaves, ihz, iho]

theorem keys_rename (a c : Nat) (t : LTree) : (t.rename a c).keys = t.keys := by
  unfold keys; rw [leaves_rename]

theorem Inv.rename {t : LTree} (h : Inv t) (a c : Nat) : Inv (t.rename a c) := by
  induction t with
  | leaf i d => exact h
  | inner i b z o ihz iho =>
    simp only [Inv] at h
    obtain ⟨hz, ho, hag, hiz, hio⟩ := h
    simp only [LTree.rename, Inv]
    rw [keys_inner, keys_rename, keys_rename, ← keys_inner i b]
    exact ⟨hz, ho, hag, ihz hiz, iho hio⟩

theorem find_rename (a c : Nat) (ip : Nat) (t : LTree) :
    ((t.rename a c).find ip).2 = (t.find ip).2 := by
  induction t with
  | leaf i d => rfl
  | inner i b z o ihz iho =>
    simp only [rename, find]
    split
    · exact iho
    · exact ihz

theorem removeAt_modifyAt (ip : Nat) (f : DataNode → DataNode) (t : LTree) :
    (∃ i d, t = leaf i d) ∨ (t.modifyAt ip f).removeAt ip = t.removeAt ip := by
  induction t with
  | leaf i d => exact Or.inl ⟨i, d, rfl⟩
  | inner i b z o ihz iho =>
    right
    unfold modifyAt
    by_cases hb : (1 <<< b) &&& ip ≠ 0
    · rw [if_pos hb]
      unfold removeAt
      rw [if_pos hb, if_pos hb]
      cases o with
      | leaf j d => rfl
      | inner j b2 z2 o2 =>
        rcases iho with ⟨_, _, e⟩ | e
        · cases e
        · have hm : ∃ j3 b3 z3 o3, modifyAt ip f (inner j b2 z2 o2) = inner j3 b3 z3 o3 := by
            unfold modifyAt; split <;> exact ⟨_, _, _, _, rfl⟩
          obtain ⟨j3, b3, z3, o3, hm⟩ := hm
          rw [hm]
          dsimp only
          rw [← hm, e]
    · rw [if_neg hb]
      unfold removeAt
      rw [if_neg hb, if_neg hb]
      cases z with
      | leaf j d => rfl
      | inner j b2 z2 o2 =>
        rcases ihz with ⟨_, _, e⟩ | e
        · cases e
        · have hm : ∃ j3 b3 z3 o3, modifyAt ip f (inner j b2 z2 o2) = inner j3 b3 z3 o3 := by
            unfold modifyAt; split <;> exact ⟨_, _, _, _, rfl⟩
          obtain ⟨j3, b3, z3, o3, hm⟩ := hm
          rw [hm]
          dsimp only
          rw [← hm, e]

end LTree


namespace IpContainer

theorem xor_bit_zero_iff (v1 v2 d : Nat) :
    ((v1 ^^^ v2) &&& (1 <<< d) = 0) ↔ v1.testBit d = v2.testBit d := by
  have h := and_one_shiftLeft_ne_zero (v1 ^^^ v2) d
  rw [Nat.testBit_xor] at h
  constructor
  · intro h0
    by_contra hne
    have : (v1.testBit d ^^ v2.testBit d) = true := by
      cases h1 : v1.testBit d <;> cases h2 : v2.testBit d <;> simp_all
    exact (h.2 this) h0
  · intro he
    by_contra hne
    have := h.1 hne
    rw [he] at this
    simp at this

theorem getDiffBitLoop_spec (v1 v2 : Nat) (n : Nat) :
    (∃ d, getDiffBitLoop v1 v2 n = some d ∧ d ≤ n ∧ v1.testBit d ≠ v2.testBit d ∧
        ∀ j, d < j → j ≤ n → v1.testBit j = v2.testBit j) ∨
    (getDiffBitLoop v1 v2 n = none ∧ ∀ j, j ≤ n → v1.testBit j = v2.testBit j) := by
  induction n with
  | zero =>
    unfold getDiffBitLoop
    by_cases h : (v1 ^^^ v2) &&& (1 <<< 0) = 0
    · right
      rw [if_pos h]
      refine ⟨rfl, ?_⟩
      intro j hj
      have : j = 0 := by omega
      subst this
      exact (xor_bit_zero_iff v1 v2 0).1 h
    · left
      rw [if_neg h]
      refine ⟨0, rfl, le_refl _, ?_, ?_⟩
      · intro he; exact h ((xor_bit_zero_iff v1 v2 0).2 he)
      · intro j h1 h2; omega
  | succ n ih =>
    unfold getDiffBitLoop
    by_cases h : (v1 ^^^ v2) &&& (1 <<< (n + 1)) = 0
    · rw [if_pos h]
      have hb := (xor_bit_zero_iff v1 v2 (n + 1)).1 h
      rcases ih with ⟨d, h1, h2, h3, h4⟩ | ⟨h1, h2⟩
      · left
        refine ⟨d, h1, by omega, h3, ?_⟩
        intro j hj1 hj2
        by_cases hjn : j = n + 1
        · subst hjn; exact hb
        · exact h4 j hj1 (by omega)
      · right
        refine ⟨h1, ?_⟩
        intro j hj
        by_cases hjn : j = n + 1
        · subst hjn; exact hb
        · exact h2 j (by omega)
    · left
      rw [if_neg h]
      refine ⟨n + 1, rfl, le_refl _, ?_, ?_⟩
      · intro he; exact h ((xor_bit_zero_iff v1 v2 (n + 1)).2 he)
      · intro j h1 h2; omega

theorem testBit_of_lt_two_pow_32 (x j : Nat) (hx : x < 4294967296) (hj : 32 ≤ j) :
    x.testBit j = false := by
  apply Nat.testBit_lt_two_pow
  calc x < 2 ^ 32 := by norm_num; exact hx
    _ ≤ 2 ^ j := Nat.pow_le_pow_right (by norm_num) hj

/-- `getDiffBit` on two distinct 32-bit values returns the highest bit at which they differ. -/
theorem getDiffBit_spec (v1 v2 : Nat) (h1 : v1 < 4294967296) (h2 : v2 < 4294967296)
    (hne : v1 ≠ v2) :
    ∃ d, getDiffBit v1 v2 = some d ∧ d ≤ 31 ∧ v1.testBit d ≠ v2.testBit d ∧
      ∀ j, d < j → v1.testBit j = v2.testBit j := by
  unfold getDiffBit
  rcases getDiffBitLoop_spec v1 v2 31 with ⟨d, e, hd, hb, ha⟩ | ⟨_, ha⟩
  · refine ⟨d, e, hd, hb, ?_⟩
    intro j hj
    by_cases hj31 : j ≤ 31
    · exact ha j hj hj31
    · rw [testBit_of_lt_two_pow_32 v1 j h1 (by omega), testBit_of_lt_two_pow_32 v2 j h2 (by omega)]
  · exfalso
    apply hne
    apply Nat.eq_of_testBit_eq
    intro j
    by_cases hj31 : j ≤ 31
    · exact ha j hj31
    · rw [testBit_of_lt_two_pow_32 v1 j h1 (by omega), testBit_of_lt_two_pow_32 v2 j h2 (by omega)]

theorem LeafOk_ip_lt {d : DataNode} (h : LTree.LeafOk d) : d.ip < 4294967296 := by
  obtain ⟨_, hne, hv⟩ := h
  obtain ⟨m, hm⟩ := List.exists_mem_of_ne_nil _ hne
  have := (validate_eq_true_iff d.ip m).1 (hv m hm)
  omega

end IpContainer


namespace LTree

theorem mem_keys_splice (base d n1 n2 : Nat) (nd : DataNode) (hip : nd.ip = base) (t : LTree)
    (k : Nat) : k ∈ (t.splice base d n1 n2 nd).keys ↔ k = base ∨ k ∈ t.keys := by
  obtain ⟨l1, l2, e1, e2⟩ := leaves_splice base d n1 n2 nd t
  unfold keys
  rw [e1, e2]
  simp only [List.map_append, List.map_cons, List.mem_append, List.mem_cons, hip]
  constructor
  · rintro (h | h | h)
    · exact Or.inr (Or.inl h)
    · exact Or.inl h
    · exact Or.inr (Or.inr h)
  · rintro (h | h | h)
    · exact Or.inr (Or.inl h)
    · exact Or.inl h
    · exact Or.inr (Or.inr h)

theorem Inv.fork {t : LTree} (h : Inv t) (base d n1 n2 : Nat) (nd : DataNode)
    (hnd : LeafOk nd) (hip : nd.ip = base)
    (hd : ∀ k ∈ t.keys, k.testBit d ≠ base.testBit d)
    (ha : ∀ k ∈ t.keys, ∀ j, d < j → k.testBit j = base.testBit j) :
    Inv (fork base d n1 n2 nd t) := by
  unfold LTree.fork
  by_cases hb : base &&& (1 <<< d) ≠ 0
  · rw [if_pos hb]
    have hbit : base.testBit d = true := (IpContainer.and_one_shiftLeft_ne_zero base d).1 hb
    simp only [Inv]
    refine ⟨?_, ?_, ?_, h, hnd⟩
    · intro k hk
      have := hd k hk
      rw [hbit] at this
      cases hx : k.testBit d
      · rfl
      · exact absurd hx this
    · intro k hk
      simp only [keys_leaf, List.mem_singleton] at hk
      rw [hk, hip]; exact hbit
    · intro k hk k2 hk2 j hj
      rw [keys_inner, keys_leaf, List.mem_append, List.mem_singleton] at hk hk2
      have e1 : k.testBit j = base.testBit j := by
        rcases hk with hk | hk
        · exact ha k hk j hj
        · rw [hk, hip]
      have e2 : k2.testBit j = base.testBit j := by
        rcases hk2 with hk2 | hk2
        · exact ha k2 hk2 j hj
        · rw [hk2, hip]
      rw [e1, e2]
  · rw [if_neg hb]
    have hbit : base.testBit d = false := by
      cases hx : base.testBit d
      · rfl
      · exact absurd ((IpContainer.and_one_shiftLeft_ne_zero base d).2 hx) hb
    simp only [Inv]
    refine ⟨?_, ?_, ?_, hnd, h⟩
    · intro k hk
      simp only [keys_leaf, List.mem_singleton] at hk
      rw [hk, hip]; exact hbit
    · intro k hk
      have := hd k hk
      rw [hbit] at this
      cases hx : k.testBit d
      · exact absurd hx this
      · rfl
    · intro k hk k2 hk2 j hj
      rw [keys_inner, keys_leaf, List.mem_append, List.mem_singleton] at hk hk2
      have e1 : k.testBit j = base.testBit j := by
        rcases hk with hk | hk
        · rw [hk, hip]
        · exact ha k hk j hj
      have e2 : k2.testBit j = base.testBit j := by
        rcases hk2 with hk2 | hk2
        · rw [hk2, hip]
        · exact ha k2 hk2 j hj
      rw [e1, e2]

theorem find_mem_keys (ip : Nat) (t : LTree) : (t.find ip).2.ip ∈ t.keys :=
  mem_keys.2 ⟨_, find_mem_leaves ip t, rfl⟩

theorem Inv.splice {t : LTree} (h : Inv t) (base d n1 n2 : Nat) (nd : DataNode)
    (hnd : LeafOk nd) (hip : nd.ip = base)
    (hdiff : (t.find base).2.ip.testBit d ≠ base.testBit d)
    (habove : ∀ j, d < j → (t.find base).2.ip.testBit j = base.testBit j) :
    Inv (t.splice base d n1 n2 nd) := by
  induction t with
  | leaf i x =>
    unfold LTree.splice
    apply Inv.fork h base d n1 n2 nd hnd hip
    · intro k hk
      simp only [keys_leaf, List.mem_singleton] at hk
      rw [hk]; exact hdiff
    · intro k hk j hj
      simp only [keys_leaf, List.mem_singleton] at hk
      rw [hk]; exact habove j hj
  | inner i b z o ihz iho =>
    have hL := find_mem_keys base (inner i b z o)
    have hinv := h
    simp only [Inv] at h
    obtain ⟨hz, ho, hag, hiz, hio⟩ := h
    unfold LTree.splice
    by_cases hbd : b < d
    · rw [if_pos hbd]
      apply Inv.fork hinv base d n1 n2 nd hnd hip
      · intro k hk
        rw [hag k hk _ hL d hbd]; exact hdiff
      · intro k hk j hj
        rw [hag k hk _ hL j (by omega)]; exact habove j hj
    · rw [if_neg hbd]
      unfold find at hdiff habove hL
      by_cases hb : (1 <<< b) &&& base ≠ 0
      · rw [if_pos hb] at hdiff habove hL ⊢
        have hbit := (bit_iff b base).1 hb
        have hLb : (o.find base).2.ip.testBit b = true := ho _ (find_mem_keys base o)
        have hne : b ≠ d := by
          intro e; subst e
          rw [hLb, hbit] at hdiff
          exact hdiff rfl
        have hgt : d < b := by omega
        simp only [Inv]
        refine ⟨hz, ?_, ?_, hiz, iho hio hdiff habove⟩
        · intro k hk
          rcases (mem_keys_splice base d n1 n2 nd hip o k).1 hk with e | e
          · rw [e]; exact hbit
          · exact ho k e
        · have key : ∀ k ∈ (inner i b z (o.splice base d n1 n2 nd)).keys, ∀ j, b < j →
              k.testBit j = base.testBit j := by
            intro k hk j hj
            rw [keys_inner, List.mem_append] at hk
            have hold : k ∈ (inner i b z o).keys → k.testBit j = base.testBit j := by
              intro hk2
              rw [hag k hk2 _ hL j hj]
              exact habove j (by omega)
            rcases hk with hk | hk
            · exact hold (by rw [keys_inner, List.mem_append]; exact Or.inl hk)
            · rcases (mem_keys_splice base d n1 n2 nd hip o k).1 hk with e | e
              · rw [e]
              · exact hold (by rw [keys_inner, List.mem_append]; exact Or.inr e)
          intro k hk k2 hk2 j hj
          rw [key k hk j hj, key k2 hk2 j hj]
      · rw [if_neg hb] at hdiff habove hL ⊢
        have hbit : base.testBit b = false := by
          cases hx : base.testBit b
          · rfl
          · exact absurd ((bit_iff b base).2 hx) hb
        have hLb : (z.find base).2.ip.testBit b = false := hz _ (find_mem_keys base z)
        have hne : b ≠ d := by
          intro e; subst e
          rw [hLb, hbit] at hdiff
          exact hdiff rfl
        have hgt : d < b := by omega
        simp only [Inv]
        refine ⟨?_, ho, ?_, ihz hiz hdiff habove, hio⟩
        · intro k hk
          rcases (mem_keys_splice base d n1 n2 nd hip z k).1 hk with e | e
          · rw [e]; exact hbit
          · exact hz k e
        · have key : ∀ k ∈ (inner i b (z.splice base d n1 n2 nd) o).keys, ∀ j, b < j →
              k.testBit j = base.testBit j := by
            intro k hk j hj
            rw [keys_inner, List.mem_append] at hk
            have hold : k ∈ (inner i b z o).keys → k.testBit j = base.testBit j := by
              intro hk2
              rw [hag k hk2 _ hL j hj]
              exact habove j (by omega)
            rcases hk with hk | hk
            · rcases (mem_keys_splice base d n1 n2 nd hip z k).1 hk with e | e
              · rw [e]
              · exact hold (by rw [keys_inner, List.mem_append]; exact Or.inl e)
            · exact hold (by rw [keys_inner, List.mem_append]; exact Or.inr hk)
          intro k hk k2 hk2 j hj
          rw [key k hk j hj, key k2 hk2 j hj]

end LTree


namespace LTree

/-- The subtree keeps its shape when only the parent word of its top node changes. -/
theorem Rep.reparent {buf buf2 : List Node} {t : LTree} {p p2 : Nat} (h : Rep buf t p)
    (htop : buf2[t.idx]? = (buf[t.idx]?).map (fun n => n.withParent (some p2)))
    (hrest : ∀ i ∈ t.indices, i ≠ t.idx → buf2[i]? = buf[i]?)
    (hnd : t.indices.Nodup) : Rep buf2 t p2 := by
  cases t with
  | leaf i d =>
    simp only [Rep] at h ⊢
    rw [idx_leaf, h] at htop
    exact htop
  | inner i b z o =>
    simp only [Rep] at h ⊢
    rw [idx_inner, h.2.1] at htop
    simp only [indices, List.nodup_cons, List.mem_append, not_or] at hnd
    refine ⟨h.1, htop, ?_, ?_⟩
    · apply Rep.frame h.2.2.1
      intro j hj
      apply hrest j (by simp [indices, hj])
      rw [idx_inner]
      intro e; subst e; exact hnd.1.1 hj
    · apply Rep.frame h.2.2.2
      intro j hj
      apply hrest j (by simp [indices, hj])
      rw [idx_inner]
      intro e; subst e; exact hnd.1.2 hj

theorem indices_modifyAt (ip : Nat) (f : DataNode → DataNode) (t : LTree) :
    (t.modifyAt ip f).indices = t.indices := by
  induction t with
  | leaf i d => rfl
  | inner i b z o ihz iho =>
    unfold modifyAt
    split
    · simp [indices, iho]
    · simp [indices, ihz]

theorem idx_modifyAt (ip : Nat) (f : DataNode → DataNode) (t : LTree) :
    (t.modifyAt ip f).idx = t.idx := by
  cases t with
  | leaf i d => rfl
  | inner i b z o => unfold modifyAt; split <;> rfl

theorem Rep.heap_modifyAt {buf : List Node} {t : LTree} {p : Nat} (h : Rep buf t p)
    (hnd : t.indices.Nodup) (ip : Nat) (f : DataNode → DataNode) :
    Rep (buf.set (t.find ip).1 (Node.leaf (some (t.findParent ip p)) (f (t.find ip).2)))
      (t.modifyAt ip f) p := by
  induction t generalizing p with
  | leaf i d =>
    simp only [Rep] at h
    simp only [LTree.find, LTree.findParent, LTree.modifyAt, Rep]
    rw [List.getElem?_set_self (IpContainer.lt_of_getElem? h)]
  | inner i b z o ihz iho =>
    simp only [Rep] at h
    simp only [indices, List.nodup_cons, List.mem_append, not_or, List.nodup_append] at hnd
    obtain ⟨⟨hiz, hio⟩, hnz, hno, hdis⟩ := hnd
    unfold LTree.find LTree.findParent LTree.modifyAt
    by_cases hb : (1 <<< b) &&& ip ≠ 0
    · rw [if_pos hb, if_pos hb, if_pos hb]
      have hmem := find_mem_indices ip o
      simp only [Rep, idx_modifyAt]
      refine ⟨h.1, ?_, ?_, iho h.2.2.2 hno⟩
      · rw [List.getElem?_set_ne (by intro e; rw [e] at hmem; exact hio hmem)]
        exact h.2.1
      · apply Rep.frame h.2.2.1
        intro j hj
        rw [List.getElem?_set_ne (by intro e; rw [e] at hmem; exact hdis hj hmem)]
    · rw [if_neg hb, if_neg hb, if_neg hb]
      have hmem := find_mem_indices ip z
      simp only [Rep, idx_modifyAt]
      refine ⟨h.1, ?_, ihz h.2.2.1 hnz, ?_⟩
      · rw [List.getElem?_set_ne (by intro e; rw [e] at hmem; exact hiz hmem)]
        exact h.2.1
      · apply Rep.frame h.2.2.2
        intro j hj
        rw [List.getElem?_set_ne (by intro e; rw [e] at hmem; exact hdis hmem hj)]

end LTree


namespace IpContainer

theorem leafOk_single (base : Nat) (mask : Int) (hv : validate base mask = true) :
    LTree.LeafOk { ip := base, prefixes := [mask] } := by
  refine ⟨by simp [DataNode.Ascending], by simp, ?_⟩
  intro m hm
  simp only [List.mem_singleton] at hm
  subst hm
  exact hv

theorem leafOk_addPrefix (d : DataNode) (mask : Int) (h : LTree.LeafOk d)
    (hv : validate d.ip mask = true) : LTree.LeafOk (d.addPrefix mask) := by
  obtain ⟨h1, h2, h3⟩ := h
  obtain ⟨e1, e2, e3⟩ := DataNode.addPrefix_spec d mask h1
  refine ⟨e2, ?_, ?_⟩
  · intro hnil
    have := (e3 mask).2 (Or.inr rfl)
    rw [hnil] at this
    cases this
  · intro m hm
    rw [e1]
    rcases (e3 m).1 hm with hm | hm
    · exact h3 m hm
    · rw [hm]; exact hv

/-- `add` on the empty engine. -/
theorem add_empty {s : IpContainer} (h : WF s none) (base : Nat) (mask : Int)
    (hv : validate base mask = true) :
    ∃ s1, s.add base mask = some (s1, 0) ∧
      WF s1 (some (LTree.leaf 2 { ip := base, prefixes := [mask] })) := by
  obtain ⟨⟨cap, buf⟩, r⟩ := s
  obtain ⟨hr, hb⟩ := h
  dsimp only at hr hb
  subst hr
  subst hb
  refine ⟨⟨⟨ChunkBuff.grown cap 2, [Node.root none none, Node.root none (some 2),
    Node.leaf (some 1) { ip := base, prefixes := [mask] }]⟩, some 1⟩, ?_, ?_⟩
  · unfold add
    rw [hv]
    simp only [Bool.not_true, Bool.false_eq_true, if_false]
    rw [rootChild_mk cap _ none none rfl]
    dsimp only
    rw [createLeafNode_mk _ _ _ _ _ (by simp)]
    dsimp only
    rw [setRootChild_mk _ _ none none _ rfl]
    dsimp only
    rw [rootChild_mk _ _ none (some 2) rfl]
    dsimp only
    rw [setParentField_mk _ _ _ 2 (Node.leaf none { ip := base, prefixes := [mask] }) _ rfl]
    rfl
  · refine ⟨rfl, rfl, rfl, rfl, by simp [LTree.indices], ?_, leafOk_single base mask hv⟩
    intro i
    simp only [LTree.indices, List.mem_singleton, List.length_cons, List.length_nil]
    omega

/-- `add` of a mask for a key that already has a leaf. -/
theorem add_existing {s : IpContainer} {t : LTree} (h : WF s (some t)) (base : Nat) (mask : Int)
    (hv : validate base mask = true) (hk : (t.find base).2.ip = base) :
    ∃ s1, s.add base mask = some (s1, 0) ∧
      WF s1 (some (t.modifyAt base (fun d => d.addPrefix mask))) := by
  have hfind := WF.findNode h base
  have hdata := WF.leafData h base
  have hroot := WF.rootChild h
  obtain ⟨⟨cap, buf⟩, r⟩ := s
  obtain ⟨hr, h0, h1, hrep, hnd, hrange, hinv⟩ := h
  dsimp only at hr h0 h1 hrep hrange
  subst hr
  have hL := LTree.Rep.find base hrep
  have hmem := (hrange _).1 (LTree.find_mem_indices base t)
  refine ⟨⟨⟨cap, buf.set (t.find base).1 (Node.leaf (some (t.findParent base 1))
    ((t.find base).2.addPrefix mask))⟩, some 1⟩, ?_, ?_⟩
  · unfold add
    rw [hv]
    simp only [Bool.not_true, Bool.false_eq_true, if_false]
    rw [hroot]
    dsimp only
    rw [hfind]
    dsimp only
    rw [hdata]
    dsimp only
    rw [if_pos hk, setLeafData_mk _ _ _ _ _ _ _ hL]
    rfl
  · refine ⟨rfl, ?_, ?_, LTree.Rep.heap_modifyAt hrep hnd base (fun d => d.addPrefix mask), ?_, ?_, ?_⟩
    · dsimp only
      rw [List.getElem?_set_ne (by omega)]
      exact h0
    · dsimp only
      rw [List.getElem?_set_ne (by omega), LTree.idx_modifyAt]
      exact h1
    · rw [LTree.indices_modifyAt]; exact hnd
    · intro i
      rw [LTree.indices_modifyAt]
      simp only [List.length_set]
      exact hrange i
    · apply LTree.Inv.modifyAt hinv
      · intro d
        exact (DataNode.addPrefix_spec' d mask)
      · apply leafOk_addPrefix _ _ (LTree.Inv.leafOk hinv _ (LTree.find_mem_leaves base t))
        rw [hk]; exact hv

end IpContainer


namespace IpContainer

theorem adoptChild_mk (cap : Nat) (buf : List Node) (r : pointer) (C : Nat) (n : Node)
    (v : pointer) (d : Nat) (side : Bool) (h : buf[C]? = some n)
    (hleaf : ∀ par x, n = Node.leaf par x → decide (x.ip &&& (1 <<< d) ≠ 0) = side)
    (hinner : ∀ b par o z, n = Node.inner b par o z → b < 32)
    (hroot : ∀ par c, n ≠ Node.root par c) :
    (IpContainer.mk ⟨cap, buf⟩ r).adoptChild (some C) v d side =
      some (IpContainer.mk ⟨cap, buf.set C (n.withParent v)⟩ r) := by
  unfold adoptChild
  rw [get_mk, h]
  have hlt := lt_of_getElem? h
  cases n with
  | root par c => exact absurd rfl (hroot par c)
  | leaf par x =>
    dsimp only
    rw [if_pos (hleaf par x rfl), put_mk _ _ _ _ _ hlt]
    rfl
  | inner b par o z =>
    dsimp only
    rw [LTree.isInner_inner b v o z (hinner b par o z rfl)]
    simp only [if_true]
    rw [put_mk _ _ _ _ _ hlt]
    rfl

theorem getElem?_append_one_last {α : Type} (l : List α) (x : α) :
    (l ++ [x])[l.length]? = some x := by
  rw [List.getElem?_append_right (le_refl _)]
  simp

/-- `createParentNode` for a new leaf `n1` and a sibling `C`: the arena gets the new inner
node at the next index, the two children get it as their parent, nothing else changes. -/
theorem createParentNode_mk (cap : Nat) (buf : List Node) (r : pointer) (n1 C d : Nat)
    (nd : DataNode) (nodeC : Node)
    (hn1 : buf[n1]? = some (Node.leaf none nd)) (hC : buf[C]? = some nodeC) (hne : C ≠ n1)
    (hleaf : ∀ par x, nodeC = Node.leaf par x →
      decide (x.ip &&& (1 <<< d) ≠ 0) = !decide (nd.ip &&& (1 <<< d) ≠ 0))
    (hinner : ∀ b par o z, nodeC = Node.inner b par o z → b < 32)
    (hroot : ∀ par c, nodeC ≠ Node.root par c) :
    ∃ buf4, (IpContainer.mk ⟨cap, buf⟩ r).createParentNode (some n1) (some C) d =
        some (IpContainer.mk ⟨ChunkBuff.grown cap buf.length, buf4⟩ r, some buf.length) ∧
      buf4.length = buf.length + 1 ∧
      buf4[n1]? = some (Node.leaf (some buf.length) nd) ∧
      buf4[buf.length]? = some (Node.inner d none
        (if nd.ip &&& (1 <<< d) ≠ 0 then some n1 else some C)
        (if nd.ip &&& (1 <<< d) ≠ 0 then some C else some n1)) ∧
      buf4[C]? = some (nodeC.withParent (some buf.length)) ∧
      ∀ i, i ≠ n1 → i ≠ C → i < buf.length → buf4[i]? = buf[i]? := by
  have hlt1 := lt_of_getElem? hn1
  have hltC := lt_of_getElem? hC
  have hlen : 1 ≤ buf.length := by omega
  unfold createParentNode
  rw [leafData_mk _ _ _ _ _ _ hn1]
  dsimp only
  rw [createInnerNode_mk _ _ _ hlen]
  dsimp only
  rw [put_mk _ _ _ _ _ (by simp), set_append_last]
  dsimp only
  by_cases hsw : nd.ip &&& (1 <<< d) ≠ 0
  · have hdec : decide (nd.ip &&& (1 <<< d) ≠ 0) = true := decide_eq_true hsw
    rw [hdec] at hleaf
    simp only [hdec, if_true, if_pos hsw, Bool.not_true] at hleaf ⊢
    have e1 : (buf ++ [Node.inner d none (some n1) (some C)])[C]? = some nodeC := by
      rw [List.getElem?_append_left hltC]; exact hC
    rw [adoptChild_mk _ _ _ C nodeC _ d false e1 hleaf hinner hroot]
    dsimp only
    have e2 : ((buf ++ [Node.inner d none (some n1) (some C)]).set C
        (nodeC.withParent (some buf.length)))[n1]? = some (Node.leaf none nd) := by
      rw [List.getElem?_set_ne hne, List.getElem?_append_left hlt1]; exact hn1
    rw [adoptChild_mk _ _ _ n1 _ _ d true e2
      (by intro par x e; cases e; exact hdec) (by intro b par o z e; cases e)
      (by intro par c e; cases e)]
    refine ⟨_, rfl, by simp, ?_, ?_, ?_, ?_⟩
    · rw [List.getElem?_set_self (by simp; omega)]; rfl
    · rw [List.getElem?_set_ne (by omega), List.getElem?_set_ne (by omega),
        getElem?_append_one_last]
    · rw [List.getElem?_set_ne (Ne.symm hne), List.getElem?_set_self (by simp; omega)]
    · intro i h1 h2 h3
      rw [List.getElem?_set_ne (Ne.symm h1), List.getElem?_set_ne (Ne.symm h2),
        List.getElem?_append_left h3]
  · have hdec : decide (nd.ip &&& (1 <<< d) ≠ 0) = false := decide_eq_false hsw
    rw [hdec] at hleaf
    simp only [hdec, if_false, if_neg hsw, Bool.not_false, Bool.false_eq_true] at hleaf ⊢
    have e1 : (buf ++ [Node.inner d none (some C) (some n1)])[n1]? = some (Node.leaf none nd) := by
      rw [List.getElem?_append_left hlt1]; exact hn1
    rw [adoptChild_mk _ _ _ n1 _ _ d false e1
      (by intro par x e; cases e; exact hdec) (by intro b par o z e; cases e)
      (by intro par c e; cases e)]
    dsimp only
    have e2 : ((buf ++ [Node.inner d none (some C) (some n1)]).set n1
        ((Node.leaf none nd).withParent (some buf.length)))[C]? = some nodeC := by
      rw [List.getElem?_set_ne (Ne.symm hne), List.getElem?_append_left hltC]; exact hC
    rw [adoptChild_mk _ _ _ C nodeC _ d true e2 hleaf hinner hroot]
    refine ⟨_, rfl, by simp, ?_, ?_, ?_, ?_⟩
    · rw [List.getElem?_set_ne hne, List.getElem?_set_self (by simp; omega)]; rfl
    · rw [List.getElem?_set_ne (by omega), List.getElem?_set_ne (by omega),
        getElem?_append_one_last]
    · rw [List.getElem?_set_self (by simp; omega)]
    · intro i h1 h2 h3
      rw [List.getElem?_set_ne (Ne.symm h2), List.getElem?_set_ne (Ne.symm h1),
        List.getElem?_append_left h3]

end IpContainer


namespace LTree

theorem indices_fork_perm (base d n1 n2 : Nat) (nd : DataNode) (t : LTree) :
    (fork base d n1 n2 nd t).indices.Perm (n2 :: n1 :: t.indices) := by
  unfold fork
  split
  · simp only [indices]
    apply List.Perm.cons
    exact List.perm_append_singleton n1 t.indices
  · simp only [indices]
    exact List.Perm.refl _

theorem indices_splice_perm (base d n1 n2 : Nat) (nd : DataNode) (t : LTree) :
    (t.splice base d n1 n2 nd).indices.Perm (n2 :: n1 :: t.indices) := by
  induction t with
  | leaf i x => unfold splice; exact indices_fork_perm _ _ _ _ _ _
  | inner i b z o ihz iho =>
    unfold splice
    by_cases hbd : b < d
    · rw [if_pos hbd]; exact indices_fork_perm _ _ _ _ _ _
    · rw [if_neg hbd]
      by_cases hb : (1 <<< b) &&& base ≠ 0
      · rw [if_pos hb]
        simp only [indices]
        have h1 : (i :: (z.indices ++ (o.splice base d n1 n2 nd).indices)).Perm
            (i :: (z.indices ++ (n2 :: n1 :: o.indices))) :=
          List.Perm.cons _ (List.Perm.append_left _ iho)
        refine h1.trans ?_
        have h2 : (z.indices ++ (n2 :: n1 :: o.indices)).Perm
            (n2 :: n1 :: (z.indices ++ o.indices)) := by
          have := @List.perm_middle _ n2 z.indices (n1 :: o.indices)
          refine this.trans (List.Perm.cons _ ?_)
          exact List.perm_middle
        refine (List.Perm.cons i h2).trans ?_
        refine (List.Perm.swap n2 i _).trans (List.Perm.cons _ ?_)
        exact List.Perm.swap n1 i _
      · rw [if_neg hb]
        simp only [indices]
        have h1 : (i :: ((z.splice base d n1 n2 nd).indices ++ o.indices)).Perm
            (i :: ((n2 :: n1 :: z.indices) ++ o.indices)) :=
          List.Perm.cons _ (List.Perm.append_right _ ihz)
        refine h1.trans ?_
        simp only [List.cons_append]
        refine (List.Perm.swap n2 i _).trans (List.Perm.cons _ ?_)
        exact List.Perm.swap n1 i _

theorem spliceAt_cases (base d n1 n2 : Nat) (nd : DataNode) (t : LTree) (p : Nat)
    (hnd : t.indices.Nodup) :
    (t.spliceAt base d p = (t.idx, p) ∧ (t.splice base d n1 n2 nd).idx = n2) ∨
    ((t.spliceAt base d p).1 ∈ t.indices ∧ (t.spliceAt base d p).2 ∈ t.indices ∧
      (t.spliceAt base d p).1 ≠ t.idx ∧ (t.splice base d n1 n2 nd).idx = t.idx) := by
  have fork_idx : ∀ t : LTree, (fork base d n1 n2 nd t).idx = n2 := by
    intro t; unfold fork; split <;> rfl
  induction t generalizing p with
  | leaf i x => left; exact ⟨rfl, by unfold splice; exact fork_idx _⟩
  | inner i b z o ihz iho =>
    simp only [indices, List.nodup_cons, List.mem_append, not_or, List.nodup_append] at hnd
    obtain ⟨⟨hiz, hio⟩, hnz, hno, hdis⟩ := hnd
    unfold spliceAt splice
    by_cases hbd : b < d
    · rw [if_pos hbd, if_pos hbd]; left; exact ⟨rfl, fork_idx _⟩
    · rw [if_neg hbd, if_neg hbd]
      right
      by_cases hb : (1 <<< b) &&& base ≠ 0
      · rw [if_pos hb, if_pos hb]
        rcases iho i hno with ⟨e, _⟩ | ⟨h1, h2, _, _⟩
        · rw [e]
          refine ⟨by simp [indices, idx_mem_indices], by simp [indices], ?_, rfl⟩
          rw [idx_inner]; intro e2
          dsimp only at e2
          exact hio (e2 ▸ idx_mem_indices o)
        · refine ⟨by simp [indices, h1], by simp [indices, h2], ?_, rfl⟩
          rw [idx_inner]; intro e2
          exact hio (e2 ▸ h1)
      · rw [if_neg hb, if_neg hb]
        rcases ihz i hnz with ⟨e, _⟩ | ⟨h1, h2, _, _⟩
        · rw [e]
          refine ⟨by simp [indices, idx_mem_indices], by simp [indices], ?_, rfl⟩
          rw [idx_inner]; intro e2
          dsimp only at e2
          exact hiz (e2 ▸ idx_mem_indices z)
        · refine ⟨by simp [indices, h1], by simp [indices, h2], ?_, rfl⟩
          rw [idx_inner]; intro e2
          exact hiz (e2 ▸ h1)

theorem Rep.heap_fork {buf buf2 : List Node} {t : LTree} {p : Nat} (h : Rep buf t p)
    (hnd : t.indices.Nodup) (base d n1 n2 : Nat) (nd : DataNode) (hd : d < 32)
    (hleafN : buf2[n1]? = some (Node.leaf (some n2) nd))
    (hinnerN : buf2[n2]? = some (Node.inner d (some p)
      (if base &&& (1 <<< d) ≠ 0 then some n1 else some t.idx)
      (if base &&& (1 <<< d) ≠ 0 then some t.idx else some n1)))
    (hC : buf2[t.idx]? = (buf[t.idx]?).map (fun n => n.withParent (some n2)))
    (hrest : ∀ i ∈ t.indices, i ≠ t.idx → buf2[i]? = buf[i]?) :
    Rep buf2 (LTree.fork base d n1 n2 nd t) p := by
  have ht : Rep buf2 t n2 := Rep.reparent h hC hrest hnd
  unfold LTree.fork
  by_cases hb : base &&& (1 <<< d) ≠ 0
  · rw [if_pos hb] at hinnerN ⊢
    rw [if_pos hb] at hinnerN
    simp only [Rep]
    exact ⟨hd, hinnerN, ht, hleafN⟩
  · rw [if_neg hb] at hinnerN ⊢
    rw [if_neg hb] at hinnerN
    simp only [Rep]
    exact ⟨hd, hinnerN, hleafN, ht⟩

end LTree


namespace LTree

theorem withChild_zero (b : Nat) (par one old v : pointer) :
    (Node.inner b par one old).withChild old v = some (Node.inner b par one v) := by
  simp only [Node.withChild, if_true]

theorem withChild_one (b : Nat) (par old zero v : pointer) (h : zero ≠ old) :
    (Node.inner b par old zero).withChild old v = some (Node.inner b par v zero) := by
  simp only [Node.withChild, if_neg h, if_true]

theorem Rep.heap_splice {buf buf2 : List Node} {t : LTree} {p : Nat} (h : Rep buf t p)
    (hnd : t.indices.Nodup) (base d n1 n2 : Nat) (nd : DataNode) (hd : d < 32)
    (hp : p ∉ t.indices)
    (hleafN : buf2[n1]? = some (Node.leaf (some n2) nd))
    (hinnerN : buf2[n2]? = some (Node.inner d (some (t.spliceAt base d p).2)
      (if base &&& (1 <<< d) ≠ 0 then some n1 else some (t.spliceAt base d p).1)
      (if base &&& (1 <<< d) ≠ 0 then some (t.spliceAt base d p).1 else some n1)))
    (hC : buf2[(t.spliceAt base d p).1]? =
      (buf[(t.spliceAt base d p).1]?).map (fun n => n.withParent (some n2)))
    (hP : (t.spliceAt base d p).2 ∈ t.indices → buf2[(t.spliceAt base d p).2]? =
      (buf[(t.spliceAt base d p).2]?).bind
        (fun n => n.withChild (some (t.spliceAt base d p).1) (some n2)))
    (hrest : ∀ i ∈ t.indices, i ≠ (t.spliceAt base d p).1 → i ≠ (t.spliceAt base d p).2 →
      buf2[i]? = buf[i]?) :
    Rep buf2 (t.splice base d n1 n2 nd) p := by
  induction t generalizing p with
  | leaf i x =>
    unfold LTree.splice
    exact Rep.heap_fork h hnd base d n1 n2 nd hd hleafN hinnerN hC
      (fun j hj hne => hrest j hj hne (fun e => hp (by
        have e2 : j = p := e
        rw [← e2]; exact hj)))
  | inner i b z o ihz iho =>
    unfold LTree.splice
    by_cases hbd : b < d
    · rw [if_pos hbd]
      have e : (inner i b z o).spliceAt base d p = ((inner i b z o).idx, p) := by
        rw [LTree.spliceAt, if_pos hbd]; rfl
      rw [e] at hinnerN hC hrest
      exact Rep.heap_fork h hnd base d n1 n2 nd hd hleafN hinnerN hC
        (fun j hj hne => hrest j hj hne (fun e => hp (by
        have e2 : j = p := e
        rw [← e2]; exact hj)))
    · rw [if_neg hbd]
      have hnd0 := hnd
      simp only [indices, List.nodup_cons, List.mem_append, not_or, List.nodup_append] at hnd
      obtain ⟨⟨hiz, hio⟩, hnz, hno, hdis⟩ := hnd
      simp only [Rep] at h
      obtain ⟨hb32, hnode, hrz, hro⟩ := h
      by_cases hb : (1 <<< b) &&& base ≠ 0
      · rw [if_pos hb]
        have e : (inner i b z o).spliceAt base d p = o.spliceAt base d i := by
          rw [LTree.spliceAt, if_neg hbd, if_pos hb]
        rw [e] at hinnerN hC hP hrest
        have hsub : ∀ j, j ∈ o.indices → j ∈ (inner i b z o).indices := by
          intro j hj; simp [indices, hj]
        have ihres := iho hro hno hio hinnerN hC (fun hm => hP (hsub _ hm))
          (fun j hj => hrest j (hsub j hj))
        simp only [Rep]
        refine ⟨hb32, ?_, ?_, ihres⟩
        · rcases spliceAt_cases base d n1 n2 nd o i hno with ⟨e1, e2⟩ | ⟨h1, h2, h3, e2⟩
          · rw [e1] at hP
            rw [e2]
            dsimp only at hP
            have hzo : z.idx ≠ o.idx := by
              intro e3
              exact hdis (idx_mem_indices z) (e3 ▸ idx_mem_indices o)
            rw [hP (by simp [indices]), hnode, Option.some_bind,
              withChild_one _ _ _ _ _ (by intro e3; exact hzo (Option.some.inj e3))]
          · rw [e2, hrest i (by simp [indices]) (fun e3 => hio (e3 ▸ h1))
              (fun e3 => hio (e3 ▸ h2))]
            exact hnode
        · apply Rep.frame hrz
          intro j hj
          apply hrest j (by simp [indices, hj])
          · rcases spliceAt_cases base d n1 n2 nd o i hno with ⟨e1, _⟩ | ⟨h1, _, _, _⟩
            · rw [e1]; show j ≠ o.idx; intro e3; subst e3; exact hdis hj (idx_mem_indices o)
            · intro e3; rw [← e3] at h1; exact hdis hj h1
          · rcases spliceAt_cases base d n1 n2 nd o i hno with ⟨e1, _⟩ | ⟨_, h2, _, _⟩
            · rw [e1]; show j ≠ i; intro e3; subst e3; exact hiz hj
            · intro e3; rw [← e3] at h2; exact hdis hj h2
      · rw [if_neg hb]
        have e : (inner i b z o).spliceAt base d p = z.spliceAt base d i := by
          rw [LTree.spliceAt, if_neg hbd, if_neg hb]
        rw [e] at hinnerN hC hP hrest
        have hsub : ∀ j, j ∈ z.indices → j ∈ (inner i b z o).indices := by
          intro j hj; simp [indices, hj]
        have ihres := ihz hrz hnz hiz hinnerN hC (fun hm => hP (hsub _ hm))
          (fun j hj => hrest j (hsub j hj))
        simp only [Rep]
        refine ⟨hb32, ?_, ihres, ?_⟩
        · rcases spliceAt_cases base d n1 n2 nd z i hnz with ⟨e1, e2⟩ | ⟨h1, h2, h3, e2⟩
          · rw [e1] at hP
            rw [e2]
            dsimp only at hP
            rw [hP (by simp [indices]), hnode, Option.some_bind, withChild_zero]
          · rw [e2, hrest i (by simp [indices]) (fun e3 => hiz (e3 ▸ h1))
              (fun e3 => hiz (e3 ▸ h2))]
            exact hnode
        · apply Rep.frame hro
          intro j hj
          apply hrest j (by simp [indices, hj])
          · rcases spliceAt_cases base d n1 n2 nd z i hnz with ⟨e1, _⟩ | ⟨h1, _, _, _⟩
            · rw [e1]; show j ≠ z.idx; intro e3; subst e3; exact hdis (idx_mem_indices z) hj
            · intro e3; rw [← e3] at h1; exact hdis h1 hj
          · rcases spliceAt_cases base d n1 n2 nd z i hnz with ⟨e1, _⟩ | ⟨_, h2, _, _⟩
            · rw [e1]; show j ≠ i; intro e3; subst e3; exact hio hj
            · intro e3; rw [← e3] at h2; exact hdis h2 hj

end LTree


namespace LTree

/-- Below an inner node the branch bits are smaller. -/
theorem Inv.child_bit_lt {i b : Nat} {z o : LTree} (h : Inv (inner i b z o)) :
    (∀ i2 b2 z2 o2, z = inner i2 b2 z2 o2 → b2 < b) ∧
    (∀ i2 b2 z2 o2, o = inner i2 b2 z2 o2 → b2 < b) := by
  simp only [Inv] at h
  obtain ⟨hz, ho, hag, hiz, hio⟩ := h
  constructor
  · intro i2 b2 z2 o2 e
    subst e
    simp only [Inv] at hiz
    obtain ⟨hz2, ho2, _, _, _⟩ := hiz
    obtain ⟨k1, hk1⟩ := List.exists_mem_of_ne_nil _ (keys_ne_nil z2)
    obtain ⟨k2, hk2⟩ := List.exists_mem_of_ne_nil _ (keys_ne_nil o2)
    have m1 : k1 ∈ (inner i2 b2 z2 o2).keys := by
      rw [keys_inner]; exact List.mem_append.2 (Or.inl hk1)
    have m2 : k2 ∈ (inner i2 b2 z2 o2).keys := by
      rw [keys_inner]; exact List.mem_append.2 (Or.inr hk2)
    have M1 : k1 ∈ (inner i b (inner i2 b2 z2 o2) o).keys := by
      rw [keys_inner]; exact List.mem_append.2 (Or.inl m1)
    have M2 : k2 ∈ (inner i b (inner i2 b2 z2 o2) o).keys := by
      rw [keys_inner]; exact List.mem_append.2 (Or.inl m2)
    by_contra hlt
    rcases Nat.lt_or_ge b b2 with hlt2 | hge
    · have := hag k1 M1 k2 M2 b2 hlt2
      rw [hz2 k1 hk1, ho2 k2 hk2] at this
      cases this
    · have e : b2 = b := by omega
      subst e
      have := hz k2 m2
      rw [ho2 k2 hk2] at this
      cases this
  · intro i2 b2 z2 o2 e
    subst e
    simp only [Inv] at hio
    obtain ⟨hz2, ho2, _, _, _⟩ := hio
    obtain ⟨k1, hk1⟩ := List.exists_mem_of_ne_nil _ (keys_ne_nil z2)
    obtain ⟨k2, hk2⟩ := List.exists_mem_of_ne_nil _ (keys_ne_nil o2)
    have m1 : k1 ∈ (inner i2 b2 z2 o2).keys := by
      rw [keys_inner]; exact List.mem_append.2 (Or.inl hk1)
    have m2 : k2 ∈ (inner i2 b2 z2 o2).keys := by
      rw [keys_inner]; exact List.mem_append.2 (Or.inr hk2)
    have M1 : k1 ∈ (inner i b z (inner i2 b2 z2 o2)).keys := by
      rw [keys_inner]; exact List.mem_append.2 (Or.inr m1)
    have M2 : k2 ∈ (inner i b z (inner i2 b2 z2 o2)).keys := by
      rw [keys_inner]; exact List.mem_append.2 (Or.inr m2)
    by_contra hlt
    rcases Nat.lt_or_ge b b2 with hlt2 | hge
    · have := hag k1 M1 k2 M2 b2 hlt2
      rw [hz2 k1 hk1, ho2 k2 hk2] at this
      cases this
    · have e : b2 = b := by omega
      subst e
      have := ho k1 m1
      rw [hz2 k1 hk1] at this
      cases this

theorem walkUpLoop_step_lt (cap : Nat) (buf : List Node) (d f i b : Nat) (node par o z : pointer)
    (h : buf[i]? = some (Node.inner b par o z)) (hb : b < d) :
    IpContainer.walkUpLoop ⟨cap, buf⟩ d (f + 1) node (some i) =
      IpContainer.walkUpLoop ⟨cap, buf⟩ d f (some i) par := by
  rw [IpContainer.walkUpLoop]
  simp only [ChunkBuff.get, h, Node.flag, if_pos hb, Node.parentField]

theorem walkUpLoop_step_ge (cap : Nat) (buf : List Node) (d f i b : Nat) (node par o z : pointer)
    (h : buf[i]? = some (Node.inner b par o z)) (hb : d ≤ b) :
    IpContainer.walkUpLoop ⟨cap, buf⟩ d (f + 1) node (some i) = some (node, some i) := by
  rw [IpContainer.walkUpLoop]
  simp only [ChunkBuff.get, h, Node.flag, if_neg (Nat.not_lt.2 hb)]

/-- The walk up of `add` from the candidate leaf: through a subtree whose branch bits are all
below `d` it reaches the top of the subtree; in a subtree whose top branches at `d` or above it
stops at the place where `splice` puts the new inner node. -/
theorem walkUp_rep (cap base d : Nat) {buf : List Node} {t : LTree} {p : Nat}
    (h : Rep buf t p) (hi : Inv t) :
    (∀ f, (∀ i b z o, t = inner i b z o → b < d) →
      IpContainer.walkUpLoop ⟨cap, buf⟩ d (t.pathLen base + f) (some (t.find base).1)
        (some (t.findParent base p)) =
      IpContainer.walkUpLoop ⟨cap, buf⟩ d f (some t.idx) (some p)) ∧
    (∀ f i b z o, t = inner i b z o → d ≤ b →
      IpContainer.walkUpLoop ⟨cap, buf⟩ d (t.pathLen base + f) (some (t.find base).1)
        (some (t.findParent base p)) =
      some (some (t.spliceAt base d p).1, some (t.spliceAt base d p).2)) := by
  induction t generalizing p with
  | leaf i x =>
    constructor
    · intro f _
      simp only [pathLen, find, findParent, idx, Nat.zero_add]
    · intro f i2 b z o e
      cases e
  | inner i b z o ihz iho =>
    have hlt := Inv.child_bit_lt hi
    simp only [Rep] at h
    obtain ⟨hb32, hnode, hrz, hro⟩ := h
    simp only [Inv] at hi
    obtain ⟨_, _, _, hiz, hio⟩ := hi
    have key : ∀ (c : LTree), Rep buf c i → Inv c →
        (∀ i2 b2 z2 o2, c = inner i2 b2 z2 o2 → b2 < b) →
        ((∀ f, (∀ i b z o, c = inner i b z o → b < d) →
          IpContainer.walkUpLoop ⟨cap, buf⟩ d (c.pathLen base + f) (some (c.find base).1)
            (some (c.findParent base i)) =
          IpContainer.walkUpLoop ⟨cap, buf⟩ d f (some c.idx) (some i)) ∧
        (∀ f i2 b z o, c = inner i2 b z o → d ≤ b →
          IpContainer.walkUpLoop ⟨cap, buf⟩ d (c.pathLen base + f) (some (c.find base).1)
            (some (c.findParent base i)) =
          some (some (c.spliceAt base d i).1, some (c.spliceAt base d i).2))) →
        (∀ f, b < d →
          IpContainer.walkUpLoop ⟨cap, buf⟩ d (c.pathLen base + 1 + f) (some (c.find base).1)
            (some (c.findParent base i)) =
          IpContainer.walkUpLoop ⟨cap, buf⟩ d f (some i) (some p)) ∧
        (∀ f, d ≤ b →
          IpContainer.walkUpLoop ⟨cap, buf⟩ d (c.pathLen base + 1 + f) (some (c.find base).1)
            (some (c.findParent base i)) =
          some (some (c.spliceAt base d i).1, some (c.spliceAt base d i).2)) := by
      intro c hrc hic hcb ih
      constructor
      · intro f hbd
        have e : c.pathLen base + 1 + f = c.pathLen base + (f + 1) := by omega
        rw [e, ih.1 (f + 1) (fun i2 b2 z2 o2 e2 => Nat.lt_trans (hcb i2 b2 z2 o2 e2) hbd)]
        exact walkUpLoop_step_lt cap buf d f i b _ _ _ _ hnode hbd
      · intro f hdb
        have e : c.pathLen base + 1 + f = c.pathLen base + (f + 1) := by omega
        rw [e]
        cases c with
        | leaf j x =>
          rw [ih.1 (f + 1) (fun i2 b2 z2 o2 e2 => by cases e2)]
          rw [walkUpLoop_step_ge cap buf d f i b _ _ _ _ hnode hdb]
          rfl
        | inner j b2 z2 o2 =>
          by_cases hb2 : b2 < d
          · rw [ih.1 (f + 1) (fun i3 b3 z3 o3 e3 => by cases e3; exact hb2)]
            rw [walkUpLoop_step_ge cap buf d f i b _ _ _ _ hnode hdb]
            rw [spliceAt, if_pos hb2]
            rfl
          · exact ih.2 (f + 1) j b2 z2 o2 rfl (Nat.le_of_not_lt hb2)
    by_cases hbit : (1 <<< b) &&& base ≠ 0
    · have k := key o hro hio hlt.2 (iho hro hio)
      constructor
      · intro f hlow
        have hbd := hlow i b z o rfl
        simp only [pathLen, find, findParent, if_pos hbit, idx]
        exact k.1 f hbd
      · intro f i2 b2 z2 o2 e hdb
        cases e
        simp only [pathLen, find, findParent, if_pos hbit]
        rw [spliceAt, if_neg (Nat.not_lt.2 hdb), if_pos hbit]
        exact k.2 f hdb
    · have k := key z hrz hiz hlt.1 (ihz hrz hiz)
      constructor
      · intro f hlow
        have hbd := hlow i b z o rfl
        simp only [pathLen, find, findParent, if_neg hbit, idx]
        exact k.1 f hbd
      · intro f i2 b2 z2 o2 e hdb
        cases e
        simp only [pathLen, find, findParent, if_neg hbit]
        rw [spliceAt, if_neg (Nat.not_lt.2 hdb), if_neg hbit]
        exact k.2 f hdb

end LTree


namespace IpContainer

/-- The engine after `addOnTop`: the new leaf and the new inner node take the next two slots,
the old top node gets the new inner node as its parent, the root gets it as its child. -/
theorem addOnTop_mk (cap : Nat) (buf : List Node) (C d base : Nat) (mask : Int) (nodeC : Node)
    (h1 : buf[1]? = some (Node.root none (some C)))
    (hC : buf[C]? = some nodeC)
    (hleaf : ∀ par x, nodeC = Node.leaf par x →
      decide (x.ip &&& (1 <<< d) ≠ 0) = !decide (base &&& (1 <<< d) ≠ 0))
    (hinner : ∀ b par o z, nodeC = Node.inner b par o z → b < 32)
    (hroot : ∀ par c, nodeC ≠ Node.root par c) :
    ∃ cap5 buf5, (IpContainer.mk ⟨cap, buf⟩ (some 1)).addOnTop base mask d =
        some (IpContainer.mk ⟨cap5, buf5⟩ (some 1)) ∧
      buf5.length = buf.length + 2 ∧
      buf5[buf.length]? = some (Node.leaf (some (buf.length + 1)) ⟨base, [mask]⟩) ∧
      buf5[buf.length + 1]? = some (Node.inner d (some 1)
        (if base &&& (1 <<< d) ≠ 0 then some buf.length else some C)
        (if base &&& (1 <<< d) ≠ 0 then some C else some buf.length)) ∧
      buf5[C]? = some (nodeC.withParent (some (buf.length + 1))) ∧
      buf5[1]? = some (Node.root none (some (buf.length + 1))) ∧
      ∀ i, i ≠ C → i ≠ 1 → i < buf.length → buf5[i]? = buf[i]? := by
  have hlt1 := lt_of_getElem? h1
  have hltC := lt_of_getElem? hC
  have hC1 : C ≠ 1 := by
    intro e
    rw [e, h1] at hC
    exact hroot _ _ (Option.some.inj hC).symm
  unfold addOnTop
  rw [createLeafNode_mk _ _ _ _ _ (by omega)]
  dsimp only
  have e1 : (buf ++ [Node.leaf none ⟨base, [mask]⟩])[1]? = some (Node.root none (some C)) := by
    rw [List.getElem?_append_left hlt1]; exact h1
  rw [rootChild_mk _ _ none (some C) e1]
  dsimp only
  have eC : (buf ++ [Node.leaf none ⟨base, [mask]⟩])[C]? = some nodeC := by
    rw [List.getElem?_append_left hltC]; exact hC
  obtain ⟨buf4, hcp, hlen4, h4n1, h4n2, h4C, h4rest⟩ :=
    createParentNode_mk (ChunkBuff.grown cap buf.length)
      (buf ++ [Node.leaf none ⟨base, [mask]⟩]) (some 1) buf.length C d ⟨base, [mask]⟩ nodeC
      (getElem?_append_one_last _ _) eC (by omega) hleaf hinner hroot
  simp only [List.length_append, List.length_singleton] at hcp hlen4 h4n1 h4n2 h4C h4rest
  rw [hcp]
  dsimp only
  have e41 : buf4[1]? = some (Node.root none (some C)) := by
    rw [h4rest 1 (by omega) (Ne.symm hC1) (by omega)]; exact e1
  rw [setRootChild_mk _ _ none (some C) _ e41]
  dsimp only
  have e5 : (buf4.set 1 (Node.root none (some (buf.length + 1))))[buf.length + 1]? =
      some (Node.inner d none
        (if base &&& (1 <<< d) ≠ 0 then some buf.length else some C)
        (if base &&& (1 <<< d) ≠ 0 then some C else some buf.length)) := by
    rw [List.getElem?_set_ne (by omega)]; exact h4n2
  rw [setParentField_mk _ _ _ _ _ _ e5]
  refine ⟨_, _, rfl, by simp [hlen4], ?_, ?_, ?_, ?_, ?_⟩
  · rw [List.getElem?_set_ne (by omega), List.getElem?_set_ne (by omega)]; exact h4n1
  · rw [List.getElem?_set_self (by simp; omega)]; rfl
  · rw [List.getElem?_set_ne (by omega), List.getElem?_set_ne (Ne.symm hC1)]; exact h4C
  · rw [List.getElem?_set_ne (by omega), List.getElem?_set_self (by omega)]
  · intro i hiC hi1 hlt
    rw [List.getElem?_set_ne (by omega), List.getElem?_set_ne (Ne.symm hi1),
      h4rest i (by omega) hiC (by omega), List.getElem?_append_left hlt]

/-- The engine after `addBelow`, given where the walk up stops. -/
theorem addBelow_mk (cap : Nat) (buf : List Node) (r : pointer) (L C P d base : Nat)
    (mask : Int) (ln nodeC : Node) (bP : Nat) (parP oP zP : pointer)
    (hL : buf[L]? = some ln)
    (hwalk : walkUpLoop ⟨cap, buf⟩ d buf.length (some L) ln.parentField =
      some (some C, some P))
    (hP : buf[P]? = some (Node.inner bP parP oP zP)) (hbP : d < bP)
    (hch : zP = some C ∨ oP = some C)
    (hC : buf[C]? = some nodeC) (hCP : C ≠ P)
    (hleaf : ∀ par x, nodeC = Node.leaf par x →
      decide (x.ip &&& (1 <<< d) ≠ 0) = !decide (base &&& (1 <<< d) ≠ 0))
    (hinner : ∀ b par o z, nodeC = Node.inner b par o z → b < 32)
    (hroot : ∀ par c, nodeC ≠ Node.root par c) :
    ∃ cap5 buf5, (IpContainer.mk ⟨cap, buf⟩ r).addBelow base mask d (some L) =
        some (IpContainer.mk ⟨cap5, buf5⟩ r) ∧
      buf5.length = buf.length + 2 ∧
      buf5[buf.length]? = some (Node.leaf (some (buf.length + 1)) ⟨base, [mask]⟩) ∧
      buf5[buf.length + 1]? = some (Node.inner d (some P)
        (if base &&& (1 <<< d) ≠ 0 then some buf.length else some C)
        (if base &&& (1 <<< d) ≠ 0 then some C else some buf.length)) ∧
      buf5[C]? = some (nodeC.withParent (some (buf.length + 1))) ∧
      buf5[P]? = (Node.inner bP parP oP zP).withChild (some C) (some (buf.length + 1)) ∧
      ∀ i, i ≠ C → i ≠ P → i < buf.length → buf5[i]? = buf[i]? := by
  have hltP := lt_of_getElem? hP
  have hltC := lt_of_getElem? hC
  obtain ⟨nP, hnP⟩ : ∃ nP, (Node.inner bP parP oP zP).withChild (some C)
      (some (buf.length + 1)) = some nP := by
    by_cases hz : zP = some C
    · subst hz; exact ⟨_, LTree.withChild_zero _ _ _ _ _⟩
    · rcases hch with hz2 | ho
      · exact absurd hz2 hz
      · subst ho; exact ⟨_, LTree.withChild_one _ _ _ _ _ hz⟩
  unfold addBelow
  rw [get_mk, hL]
  simp only [ChunkBuff.size]
  rw [hwalk]
  dsimp only
  rw [get_mk, hP]
  simp only [Node.flag]
  have hgt : bP > d := hbP
  rw [if_pos hgt]
  rw [createLeafNode_mk _ _ _ _ _ (by omega)]
  dsimp only
  have eC : (buf ++ [Node.leaf none ⟨base, [mask]⟩])[C]? = some nodeC := by
    rw [List.getElem?_append_left hltC]; exact hC
  obtain ⟨buf4, hcp, hlen4, h4n1, h4n2, h4C, h4rest⟩ :=
    createParentNode_mk (ChunkBuff.grown cap buf.length)
      (buf ++ [Node.leaf none ⟨base, [mask]⟩]) r buf.length C d ⟨base, [mask]⟩ nodeC
      (getElem?_append_one_last _ _) eC (by omega) hleaf hinner hroot
  simp only [List.length_append, List.length_singleton] at hcp hlen4 h4n1 h4n2 h4C h4rest
  rw [hcp]
  dsimp only
  rw [setParentField_mk _ _ _ _ _ _ h4n2]
  dsimp only
  have e4P : (buf4.set (buf.length + 1)
      ((Node.inner d none
        (if base &&& (1 <<< d) ≠ 0 then some buf.length else some C)
        (if base &&& (1 <<< d) ≠ 0 then some C else some buf.length)).withParent
          (some P)))[P]? = some (Node.inner bP parP oP zP) := by
    rw [List.getElem?_set_ne (by omega), h4rest P (by omega) (Ne.symm hCP) (by omega),
      List.getElem?_append_left hltP]
    exact hP
  rw [replaceChild_mk _ _ _ _ _ nP _ _ e4P hnP]
  refine ⟨_, _, rfl, by simp [hlen4], ?_, ?_, ?_, ?_, ?_⟩
  · rw [List.getElem?_set_ne (by omega), List.getElem?_set_ne (by omega)]; exact h4n1
  · rw [List.getElem?_set_ne (by omega), List.getElem?_set_self (by omega)]; rfl
  · rw [List.getElem?_set_ne (Ne.symm hCP), List.getElem?_set_ne (by omega)]; exact h4C
  · rw [List.getElem?_set_self (by simp; omega)]; exact hnP.symm
  · intro i hiC hiP hlt
    rw [List.getElem?_set_ne (Ne.symm hiP), List.getElem?_set_ne (by omega),
      h4rest i (by omega) hiC (by omega), List.getElem?_append_left hlt]

end IpContainer


namespace LTree

/-- Every slot of the tree holds a leaf or an inner node. -/
theorem Rep.node_of_mem {buf : List Node} {t : LTree} {p : Nat} (h : Rep buf t p)
    {i : Nat} (hi : i ∈ t.indices) :
    ∃ n, buf[i]? = some n ∧ (∀ par c, n ≠ Node.root par c) ∧
      (∀ b par o z, n = Node.inner b par o z → b < 32) := by
  induction t generalizing p with
  | leaf j x =>
    simp only [indices, List.mem_singleton] at hi
    subst hi
    simp only [Rep] at h
    exact ⟨_, h, (by intro par c e; cases e), (by intro b par o z e; cases e)⟩
  | inner j b z o ihz iho =>
    simp only [Rep] at h
    obtain ⟨hb32, hnode, hrz, hro⟩ := h
    simp only [indices, List.mem_cons, List.mem_append] at hi
    rcases hi with hi | hi | hi
    · subst hi
      exact ⟨_, hnode, (by intro par c e; cases e), (by intro b2 par o2 z2 e; cases e; exact hb32)⟩
    · exact ihz hrz hi
    · exact iho hro hi

theorem spliceAt_low (base d : Nat) (t : LTree) (p : Nat)
    (hlow : ∀ i b z o, t = inner i b z o → b < d) : t.spliceAt base d p = (t.idx, p) := by
  cases t with
  | leaf i x => rfl
  | inner i b z o => rw [spliceAt, if_pos (hlow i b z o rfl)]; rfl

theorem splice_low (base d n1 n2 : Nat) (nd : DataNode) (t : LTree)
    (hlow : ∀ i b z o, t = inner i b z o → b < d) :
    t.splice base d n1 n2 nd = fork base d n1 n2 nd t := by
  cases t with
  | leaf i x => rfl
  | inner i b z o => rw [splice, if_pos (hlow i b z o rfl)]

/-- A leaf at the place of the splice is the candidate leaf. -/
theorem spliceAt_leaf_data (base d : Nat) {buf : List Node} {t : LTree} {p : Nat}
    (h : Rep buf t p) (par : pointer) (x : DataNode)
    (hx : buf[(t.spliceAt base d p).1]? = some (Node.leaf par x)) : x = (t.find base).2 := by
  induction t generalizing p with
  | leaf i y =>
    simp only [Rep] at h
    simp only [spliceAt] at hx
    rw [h] at hx
    cases hx
    rfl
  | inner i b z o ihz iho =>
    simp only [Rep] at h
    obtain ⟨hb32, hnode, hrz, hro⟩ := h
    by_cases hbd : b < d
    · rw [spliceAt, if_pos hbd] at hx
      dsimp only at hx
      rw [hnode] at hx
      cases hx
    · by_cases hbit : (1 <<< b) &&& base ≠ 0
      · rw [spliceAt, if_neg hbd, if_pos hbit] at hx
        rw [find, if_pos hbit]
        exact iho hro hx
      · rw [spliceAt, if_neg hbd, if_neg hbit] at hx
        rw [find, if_neg hbit]
        exact ihz hrz hx

/-- The node the walk up stops at: an inner node of the tree that branches at `d` or above, on
a bit where `base` agrees with the candidate leaf, with the node below it as a child. -/
theorem spliceAt_parent (base d : Nat) {buf : List Node} {t : LTree} {p : Nat}
    (h : Rep buf t p) (hi : Inv t) (hnd : t.indices.Nodup) :
    ∀ i b z o, t = inner i b z o → d ≤ b →
      ∃ bP par oP zP, buf[(t.spliceAt base d p).2]? = some (Node.inner bP par oP zP) ∧
        d ≤ bP ∧ base.testBit bP = (t.find base).2.ip.testBit bP ∧
        (t.spliceAt base d p).2 ∈ t.indices ∧ (t.spliceAt base d p).1 ∈ t.indices ∧
        (t.spliceAt base d p).1 ≠ (t.spliceAt base d p).2 ∧
        (t.spliceAt base d p).1 ≠ t.idx ∧
        (zP = some (t.spliceAt base d p).1 ∨ oP = some (t.spliceAt base d p).1) := by
  induction t generalizing p with
  | leaf i x => intro i2 b z o e; cases e
  | inner i b z o ihz iho =>
    intro i2 b2 z2 o2 e hdb
    cases e
    have hi0 := hi
    simp only [Rep] at h
    obtain ⟨hb32, hnode, hrz, hro⟩ := h
    simp only [Inv] at hi
    obtain ⟨hkz, hko, _, hiz, hio⟩ := hi
    simp only [indices, List.nodup_cons, List.mem_append, not_or, List.nodup_append] at hnd
    obtain ⟨⟨hnz, hno⟩, hndz, hndo, hdis⟩ := hnd
    by_cases hbit : (1 <<< b) &&& base ≠ 0
    · have e1 : (inner i b z o).spliceAt base d p = o.spliceAt base d i := by
        rw [spliceAt, if_neg (Nat.not_lt.2 hdb), if_pos hbit]
      have e2 : (inner i b z o).find base = o.find base := by
        rw [find, if_pos hbit]
      rw [e1, e2]
      by_cases hlow : ∀ i3 b3 z3 o3, o = inner i3 b3 z3 o3 → b3 < d
      · rw [spliceAt_low base d o i hlow]
        dsimp only
        refine ⟨b, some p, some o.idx, some z.idx, hnode, hdb, ?_, ?_, ?_, ?_, ?_, Or.inr rfl⟩
        · rw [hko _ (find_mem_keys base o)]
          exact (bit_iff b base).1 hbit
        · simp [indices]
        · simp [indices, idx_mem_indices o]
        · intro e; exact hno (by rw [← e]; exact idx_mem_indices o)
        · rw [idx_inner]; intro e; exact hno (by rw [← e]; exact idx_mem_indices o)
      · push_neg at hlow
        obtain ⟨i3, b3, z3, o3, e3, hdb3⟩ := hlow
        obtain ⟨bP, par, oP, zP, g1, g2, g3, g4, g5, g6, g7, g8⟩ :=
          iho hro hio hndo i3 b3 z3 o3 e3 hdb3
        refine ⟨bP, par, oP, zP, g1, g2, g3, ?_, ?_, g6, ?_, g8⟩
        · simp [indices, g4]
        · simp [indices, g5]
        · rw [idx_inner]; intro e; exact hno (by rw [← e]; exact g5)
    · have e1 : (inner i b z o).spliceAt base d p = z.spliceAt base d i := by
        rw [spliceAt, if_neg (Nat.not_lt.2 hdb), if_neg hbit]
      have e2 : (inner i b z o).find base = z.find base := by
        rw [find, if_neg hbit]
      rw [e1, e2]
      by_cases hlow : ∀ i3 b3 z3 o3, z = inner i3 b3 z3 o3 → b3 < d
      · rw [spliceAt_low base d z i hlow]
        dsimp only
        refine ⟨b, some p, some o.idx, some z.idx, hnode, hdb, ?_, ?_, ?_, ?_, ?_, Or.inl rfl⟩
        · rw [hkz _ (find_mem_keys base z)]
          have := (bit_iff b base).not.1 hbit
          simpa using this
        · simp [indices]
        · simp [indices, idx_mem_indices z]
        · intro e; exact hnz (by rw [← e]; exact idx_mem_indices z)
        · rw [idx_inner]; intro e; exact hnz (by rw [← e]; exact idx_mem_indices z)
      · push_neg at hlow
        obtain ⟨i3, b3, z3, o3, e3, hdb3⟩ := hlow
        obtain ⟨bP, par, oP, zP, g1, g2, g3, g4, g5, g6, g7, g8⟩ :=
          ihz hrz hiz hndz i3 b3 z3 o3 e3 hdb3
        refine ⟨bP, par, oP, zP, g1, g2, g3, ?_, ?_, g6, ?_, g8⟩
        · simp [indices, g4]
        · simp [indices, g5]
        · rw [idx_inner]; intro e; exact hnz (by rw [← e]; exact g5)

end LTree


namespace LTree

theorem bit_iff2 (b ip : Nat) : (ip &&& (1 <<< b) ≠ 0) ↔ ip.testBit b = true := by
  rw [Nat.land_comm]; exact bit_iff b ip

theorem find_ne_idx (base i b : Nat) (z o : LTree) (hnd : (inner i b z o).indices.Nodup) :
    ((inner i b z o).find base).1 ≠ i := by
  simp only [indices, List.nodup_cons, List.mem_append, not_or] at hnd
  rw [find]
  split
  · intro e; exact hnd.1.2 (by rw [← e]; exact find_mem_indices base o)
  · intro e; exact hnd.1.1 (by rw [← e]; exact find_mem_indices base z)

end LTree

namespace IpContainer

theorem add_dispatch {cap : Nat} {buf : List Node} {t : LTree}
    (h : WF ⟨⟨cap, buf⟩, some 1⟩ (some t)) (base : Nat) (mask : Int) (d : Nat)
    (hv : validate base mask = true) (hk : (t.find base).2.ip ≠ base)
    (hd : getDiffBit (t.find base).2.ip base = some d) :
    ((∀ i b z o, t = LTree.inner i b z o → b < d) →
      (IpContainer.mk ⟨cap, buf⟩ (some 1)).add base mask =
        ((IpContainer.mk ⟨cap, buf⟩ (some 1)).addOnTop base mask d).map (fun s1 => (s1, (0 : Int)))) ∧
    (∀ i b z o, t = LTree.inner i b z o → d ≤ b →
      (IpContainer.mk ⟨cap, buf⟩ (some 1)).add base mask =
        ((IpContainer.mk ⟨cap, buf⟩ (some 1)).addBelow base mask d
          (some (t.find base).1)).map (fun s1 => (s1, (0 : Int)))) := by
  have hfind := WF.findNode h base
  have hdata := WF.leafData h base
  have hroot := WF.rootChild h
  obtain ⟨hr, h0, h1, hrep, hnd, hrange, hinv⟩ := h
  dsimp only at hr h0 h1 hrep hrange
  have hpre : (IpContainer.mk ⟨cap, buf⟩ (some 1)).add base mask =
      if some (t.find base).1 = some t.idx then
        ((IpContainer.mk ⟨cap, buf⟩ (some 1)).addOnTop base mask d).map (fun s1 => (s1, (0 : Int)))
      else
        match (IpContainer.mk ⟨cap, buf⟩ (some 1)).get (some t.idx) with
        | none => none
        | some rc =>
          if !rc.isInner then none
          else if rc.flag < d then
            ((IpContainer.mk ⟨cap, buf⟩ (some 1)).addOnTop base mask d).map (fun s1 => (s1, (0 : Int)))
          else ((IpContainer.mk ⟨cap, buf⟩ (some 1)).addBelow base mask d
            (some (t.find base).1)).map (fun s1 => (s1, (0 : Int))) := by
    unfold add
    rw [hv]
    simp only [Bool.not_true, Bool.false_eq_true, if_false]
    rw [hroot]
    dsimp only
    rw [hfind]
    dsimp only
    rw [hdata]
    dsimp only
    rw [if_neg hk, hd]
    all_goals rfl
  constructor
  · intro hlow
    rw [hpre]
    cases t with
    | leaf i x => simp only [LTree.find, LTree.idx_leaf, eq_self_iff_true, if_true]
    | inner i b z o =>
      have hbd := hlow i b z o rfl
      have hne := LTree.find_ne_idx base i b z o hnd
      rw [LTree.idx_inner, if_neg (fun e => hne (Option.some.inj e)), get_mk]
      simp only [LTree.Rep] at hrep
      rw [hrep.2.1]
      dsimp only
      rw [LTree.isInner_inner _ _ _ _ hrep.1]
      simp only [Bool.not_true, Bool.false_eq_true, if_false, Node.flag, if_pos hbd]
  · intro i b z o e hdb
    subst e
    rw [hpre]
    have hne := LTree.find_ne_idx base i b z o hnd
    rw [LTree.idx_inner, if_neg (fun e => hne (Option.some.inj e)), get_mk]
    simp only [LTree.Rep] at hrep
    rw [hrep.2.1]
    dsimp only
    rw [LTree.isInner_inner _ _ _ _ hrep.1]
    simp only [Bool.not_true, Bool.false_eq_true, if_false, Node.flag,
      if_neg (Nat.not_lt.2 hdb)]

end IpContainer


namespace IpContainer

/-- `add` of a key that has no leaf yet: the new leaf and a new inner node are spliced in at
the divergence bit. -/
theorem add_new {s : IpContainer} {t : LTree} (h : WF s (some t)) (base : Nat) (mask : Int)
    (hv : validate base mask = true) (hk : (t.find base).2.ip ≠ base) :
    ∃ s1 d, getDiffBit (t.find base).2.ip base = some d ∧ s.add base mask = some (s1, 0) ∧
      WF s1 (some (t.splice base d s.node_alloc.buf.length (s.node_alloc.buf.length + 1)
        { ip := base, prefixes := [mask] })) := by
  obtain ⟨⟨cap, buf⟩, r⟩ := s
  have hr : r = some 1 := h.1
  subst hr
  have h' := h
  obtain ⟨_, h0, h1, hrep, hnd, hrange, hinv⟩ := h
  dsimp only at h0 h1 hrep hrange ⊢
  have hkey32 := LeafOk_ip_lt (LTree.Inv.leafOk hinv _ (LTree.find_mem_leaves base t))
  have hbase32 : base < 4294967296 := by
    have := (validate_eq_true_iff base mask).1 hv
    omega
  obtain ⟨d, hd, hd31, hdiff, habove⟩ := getDiffBit_spec _ _ hkey32 hbase32 hk
  have hdisp := add_dispatch h' base mask d hv hk hd
  have hlen2 : 2 ≤ buf.length := by
    have := lt_of_getElem? h1
    omega
  have hn1 : buf.length ∉ t.indices := fun hm => by
    have := (hrange _).1 hm
    omega
  have hn2 : buf.length + 1 ∉ t.indices := fun hm => by
    have := (hrange _).1 hm
    omega
  have h1n : 1 ∉ t.indices := fun hm => by
    have := (hrange _).1 hm
    omega
  have hbitne : decide ((t.find base).2.ip &&& (1 <<< d) ≠ 0) =
      !decide (base &&& (1 <<< d) ≠ 0) := by
    by_cases hb : base.testBit d = true
    · have hx : ¬ ((t.find base).2.ip &&& (1 <<< d) ≠ 0) := by
        intro hc
        exact hdiff (((LTree.bit_iff2 d _).1 hc).trans hb.symm)
      rw [decide_eq_true ((LTree.bit_iff2 d base).2 hb), decide_eq_false hx]
      rfl
    · have hb2 : ¬ (base &&& (1 <<< d) ≠ 0) := fun hc => hb ((LTree.bit_iff2 d base).1 hc)
      have hx : (t.find base).2.ip &&& (1 <<< d) ≠ 0 := by
        rw [LTree.bit_iff2]
        cases hh : (t.find base).2.ip.testBit d
        · exfalso
          apply hdiff
          rw [hh]
          cases hh2 : base.testBit d
          · rfl
          · exact absurd hh2 hb
        · rfl
      rw [decide_eq_true hx, decide_eq_false hb2]
      rfl
  have hinvS := LTree.Inv.splice hinv base d buf.length (buf.length + 1)
    { ip := base, prefixes := [mask] } (leafOk_single base mask hv) rfl hdiff habove
  have hperm := LTree.indices_splice_perm base d buf.length (buf.length + 1)
    { ip := base, prefixes := [mask] } t
  have hndS : (t.splice base d buf.length (buf.length + 1)
      { ip := base, prefixes := [mask] }).indices.Nodup := by
    rw [hperm.nodup_iff]
    simp only [List.nodup_cons, List.mem_cons, not_or]
    exact ⟨⟨by omega, hn2⟩, hn1, hnd⟩
  have hrangeS : ∀ buf5 : List Node, buf5.length = buf.length + 2 →
      ∀ i, i ∈ (t.splice base d buf.length (buf.length + 1)
        { ip := base, prefixes := [mask] }).indices ↔ 2 ≤ i ∧ i < buf5.length := by
    intro buf5 hl i
    rw [hperm.mem_iff, hl]
    simp only [List.mem_cons]
    rw [hrange i]
    omega
  by_cases hlow : ∀ i b z o, t = LTree.inner i b z o → b < d
  · obtain ⟨nodeC, hC, hCroot, hCinner⟩ := LTree.Rep.node_of_mem hrep (LTree.idx_mem_indices t)
    have hCleaf : ∀ par x, nodeC = Node.leaf par x →
        decide (x.ip &&& (1 <<< d) ≠ 0) = !decide (base &&& (1 <<< d) ≠ 0) := by
      intro par x e
      subst e
      have := LTree.spliceAt_leaf_data base d hrep par x
        (by rw [LTree.spliceAt_low base d t 1 hlow]; exact hC)
      rw [this]
      exact hbitne
    have hidxrange := (hrange _).1 (LTree.idx_mem_indices t)
    obtain ⟨cap5, buf5, hexec, hl5, g1, g2, g3, g4, g5⟩ :=
      addOnTop_mk cap buf t.idx d base mask nodeC h1 hC hCleaf hCinner hCroot
    refine ⟨⟨⟨cap5, buf5⟩, some 1⟩, d, hd, ?_, ?_⟩
    · rw [hdisp.1 hlow, hexec]
      rfl
    · have hidx : (t.splice base d buf.length (buf.length + 1)
          { ip := base, prefixes := [mask] }).idx = buf.length + 1 := by
        rw [LTree.splice_low _ _ _ _ _ _ hlow]
        unfold LTree.fork
        split <;> rfl
      refine ⟨rfl, ?_, ?_, ?_, hndS, hrangeS buf5 hl5, hinvS⟩
      · dsimp only
        rw [g5 0 (by omega) (by omega) (by omega)]
        exact h0
      · dsimp only
        rw [hidx]
        exact g4
      · dsimp only
        rw [LTree.splice_low _ _ _ _ _ _ hlow]
        exact LTree.Rep.heap_fork hrep hnd base d _ _ _ (by omega) g1 g2 (by rw [g3, hC]; rfl)
          (fun i hi hne => g5 i hne (fun e => h1n (e ▸ hi)) ((hrange i).1 hi).2)
  · push_neg at hlow
    obtain ⟨i, b, z, o, e, hdb⟩ := hlow
    obtain ⟨bP, par, oP, zP, p1, p2, p3, p4, p5, p6, p7, p8⟩ :=
      LTree.spliceAt_parent base d hrep hinv hnd i b z o e hdb
    have hbP : d < bP := by
      rcases Nat.lt_or_ge d bP with hl | hg
      · exact hl
      · have e2 : bP = d := by omega
        rw [e2] at p3
        exact absurd p3.symm hdiff
    obtain ⟨nodeC, hC, hCroot, hCinner⟩ := LTree.Rep.node_of_mem hrep p5
    have hCleaf : ∀ par x, nodeC = Node.leaf par x →
        decide (x.ip &&& (1 <<< d) ≠ 0) = !decide (base &&& (1 <<< d) ≠ 0) := by
      intro par x e
      subst e
      have := LTree.spliceAt_leaf_data base d hrep par x hC
      rw [this]
      exact hbitne
    have hL := LTree.Rep.find base hrep
    have hwalk : walkUpLoop ⟨cap, buf⟩ d buf.length (some (t.find base).1)
        (Node.leaf (some (t.findParent base 1)) (t.find base).2).parentField =
        some (some (t.spliceAt base d 1).1, some (t.spliceAt base d 1).2) := by
      have hpl := LTree.pathLen_lt_length base t
      have hlb := WF.length_bound h'
      have := (LTree.walkUp_rep cap base d hrep hinv).2 (buf.length - t.pathLen base)
        i b z o e hdb
      rw [Nat.add_sub_cancel' (by omega)] at this
      exact this
    have hPrange := (hrange _).1 p4
    have hCrange := (hrange _).1 p5
    obtain ⟨cap5, buf5, hexec, hl5, g1, g2, g3, g4, g5⟩ :=
      addBelow_mk cap buf (some 1) (t.find base).1 (t.spliceAt base d 1).1
        (t.spliceAt base d 1).2 d base mask _ nodeC bP par oP zP hL hwalk p1 hbP p8 hC p6
        hCleaf hCinner hCroot
    refine ⟨⟨⟨cap5, buf5⟩, some 1⟩, d, hd, ?_, ?_⟩
    · rw [hdisp.2 i b z o e hdb, hexec]
      rfl
    · have hidx : (t.splice base d buf.length (buf.length + 1)
          { ip := base, prefixes := [mask] }).idx = t.idx := by
        rcases LTree.spliceAt_cases base d buf.length (buf.length + 1)
          { ip := base, prefixes := [mask] } t 1 hnd with ⟨e1, _⟩ | ⟨_, _, _, e2⟩
        · exact absurd (congrArg Prod.fst e1) p7
        · exact e2
      refine ⟨rfl, ?_, ?_, ?_, hndS, hrangeS buf5 hl5, hinvS⟩
      · dsimp only
        rw [g5 0 (by omega) (by omega) (by omega)]
        exact h0
      · dsimp only
        rw [hidx, g5 1 (by omega) (by omega) (by omega)]
        exact h1
      · dsimp only
        exact LTree.Rep.heap_splice hrep hnd base d _ _ _ (by omega) h1n g1 g2
          (by rw [g3, hC]; rfl) (fun _ => by rw [g4, p1]; rfl)
          (fun i hi ha hb => g5 i ha hb ((hrange i).1 hi).2)

end IpContainer


namespace LTree

theorem removeAt_one_leaf (ip i b j : Nat) (z : LTree) (x : DataNode)
    (h : (1 <<< b) &&& ip ≠ 0) : (inner i b z (leaf j x)).removeAt ip = z := by
  simp only [removeAt, if_pos h]

theorem removeAt_one_inner (ip i b j b2 : Nat) (z z2 o2 : LTree)
    (h : (1 <<< b) &&& ip ≠ 0) :
    (inner i b z (inner j b2 z2 o2)).removeAt ip =
      inner i b z ((inner j b2 z2 o2).removeAt ip) := by
  simp only [removeAt, if_pos h]

theorem removeAt_zero_leaf (ip i b j : Nat) (o : LTree) (x : DataNode)
    (h : ¬ (1 <<< b) &&& ip ≠ 0) : (inner i b (leaf j x) o).removeAt ip = o := by
  simp only [removeAt, if_neg h]

theorem removeAt_zero_inner (ip i b j b2 : Nat) (o z2 o2 : LTree)
    (h : ¬ (1 <<< b) &&& ip ≠ 0) :
    (inner i b (inner j b2 z2 o2) o).removeAt ip =
      inner i b ((inner j b2 z2 o2).removeAt ip) o := by
  simp only [removeAt, if_neg h]

theorem unlinkAt_one_leaf (ip i b j p : Nat) (z : LTree) (x : DataNode)
    (h : (1 <<< b) &&& ip ≠ 0) : (inner i b z (leaf j x)).unlinkAt ip p = (z.idx, p) := by
  simp only [unlinkAt, if_pos h]

theorem unlinkAt_one_inner (ip i b j b2 p : Nat) (z z2 o2 : LTree)
    (h : (1 <<< b) &&& ip ≠ 0) :
    (inner i b z (inner j b2 z2 o2)).unlinkAt ip p = (inner j b2 z2 o2).unlinkAt ip i := by
  simp only [unlinkAt, if_pos h]

theorem unlinkAt_zero_leaf (ip i b j p : Nat) (o : LTree) (x : DataNode)
    (h : ¬ (1 <<< b) &&& ip ≠ 0) : (inner i b (leaf j x) o).unlinkAt ip p = (o.idx, p) := by
  simp only [unlinkAt, if_neg h]

theorem unlinkAt_zero_inner (ip i b j b2 p : Nat) (o z2 o2 : LTree)
    (h : ¬ (1 <<< b) &&& ip ≠ 0) :
    (inner i b (inner j b2 z2 o2) o).unlinkAt ip p = (inner j b2 z2 o2).unlinkAt ip i := by
  simp only [unlinkAt, if_neg h]

theorem findParent_mem (ip : Nat) (t : LTree) (p : Nat) :
    t.findParent ip p = p ∨ t.findParent ip p ∈ t.indices := by
  induction t generalizing p with
  | leaf i x => left; rfl
  | inner i b z o ihz iho =>
    right
    rw [findParent]
    split
    · rcases iho i with e | e
      · rw [e]; simp [indices]
      · simp [indices, e]
    · rcases ihz i with e | e
      · rw [e]; simp [indices]
      · simp [indices, e]

/-- Where the removal of a leaf changes the tree: either the leaf hangs directly below the top
node, which its sibling replaces, or everything happens strictly below the top node. -/
theorem unlinkAt_cases (ip : Nat) (t : LTree) (p : Nat) (hnd : t.indices.Nodup)
    (hin : ∀ j x, t ≠ leaf j x) :
    ((t.unlinkAt ip p).2 = p ∧ t.findParent ip p = t.idx ∧
      (t.removeAt ip).idx = (t.unlinkAt ip p).1 ∧
      (t.unlinkAt ip p).1 ∈ t.indices ∧ (t.unlinkAt ip p).1 ≠ t.idx) ∨
    ((t.unlinkAt ip p).2 ∈ t.indices ∧ (t.unlinkAt ip p).1 ∈ t.indices ∧
      (t.unlinkAt ip p).1 ≠ t.idx ∧ t.findParent ip p ∈ t.indices ∧
      t.findParent ip p ≠ t.idx ∧ (t.removeAt ip).idx = t.idx) := by
  induction t generalizing p with
  | leaf i x => exact absurd rfl (hin i x)
  | inner i b z o ihz iho =>
    have hnd0 := hnd
    simp only [indices, List.nodup_cons, List.mem_append, not_or, List.nodup_append] at hnd
    obtain ⟨⟨hiz, hio⟩, hnz, hno, hdis⟩ := hnd
    by_cases hbit : (1 <<< b) &&& ip ≠ 0
    · cases o with
      | leaf j x =>
        left
        rw [unlinkAt_one_leaf _ _ _ _ _ _ _ hbit, removeAt_one_leaf _ _ _ _ _ _ hbit]
        refine ⟨rfl, ?_, rfl, ?_, ?_⟩
        · simp only [findParent, if_pos hbit, idx]
        · simp [indices, idx_mem_indices z]
        · rw [idx_inner]; intro e; exact hiz (by rw [← e]; exact idx_mem_indices z)
      | inner j b2 z2 o2 =>
        right
        rw [unlinkAt_one_inner _ _ _ _ _ _ _ _ _ hbit, removeAt_one_inner _ _ _ _ _ _ _ _ hbit]
        have efp : (inner i b z (inner j b2 z2 o2)).findParent ip p =
            (inner j b2 z2 o2).findParent ip i := by
          rw [findParent, if_pos hbit]
        rw [efp, idx_inner, idx_inner]
        have hsub : ∀ k, k ∈ (inner j b2 z2 o2).indices →
            k ∈ (inner i b z (inner j b2 z2 o2)).indices := by
          intro k hk
          simp only [indices, List.mem_cons, List.mem_append] at hk ⊢
          right; right; exact hk
        have hne : ∀ k, k ∈ (inner j b2 z2 o2).indices → k ≠ i := by
          intro k hk e; rw [e] at hk; exact hio hk
        rcases iho i hno (by intro j2 x2 e; cases e) with ⟨a1, a2, a3, a4, a5⟩ | ⟨a1, a2, a3, a4, a5, a6⟩
        · refine ⟨?_, hsub _ a4, hne _ a4, ?_, ?_, rfl⟩
          · rw [a1]; simp [indices]
          · rw [a2]; exact hsub _ (idx_mem_indices _)
          · rw [a2]; exact hne _ (idx_mem_indices _)
        · exact ⟨hsub _ a1, hsub _ a2, hne _ a2, hsub _ a4, hne _ a4, rfl⟩
    · cases z with
      | leaf j x =>
        left
        rw [unlinkAt_zero_leaf _ _ _ _ _ _ _ hbit, removeAt_zero_leaf _ _ _ _ _ _ hbit]
        refine ⟨rfl, ?_, rfl, ?_, ?_⟩
        · simp only [findParent, if_neg hbit, idx]
        · simp [indices, idx_mem_indices o]
        · rw [idx_inner]; intro e; exact hio (by rw [← e]; exact idx_mem_indices o)
      | inner j b2 z2 o2 =>
        right
        rw [unlinkAt_zero_inner _ _ _ _ _ _ _ _ _ hbit, removeAt_zero_inner _ _ _ _ _ _ _ _ hbit]
        have efp : (inner i b (inner j b2 z2 o2) o).findParent ip p =
            (inner j b2 z2 o2).findParent ip i := by
          rw [findParent, if_neg hbit]
        rw [efp, idx_inner, idx_inner]
        have hsub : ∀ k, k ∈ (inner j b2 z2 o2).indices →
            k ∈ (inner i b (inner j b2 z2 o2) o).indices := by
          intro k hk
          simp only [indices, List.mem_cons, List.mem_append] at hk ⊢
          right; left; exact hk
        have hne : ∀ k, k ∈ (inner j b2 z2 o2).indices → k ≠ i := by
          intro k hk e; rw [e] at hk; exact hiz hk
        rcases ihz i hnz (by intro j2 x2 e; cases e) with ⟨a1, a2, a3, a4, a5⟩ | ⟨a1, a2, a3, a4, a5, a6⟩
        · refine ⟨?_, hsub _ a4, hne _ a4, ?_, ?_, rfl⟩
          · rw [a1]; simp [indices]
          · rw [a2]; exact hsub _ (idx_mem_indices _)
          · rw [a2]; exact hne _ (idx_mem_indices _)
        · exact ⟨hsub _ a1, hsub _ a2, hne _ a2, hsub _ a4, hne _ a4, rfl⟩

end LTree


namespace LTree

/-- The arena after the sibling of a removed leaf is linked in place of their parent holds the
tree without that leaf. -/
theorem Rep.heap_removeAt {buf buf2 : List Node} {t : LTree} {p : Nat} (h : Rep buf t p)
    (hnd : t.indices.Nodup) (hp : p ∉ t.indices) (ip : Nat) (hin : ∀ j x, t ≠ leaf j x)
    (hS : buf2[(t.unlinkAt ip p).1]? =
      (buf[(t.unlinkAt ip p).1]?).map (fun n => n.withParent (some (t.unlinkAt ip p).2)))
    (hG : (t.unlinkAt ip p).2 ∈ t.indices → buf2[(t.unlinkAt ip p).2]? =
      (buf[(t.unlinkAt ip p).2]?).bind
        (fun n => n.withChild (some (t.findParent ip p)) (some (t.unlinkAt ip p).1)))
    (hrest : ∀ i ∈ t.indices, i ≠ (t.unlinkAt ip p).1 → i ≠ (t.unlinkAt ip p).2 →
      i ≠ (t.find ip).1 → i ≠ t.findParent ip p → buf2[i]? = buf[i]?) :
    Rep buf2 (t.removeAt ip) p := by
  induction t generalizing p with
  | leaf i x => exact absurd rfl (hin i x)
  | inner i b z o ihz iho =>
    have hnd0 := hnd
    simp only [indices, List.nodup_cons, List.mem_append, not_or, List.nodup_append] at hnd
    obtain ⟨⟨hiz, hio⟩, hnz, hno, hdis⟩ := hnd
    simp only [Rep] at h
    obtain ⟨hb32, hnode, hrz, hro⟩ := h
    have hpz : p ∉ z.indices := fun hm => hp (by simp [indices, hm])
    have hpo : p ∉ o.indices := fun hm => hp (by simp [indices, hm])
    by_cases hbit : (1 <<< b) &&& ip ≠ 0
    · cases o with
      | leaf j x =>
        rw [removeAt_one_leaf _ _ _ _ _ _ hbit]
        rw [unlinkAt_one_leaf _ _ _ _ _ _ _ hbit] at hS hrest
        simp only [LTree.find, LTree.findParent, if_pos hbit] at hrest
        dsimp only at hS hrest
        apply Rep.reparent hrz hS _ hnz
        intro k hk hne
        apply hrest k (by simp [indices, hk]) hne
        · intro e; rw [e] at hk; exact hpz hk
        · intro e; rw [e] at hk; exact hdis hk (by simp [indices])
        · intro e; rw [e] at hk; exact hiz hk
      | inner j b2 z2 o2 =>
        rw [removeAt_one_inner _ _ _ _ _ _ _ _ hbit]
        rw [unlinkAt_one_inner _ _ _ _ _ _ _ _ _ hbit] at hS hG hrest
        have efp : (inner i b z (inner j b2 z2 o2)).findParent ip p =
            (inner j b2 z2 o2).findParent ip i := by
          rw [LTree.findParent, if_pos hbit]
        have efd : (inner i b z (inner j b2 z2 o2)).find ip = (inner j b2 z2 o2).find ip := by
          rw [LTree.find, if_pos hbit]
        rw [efp] at hG hrest
        rw [efd] at hrest
        have hsub : ∀ k, k ∈ (inner j b2 z2 o2).indices →
            k ∈ (inner i b z (inner j b2 z2 o2)).indices := by
          intro k hk
          simp only [indices, List.mem_cons, List.mem_append] at hk ⊢
          right; right; exact hk
        have ihres := iho hro hno hio (by intro j2 x2 e; cases e) hS
          (fun hm => hG (hsub _ hm)) (fun k hk => hrest k (hsub k hk))
        have hL := find_mem_indices ip (inner j b2 z2 o2)
        have hc := unlinkAt_cases ip (inner j b2 z2 o2) i hno (by intro j2 x2 e; cases e)
        simp only [Rep]
        refine ⟨hb32, ?_, ?_, ihres⟩
        · rcases hc with ⟨a1, a2, a3, a4, a5⟩ | ⟨a1, a2, a3, a4, a5, a6⟩
          · rw [a1, a2] at hG
            rw [a3]
            have hzo : z.idx ≠ j := by
              intro e; exact hdis (idx_mem_indices z) (by rw [e]; simp [indices])
            rw [hG (by simp [indices]), hnode, Option.some_bind, idx_inner,
              withChild_one _ _ _ _ _ (by intro e; exact hzo (Option.some.inj e))]
          · rw [a6, hrest i (by simp [indices]) (fun e => hio (e ▸ a2)) (fun e => hio (e ▸ a1))
              (fun e => hio (e ▸ hL)) (fun e => hio (e ▸ a4))]
            exact hnode
        · apply Rep.frame hrz
          intro k hk
          have hko : ∀ m, m ∈ (inner j b2 z2 o2).indices → k ≠ m := by
            intro m hm e; rw [e] at hk; exact hdis hk hm
          have hki : k ≠ i := by intro e; rw [e] at hk; exact hiz hk
          rcases hc with ⟨a1, a2, a3, a4, a5⟩ | ⟨a1, a2, a3, a4, a5, a6⟩
          · apply hrest k (by simp [indices, hk]) (hko _ a4) _ (hko _ hL)
            · rw [a2]; exact hko _ (idx_mem_indices _)
            · rw [a1]; exact hki
          · exact hrest k (by simp [indices, hk]) (hko _ a2) (hko _ a1) (hko _ hL) (hko _ a4)
    · cases z with
      | leaf j x =>
        rw [removeAt_zero_leaf _ _ _ _ _ _ hbit]
        rw [unlinkAt_zero_leaf _ _ _ _ _ _ _ hbit] at hS hrest
        simp only [LTree.find, LTree.findParent, if_neg hbit] at hrest
        dsimp only at hS hrest
        apply Rep.reparent hro hS _ hno
        intro k hk hne
        apply hrest k (by simp [indices, hk]) hne
        · intro e; rw [e] at hk; exact hpo hk
        · intro e; rw [e] at hk; exact hdis (by simp [indices]) hk
        · intro e; rw [e] at hk; exact hio hk
      | inner j b2 z2 o2 =>
        rw [removeAt_zero_inner _ _ _ _ _ _ _ _ hbit]
        rw [unlinkAt_zero_inner _ _ _ _ _ _ _ _ _ hbit] at hS hG hrest
        have efp : (inner i b (inner j b2 z2 o2) o).findParent ip p =
            (inner j b2 z2 o2).findParent ip i := by
          rw [LTree.findParent, if_neg hbit]
        have efd : (inner i b (inner j b2 z2 o2) o).find ip = (inner j b2 z2 o2).find ip := by
          rw [LTree.find, if_neg hbit]
        rw [efp] at hG hrest
        rw [efd] at hrest
        have hsub : ∀ k, k ∈ (inner j b2 z2 o2).indices →
            k ∈ (inner i b (inner j b2 z2 o2) o).indices := by
          intro k hk
          simp only [indices, List.mem_cons, List.mem_append] at hk ⊢
          right; left; exact hk
        have ihres := ihz hrz hnz hiz (by intro j2 x2 e; cases e) hS
          (fun hm => hG (hsub _ hm)) (fun k hk => hrest k (hsub k hk))
        have hL := find_mem_indices ip (inner j b2 z2 o2)
        have hc := unlinkAt_cases ip (inner j b2 z2 o2) i hnz (by intro j2 x2 e; cases e)
        simp only [Rep]
        refine ⟨hb32, ?_, ihres, ?_⟩
        · rcases hc with ⟨a1, a2, a3, a4, a5⟩ | ⟨a1, a2, a3, a4, a5, a6⟩
          · rw [a1, a2] at hG
            rw [a3]
            rw [hG (by simp [indices]), hnode, Option.some_bind, idx_inner, withChild_zero]
          · rw [a6, hrest i (by simp [indices]) (fun e => hiz (e ▸ a2)) (fun e => hiz (e ▸ a1))
              (fun e => hiz (e ▸ hL)) (fun e => hiz (e ▸ a4))]
            exact hnode
        · apply Rep.frame hro
          intro k hk
          have hko : ∀ m, m ∈ (inner j b2 z2 o2).indices → k ≠ m := by
            intro m hm e; rw [e] at hk; exact hdis hm hk
          have hki : k ≠ i := by intro e; rw [e] at hk; exact hio hk
          rcases hc with ⟨a1, a2, a3, a4, a5⟩ | ⟨a1, a2, a3, a4, a5, a6⟩
          · apply hrest k (by simp [indices, hk]) (hko _ a4) _ (hko _ hL)
            · rw [a2]; exact hko _ (idx_mem_indices _)
            · rw [a1]; exact hki
          · exact hrest k (by simp [indices, hk]) (hko _ a2) (hko _ a1) (hko _ hL) (hko _ a4)

end LTree


namespace LTree

/-- The nodes `del` touches when it unlinks the leaf the descent on `ip` ends at: the parent
of the leaf is an inner node with the leaf and its sibling as children, and the node above is
the parent of the top node or an inner node of the tree. -/
theorem unlink_nodes (ip : Nat) {buf : List Node} {t : LTree} {p : Nat} (h : Rep buf t p)
    (hnd : t.indices.Nodup) (hp : p ∉ t.indices) (hin : ∀ j x, t ≠ leaf j x) :
    ∃ bO oO zO, buf[t.findParent ip p]? =
        some (Node.inner bO (some (t.unlinkAt ip p).2) oO zO) ∧
      ((zO = some (t.find ip).1 ∧ oO = some (t.unlinkAt ip p).1) ∨
        (oO = some (t.find ip).1 ∧ zO = some (t.unlinkAt ip p).1)) ∧
      t.findParent ip p ∈ t.indices ∧ (t.unlinkAt ip p).1 ∈ t.indices ∧
      (t.find ip).1 ≠ (t.unlinkAt ip p).1 ∧ (t.find ip).1 ≠ t.findParent ip p ∧
      (t.unlinkAt ip p).1 ≠ t.findParent ip p ∧
      (t.unlinkAt ip p).2 ≠ (t.find ip).1 ∧ (t.unlinkAt ip p).2 ≠ (t.unlinkAt ip p).1 ∧
      (t.unlinkAt ip p).2 ≠ t.findParent ip p ∧
      (((t.unlinkAt ip p).2 = p ∧ t.findParent ip p = t.idx) ∨
        ((t.unlinkAt ip p).2 ∈ t.indices ∧ ∃ bG parG oG zG,
          buf[(t.unlinkAt ip p).2]? = some (Node.inner bG parG oG zG) ∧
          (zG = some (t.findParent ip p) ∨ oG = some (t.findParent ip p)))) := by
  induction t generalizing p with
  | leaf i x => exact absurd rfl (hin i x)
  | inner i b z o ihz iho =>
    have hnd0 := hnd
    simp only [indices, List.nodup_cons, List.mem_append, not_or, List.nodup_append] at hnd
    obtain ⟨⟨hiz, hio⟩, hnz, hno, hdis⟩ := hnd
    simp only [Rep] at h
    obtain ⟨hb32, hnode, hrz, hro⟩ := h
    have hpi : p ≠ i := fun e => hp (by simp [indices, e])
    have hpz : p ∉ z.indices := fun hm => hp (by simp [indices, hm])
    have hpo : p ∉ o.indices := fun hm => hp (by simp [indices, hm])
    by_cases hbit : (1 <<< b) &&& ip ≠ 0
    · cases o with
      | leaf j x =>
        rw [unlinkAt_one_leaf _ _ _ _ _ _ _ hbit]
        simp only [LTree.find, LTree.findParent, if_pos hbit]
        have hjz : j ∉ z.indices := fun hm => hdis hm (by simp [indices])
        have hji : i ≠ j := fun e => hio (by simp [indices, e])
        refine ⟨b, some j, some z.idx, hnode, Or.inr ⟨rfl, rfl⟩, by simp [indices],
          by simp [indices, idx_mem_indices z], ?_, ?_, ?_, ?_, ?_, hpi,
          (by first | exact Or.inl ⟨rfl, rfl⟩ | exact Or.inl ⟨trivial, rfl⟩)⟩
        · intro e; exact hjz (by rw [e]; exact idx_mem_indices z)
        · exact fun e => hji e.symm
        · intro e; exact hiz (by rw [← e]; exact idx_mem_indices z)
        · intro e; exact hpo (by simp [indices, e])
        · intro e; exact hpz (by rw [e]; exact idx_mem_indices z)
      | inner j b2 z2 o2 =>
        rw [unlinkAt_one_inner _ _ _ _ _ _ _ _ _ hbit]
        have efp : (inner i b z (inner j b2 z2 o2)).findParent ip p =
            (inner j b2 z2 o2).findParent ip i := by
          rw [LTree.findParent, if_pos hbit]
        have efd : (inner i b z (inner j b2 z2 o2)).find ip = (inner j b2 z2 o2).find ip := by
          rw [LTree.find, if_pos hbit]
        rw [efp, efd]
        have hsub : ∀ k, k ∈ (inner j b2 z2 o2).indices →
            k ∈ (inner i b z (inner j b2 z2 o2)).indices := by
          intro k hk
          simp only [indices, List.mem_cons, List.mem_append] at hk ⊢
          right; right; exact hk
        obtain ⟨bO, oO, zO, g1, g2, g3, g4, g5, g6, g7, g8, g9, g10, g11⟩ :=
          iho hro hno hio (by intro j2 x2 e; cases e)
        refine ⟨bO, oO, zO, g1, g2, hsub _ g3, hsub _ g4, g5, g6, g7, g8, g9, g10, Or.inr ?_⟩
        rcases g11 with ⟨e1, e2⟩ | ⟨m, r⟩
        · rw [e1, e2]
          exact ⟨by simp [indices], b, some p, some (inner j b2 z2 o2).idx, some z.idx, hnode,
            Or.inr rfl⟩
        · exact ⟨hsub _ m, r⟩
    · cases z with
      | leaf j x =>
        rw [unlinkAt_zero_leaf _ _ _ _ _ _ _ hbit]
        simp only [LTree.find, LTree.findParent, if_neg hbit]
        have hjo : j ∉ o.indices := fun hm => hdis (by simp [indices]) hm
        have hji : i ≠ j := fun e => hiz (by simp [indices, e])
        refine ⟨b, some o.idx, some j, hnode, Or.inl ⟨rfl, rfl⟩, by simp [indices],
          by simp [indices, idx_mem_indices o], ?_, ?_, ?_, ?_, ?_, hpi,
          (by first | exact Or.inl ⟨rfl, rfl⟩ | exact Or.inl ⟨trivial, rfl⟩)⟩
        · intro e; exact hjo (by rw [e]; exact idx_mem_indices o)
        · exact fun e => hji e.symm
        · intro e; exact hio (by rw [← e]; exact idx_mem_indices o)
        · intro e; exact hpz (by simp [indices, e])
        · intro e; exact hpo (by rw [e]; exact idx_mem_indices o)
      | inner j b2 z2 o2 =>
        rw [unlinkAt_zero_inner _ _ _ _ _ _ _ _ _ hbit]
        have efp : (inner i b (inner j b2 z2 o2) o).findParent ip p =
            (inner j b2 z2 o2).findParent ip i := by
          rw [LTree.findParent, if_neg hbit]
        have efd : (inner i b (inner j b2 z2 o2) o).find ip = (inner j b2 z2 o2).find ip := by
          rw [LTree.find, if_neg hbit]
        rw [efp, efd]
        have hsub : ∀ k, k ∈ (inner j b2 z2 o2).indices →
            k ∈ (inner i b (inner j b2 z2 o2) o).indices := by
          intro k hk
          simp only [indices, List.mem_cons, List.mem_append] at hk ⊢
          right; left; exact hk
        obtain ⟨bO, oO, zO, g1, g2, g3, g4, g5, g6, g7, g8, g9, g10, g11⟩ :=
          ihz hrz hnz hiz (by intro j2 x2 e; cases e)
        refine ⟨bO, oO, zO, g1, g2, hsub _ g3, hsub _ g4, g5, g6, g7, g8, g9, g10, Or.inr ?_⟩
        rcases g11 with ⟨e1, e2⟩ | ⟨m, r⟩
        · rw [e1, e2]
          exact ⟨by simp [indices], b, some p, some o.idx, some (inner j b2 z2 o2).idx, hnode,
            Or.inl rfl⟩
        · exact ⟨hsub _ m, r⟩

/-- The children of a node of the tree have it as their parent. -/
theorem Rep.children_parent {buf : List Node} {t : LTree} {p : Nat} (h : Rep buf t p)
    (cap : Nat) {i b : Nat} {par one zero : pointer} (hi : i ∈ t.indices)
    (hn : buf[i]? = some (Node.inner b par one zero)) :
    ChunkBuff.getParentAt ⟨cap, buf⟩ one = some (some i) ∧
      ChunkBuff.getParentAt ⟨cap, buf⟩ zero = some (some i) := by
  induction t generalizing p with
  | leaf j x =>
    simp only [indices, List.mem_singleton] at hi
    subst hi
    simp only [Rep] at h
    rw [h] at hn
    cases hn
  | inner j b2 z o ihz iho =>
    simp only [Rep] at h
    obtain ⟨hb32, hnode, hrz, hro⟩ := h
    simp only [indices, List.mem_cons, List.mem_append] at hi
    rcases hi with hi | hi | hi
    · subst hi
      rw [hnode] at hn
      cases hn
      obtain ⟨n1, e1, _, e2, _⟩ := Rep.top hro
      obtain ⟨n2, e3, _, e4, _⟩ := Rep.top hrz
      constructor
      · simp only [ChunkBuff.getParentAt, ChunkBuff.get, e1, e2]
      · simp only [ChunkBuff.getParentAt, ChunkBuff.get, e3, e4]
    · exact ihz hrz hi
    · exact iho hro hi

end LTree


namespace IpContainer

theorem disconnectNode_leaf (cap : Nat) (buf : List Node) (r : pointer) (i : Nat)
    (par : pointer) (d : DataNode) (h : buf[i]? = some (Node.leaf par d)) :
    (IpContainer.mk ⟨cap, buf⟩ r).disconnectNode (some i) =
      some (IpContainer.mk ⟨cap, buf.set i (Node.leaf none d)⟩ r) := by
  unfold disconnectNode
  rw [get_mk, h]
  dsimp only
  rw [put_mk _ _ _ _ _ (lt_of_getElem? h)]

theorem disconnectNode_inner (cap : Nat) (buf : List Node) (r : pointer) (i b : Nat)
    (par o z : pointer) (h : buf[i]? = some (Node.inner b par o z)) :
    (IpContainer.mk ⟨cap, buf⟩ r).disconnectNode (some i) =
      some (IpContainer.mk ⟨cap, buf.set i (Node.inner b none none none)⟩ r) := by
  unfold disconnectNode
  rw [get_mk, h]
  dsimp only
  rw [put_mk _ _ _ _ _ (lt_of_getElem? h)]

theorem deleteNode_leaf (cap : Nat) (buf : List Node) (r : pointer) (i : Nat)
    (d : DataNode) (h : buf[i]? = some (Node.leaf none d)) :
    (IpContainer.mk ⟨cap, buf⟩ r).deleteNode (some i) =
      ((ChunkBuff.mk cap buf).deallocate i).map (fun c => IpContainer.mk c r) := by
  unfold deleteNode
  rw [get_mk, h]
  simp only [Node.getParent, ne_eq, not_true_eq_false, if_false, if_true]

theorem deleteNode_inner (cap : Nat) (buf : List Node) (r : pointer) (i b : Nat)
    (h : buf[i]? = some (Node.inner b none none none)) :
    (IpContainer.mk ⟨cap, buf⟩ r).deleteNode (some i) =
      ((ChunkBuff.mk cap buf).deallocate i).map (fun c => IpContainer.mk c r) := by
  unfold deleteNode
  rw [get_mk, h]
  simp only [Node.getParent, ne_eq, not_true_eq_false, if_false, decide_True, Bool.and_self,
    if_true]

/-- The end of `unlinkLeaf`: both nodes are disconnected, then freed. -/
theorem unlink_tail (cap : Nat) (buf : List Node) (r : pointer) (L O : Nat) (dL : DataNode)
    (parL : pointer) (bO : Nat) (parO oO zO : pointer)
    (hL : buf[L]? = some (Node.leaf parL dL))
    (hO : buf[O]? = some (Node.inner bO parO oO zO)) (hne : L ≠ O) :
    ∃ buf4, (match (IpContainer.mk ⟨cap, buf⟩ r).disconnectNode
          (some (if L < O then O else L)) with
        | none => none
        | some s3 =>
          match s3.disconnectNode (some (if L < O then L else O)) with
          | none => none
          | some s4 =>
            match s4.deleteNode (some (if L < O then O else L)) with
            | none => none
            | some s5 => s5.deleteNode (some (if L < O then L else O))) =
        ((IpContainer.mk ⟨cap, buf4⟩ r).deleteNode (some (if L < O then O else L))).bind
          (fun s5 => s5.deleteNode (some (if L < O then L else O))) ∧
      buf4.length = buf.length ∧ buf4[L]? = some (Node.leaf none dL) ∧
      buf4[O]? = some (Node.inner bO none none none) ∧
      ∀ i, i ≠ L → i ≠ O → buf4[i]? = buf[i]? := by
  have hltL := lt_of_getElem? hL
  have hltO := lt_of_getElem? hO
  by_cases hlt : L < O
  · simp only [if_pos hlt]
    rw [disconnectNode_inner _ _ _ _ _ _ _ _ hO]
    dsimp only
    have e : (buf.set O (Node.inner bO none none none))[L]? = some (Node.leaf parL dL) := by
      rw [List.getElem?_set_ne (Ne.symm hne)]; exact hL
    rw [disconnectNode_leaf _ _ _ _ _ _ e]
    dsimp only
    refine ⟨(buf.set O (Node.inner bO none none none)).set L (Node.leaf none dL), ?_,
      by simp, ?_, ?_, ?_⟩
    · cases (IpContainer.mk ⟨cap, (buf.set O (Node.inner bO none none none)).set L
        (Node.leaf none dL)⟩ r).deleteNode (some O) <;> rfl
    · rw [List.getElem?_set_self (by rw [List.length_set]; exact hltL)]
    · rw [List.getElem?_set_ne hne, List.getElem?_set_self hltO]
    · intro i h1 h2
      rw [List.getElem?_set_ne (Ne.symm h1), List.getElem?_set_ne (Ne.symm h2)]
  · simp only [if_neg hlt]
    rw [disconnectNode_leaf _ _ _ _ _ _ hL]
    dsimp only
    have e : (buf.set L (Node.leaf none dL))[O]? = some (Node.inner bO parO oO zO) := by
      rw [List.getElem?_set_ne hne]; exact hO
    rw [disconnectNode_inner _ _ _ _ _ _ _ _ e]
    dsimp only
    refine ⟨(buf.set L (Node.leaf none dL)).set O (Node.inner bO none none none), ?_,
      by simp, ?_, ?_, ?_⟩
    · cases (IpContainer.mk ⟨cap, (buf.set L (Node.leaf none dL)).set O
        (Node.inner bO none none none)⟩ r).deleteNode (some L) <;> rfl
    · rw [List.getElem?_set_ne (Ne.symm hne), List.getElem?_set_self hltL]
    · rw [List.getElem?_set_self (by rw [List.length_set]; exact hltO)]
    · intro i h1 h2
      rw [List.getElem?_set_ne (Ne.symm h2), List.getElem?_set_ne (Ne.symm h1)]

end IpContainer


namespace IpContainer

theorem getParent_withParent (n : Node) (v : pointer) (h : ∀ par c, n ≠ Node.root par c) :
    (n.withParent v).getParent = v := by
  cases n with
  | root par c => exact absurd rfl (h par c)
  | inner b par o z => rfl
  | leaf par d => rfl

theorem getParentAt_mk (cap : Nat) (buf : List Node) (i : Nat) (n : Node)
    (h : buf[i]? = some n) :
    ChunkBuff.getParentAt ⟨cap, buf⟩ (some i) = some n.getParent := by
  simp only [ChunkBuff.getParentAt, ChunkBuff.get, h]

theorem withChild_inner (b : Nat) (par o z old v : pointer) (n : Node)
    (h : (Node.inner b par o z).withChild old v = some n) :
    ∃ o2 z2, n = Node.inner b par o2 z2 := by
  simp only [Node.withChild] at h
  split at h
  · cases h; exact ⟨_, _, rfl⟩
  · split at h
    · cases h; exact ⟨_, _, rfl⟩
    · cases h

/-- The first part of `unlinkLeaf` when the node above the parent of the leaf is an inner
node: the sibling of the leaf is linked in place of their parent. -/
theorem unlinkLeaf_inner_mk (cap : Nat) (buf : List Node) (r : pointer) (L O S G : Nat)
    (dL : DataNode) (bO : Nat) (oO zO : pointer) (nodeS : Node) (bG : Nat)
    (parG oG zG : pointer) (nG2 : Node)
    (hL : buf[L]? = some (Node.leaf (some O) dL))
    (hO : buf[O]? = some (Node.inner bO (some G) oO zO))
    (hch : (zO = some L ∧ oO = some S) ∨ (oO = some L ∧ zO = some S))
    (hS : buf[S]? = some nodeS) (hSroot : ∀ par c, nodeS ≠ Node.root par c)
    (hG : buf[G]? = some (Node.inner bG parG oG zG)) (hbG : bG < 32)
    (hGw : (Node.inner bG parG oG zG).withChild (some O) (some S) = some nG2)
    (hLS : L ≠ S) (hLO : L ≠ O) (hSO : S ≠ O) (hGL : G ≠ L) (hGS : G ≠ S) (hGO : G ≠ O)
    (hchk : ∀ b par one zero, nG2 = Node.inner b par one zero →
      ChunkBuff.getParentAt ⟨cap, (buf.set S (nodeS.withParent (some G))).set G nG2⟩ one =
        some (some G) ∧
      ChunkBuff.getParentAt ⟨cap, (buf.set S (nodeS.withParent (some G))).set G nG2⟩ zero =
        some (some G)) :
    ∃ buf4, (IpContainer.mk ⟨cap, buf⟩ r).unlinkLeaf (some L) =
        ((IpContainer.mk ⟨cap, buf4⟩ r).deleteNode (some (if L < O then O else L))).bind
          (fun s5 => s5.deleteNode (some (if L < O then L else O))) ∧
      buf4.length = buf.length ∧ buf4[L]? = some (Node.leaf none dL) ∧
      buf4[O]? = some (Node.inner bO none none none) ∧
      buf4[S]? = some (nodeS.withParent (some G)) ∧ buf4[G]? = some nG2 ∧
      ∀ i, i ≠ L → i ≠ O → i ≠ S → i ≠ G → buf4[i]? = buf[i]? := by
  have hltS := lt_of_getElem? hS
  have hltG := lt_of_getElem? hG
  have hchild : (if zO = some L then some oO else if oO = some L then some zO else none) =
      some (some S) := by
    rcases hch with ⟨e1, e2⟩ | ⟨e1, e2⟩
    · rw [if_pos e1, e2]
    · rw [if_neg (by rw [e2]; intro e; exact hLS (Option.some.inj e).symm), if_pos e1, e2]
  obtain ⟨o2, z2, hn2⟩ := withChild_inner _ _ _ _ _ _ _ hGw
  have hb1G : (buf.set S (nodeS.withParent (some G)))[G]? =
      some (Node.inner bG parG oG zG) := by
    rw [List.getElem?_set_ne (Ne.symm hGS)]; exact hG
  have hb2G : ((buf.set S (nodeS.withParent (some G))).set G nG2)[G]? = some nG2 := by
    rw [List.getElem?_set_self (by rw [List.length_set]; exact hltG)]
  have hb2S : ((buf.set S (nodeS.withParent (some G))).set G nG2)[S]? =
      some (nodeS.withParent (some G)) := by
    rw [List.getElem?_set_ne hGS, List.getElem?_set_self hltS]
  have hb2L : ((buf.set S (nodeS.withParent (some G))).set G nG2)[L]? =
      some (Node.leaf (some O) dL) := by
    rw [List.getElem?_set_ne hGL, List.getElem?_set_ne (Ne.symm hLS)]; exact hL
  have hb2O : ((buf.set S (nodeS.withParent (some G))).set G nG2)[O]? =
      some (Node.inner bO (some G) oO zO) := by
    rw [List.getElem?_set_ne hGO, List.getElem?_set_ne hSO]; exact hO
  obtain ⟨buf4, htail, hlen4, h4L, h4O, h4rest⟩ :=
    unlink_tail cap ((buf.set S (nodeS.withParent (some G))).set G nG2) r L O dL _ bO _ _ _
      hb2L hb2O hLO
  refine ⟨buf4, ?_, by rw [hlen4]; simp, h4L, h4O, ?_, ?_, ?_⟩
  · unfold unlinkLeaf
    rw [get_mk, hL]
    simp only [Node.parentField]
    rw [get_mk, hO]
    dsimp only
    rw [hchild]
    dsimp only
    rw [setParentField_mk _ _ _ _ _ _ hS]
    dsimp only
    rw [get_mk, hb1G]
    dsimp only
    rw [LTree.isRoot_inner _ _ _ _ hbG]
    simp only [Bool.not_false, if_true]
    rw [replaceChild_mk _ _ _ _ _ nG2 _ _ hb1G hGw]
    dsimp only
    rw [get_mk, hb2G]
    subst hn2
    dsimp only
    have hc := hchk _ _ _ _ rfl
    rw [if_pos hc]
    dsimp only
    rw [getParentAt_mk _ _ _ _ hb2S, getParent_withParent _ _ hSroot]
    simp only [if_true]
    exact htail
  · rw [h4rest S (Ne.symm hLS) hSO]; exact hb2S
  · rw [h4rest G hGL hGO]; exact hb2G
  · intro i h1 h2 h3 h4
    rw [h4rest i h1 h2, List.getElem?_set_ne (Ne.symm h4), List.getElem?_set_ne (Ne.symm h3)]

/-- The first part of `unlinkLeaf` when the parent of the leaf is the child of the root: the
sibling of the leaf becomes the child of the root. -/
theorem unlinkLeaf_root_mk (cap : Nat) (buf : List Node) (L O S : Nat)
    (dL : DataNode) (bO : Nat) (oO zO : pointer) (nodeS : Node) (par1 ch1 : pointer)
    (hL : buf[L]? = some (Node.leaf (some O) dL))
    (hO : buf[O]? = some (Node.inner bO (some 1) oO zO))
    (hch : (zO = some L ∧ oO = some S) ∨ (oO = some L ∧ zO = some S))
    (hS : buf[S]? = some nodeS) (hSroot : ∀ par c, nodeS ≠ Node.root par c)
    (hG : buf[1]? = some (Node.root par1 ch1))
    (hLS : L ≠ S) (hLO : L ≠ O) (hSO : S ≠ O) (hGL : 1 ≠ L) (hGS : 1 ≠ S) (hGO : 1 ≠ O) :
    ∃ buf4, (IpContainer.mk ⟨cap, buf⟩ (some 1)).unlinkLeaf (some L) =
        ((IpContainer.mk ⟨cap, buf4⟩ (some 1)).deleteNode (some (if L < O then O else L))).bind
          (fun s5 => s5.deleteNode (some (if L < O then L else O))) ∧
      buf4.length = buf.length ∧ buf4[L]? = some (Node.leaf none dL) ∧
      buf4[O]? = some (Node.inner bO none none none) ∧
      buf4[S]? = some (nodeS.withParent (some 1)) ∧
      buf4[1]? = some (Node.root par1 (some S)) ∧
      ∀ i, i ≠ L → i ≠ O → i ≠ S → i ≠ 1 → buf4[i]? = buf[i]? := by
  have hltS := lt_of_getElem? hS
  have hltG := lt_of_getElem? hG
  have hchild : (if zO = some L then some oO else if oO = some L then some zO else none) =
      some (some S) := by
    rcases hch with ⟨e1, e2⟩ | ⟨e1, e2⟩
    · rw [if_pos e1, e2]
    · rw [if_neg (by rw [e2]; intro e; exact hLS (Option.some.inj e).symm), if_pos e1, e2]
  have hb1G : (buf.set S (nodeS.withParent (some 1)))[1]? = some (Node.root par1 ch1) := by
    rw [List.getElem?_set_ne (Ne.symm hGS)]; exact hG
  have hb2G : ((buf.set S (nodeS.withParent (some 1))).set 1 (Node.root par1 (some S)))[1]? =
      some (Node.root par1 (some S)) := by
    rw [List.getElem?_set_self (by rw [List.length_set]; exact hltG)]
  have hb2S : ((buf.set S (nodeS.withParent (some 1))).set 1 (Node.root par1 (some S)))[S]? =
      some (nodeS.withParent (some 1)) := by
    rw [List.getElem?_set_ne hGS, List.getElem?_set_self hltS]
  have hb2L : ((buf.set S (nodeS.withParent (some 1))).set 1 (Node.root par1 (some S)))[L]? =
      some (Node.leaf (some O) dL) := by
    rw [List.getElem?_set_ne hGL, List.getElem?_set_ne (Ne.symm hLS)]; exact hL
  have hb2O : ((buf.set S (nodeS.withParent (some 1))).set 1 (Node.root par1 (some S)))[O]? =
      some (Node.inner bO (some 1) oO zO) := by
    rw [List.getElem?_set_ne hGO, List.getElem?_set_ne hSO]; exact hO
  obtain ⟨buf4, htail, hlen4, h4L, h4O, h4rest⟩ :=
    unlink_tail cap ((buf.set S (nodeS.withParent (some 1))).set 1 (Node.root par1 (some S)))
      (some 1) L O dL _ bO _ _ _ hb2L hb2O hLO
  refine ⟨buf4, ?_, by rw [hlen4]; simp, h4L, h4O, ?_, ?_, ?_⟩
  · unfold unlinkLeaf
    rw [get_mk, hL]
    simp only [Node.parentField]
    rw [get_mk, hO]
    dsimp only
    rw [hchild]
    dsimp only
    rw [setParentField_mk _ _ _ _ _ _ hS]
    dsimp only
    obtain ⟨np, hnp⟩ : ∃ np, np = Node.root par1 ch1 := ⟨_, rfl⟩
    have hb1np : (buf.set S (nodeS.withParent (some 1)))[1]? = some np := by
      rw [hnp]; exact hb1G
    have hnproot : np.isRoot = true := by
      rw [hnp]; exact LTree.isRoot_root par1 ch1
    rw [get_mk, hb1np]
    dsimp only
    rw [hnproot]
    simp only [Bool.not_true, Bool.false_eq_true, if_false, if_true]
    rw [setRootChild_mk _ _ par1 ch1 _ hb1G]
    dsimp only
    have hgp : ChunkBuff.getParentAt ⟨cap, (buf.set S (nodeS.withParent (some 1))).set 1
        (Node.root par1 (some S))⟩ (some S) = some (some 1) := by
      rw [getParentAt_mk _ _ _ _ hb2S, getParent_withParent _ _ hSroot]
    rw [if_pos hgp]
    dsimp only
    rw [if_pos hgp]
    exact htail
  · rw [h4rest S (Ne.symm hLS) hSO]; exact hb2S
  · rw [h4rest 1 hGL hGO]; exact hb2G
  · intro i h1 h2 h3 h4
    rw [h4rest i h1 h2, List.getElem?_set_ne (Ne.symm h4), List.getElem?_set_ne (Ne.symm h3)]

end IpContainer


namespace ChunkBuff

theorem deallocate_tail (cap : Nat) (l : List Node) :
    (if cap / 3 ≥ MIN_CAPACITY ∧ l.length < cap / 3 then some (ChunkBuff.mk (cap / 3) l)
    else some (ChunkBuff.mk cap l)) = some ⟨shrunk cap l.length, l⟩ := by
  unfold shrunk
  split <;> rfl

/-- `deallocate` of the last slot: nothing moves. -/
theorem deallocate_last (cap : Nat) (buf : List Node) (f : Nat) (hf : f = buf.length - 1)
    (h1 : 1 ≤ f) :
    (ChunkBuff.mk cap buf).deallocate f =
      some ⟨shrunk cap (buf.length - 1), buf.dropLast⟩ := by
  unfold deallocate
  rw [if_neg (by omega)]
  simp only [size]
  rw [if_neg (by intro hc; exact hc hf), if_pos (by omega)]
  dsimp only
  rw [deallocate_tail, List.length_dropLast]

/-- `deallocate` of another slot: the last node moves into it and repairs its links. -/
theorem deallocate_move (cap : Nat) (buf bufU : List Node) (f : Nat) (M : Node)
    (h1 : 1 ≤ f) (hf : f < buf.length - 1) (hM : buf[buf.length - 1]? = some M)
    (hU : (ChunkBuff.mk cap (buf.set f M)).UpdateChunk f (buf.length - 1) =
      some ⟨cap, bufU⟩) :
    (ChunkBuff.mk cap buf).deallocate f =
      some ⟨shrunk cap (bufU.length - 1), bufU.dropLast⟩ := by
  unfold deallocate
  rw [if_neg (by omega)]
  simp only [size]
  rw [if_pos (by omega), hM]
  dsimp only
  rw [put_mk_eq, if_pos (by omega)]
  dsimp only
  rw [hU]
  dsimp only
  rw [deallocate_tail, List.length_dropLast]

theorem setParent_withParent (n : Node) (v : pointer) (h : ∀ par c, n ≠ Node.root par c) :
    n.setParent v = some (n.withParent v) := by
  cases n with
  | root par c => exact absurd rfl (h par c)
  | inner b par o z => rfl
  | leaf par d => rfl

theorem setParentAt_mk (cap : Nat) (buf : List Node) (i : Nat) (n : Node) (v : pointer)
    (h : buf[i]? = some n) (hr : ∀ par c, n ≠ Node.root par c) :
    (ChunkBuff.mk cap buf).setParentAt (some i) v = some ⟨cap, buf.set i (n.withParent v)⟩ := by
  unfold setParentAt
  dsimp only
  rw [h]
  dsimp only
  rw [setParent_withParent n v hr]
  dsimp only
  rw [put_mk_eq, if_pos (IpContainer.lt_of_getElem? h)]

/-- The parent link repair when the parent is the root. -/
theorem updateParentLink_root_mk (cap : Nat) (buf : List Node) (q f a : Nat) (par : pointer)
    (M : Node) (hq : buf[q]? = some (Node.root par (some a))) (hf : buf[f]? = some M)
    (hM : M.getParent = some q) (hne : q ≠ f) :
    (ChunkBuff.mk cap buf).updateParentLink q f a =
      some ⟨cap, buf.set q (Node.root par (some f))⟩ := by
  unfold updateParentLink
  dsimp only
  rw [hq]
  dsimp only
  rw [if_pos rfl, put_mk_eq, if_pos (IpContainer.lt_of_getElem? hq)]
  dsimp only
  have e : (buf.set q (Node.root par (some f)))[f]? = some M := by
    rw [List.getElem?_set_ne hne]; exact hf
  rw [IpContainer.getParentAt_mk _ _ _ _ e, hM, if_pos rfl]

/-- The parent link repair when the parent is an inner node. -/
theorem updateParentLink_inner_mk (cap : Nat) (buf : List Node) (q f a : Nat) (bq : Nat)
    (parq oq zq : pointer) (nq : Node)
    (hq : buf[q]? = some (Node.inner bq parq oq zq))
    (hw : (Node.inner bq parq oq zq).withChild (some a) (some f) = some nq)
    (hchk : ∀ b par one zero, nq = Node.inner b par one zero →
      ChunkBuff.getParentAt ⟨cap, buf.set q nq⟩ zero = some (some q) ∧
      ChunkBuff.getParentAt ⟨cap, buf.set q nq⟩ one = some (some q)) :
    (ChunkBuff.mk cap buf).updateParentLink q f a = some ⟨cap, buf.set q nq⟩ := by
  have hlt := IpContainer.lt_of_getElem? hq
  unfold updateParentLink
  dsimp only
  rw [hq]
  dsimp only
  simp only [put_mk_eq, if_pos hlt, Option.map_some']
  simp only [Node.withChild] at hw
  by_cases hz : zq = some a
  · rw [if_pos hz] at hw ⊢
    cases hw
    dsimp only
    rw [if_pos (hchk _ _ _ _ rfl)]
  · rw [if_neg hz] at hw ⊢
    by_cases ho : oq = some a
    · rw [if_pos ho] at hw ⊢
      cases hw
      dsimp only
      rw [if_pos (hchk _ _ _ _ rfl)]
    · rw [if_neg ho] at hw
      cases hw

/-- `UpdateChunk` on a moved leaf. -/
theorem UpdateChunk_leaf_mk (cap : Nat) (buf bufQ : List Node) (q f a : Nat) (d : DataNode)
    (hf : buf[f]? = some (Node.leaf (some q) d))
    (hQ : (ChunkBuff.mk cap buf).updateParentLink q f a = some ⟨cap, bufQ⟩)
    (hfQ : bufQ[f]? = some (Node.leaf (some q) d)) :
    (ChunkBuff.mk cap buf).UpdateChunk f a = some ⟨cap, bufQ⟩ := by
  unfold UpdateChunk
  dsimp only
  rw [hf]
  dsimp only
  rw [LTree.isRoot_leaf]
  simp only [Bool.false_eq_true, if_false, Node.getParent]
  rw [hQ]
  dsimp only
  rw [hfQ]

/-- `UpdateChunk` on a moved inner node: both children get the new index as their parent. -/
theorem UpdateChunk_inner_mk (cap : Nat) (buf bufQ : List Node) (q f a b zi oi : Nat)
    (nz no : Node) (hb : b < 32)
    (hf : buf[f]? = some (Node.inner b (some q) (some oi) (some zi)))
    (hQ : (ChunkBuff.mk cap buf).updateParentLink q f a = some ⟨cap, bufQ⟩)
    (hfQ : bufQ[f]? = some (Node.inner b (some q) (some oi) (some zi)))
    (hz : bufQ[zi]? = some nz) (hzr : ∀ par c, nz ≠ Node.root par c)
    (ho : bufQ[oi]? = some no) (hor : ∀ par c, no ≠ Node.root par c) (hne : zi ≠ oi) :
    (ChunkBuff.mk cap buf).UpdateChunk f a =
      some ⟨cap, (bufQ.set zi (nz.withParent (some f))).set oi (no.withParent (some f))⟩ := by
  unfold UpdateChunk
  dsimp only
  rw [hf]
  dsimp only
  rw [LTree.isRoot_inner _ _ _ _ hb]
  simp only [Bool.false_eq_true, if_false, Node.getParent]
  rw [hQ]
  dsimp only
  rw [hfQ]
  dsimp only
  rw [LTree.isInner_inner _ _ _ _ hb]
  rw [if_pos ⟨rfl, by intro e; cases e⟩, if_pos (by intro e; cases e)]
  rw [setParentAt_mk _ _ _ _ _ hz hzr]
  dsimp only
  have e : (bufQ.set zi (nz.withParent (some f)))[oi]? = some no := by
    rw [List.getElem?_set_ne hne]; exact ho
  rw [setParentAt_mk _ _ _ _ _ e hor]

end ChunkBuff


namespace LTree

/-- The neighbourhood of a node of the tree in the arena: its parent word names a slot `q`
that is the parent of the top node or an inner node of the tree with the node as a child, and
the children of an inner node are distinct nodes of the tree. -/
theorem Rep.around {buf : List Node} {t : LTree} {p : Nat} (h : Rep buf t p)
    (hnd : t.indices.Nodup) (hp : p ∉ t.indices) {a : Nat} (ha : a ∈ t.indices) :
    ∃ q, q ≠ a ∧
      ((∃ d, buf[a]? = some (Node.leaf (some q) d)) ∨
        (∃ b oi zi, buf[a]? = some (Node.inner b (some q) (some oi) (some zi)) ∧ b < 32 ∧
          zi ≠ oi ∧ zi ∈ t.indices ∧ oi ∈ t.indices ∧ zi ≠ a ∧ oi ≠ a ∧ zi ≠ q ∧ oi ≠ q)) ∧
      ((q = p ∧ a = t.idx) ∨
        (q ∈ t.indices ∧ a ≠ t.idx ∧ ∃ bq pq oq zq,
          buf[q]? = some (Node.inner bq (some pq) (some oq) (some zq)) ∧ bq < 32 ∧ pq ≠ a ∧
          ((zq = a ∧ oq ≠ a) ∨ (oq = a ∧ zq ≠ a)))) := by
  induction t generalizing p with
  | leaf i x =>
    simp only [indices, List.mem_singleton] at ha hp
    subst ha
    simp only [Rep] at h
    exact ⟨p, hp, Or.inl ⟨x, h⟩, Or.inl ⟨rfl, rfl⟩⟩
  | inner i b z o ihz iho =>
    have hnd0 := hnd
    simp only [indices, List.nodup_cons, List.mem_append, not_or, List.nodup_append] at hnd
    obtain ⟨⟨hiz, hio⟩, hnz, hno, hdis⟩ := hnd
    simp only [Rep] at h
    obtain ⟨hb32, hnode, hrz, hro⟩ := h
    have hpi : p ≠ i := fun e => hp (by simp [indices, e])
    have hpz : p ∉ z.indices := fun hm => hp (by simp [indices, hm])
    have hpo : p ∉ o.indices := fun hm => hp (by simp [indices, hm])
    have hzo : z.idx ≠ o.idx := fun e =>
      hdis (idx_mem_indices z) (by rw [e]; exact idx_mem_indices o)
    simp only [indices, List.mem_cons, List.mem_append] at ha
    rcases ha with ha | ha | ha
    · subst ha
      refine ⟨p, hpi, Or.inr ⟨b, o.idx, z.idx, hnode, hb32, hzo, ?_, ?_, ?_, ?_, ?_, ?_⟩,
        Or.inl ⟨rfl, rfl⟩⟩
      · simp [indices, idx_mem_indices z]
      · simp [indices, idx_mem_indices o]
      · intro e; exact hiz (by rw [← e]; exact idx_mem_indices z)
      · intro e; exact hio (by rw [← e]; exact idx_mem_indices o)
      · intro e; exact hpz (by rw [← e]; exact idx_mem_indices z)
      · intro e; exact hpo (by rw [← e]; exact idx_mem_indices o)
    · have hsub : ∀ k, k ∈ z.indices → k ∈ (inner i b z o).indices := by
        intro k hk; simp [indices, hk]
      have hai : a ≠ i := fun e => hiz (by rw [← e]; exact ha)
      have hap : p ≠ a := fun e => hpz (by rw [e]; exact ha)
      obtain ⟨q, hqa, hshape, hpar⟩ := ihz hrz hnz hiz ha
      refine ⟨q, hqa, ?_, Or.inr ?_⟩
      · rcases hshape with hl | ⟨b2, oi, zi, g1, g2, g3, g4, g5, g6, g7, g8, g9⟩
        · exact Or.inl hl
        · exact Or.inr ⟨b2, oi, zi, g1, g2, g3, hsub _ g4, hsub _ g5, g6, g7, g8, g9⟩
      · rcases hpar with ⟨e1, e2⟩ | ⟨m, hne, r⟩
        · subst e1
          refine ⟨by simp [indices], hai, b, p, o.idx, z.idx, hnode, hb32, hap, Or.inl ⟨e2.symm, ?_⟩⟩
          intro e; exact hdis ha (by rw [← e]; exact idx_mem_indices o)
        · exact ⟨hsub _ m, hai, r⟩
    · have hsub : ∀ k, k ∈ o.indices → k ∈ (inner i b z o).indices := by
        intro k hk; simp [indices, hk]
      have hai : a ≠ i := fun e => hio (by rw [← e]; exact ha)
      have hap : p ≠ a := fun e => hpo (by rw [e]; exact ha)
      obtain ⟨q, hqa, hshape, hpar⟩ := iho hro hno hio ha
      refine ⟨q, hqa, ?_, Or.inr ?_⟩
      · rcases hshape with hl | ⟨b2, oi, zi, g1, g2, g3, g4, g5, g6, g7, g8, g9⟩
        · exact Or.inl hl
        · exact Or.inr ⟨b2, oi, zi, g1, g2, g3, hsub _ g4, hsub _ g5, g6, g7, g8, g9⟩
      · rcases hpar with ⟨e1, e2⟩ | ⟨m, hne, r⟩
        · subst e1
          refine ⟨by simp [indices], hai, b, p, o.idx, z.idx, hnode, hb32, hap, Or.inr ⟨e2.symm, ?_⟩⟩
          intro e; exact hdis (by rw [← e]; exact idx_mem_indices z) ha
        · exact ⟨hsub _ m, hai, r⟩

theorem idx_rename (a c : Nat) (t : LTree) :
    (t.rename a c).idx = if t.idx = a then c else t.idx := by
  cases t <;> rfl

theorem indices_rename (a c : Nat) (t : LTree) :
    (t.rename a c).indices = t.indices.map (fun i => if i = a then c else i) := by
  induction t with
  | leaf i x => rfl
  | inner i b z o ihz iho =>
    simp only [LTree.rename, indices, List.map_cons, List.map_append, ihz, iho]

theorem some_rename (a c : Nat) (x : Nat) :
    (if some x = some a then some c else some x) = some (if x = a then c else x) := by
  by_cases h : x = a
  · rw [if_pos h, if_pos (by rw [h])]
  · rw [if_neg h, if_neg (by intro e; exact h (Option.some.inj e))]

/-- The arena in which every pointer word naming `a` names `c` and the node of slot `a` sits
in slot `c` holds the tree with `a` renamed to `c`. -/
theorem Rep.heap_rename {buf buf2 : List Node} {t : LTree} {p : Nat} (a c : Nat) (h : Rep buf t p)
    (h1 : ∀ i ∈ t.indices, i ≠ a → buf2[i]? = (buf[i]?).map (Node.renamePtr a c))
    (h2 : a ∈ t.indices → buf2[c]? = (buf[a]?).map (Node.renamePtr a c)) :
    Rep buf2 (t.rename a c) (if p = a then c else p) := by
  induction t generalizing p with
  | leaf i x =>
    simp only [Rep] at h
    simp only [LTree.rename, Rep]
    by_cases hi : i = a
    · rw [if_pos hi, h2 (by simp [indices, hi]), ← hi, h]
      simp only [Option.map_some', Node.renamePtr, some_rename]
    · rw [if_neg hi, h1 i (by simp [indices]) hi, h]
      simp only [Option.map_some', Node.renamePtr, some_rename]
  | inner i b z o ihz iho =>
    simp only [Rep] at h
    obtain ⟨hb32, hnode, hrz, hro⟩ := h
    simp only [LTree.rename, Rep]
    refine ⟨hb32, ?_, ?_, ?_⟩
    · by_cases hi : i = a
      · rw [if_pos hi, h2 (by simp [indices, hi]), ← hi, hnode]
        simp only [Option.map_some', Node.renamePtr, some_rename, idx_rename]
      · rw [if_neg hi, h1 i (by simp [indices]) hi, hnode]
        simp only [Option.map_some', Node.renamePtr, some_rename, idx_rename]
    · exact ihz hrz (fun k hk => h1 k (by simp [indices, hk]))
        (fun hk => h2 (by simp [indices, hk]))
    · exact iho hro (fun k hk => h1 k (by simp [indices, hk]))
        (fun hk => h2 (by simp [indices, hk]))

end LTree


namespace LTree

theorem getParentAt_some {cap : Nat} {buf : List Node} {i j : Nat}
    (h : ChunkBuff.getParentAt ⟨cap, buf⟩ (some i) = some (some j)) :
    ∃ n, buf[i]? = some n ∧ n.getParent = some j := by
  simp only [ChunkBuff.getParentAt, ChunkBuff.get] at h
  cases hn : buf[i]? with
  | none => rw [hn] at h; cases h
  | some n =>
    rw [hn] at h
    exact ⟨n, rfl, Option.some.inj h⟩

/-- The moved node itself names no slot `a`. -/
theorem renamePtr_self {buf : List Node} {t : LTree} (hrep : Rep buf t 1)
    (hnd : t.indices.Nodup) (h1n : 1 ∉ t.indices) {a : Nat} (ha : a ∈ t.indices) (c : Nat)
    (M : Node) (hM : buf[a]? = some M) : Node.renamePtr a c M = M := by
  obtain ⟨q, hqa, hshape, _⟩ := Rep.around hrep hnd h1n ha
  rcases hshape with ⟨d, e⟩ | ⟨b, oi, zi, e, _, _, _, _, g6, g7, _, _⟩
  · rw [hM] at e
    cases e
    simp only [Node.renamePtr, some_rename, if_neg hqa]
  · rw [hM] at e
    cases e
    simp only [Node.renamePtr, some_rename, if_neg hqa, if_neg g6, if_neg g7]

/-- The parent of the moved node: its child word naming `a` is the only word renamed. -/
theorem renamePtr_parent {buf : List Node} {t : LTree} (hrep : Rep buf t 1)
    (hnd : t.indices.Nodup) (h1n : 1 ∉ t.indices) {a : Nat} (ha : a ∈ t.indices) (c : Nat)
    (M : Node) (hM : buf[a]? = some M) (q : Nat) (hq : M.getParent = some q)
    (hqm : q ∈ t.indices) (nq : Node) (hnq : buf[q]? = some nq) :
    nq.withChild (some a) (some c) = some (Node.renamePtr a c nq) := by
  obtain ⟨q2, hqa, hshape, hpar⟩ := Rep.around hrep hnd h1n ha
  have e : q2 = q := by
    rcases hshape with ⟨d, e⟩ | ⟨b, oi, zi, e, _⟩
    · rw [hM] at e; cases e; exact Option.some.inj hq
    · rw [hM] at e; cases e; exact Option.some.inj hq
  subst e
  rcases hpar with ⟨e1, _⟩ | ⟨_, _, bq, pq, oq, zq, g1, g2, g3, g4⟩
  · rw [e1] at hqm; exact absurd hqm h1n
  · rw [hnq] at g1
    cases g1
    rcases g4 with ⟨e1, e2⟩ | ⟨e1, e2⟩
    · subst e1
      simp only [Node.withChild, Node.renamePtr, some_rename, if_neg g3, if_neg e2, if_true]
    · subst e1
      have e3 : ¬ (some zq = some oq) := fun e => e2 (Option.some.inj e)
      simp only [Node.withChild, Node.renamePtr, some_rename, if_neg g3, if_neg e2, if_neg e3,
        if_true]

/-- A child of the moved node: its parent word is the only word renamed. -/
theorem renamePtr_child {buf : List Node} {t : LTree} (hrep : Rep buf t 1)
    (hnd : t.indices.Nodup) (h1n : 1 ∉ t.indices) {a : Nat} (ha : a ∈ t.indices) (c : Nat)
    (b : Nat) (par o z : pointer) (hM : buf[a]? = some (Node.inner b par o z))
    (i : Nat) (hi : i ∈ t.indices) (hch : o = some i ∨ z = some i)
    (n : Node) (hn : buf[i]? = some n) :
    Node.renamePtr a c n = n.withParent (some c) := by
  obtain ⟨h1, h2⟩ := Rep.children_parent hrep 0 ha hM
  have hp : n.getParent = some a := by
    rcases hch with e | e
    · subst e
      obtain ⟨n2, e1, e2⟩ := getParentAt_some h1
      rw [hn] at e1; cases e1; exact e2
    · subst e
      obtain ⟨n2, e1, e2⟩ := getParentAt_some h2
      rw [hn] at e1; cases e1; exact e2
  obtain ⟨q, hqa, hshape, _⟩ := Rep.around hrep hnd h1n hi
  rcases hshape with ⟨d, e⟩ | ⟨b2, oi, zi, e, _, _, _, _, _, _, g8, g9⟩
  · rw [hn] at e
    cases e
    have e2 : q = a := Option.some.inj hp
    subst e2
    simp only [Node.renamePtr, Node.withParent, if_true]
  · rw [hn] at e
    cases e
    have e2 : q = a := Option.some.inj hp
    subst e2
    simp only [Node.renamePtr, Node.withParent, some_rename, if_neg g8, if_neg g9, if_true]

/-- A node that is neither the parent nor a child of the moved node names no slot `a`. -/
theorem renamePtr_other {buf : List Node} {t : LTree} (hrep : Rep buf t 1)
    (hnd : t.indices.Nodup) (h1n : 1 ∉ t.indices) {a : Nat} (ha : a ∈ t.indices) (c : Nat)
    (i : Nat) (hi : i ∈ t.indices) (n : Node) (hn : buf[i]? = some n)
    (hq : ∀ m, buf[a]? = some m → m.getParent ≠ some i)
    (hc : ∀ b par o z, buf[a]? = some (Node.inner b par o z) → o ≠ some i ∧ z ≠ some i) :
    Node.renamePtr a c n = n := by
  obtain ⟨q, hqi, hshape, hpar⟩ := Rep.around hrep hnd h1n hi
  have hqa : q ≠ a := by
    intro e
    subst e
    rcases hpar with ⟨e1, _⟩ | ⟨_, _, bq, pq, oq, zq, g1, g2, g3, g4⟩
    · rw [e1] at ha; exact h1n ha
    · obtain ⟨c1, c2⟩ := hc _ _ _ _ g1
      rcases g4 with ⟨e1, _⟩ | ⟨e1, _⟩
      · exact c2 (by rw [e1])
      · exact c1 (by rw [e1])
  rcases hshape with ⟨d, e⟩ | ⟨b2, oi, zi, e, _, _, _, _, _, _, _, _⟩
  · rw [hn] at e
    cases e
    simp only [Node.renamePtr, some_rename, if_neg hqa]
  · rw [hn] at e
    cases e
    obtain ⟨h1, h2⟩ := Rep.children_parent hrep 0 hi hn
    have hoa : oi ≠ a := by
      intro e
      subst e
      obtain ⟨m, e1, e2⟩ := getParentAt_some h1
      exact hq m e1 e2
    have hza : zi ≠ a := by
      intro e
      subst e
      obtain ⟨m, e1, e2⟩ := getParentAt_some h2
      exact hq m e1 e2
    simp only [Node.renamePtr, some_rename, if_neg hqa, if_neg hoa, if_neg hza]

theorem rename_of_not_mem (a c : Nat) (t : LTree) (h : a ∉ t.indices) : t.rename a c = t := by
  induction t with
  | leaf i x =>
    simp only [indices, List.mem_singleton] at h
    have h2 : ¬ i = a := fun e => h e.symm
    simp only [LTree.rename, if_neg h2]
  | inner i b z o ihz iho =>
    simp only [indices, List.mem_cons, List.mem_append, not_or] at h
    have h2 : ¬ i = a := fun e => h.1 e.symm
    simp only [LTree.rename, if_neg h2, ihz h.2.1, iho h.2.2]

end LTree


namespace LTree

theorem renamePtr_root (a c : Nat) :
    Node.renamePtr a c (Node.root none (some a)) = Node.root none (some c) := by
  simp only [Node.renamePtr, if_true]
  rfl

/-- The parent link repair of a moved node of the tree. -/
theorem relocate_parent (cap : Nat) {buf : List Node} {t : LTree} (f a : Nat)
    (h1 : buf[1]? = some (Node.root none (some t.idx)))
    (hrep : Rep buf t 1) (hnd : t.indices.Nodup)
    (hrange : ∀ i ∈ t.indices, 2 ≤ i ∧ i < buf.length)
    (hf : f ∉ t.indices) (hf2 : 2 ≤ f) (hflt : f < buf.length)
    (ha : a ∈ t.indices) (M : Node) (hM : buf[a]? = some M) :
    ∃ q nq, M.getParent = some q ∧ buf[q]? = some nq ∧ q ≠ f ∧ q ≠ a ∧
      ((q = 1 ∧ t.idx = a) ∨ (q ∈ t.indices ∧ t.idx ≠ a)) ∧
      (ChunkBuff.mk cap (buf.set f M)).updateParentLink q f a =
        some ⟨cap, (buf.set f M).set q (Node.renamePtr a f nq)⟩ := by
  have h1n : 1 ∉ t.indices := fun hm => by
    have := (hrange 1 hm).1
    omega
  obtain ⟨q, hqa, hshape, hpar⟩ := Rep.around hrep hnd h1n ha
  have hMq : M.getParent = some q := by
    rcases hshape with ⟨d, e⟩ | ⟨b, oi, zi, e, _⟩
    · rw [hM] at e; cases e; rfl
    · rw [hM] at e; cases e; rfl
  have hb1f : (buf.set f M)[f]? = some M := List.getElem?_set_self hflt
  rcases hpar with ⟨e1, e2⟩ | ⟨hqm, hne, bq, pq, oq, zq, g1, g2, g3, g4⟩
  · have e3 : (buf.set f M)[q]? = some (Node.root none (some a)) := by
      rw [List.getElem?_set_ne (by omega), e1, h1, e2]
    refine ⟨q, Node.root none (some t.idx), hMq, by rw [e1]; exact h1, by omega, hqa,
      Or.inl ⟨e1, e2.symm⟩, ?_⟩
    rw [ChunkBuff.updateParentLink_root_mk cap _ q f a none M e3 hb1f hMq (by omega),
      ← e2, renamePtr_root]
  · have hqf : q ≠ f := fun e => hf (e ▸ hqm)
    have hb1q : (buf.set f M)[q]? = some (Node.inner bq (some pq) (some oq) (some zq)) := by
      rw [List.getElem?_set_ne (Ne.symm hqf)]; exact g1
    have hw := renamePtr_parent hrep hnd h1n ha f M hM q hMq hqm _ g1
    obtain ⟨c1, c2⟩ := Rep.children_parent hrep cap hqm g1
    obtain ⟨q2, _, hshapeq, _⟩ := Rep.around hrep hnd h1n hqm
    have hkids : oq ∈ t.indices ∧ zq ∈ t.indices ∧ oq ≠ q ∧ zq ≠ q := by
      rcases hshapeq with ⟨d, e⟩ | ⟨b, oi, zi, e, _, _, m1, m2, m3, m4, _, _⟩
      · rw [g1] at e; cases e
      · rw [g1] at e; cases e; exact ⟨m2, m1, m4, m3⟩
    obtain ⟨k1, k2, k3, k4⟩ := hkids
    have hchild : ∀ x, x ∈ t.indices → x ≠ q →
        ChunkBuff.getParentAt ⟨cap, buf⟩ (some x) = some (some q) →
        ChunkBuff.getParentAt ⟨cap, (buf.set f M).set q
          (Node.renamePtr a f (Node.inner bq (some pq) (some oq) (some zq)))⟩ (some x) =
          some (some q) := by
      intro x hx hxq hg
      obtain ⟨n, e1, e2⟩ := getParentAt_some hg
      have hxf : x ≠ f := fun e => hf (e ▸ hx)
      rw [IpContainer.getParentAt_mk _ _ _ n
        (by rw [List.getElem?_set_ne (Ne.symm hxq), List.getElem?_set_ne (Ne.symm hxf)]; exact e1),
        e2]
    have hnew : ChunkBuff.getParentAt ⟨cap, (buf.set f M).set q
          (Node.renamePtr a f (Node.inner bq (some pq) (some oq) (some zq)))⟩ (some f) =
          some (some q) := by
      rw [IpContainer.getParentAt_mk _ _ _ M
        (by rw [List.getElem?_set_ne hqf]; exact hb1f), hMq]
    refine ⟨q, _, hMq, g1, hqf, hqa, Or.inr ⟨hqm, fun e => hne e.symm⟩, ?_⟩
    apply ChunkBuff.updateParentLink_inner_mk cap _ q f a bq _ _ _ _ hb1q hw
    intro b par one zero e
    simp only [Node.renamePtr, some_rename] at e
    cases e
    rcases g4 with ⟨e1, e2⟩ | ⟨e1, e2⟩
    · subst e1
      rw [if_pos rfl, if_neg e2]
      exact ⟨hnew, hchild oq k1 k3 c1⟩
    · subst e1
      rw [if_pos rfl, if_neg e2]
      exact ⟨hchild zq k2 k4 c2, hnew⟩

end LTree


namespace LTree

/-- `UpdateChunk` on a node of the tree moved from slot `a` to the free slot `f`: afterwards
every pointer word that named `a` names `f`. -/
theorem relocate_exec (cap : Nat) {buf : List Node} {t : LTree} (f a : Nat)
    (h1 : buf[1]? = some (Node.root none (some t.idx)))
    (hrep : Rep buf t 1) (hnd : t.indices.Nodup)
    (hrange : ∀ i ∈ t.indices, 2 ≤ i ∧ i < buf.length)
    (hf : f ∉ t.indices) (hf2 : 2 ≤ f) (hflt : f < buf.length)
    (ha : a ∈ t.indices) (M : Node) (hM : buf[a]? = some M) :
    ∃ bufU, (ChunkBuff.mk cap (buf.set f M)).UpdateChunk f a = some ⟨cap, bufU⟩ ∧
      bufU.length = buf.length ∧ bufU[f]? = some M ∧
      (∀ i ∈ t.indices, i ≠ a → bufU[i]? = (buf[i]?).map (Node.renamePtr a f)) ∧
      bufU[1]? = some (Node.root none (some (t.rename a f).idx)) ∧
      ∀ g, g ∉ t.indices → g ≠ f → g ≠ 1 → bufU[g]? = buf[g]? := by
  have h1n : 1 ∉ t.indices := fun hm => by
    have := (hrange 1 hm).1
    omega
  obtain ⟨q, nq, hMq, hnq, hqf, hqa, hq1, hQ⟩ :=
    relocate_parent cap f a h1 hrep hnd hrange hf hf2 hflt ha M hM
  have hqlt := IpContainer.lt_of_getElem? hnq
  obtain ⟨q2, _, hshape, _⟩ := Rep.around hrep hnd h1n ha
  have hQf : ((buf.set f M).set q (Node.renamePtr a f nq))[f]? = some M := by
    rw [List.getElem?_set_ne hqf, List.getElem?_set_self hflt]
  have hQq : ((buf.set f M).set q (Node.renamePtr a f nq))[q]? =
      some (Node.renamePtr a f nq) := by
    rw [List.getElem?_set_self (by rw [List.length_set]; exact hqlt)]
  have hQ1 : ((buf.set f M).set q (Node.renamePtr a f nq))[1]? =
      some (Node.root none (some (t.rename a f).idx)) := by
    rw [idx_rename]
    rcases hq1 with ⟨e1, e2⟩ | ⟨hqm, hne⟩
    · subst e1
      rw [h1] at hnq
      cases hnq
      rw [hQq, if_pos e2, e2, renamePtr_root]
    · have hq1 : q ≠ 1 := fun e => h1n (e ▸ hqm)
      rw [if_neg hne, List.getElem?_set_ne hq1, List.getElem?_set_ne (by omega)]
      exact h1
  have hQi : ∀ i ∈ t.indices, i ≠ a →
      (∀ b par o z, M = Node.inner b par o z → o ≠ some i ∧ z ≠ some i) →
      ((buf.set f M).set q (Node.renamePtr a f nq))[i]? =
        (buf[i]?).map (Node.renamePtr a f) := by
    intro i hi hia hc
    by_cases hiq : i = q
    · subst hiq
      rw [hQq, hnq]
      rfl
    · have hif : i ≠ f := fun e => hf (e ▸ hi)
      obtain ⟨n, hn, _, _⟩ := Rep.node_of_mem hrep hi
      rw [List.getElem?_set_ne (Ne.symm hiq), List.getElem?_set_ne (Ne.symm hif), hn,
        Option.map_some', renamePtr_other hrep hnd h1n ha f i hi n hn]
      · intro m hm e
        rw [hM] at hm
        cases hm
        rw [hMq] at e
        exact hiq (Option.some.inj e).symm
      · intro b par o z hm
        rw [hM] at hm
        exact hc b par o z (Option.some.inj hm)
  have hQg : ∀ g, g ∉ t.indices → g ≠ f → g ≠ 1 →
      ((buf.set f M).set q (Node.renamePtr a f nq))[g]? = buf[g]? := by
    intro g hg hgf hg1
    have hgq : g ≠ q := by
      intro e
      subst e
      rcases hq1 with ⟨e1, _⟩ | ⟨hqm, _⟩
      · exact hg1 e1
      · exact hg hqm
    rw [List.getElem?_set_ne (Ne.symm hgq), List.getElem?_set_ne (Ne.symm hgf)]
  rcases hshape with ⟨d, e⟩ | ⟨b, oi, zi, e, hb, g3, g4, g5, g6, g7, g8, g9⟩
  · rw [hM] at e
    cases e
    have e2 : q2 = q := Option.some.inj hMq
    subst e2
    refine ⟨_, ChunkBuff.UpdateChunk_leaf_mk cap _ _ q2 f a d (List.getElem?_set_self hflt)
      hQ hQf, by simp, hQf, ?_, hQ1, hQg⟩
    intro i hi hia
    exact hQi i hi hia (by intro b par o z e; cases e)
  · rw [hM] at e
    cases e
    have e2 : q2 = q := Option.some.inj hMq
    subst e2
    have hzf : zi ≠ f := fun e => hf (e ▸ g4)
    have hof : oi ≠ f := fun e => hf (e ▸ g5)
    obtain ⟨nz, hnz, hnzr, _⟩ := Rep.node_of_mem hrep g4
    obtain ⟨no, hno, hnor, _⟩ := Rep.node_of_mem hrep g5
    have hQz : ((buf.set f (Node.inner b (some q2) (some oi) (some zi))).set q2
        (Node.renamePtr a f nq))[zi]? = some nz := by
      rw [List.getElem?_set_ne (Ne.symm g8), List.getElem?_set_ne (Ne.symm hzf)]; exact hnz
    have hQo : ((buf.set f (Node.inner b (some q2) (some oi) (some zi))).set q2
        (Node.renamePtr a f nq))[oi]? = some no := by
      rw [List.getElem?_set_ne (Ne.symm g9), List.getElem?_set_ne (Ne.symm hof)]; exact hno
    have hzlt := IpContainer.lt_of_getElem? hnz
    have holt := IpContainer.lt_of_getElem? hno
    refine ⟨_, ChunkBuff.UpdateChunk_inner_mk cap _ _ q2 f a b zi oi nz no hb
      (List.getElem?_set_self hflt) hQ hQf hQz hnzr hQo hnor g3, by simp, ?_, ?_, ?_, ?_⟩
    · rw [List.getElem?_set_ne hof, List.getElem?_set_ne hzf]; exact hQf
    · intro i hi hia
      by_cases hio : i = oi
      · subst hio
        rw [List.getElem?_set_self (by simp; exact holt), hno, Option.map_some',
          renamePtr_child hrep hnd h1n ha f b _ _ _ hM i hi (Or.inl rfl) no hno]
      · by_cases hiz : i = zi
        · subst hiz
          rw [List.getElem?_set_ne (Ne.symm hio), List.getElem?_set_self (by simp; exact hzlt),
            hnz, Option.map_some',
            renamePtr_child hrep hnd h1n ha f b _ _ _ hM i hi (Or.inr rfl) nz hnz]
        · rw [List.getElem?_set_ne (Ne.symm hio), List.getElem?_set_ne (Ne.symm hiz)]
          apply hQi i hi hia
          intro b2 par o z e
          cases e
          exact ⟨fun e => hio (Option.some.inj e).symm, fun e => hiz (Option.some.inj e).symm⟩
    · have ho1 : oi ≠ 1 := fun e => h1n (e ▸ g5)
      have hz1 : zi ≠ 1 := fun e => h1n (e ▸ g4)
      rw [List.getElem?_set_ne ho1, List.getElem?_set_ne hz1]
      exact hQ1
    · intro g hg hgf hg1
      have hog : oi ≠ g := fun e => hg (e ▸ g5)
      have hzg : zi ≠ g := fun e => hg (e ▸ g4)
      rw [List.getElem?_set_ne hog, List.getElem?_set_ne hzg]
      exact hQg g hg hgf hg1

end LTree


namespace LTree

theorem getElem?_dropLast_lt {α : Type} (l : List α) (i : Nat) (h : i < l.length - 1) :
    l.dropLast[i]? = l[i]? := by
  rw [List.dropLast_eq_take, List.getElem?_take_of_lt h]

/-- `deallocate` of a free slot `f` of an arena that holds a tree in all its other slots from
`2` on: the arena loses its last slot and holds the tree with the last slot renamed to `f`. -/
theorem deallocate_rep (cap : Nat) {buf : List Node} {t : LTree} (f : Nat)
    (h1 : buf[1]? = some (Node.root none (some t.idx)))
    (hrep : Rep buf t 1) (hnd : t.indices.Nodup)
    (hrange : ∀ i ∈ t.indices, 2 ≤ i ∧ i < buf.length)
    (hf : f ∉ t.indices) (hf2 : 2 ≤ f) (hflt : f < buf.length)
    (hlast : f ≠ buf.length - 1 → buf.length - 1 ∈ t.indices) :
    ∃ buf2, (ChunkBuff.mk cap buf).deallocate f =
        some ⟨ChunkBuff.shrunk cap (buf.length - 1), buf2⟩ ∧
      buf2.length = buf.length - 1 ∧
      buf2[1]? = some (Node.root none (some (t.rename (buf.length - 1) f).idx)) ∧
      Rep buf2 (t.rename (buf.length - 1) f) 1 ∧
      ∀ g, g ∉ t.indices → g ≠ f → g ≠ 1 → g < buf.length - 1 → buf2[g]? = buf[g]? := by
  have h1n : 1 ∉ t.indices := fun hm => by
    have := (hrange 1 hm).1
    omega
  by_cases hl : f = buf.length - 1
  · refine ⟨buf.dropLast, ChunkBuff.deallocate_last cap buf f hl (by omega), by simp, ?_, ?_, ?_⟩
    · rw [rename_of_not_mem _ _ _ (by rw [← hl]; exact hf),
        getElem?_dropLast_lt _ _ (by omega)]
      exact h1
    · rw [rename_of_not_mem _ _ _ (by rw [← hl]; exact hf)]
      apply Rep.frame hrep
      intro i hi
      have := hrange i hi
      have hif : i ≠ f := fun e => hf (e ▸ hi)
      exact getElem?_dropLast_lt _ _ (by omega)
    · intro g _ _ _ hg
      exact getElem?_dropLast_lt _ _ hg
  · have ha := hlast hl
    obtain ⟨M, hM, _, _⟩ := Rep.node_of_mem hrep ha
    obtain ⟨bufU, hU, hlen, hUf, hUi, hU1, hUg⟩ :=
      relocate_exec cap f (buf.length - 1) h1 hrep hnd hrange hf hf2 hflt ha M hM
    have hmove := ChunkBuff.deallocate_move cap buf bufU f M (by omega) (by omega) hM hU
    rw [hlen] at hmove
    refine ⟨bufU.dropLast, hmove, by simp [hlen], ?_, ?_, ?_⟩
    · rw [getElem?_dropLast_lt _ _ (by omega)]
      exact hU1
    · have hr : Rep bufU.dropLast (t.rename (buf.length - 1) f)
          (if 1 = buf.length - 1 then f else 1) := Rep.heap_rename (buf.length - 1) f hrep
        (fun i hi hia => by
          have := hrange i hi
          rw [getElem?_dropLast_lt _ _ (by omega)]
          exact hUi i hi hia)
        (fun _ => by
          rw [getElem?_dropLast_lt _ _ (by omega), hUf, hM, Option.map_some',
            renamePtr_self hrep hnd h1n ha f M hM])
      rw [if_neg (by omega)] at hr
      exact hr
    · intro g hg hgf hg1 hglt
      rw [getElem?_dropLast_lt _ _ (by omega)]
      exact hUg g hg hgf hg1

end LTree


namespace LTree

/-- The slots of a tree are those of the tree without a leaf, the slot of the leaf and the
slot of its parent. -/
theorem indices_removeAt_perm (ip : Nat) (t : LTree) (p : Nat) (hin : ∀ j x, t ≠ leaf j x) :
    t.indices.Perm ((t.find ip).1 :: t.findParent ip p :: (t.removeAt ip).indices) := by
  induction t generalizing p with
  | leaf i x => exact absurd rfl (hin i x)
  | inner i b z o ihz iho =>
    by_cases hbit : (1 <<< b) &&& ip ≠ 0
    · cases o with
      | leaf j x =>
        rw [removeAt_one_leaf _ _ _ _ _ _ hbit]
        simp only [LTree.find, LTree.findParent, if_pos hbit, indices]
        have h1 : (i :: (z.indices ++ [j])).Perm (i :: j :: z.indices) :=
          List.Perm.cons i (List.perm_append_singleton j z.indices)
        exact h1.trans (List.Perm.swap j i z.indices)
      | inner j b2 z2 o2 =>
        rw [removeAt_one_inner _ _ _ _ _ _ _ _ hbit]
        have efp : (inner i b z (inner j b2 z2 o2)).findParent ip p =
            (inner j b2 z2 o2).findParent ip i := by
          rw [LTree.findParent, if_pos hbit]
        have efd : (inner i b z (inner j b2 z2 o2)).find ip = (inner j b2 z2 o2).find ip := by
          rw [LTree.find, if_pos hbit]
        rw [efp, efd]
        have ih := iho i (by intro j2 x2 e; cases e)
        simp only [indices] at ih ⊢
        have h1 : (i :: (z.indices ++ (j :: (z2.indices ++ o2.indices)))).Perm
            (i :: (z.indices ++ ((find ip (inner j b2 z2 o2)).1 ::
              findParent ip (inner j b2 z2 o2) i ::
              (removeAt ip (inner j b2 z2 o2)).indices))) :=
          List.Perm.cons i (List.Perm.append_left _ ih)
        refine h1.trans ?_
        have h2 : (z.indices ++ ((find ip (inner j b2 z2 o2)).1 ::
              findParent ip (inner j b2 z2 o2) i ::
              (removeAt ip (inner j b2 z2 o2)).indices)).Perm
            ((find ip (inner j b2 z2 o2)).1 :: findParent ip (inner j b2 z2 o2) i ::
              (z.indices ++ (removeAt ip (inner j b2 z2 o2)).indices)) := by
          refine List.perm_middle.trans (List.Perm.cons _ ?_)
          exact List.perm_middle
        refine (List.Perm.cons i h2).trans ?_
        refine (List.Perm.swap _ i _).trans (List.Perm.cons _ ?_)
        exact List.Perm.swap _ i _
    · cases z with
      | leaf j x =>
        rw [removeAt_zero_leaf _ _ _ _ _ _ hbit]
        simp only [LTree.find, LTree.findParent, if_neg hbit, indices]
        exact List.Perm.swap j i o.indices
      | inner j b2 z2 o2 =>
        rw [removeAt_zero_inner _ _ _ _ _ _ _ _ hbit]
        have efp : (inner i b (inner j b2 z2 o2) o).findParent ip p =
            (inner j b2 z2 o2).findParent ip i := by
          rw [LTree.findParent, if_neg hbit]
        have efd : (inner i b (inner j b2 z2 o2) o).find ip = (inner j b2 z2 o2).find ip := by
          rw [LTree.find, if_neg hbit]
        rw [efp, efd]
        have ih := ihz i (by intro j2 x2 e; cases e)
        simp only [indices] at ih ⊢
        have h1 : (i :: ((j :: (z2.indices ++ o2.indices)) ++ o.indices)).Perm
            (i :: (((find ip (inner j b2 z2 o2)).1 ::
              findParent ip (inner j b2 z2 o2) i ::
              (removeAt ip (inner j b2 z2 o2)).indices) ++ o.indices)) :=
          List.Perm.cons i (List.Perm.append_right _ ih)
        refine h1.trans ?_
        simp only [List.cons_append]
        refine (List.Perm.swap _ i _).trans (List.Perm.cons _ ?_)
        exact List.Perm.swap _ i _

/-- Renaming the largest slot `n` to the free slot `f` turns the slots `2..n` without `f`
(and without those in `E`) into the slots `2..n-1` (without those in `E`). -/
theorem range_rename (l : List Nat) (n f : Nat) (E : Nat → Prop) (hnd : l.Nodup)
    (hl : ∀ i, i ∈ l ↔ (2 ≤ i ∧ i ≤ n ∧ i ≠ f ∧ ¬ E i))
    (hf2 : 2 ≤ f) (hfn : f ≤ n) (hEf : ¬ E f) (hEn : ¬ E n) :
    (l.map (fun i => if i = n then f else i)).Nodup ∧
      ∀ i, i ∈ l.map (fun i => if i = n then f else i) ↔ (2 ≤ i ∧ i ≤ n - 1 ∧ ¬ E i) := by
  constructor
  · apply List.Nodup.map_on _ hnd
    intro x hx y hy e
    have hxf := ((hl x).1 hx).2.2.1
    have hyf := ((hl y).1 hy).2.2.1
    by_cases hxn : x = n
    · by_cases hyn : y = n
      · rw [hxn, hyn]
      · rw [if_pos hxn, if_neg hyn] at e
        exact absurd e.symm hyf
    · by_cases hyn : y = n
      · rw [if_neg hxn, if_pos hyn] at e
        exact absurd e hxf
      · rw [if_neg hxn, if_neg hyn] at e
        exact e
  · intro i
    rw [List.mem_map]
    constructor
    · rintro ⟨j, hj, e⟩
      obtain ⟨a1, a2, a3, a4⟩ := (hl j).1 hj
      by_cases hjn : j = n
      · rw [if_pos hjn] at e
        subst e
        subst hjn
        exact ⟨hf2, by omega, hEf⟩
      · rw [if_neg hjn] at e
        subst e
        exact ⟨a1, by omega, a4⟩
    · rintro ⟨a1, a2, a3⟩
      by_cases hif : i = f
      · subst hif
        refine ⟨n, (hl n).2 ⟨by omega, le_refl n, by omega, hEn⟩, ?_⟩
        rw [if_pos rfl]
      · refine ⟨i, (hl i).2 ⟨a1, by omega, hif, a3⟩, ?_⟩
        rw [if_neg (by omega)]

end LTree


namespace IpContainer

/-- Freeing two disconnected slots outside the tree, the larger first: the arena loses two
slots and holds the tree, with the moved nodes renamed. -/
theorem free_two_core (cap : Nat) {buf4 : List Node} {tR : LTree} (F S2 : Nat) (nF nS : Node)
    (hdF : ∀ (cap : Nat) (buf : List Node) (r : pointer), buf[F]? = some nF →
      (IpContainer.mk ⟨cap, buf⟩ r).deleteNode (some F) =
        ((ChunkBuff.mk cap buf).deallocate F).map (fun c => IpContainer.mk c r))
    (hdS : ∀ (cap : Nat) (buf : List Node) (r : pointer), buf[S2]? = some nS →
      (IpContainer.mk ⟨cap, buf⟩ r).deleteNode (some S2) =
        ((ChunkBuff.mk cap buf).deallocate S2).map (fun c => IpContainer.mk c r))
    (h0 : buf4[0]? = some (Node.root none none))
    (h1 : buf4[1]? = some (Node.root none (some tR.idx)))
    (hrep : LTree.Rep buf4 tR 1) (hnd : tR.indices.Nodup)
    (hrange : ∀ i, i ∈ tR.indices ↔ 2 ≤ i ∧ i < buf4.length ∧ i ≠ F ∧ i ≠ S2)
    (hS2 : 2 ≤ S2) (hSF : S2 < F) (hFlt : F < buf4.length)
    (h4F : buf4[F]? = some nF) (h4S : buf4[S2]? = some nS) :
    ∃ cap2 buf2 t2, ((IpContainer.mk ⟨cap, buf4⟩ (some 1)).deleteNode (some F)).bind
          (fun s5 => s5.deleteNode (some S2)) = some (IpContainer.mk ⟨cap2, buf2⟩ (some 1)) ∧
      buf2[0]? = some (Node.root none none) ∧
      buf2[1]? = some (Node.root none (some t2.idx)) ∧
      LTree.Rep buf2 t2 1 ∧ t2.indices.Nodup ∧
      (∀ i, i ∈ t2.indices ↔ 2 ≤ i ∧ i < buf2.length) ∧ buf2.length = buf4.length - 2 ∧
      ∃ a1 c1 a2 c2, t2 = (tR.rename a1 c1).rename a2 c2 := by
  have hFn : F ∉ tR.indices := fun hm => ((hrange F).1 hm).2.2.1 rfl
  have hSn : S2 ∉ tR.indices := fun hm => ((hrange S2).1 hm).2.2.2 rfl
  have h0n : 0 ∉ tR.indices := fun hm => by
    have := ((hrange 0).1 hm).1
    omega
  obtain ⟨buf5, hd5, hlen5, h51, hrep5, hg5⟩ :=
    LTree.deallocate_rep cap F h1 hrep hnd
      (fun i hi => ⟨((hrange i).1 hi).1, ((hrange i).1 hi).2.1⟩) hFn (by omega) hFlt
      (fun hne => (hrange _).2 ⟨by omega, by omega, fun e => hne e.symm, by omega⟩)
  have hr1 := LTree.range_rename tR.indices (buf4.length - 1) F (fun i => i = S2) hnd
    (fun i => by
      rw [hrange i]
      constructor
      · rintro ⟨a1, a2, a3, a4⟩; exact ⟨a1, by omega, a3, a4⟩
      · rintro ⟨a1, a2, a3, a4⟩; exact ⟨a1, by omega, a3, a4⟩)
    (by omega) (by omega) (by omega) (by omega)
  rw [← LTree.indices_rename] at hr1
  obtain ⟨hnd1, hrange1⟩ := hr1
  have h5S : buf5[S2]? = some nS := by
    rw [hg5 S2 hSn (by omega) (by omega) (by omega)]; exact h4S
  have h50 : buf5[0]? = some (Node.root none none) := by
    rw [hg5 0 h0n (by omega) (by omega) (by omega)]; exact h0
  have hSn1 : S2 ∉ (tR.rename (buf4.length - 1) F).indices := fun hm =>
    ((hrange1 S2).1 hm).2.2 rfl
  have h0n1 : 0 ∉ (tR.rename (buf4.length - 1) F).indices := fun hm => by
    have := ((hrange1 0).1 hm).1
    omega
  obtain ⟨buf6, hd6, hlen6, h61, hrep6, hg6⟩ :=
    LTree.deallocate_rep (ChunkBuff.shrunk cap (buf4.length - 1)) S2 h51 hrep5 hnd1
      (fun i hi => ⟨((hrange1 i).1 hi).1, by
        have := ((hrange1 i).1 hi).2.1
        have := ((hrange1 i).1 hi).1
        omega⟩) hSn1 hS2 (by omega)
      (fun hne => (hrange1 _).2 ⟨by omega, by omega, by omega⟩)
  have hr2 := LTree.range_rename (tR.rename (buf4.length - 1) F).indices (buf5.length - 1) S2
    (fun _ => False) hnd1
    (fun i => by
      rw [hrange1 i]
      constructor
      · rintro ⟨a1, a2, a3⟩; exact ⟨a1, by omega, a3, fun h => h⟩
      · rintro ⟨a1, a2, a3, _⟩; exact ⟨a1, by omega, a3⟩)
    hS2 (by omega) (fun h => h) (fun h => h)
  rw [← LTree.indices_rename] at hr2
  obtain ⟨hnd2, hrange2⟩ := hr2
  refine ⟨ChunkBuff.shrunk (ChunkBuff.shrunk cap (buf4.length - 1)) (buf5.length - 1), buf6,
    (tR.rename (buf4.length - 1) F).rename (buf5.length - 1) S2, ?_, ?_, h61,
    hrep6, hnd2, ?_, by omega, ⟨_, _, _, _, rfl⟩⟩
  · rw [hdF _ _ _ h4F, hd5]
    simp only [Option.map_some', Option.some_bind]
    rw [hdS _ _ _ h5S, hd6]
    rfl
  · rw [hg6 0 h0n1 (by omega) (by omega) (by omega)]; exact h50
  · intro i
    rw [hrange2 i]
    constructor
    · rintro ⟨a1, a2, _⟩; exact ⟨a1, by omega⟩
    · rintro ⟨a1, a2⟩; exact ⟨a1, by omega, fun h => h⟩

/-- The end of `unlinkLeaf` on a tree: the leaf and its parent, disconnected, are freed. -/
theorem free_two (cap : Nat) {buf4 : List Node} {tR : LTree} (L O : Nat) (dL : DataNode)
    (bO : Nat)
    (h0 : buf4[0]? = some (Node.root none none))
    (h1 : buf4[1]? = some (Node.root none (some tR.idx)))
    (hrep : LTree.Rep buf4 tR 1) (hnd : tR.indices.Nodup)
    (hrange : ∀ i, i ∈ tR.indices ↔ 2 ≤ i ∧ i < buf4.length ∧ i ≠ L ∧ i ≠ O)
    (hL2 : 2 ≤ L) (hLlt : L < buf4.length) (hO2 : 2 ≤ O) (hOlt : O < buf4.length)
    (hLO : L ≠ O) (h4L : buf4[L]? = some (Node.leaf none dL))
    (h4O : buf4[O]? = some (Node.inner bO none none none)) :
    ∃ cap2 buf2 t2, ((IpContainer.mk ⟨cap, buf4⟩ (some 1)).deleteNode
          (some (if L < O then O else L))).bind
          (fun s5 => s5.deleteNode (some (if L < O then L else O))) =
        some (IpContainer.mk ⟨cap2, buf2⟩ (some 1)) ∧
      buf2[0]? = some (Node.root none none) ∧
      buf2[1]? = some (Node.root none (some t2.idx)) ∧
      LTree.Rep buf2 t2 1 ∧ t2.indices.Nodup ∧
      (∀ i, i ∈ t2.indices ↔ 2 ≤ i ∧ i < buf2.length) ∧ buf2.length = buf4.length - 2 ∧
      ∃ a1 c1 a2 c2, t2 = (tR.rename a1 c1).rename a2 c2 := by
  by_cases hlt : L < O
  · rw [if_pos hlt, if_pos hlt]
    exact free_two_core cap O L _ _
      (fun cap buf r h => deleteNode_inner cap buf r O bO h)
      (fun cap buf r h => deleteNode_leaf cap buf r L dL h)
      h0 h1 hrep hnd
      (fun i => by rw [hrange i]; constructor <;> (rintro ⟨a1, a2, a3, a4⟩; exact ⟨a1, a2, a4, a3⟩))
      hL2 hlt hOlt h4O h4L
  · rw [if_neg hlt, if_neg hlt]
    exact free_two_core cap L O _ _
      (fun cap buf r h => deleteNode_leaf cap buf r L dL h)
      (fun cap buf r h => deleteNode_inner cap buf r O bO h)
      h0 h1 hrep hnd hrange hO2 (by omega) hLlt h4L h4O

end IpContainer


namespace IpContainer

/-- `unlinkLeaf` on an arena that holds a tree with at least two leaves: afterwards the arena
is two slots shorter and holds the tree without the leaf the descent on `ip` ends at. -/
theorem unlinkLeaf_rep (cap : Nat) {buf : List Node} {t : LTree} (ip : Nat)
    (h0 : buf[0]? = some (Node.root none none))
    (h1 : buf[1]? = some (Node.root none (some t.idx)))
    (hrep : LTree.Rep buf t 1) (hnd : t.indices.Nodup)
    (hrange : ∀ i, i ∈ t.indices ↔ 2 ≤ i ∧ i < buf.length)
    (hin : ∀ j x, t ≠ LTree.leaf j x) :
    ∃ cap2 buf2 t2, (IpContainer.mk ⟨cap, buf⟩ (some 1)).unlinkLeaf (some (t.find ip).1) =
        some (IpContainer.mk ⟨cap2, buf2⟩ (some 1)) ∧
      buf2[0]? = some (Node.root none none) ∧
      buf2[1]? = some (Node.root none (some t2.idx)) ∧
      LTree.Rep buf2 t2 1 ∧ t2.indices.Nodup ∧
      (∀ i, i ∈ t2.indices ↔ 2 ≤ i ∧ i < buf2.length) ∧ buf2.length = buf.length - 2 ∧
      ∃ a1 c1 a2 c2, t2 = ((t.removeAt ip).rename a1 c1).rename a2 c2 := by
  have h1n : 1 ∉ t.indices := fun hm => by
    have := ((hrange 1).1 hm).1
    omega
  have h0n : 0 ∉ t.indices := fun hm => by
    have := ((hrange 0).1 hm).1
    omega
  obtain ⟨bO, oO, zO, u1, u2, u3, u4, u5, u6, u7, u8, u9, u10, u11⟩ :=
    LTree.unlink_nodes ip hrep hnd h1n hin
  have hL := LTree.Rep.find ip hrep
  have hLm := LTree.find_mem_indices ip t
  obtain ⟨nodeS, hS, hSroot, _⟩ := LTree.Rep.node_of_mem hrep u4
  have hcases := LTree.unlinkAt_cases ip t 1 hnd hin
  have hperm := LTree.indices_removeAt_perm ip t 1 hin
  have hndP := (hperm.nodup_iff).1 hnd
  simp only [List.nodup_cons, List.mem_cons, not_or] at hndP
  obtain ⟨⟨_, hLR⟩, hOR, hndR⟩ := hndP
  have hmemR : ∀ i, i ∈ (t.removeAt ip).indices ↔
      2 ≤ i ∧ i < buf.length ∧ i ≠ (t.find ip).1 ∧ i ≠ t.findParent ip 1 := by
    intro i
    rw [← and_assoc, ← hrange i, hperm.mem_iff]
    simp only [List.mem_cons]
    constructor
    · intro hi
      exact ⟨Or.inr (Or.inr hi), fun e => hLR (e ▸ hi), fun e => hOR (e ▸ hi)⟩
    · rintro ⟨h | h | h, h2, h3⟩
      · exact absurd h h2
      · exact absurd h h3
      · exact h
  have hrepR : ∀ bufX : List Node,
      bufX[(t.unlinkAt ip 1).1]? = some (nodeS.withParent (some (t.unlinkAt ip 1).2)) →
      ((t.unlinkAt ip 1).2 ∈ t.indices → bufX[(t.unlinkAt ip 1).2]? =
        (buf[(t.unlinkAt ip 1).2]?).bind
          (fun n => n.withChild (some (t.findParent ip 1)) (some (t.unlinkAt ip 1).1))) →
      (∀ i, i ≠ (t.find ip).1 → i ≠ t.findParent ip 1 → i ≠ (t.unlinkAt ip 1).1 →
        i ≠ (t.unlinkAt ip 1).2 → bufX[i]? = buf[i]?) →
      LTree.Rep bufX (t.removeAt ip) 1 := by
    intro bufX a1 a2 a3
    exact LTree.Rep.heap_removeAt hrep hnd h1n ip hin (by rw [a1, hS]; rfl) a2
      (fun i _ b1 b2 b3 b4 => a3 i b3 b4 b1 b2)
  have hlink : ∃ buf4, (IpContainer.mk ⟨cap, buf⟩ (some 1)).unlinkLeaf (some (t.find ip).1) =
        ((IpContainer.mk ⟨cap, buf4⟩ (some 1)).deleteNode
          (some (if (t.find ip).1 < t.findParent ip 1 then t.findParent ip 1
            else (t.find ip).1))).bind
          (fun s5 => s5.deleteNode (some (if (t.find ip).1 < t.findParent ip 1
            then (t.find ip).1 else t.findParent ip 1))) ∧
      buf4.length = buf.length ∧ buf4[(t.find ip).1]? = some (Node.leaf none (t.find ip).2) ∧
      buf4[t.findParent ip 1]? = some (Node.inner bO none none none) ∧
      buf4[0]? = some (Node.root none none) ∧
      buf4[1]? = some (Node.root none (some (t.removeAt ip).idx)) ∧
      LTree.Rep buf4 (t.removeAt ip) 1 := by
    rcases u11 with ⟨e1, e2⟩ | ⟨hGm, bG, parG, oG, zG, hG, hGch⟩
    · rw [e1] at u1 u8 u9 u10
      obtain ⟨buf4, g1, g2, g3, g4, g5, g6, g7⟩ :=
        unlinkLeaf_root_mk cap buf _ _ _ _ bO oO zO nodeS none (some t.idx)
          hL u1 u2 hS hSroot h1 u5 u6 u7 u8 u9 u10
      have hidx : (t.removeAt ip).idx = (t.unlinkAt ip 1).1 := by
        rcases hcases with ⟨_, _, a3, _, _⟩ | ⟨a1, _⟩
        · exact a3
        · rw [e1] at a1; exact absurd a1 h1n
      refine ⟨buf4, g1, g2, g3, g4, ?_, ?_, ?_⟩
      · rw [g7 0 (fun e => h0n (e ▸ hLm)) (fun e => h0n (e ▸ u3)) (fun e => h0n (e ▸ u4))
          (by omega)]
        exact h0
      · rw [hidx]; exact g6
      · apply hrepR buf4
        · rw [e1]; exact g5
        · intro hm; rw [e1] at hm; exact absurd hm h1n
        · intro i b1 b2 b3 b4
          rw [e1] at b4
          exact g7 i b1 b2 b3 b4
    · have hbG32 : bG < 32 := by
        obtain ⟨n, e1, _, e2⟩ := LTree.Rep.node_of_mem hrep hGm
        rw [hG] at e1
        cases e1
        exact e2 _ _ _ _ rfl
      obtain ⟨nG2, hGw⟩ : ∃ nG2, (Node.inner bG parG oG zG).withChild
          (some (t.findParent ip 1)) (some (t.unlinkAt ip 1).1) = some nG2 := by
        by_cases hz : zG = some (t.findParent ip 1)
        · subst hz; exact ⟨_, LTree.withChild_zero _ _ _ _ _⟩
        · rcases hGch with hz2 | ho
          · exact absurd hz2 hz
          · subst ho; exact ⟨_, LTree.withChild_one _ _ _ _ _ hz⟩
      have hGR : (t.unlinkAt ip 1).2 ∈ (t.removeAt ip).indices := by
        have := (hrange _).1 hGm
        exact (hmemR _).2 ⟨this.1, this.2, u8, u10⟩
      have hSlt := lt_of_getElem? hS
      have hGlt := lt_of_getElem? hG
      have hrep2 : LTree.Rep ((buf.set (t.unlinkAt ip 1).1
          (nodeS.withParent (some (t.unlinkAt ip 1).2))).set (t.unlinkAt ip 1).2 nG2)
          (t.removeAt ip) 1 := by
        apply hrepR
        · rw [List.getElem?_set_ne u9, List.getElem?_set_self hSlt]
        · intro _
          rw [List.getElem?_set_self (by rw [List.length_set]; exact hGlt), hG,
            Option.some_bind, hGw]
        · intro i b1 b2 b3 b4
          rw [List.getElem?_set_ne (Ne.symm b4), List.getElem?_set_ne (Ne.symm b3)]
      obtain ⟨buf4, g1, g2, g3, g4, g5, g6, g7⟩ :=
        unlinkLeaf_inner_mk cap buf (some 1) _ _ _ _ _ bO oO zO nodeS bG parG oG zG nG2
          hL u1 u2 hS hSroot hG hbG32 hGw u5 u6 u7 u8 u9 u10
          (fun b par one zero e => LTree.Rep.children_parent hrep2 cap hGR
            (by rw [List.getElem?_set_self (by rw [List.length_set]; exact hGlt), e]))
      have hidx : (t.removeAt ip).idx = t.idx := by
        rcases hcases with ⟨a1, _⟩ | ⟨_, _, _, _, _, a6⟩
        · rw [a1] at hGm; exact absurd hGm h1n
        · exact a6
      refine ⟨buf4, g1, g2, g3, g4, ?_, ?_, ?_⟩
      · rw [g7 0 (fun e => h0n (e ▸ hLm)) (fun e => h0n (e ▸ u3)) (fun e => h0n (e ▸ u4))
          (fun e => h0n (e ▸ hGm))]
        exact h0
      · rw [hidx, g7 1 (fun e => h1n (e ▸ hLm)) (fun e => h1n (e ▸ u3))
          (fun e => h1n (e ▸ u4)) (fun e => h1n (e ▸ hGm))]
        exact h1
      · apply hrepR buf4 g5
        · intro _
          rw [g6, hG, Option.some_bind, hGw]
        · exact g7
  obtain ⟨buf4, k1, k2, k3, k4, k5, k6, k7⟩ := hlink
  have hLr := (hrange _).1 hLm
  have hOr := (hrange _).1 u3
  obtain ⟨cap2, buf2, t2, f1, f2, f3, f4, f5, f6, f7, f8⟩ :=
    free_two cap (t.find ip).1 (t.findParent ip 1) (t.find ip).2 bO k5 k6 k7 hndR
      (fun i => by rw [hmemR i, k2]) hLr.1 (by rw [k2]; exact hLr.2) hOr.1
      (by rw [k2]; exact hOr.2) u6 k3 k4
  exact ⟨cap2, buf2, t2, by rw [k1, f1], f2, f3, f4, f5, f6, by rw [f7, k2], f8⟩

end IpContainer


namespace IpContainer

theorem leafOk_removePrefix (d : DataNode) (mask : Int) (h : LTree.LeafOk d)
    (hm : mask ∈ d.prefixes) (hne : (d.removePrefix mask).1.prefixes ≠ []) :
    LTree.LeafOk (d.removePrefix mask).1 := by
  obtain ⟨h1, h2, h3⟩ := h
  obtain ⟨e1, e2, e3⟩ := DataNode.removePrefix_mem d mask h1 hm
  refine ⟨?_, hne, ?_⟩
  · rw [e3]
    exact List.Pairwise.filter _ h1
  · intro m hmem
    rw [e3] at hmem
    rw [e2]
    exact h3 m (List.mem_filter.1 hmem).1

/-- The common start of `del` on an engine that holds a tree: the mask is taken out of the
prefix set of the candidate leaf. -/
theorem del_start {cap : Nat} {buf : List Node} {t : LTree}
    (h : WF ⟨⟨cap, buf⟩, some 1⟩ (some t)) (base : Nat) (mask : Int) :
    (IpContainer.mk ⟨cap, buf⟩ (some 1)).del base mask =
      if ((t.find base).2.removePrefix mask).2 = -1 then
        some (IpContainer.mk ⟨cap, buf.set (t.find base).1 (Node.leaf (some (t.findParent base 1))
          ((t.find base).2.removePrefix mask).1)⟩ (some 1), some (-1))
      else if ((t.find base).2.removePrefix mask).1.prefixes ≠ [] then
        some (IpContainer.mk ⟨cap, buf.set (t.find base).1 (Node.leaf (some (t.findParent base 1))
          ((t.find base).2.removePrefix mask).1)⟩ (some 1), some 0)
      else
        match (IpContainer.mk ⟨cap, buf.set (t.find base).1
            (Node.leaf (some (t.findParent base 1))
              ((t.find base).2.removePrefix mask).1)⟩ (some 1)).rootChild with
        | none => none
        | some ch =>
          if some (t.find base).1 = ch then
            match (IpContainer.mk ⟨cap, buf.set (t.find base).1
                (Node.leaf (some (t.findParent base 1))
                  ((t.find base).2.removePrefix mask).1)⟩ (some 1)).disconnectNode ch with
            | none => none
            | some s2 =>
              match s2.rootChild with
              | none => none
              | some ch2 =>
                match s2.deleteNode ch2 with
                | none => none
                | some s3 => (s3.setRootChild none).map (fun s4 => (s4, some 0))
          else ((IpContainer.mk ⟨cap, buf.set (t.find base).1
              (Node.leaf (some (t.findParent base 1))
                ((t.find base).2.removePrefix mask).1)⟩ (some 1)).unlinkLeaf
                  (some (t.find base).1)).map (fun s2 => (s2, none)) := by
  have hfind := WF.findNode h base
  have hdata := WF.leafData h base
  have hroot := WF.rootChild h
  obtain ⟨hr, h0, h1, hrep, hnd, hrange, hinv⟩ := h
  dsimp only at h0 h1 hrep hrange
  have hL := LTree.Rep.find base hrep
  unfold del
  rw [hroot]
  dsimp only
  rw [hfind]
  dsimp only
  rw [hdata]
  dsimp only
  rw [setLeafData_mk _ _ _ _ _ _ _ hL]
  all_goals rfl

/-- `del` of a mask the candidate leaf does not hold. -/
theorem del_absent {s : IpContainer} {t : LTree} (h : WF s (some t)) (base : Nat) (mask : Int)
    (hm : mask ∉ (t.find base).2.prefixes) : s.del base mask = some (s, some (-1)) := by
  obtain ⟨⟨cap, buf⟩, r⟩ := s
  have hr : r = some 1 := h.1
  subst hr
  rw [del_start h]
  obtain ⟨_, h0, h1, hrep, hnd, hrange, hinv⟩ := h
  dsimp only at h0 h1 hrep hrange
  have hL := LTree.Rep.find base hrep
  have hok := LTree.Inv.leafOk hinv _ (LTree.find_mem_leaves base t)
  have e := DataNode.removePrefix_not_mem _ mask hok.1 hm
  rw [e]
  dsimp only
  rw [if_pos rfl, list_set_same _ _ _ hL]

/-- `del` of a mask of the candidate leaf that is not its last one. -/
theorem del_keep {s : IpContainer} {t : LTree} (h : WF s (some t)) (base : Nat) (mask : Int)
    (hm : mask ∈ (t.find base).2.prefixes)
    (hne : ((t.find base).2.removePrefix mask).1.prefixes ≠ []) :
    ∃ s1, s.del base mask = some (s1, some 0) ∧
      WF s1 (some (t.modifyAt base (fun d => (d.removePrefix mask).1))) := by
  obtain ⟨⟨cap, buf⟩, r⟩ := s
  have hr : r = some 1 := h.1
  subst hr
  have hstart := del_start h base mask
  obtain ⟨_, h0, h1, hrep, hnd, hrange, hinv⟩ := h
  dsimp only at h0 h1 hrep hrange
  have hok := LTree.Inv.leafOk hinv _ (LTree.find_mem_leaves base t)
  obtain ⟨e1, e2, e3⟩ := DataNode.removePrefix_mem _ mask hok.1 hm
  have hmem := (hrange _).1 (LTree.find_mem_indices base t)
  refine ⟨IpContainer.mk ⟨cap, buf.set (t.find base).1 (Node.leaf (some (t.findParent base 1))
    ((t.find base).2.removePrefix mask).1)⟩ (some 1), ?_, ?_⟩
  · rw [hstart, if_neg (by rw [e1]; decide), if_pos hne]
  · refine ⟨rfl, ?_, ?_,
      LTree.Rep.heap_modifyAt hrep hnd base (fun d => (d.removePrefix mask).1), ?_, ?_, ?_⟩
    · dsimp only
      rw [List.getElem?_set_ne (by omega)]
      exact h0
    · dsimp only
      rw [List.getElem?_set_ne (by omega), LTree.idx_modifyAt]
      exact h1
    · rw [LTree.indices_modifyAt]; exact hnd
    · intro i
      rw [LTree.indices_modifyAt]
      simp only [List.length_set]
      exact hrange i
    · apply LTree.Inv.modifyAt hinv
      · intro d
        unfold DataNode.removePrefix
        dsimp only
        split
        · split <;> rfl
        · rfl
      · exact leafOk_removePrefix _ mask hok hm hne

end IpContainer


namespace IpContainer

theorem modifyAt_not_leaf (ip : Nat) (f : DataNode → DataNode) (t : LTree)
    (hin : ∀ j x, t ≠ LTree.leaf j x) : ∀ j x, t.modifyAt ip f ≠ LTree.leaf j x := by
  cases t with
  | leaf i d => exact absurd rfl (hin i d)
  | inner i b z o =>
    intro j x
    simp only [LTree.modifyAt]
    split <;> (intro e; cases e)

/-- `del` of the last mask of a leaf that has an inner parent: the leaf and the parent are
unlinked and freed; the call ends without a returned value. -/
theorem del_last_unlink {s : IpContainer} {t : LTree} (h : WF s (some t)) (base : Nat)
    (mask : Int) (hm : mask ∈ (t.find base).2.prefixes)
    (he : ((t.find base).2.removePrefix mask).1.prefixes = [])
    (hin : ∀ j x, t ≠ LTree.leaf j x) :
    ∃ s1 t2, s.del base mask = some (s1, none) ∧ WF s1 (some t2) ∧
      s1.node_alloc.buf.length = s.node_alloc.buf.length - 2 ∧
      ∃ a1 c1 a2 c2, t2 = ((t.removeAt base).rename a1 c1).rename a2 c2 := by
  obtain ⟨⟨cap, buf⟩, r⟩ := s
  have hr : r = some 1 := h.1
  subst hr
  have hstart := del_start h base mask
  obtain ⟨_, h0, h1, hrep, hnd, hrange, hinv⟩ := h
  dsimp only at h0 h1 hrep hrange ⊢
  have hok := LTree.Inv.leafOk hinv _ (LTree.find_mem_leaves base t)
  obtain ⟨e1, e2, e3⟩ := DataNode.removePrefix_mem _ mask hok.1 hm
  have hmem := (hrange _).1 (LTree.find_mem_indices base t)
  have hne : (t.find base).1 ≠ t.idx := by
    cases t with
    | leaf i d => exact absurd rfl (hin i d)
    | inner i b z o => exact LTree.find_ne_idx base i b z o hnd
  have hb1 : (buf.set (t.find base).1 (Node.leaf (some (t.findParent base 1))
      ((t.find base).2.removePrefix mask).1))[1]? = some (Node.root none (some t.idx)) := by
    rw [List.getElem?_set_ne (by omega)]; exact h1
  have hb0 : (buf.set (t.find base).1 (Node.leaf (some (t.findParent base 1))
      ((t.find base).2.removePrefix mask).1))[0]? = some (Node.root none none) := by
    rw [List.getElem?_set_ne (by omega)]; exact h0
  have hfm := LTree.find_modifyAt base (fun d => (d.removePrefix mask).1) t
  have hfm1 : ((t.modifyAt base (fun d => (d.removePrefix mask).1)).find base).1 =
      (t.find base).1 := by rw [hfm]
  obtain ⟨cap2, buf2, t2, f1, f2, f3, f4, f5, f6, f7, a1, c1, a2, c2, f8⟩ :=
    @unlinkLeaf_rep cap (buf.set (t.find base).1 (Node.leaf (some (t.findParent base 1))
      ((t.find base).2.removePrefix mask).1))
      (t.modifyAt base (fun d => (d.removePrefix mask).1)) base hb0
      (by rw [LTree.idx_modifyAt]; exact hb1)
      (LTree.Rep.heap_modifyAt hrep hnd base (fun d => (d.removePrefix mask).1))
      (by rw [LTree.indices_modifyAt]; exact hnd)
      (by
        intro i
        rw [LTree.indices_modifyAt]
        simp only [List.length_set]
        exact hrange i)
      (modifyAt_not_leaf _ _ _ hin)
  rw [hfm1] at f1
  have hrm : (t.modifyAt base (fun d => (d.removePrefix mask).1)).removeAt base =
      t.removeAt base := by
    rcases LTree.removeAt_modifyAt base (fun d => (d.removePrefix mask).1) t with
      ⟨i, d, e⟩ | e
    · exact absurd e (hin i d)
    · exact e
  rw [hrm] at f8
  refine ⟨IpContainer.mk ⟨cap2, buf2⟩ (some 1), t2, ?_, ?_, ?_, a1, c1, a2, c2, f8⟩
  · rw [hstart, if_neg (by rw [e1]; decide), if_neg (not_not.2 he),
      rootChild_mk _ _ none (some t.idx) hb1]
    dsimp only
    rw [if_neg (fun e => hne (Option.some.inj e)), f1]
    rfl
  · refine ⟨rfl, f2, f3, f4, f5, f6, ?_⟩
    rw [f8]
    exact LTree.Inv.rename (LTree.Inv.rename (LTree.Inv.removeAt hinv base) a1 c1) a2 c2
  · dsimp only
    rw [f7, List.length_set]

/-- The arena of an engine that holds a single leaf. -/
theorem WF.single {cap : Nat} {buf : List Node} {i : Nat} {x : DataNode}
    (h : WF ⟨⟨cap, buf⟩, some 1⟩ (some (LTree.leaf i x))) :
    i = 2 ∧ buf = [Node.root none none, Node.root none (some 2), Node.leaf (some 1) x] := by
  obtain ⟨_, h0, h1, hrep, hnd, hrange, hinv⟩ := h
  dsimp only at h0 h1 hrep hrange
  simp only [LTree.indices, List.mem_singleton] at hrange
  have hi := (hrange i).1 rfl
  have h2 : i = 2 := by
    have := (hrange 2).2 ⟨le_refl 2, by omega⟩
    omega
  subst h2
  have hlen : buf.length = 3 := by
    by_contra hc
    have := (hrange 3).2 ⟨by omega, by omega⟩
    omega
  refine ⟨rfl, ?_⟩
  simp only [LTree.Rep] at hrep
  simp only [LTree.idx_leaf] at h1
  match buf, hlen, h0, h1, hrep with
  | [a, b, c], _, h0, h1, hrep =>
    simp only [List.getElem?_cons_zero, List.getElem?_cons_succ, Option.some.injEq] at h0 h1 hrep
    rw [h0, h1, hrep]

end IpContainer


namespace IpContainer

/-- `del` of the last mask of the only leaf: the tree becomes empty. -/
theorem del_last_root {s : IpContainer} {i : Nat} {x : DataNode}
    (h : WF s (some (LTree.leaf i x))) (base : Nat) (mask : Int) (hm : mask ∈ x.prefixes)
    (he : (x.removePrefix mask).1.prefixes = []) :
    ∃ s1, s.del base mask = some (s1, some 0) ∧ WF s1 none := by
  obtain ⟨⟨cap, buf⟩, r⟩ := s
  have hr : r = some 1 := h.1
  subst hr
  have hstart := del_start h base mask
  obtain ⟨hi, hbuf⟩ := WF.single h
  subst hi
  subst hbuf
  obtain ⟨_, h0, h1, hrep, hnd, hrange, hinv⟩ := h
  have hok : LTree.LeafOk x := hinv
  obtain ⟨e1, e2, e3⟩ := DataNode.removePrefix_mem x mask hok.1 hm
  simp only [LTree.find, LTree.findParent] at hstart
  have hset : [Node.root none none, Node.root none (some 2), Node.leaf (some 1) x].set 2
      (Node.leaf (some 1) (x.removePrefix mask).1) =
      [Node.root none none, Node.root none (some 2),
        Node.leaf (some 1) (x.removePrefix mask).1] := rfl
  rw [hset] at hstart
  refine ⟨IpContainer.mk ⟨ChunkBuff.shrunk cap 2, [Node.root none none, Node.root none none]⟩
    (some 1), ?_, rfl, rfl⟩
  rw [hstart, if_neg (by rw [e1]; decide), if_neg (not_not.2 he),
    rootChild_mk _ _ none (some 2) rfl]
  dsimp only
  rw [if_pos rfl, disconnectNode_leaf _ _ _ 2 (some 1) (x.removePrefix mask).1 rfl]
  dsimp only
  have hset2 : [Node.root none none, Node.root none (some 2),
      Node.leaf (some 1) (x.removePrefix mask).1].set 2
      (Node.leaf none (x.removePrefix mask).1) =
      [Node.root none none, Node.root none (some 2),
        Node.leaf none (x.removePrefix mask).1] := rfl
  rw [hset2, rootChild_mk _ _ none (some 2) rfl]
  dsimp only
  rw [deleteNode_leaf _ _ _ 2 (x.removePrefix mask).1 rfl,
    ChunkBuff.deallocate_last cap [Node.root none none, Node.root none (some 2),
      Node.leaf none (x.removePrefix mask).1] 2 rfl (by decide)]
  dsimp only [Option.map_some', List.length_cons, List.length_nil, List.dropLast]
  rw [setRootChild_mk _ _ none (some 2) none rfl]
  rfl

end IpContainer


namespace IpContainer

theorem add_invalid (s : IpContainer) (base : Nat) (mask : Int)
    (hv : validate base mask = false) : s.add base mask = some (s, -1) := by
  unfold add
  rw [hv]
  rfl

/-- A valid `add` on an engine that denotes a tree returns 0; the engine then denotes a tree
and the stored set has gained `(base, mask)`. -/
theorem add_WF {s : IpContainer} {ot : Option LTree} (h : WF s ot) (base : Nat) (mask : Int)
    (hv : validate base mask = true) :
    ∃ s1 t1, s.add base mask = some (s1, 0) ∧ WF s1 (some t1) ∧
      (∀ b m, stored s1 b m ↔ stored s b m ∨ (b = base ∧ m = mask)) ∧
      base ∈ t1.keys := by
  cases ot with
  | none =>
    obtain ⟨s1, h1, h2⟩ := add_empty h base mask hv
    refine ⟨s1, _, h1, h2, ?_, by simp [LTree.keys, LTree.leaves]⟩
    intro b m
    rw [WF.stored_iff h2]
    simp only [LTree.leaves, List.mem_singleton, exists_eq_left]
    constructor
    · rintro ⟨e1, e2⟩; exact Or.inr ⟨e1.symm, e2⟩
    · rintro (hs | ⟨e1, e2⟩)
      · exact absurd hs (WF.stored_none h b m)
      · exact ⟨e1.symm, e2⟩
  | some t =>
    by_cases hk : (t.find base).2.ip = base
    · obtain ⟨s1, h1, h2⟩ := add_existing h base mask hv hk
      refine ⟨s1, _, h1, h2, ?_, ?_⟩
      · intro b m
        rw [WF.stored_iff h2, WF.stored_iff h]
        obtain ⟨l1, l2, e1, e2⟩ := LTree.leaves_modifyAt base (fun d => d.addPrefix mask) t
        rw [e1, e2]
        have hok := LTree.Inv.leafOk h.2.2.2.2.2.2 _ (LTree.find_mem_leaves base t)
        obtain ⟨a1, a2, a3⟩ := DataNode.addPrefix_spec (t.find base).2 mask hok.1
        simp only [List.mem_append, List.mem_cons]
        constructor
        · rintro ⟨d, hd | hd | hd, e3, e4⟩
          · exact Or.inl ⟨d, Or.inl hd, e3, e4⟩
          · subst hd
            rcases (a3 m).1 e4 with hm | hm
            · exact Or.inl ⟨_, Or.inr (Or.inl rfl), by rw [← a1]; exact e3, hm⟩
            · exact Or.inr ⟨by rw [← e3, a1, hk], hm⟩
          · exact Or.inl ⟨d, Or.inr (Or.inr hd), e3, e4⟩
        · rintro (⟨d, hd | hd | hd, e3, e4⟩ | ⟨e3, e4⟩)
          · exact ⟨d, Or.inl hd, e3, e4⟩
          · subst hd
            exact ⟨_, Or.inr (Or.inl rfl), by rw [a1]; exact e3, (a3 m).2 (Or.inl e4)⟩
          · exact ⟨d, Or.inr (Or.inr hd), e3, e4⟩
          · exact ⟨_, Or.inr (Or.inl rfl), by rw [a1, hk, e3], (a3 m).2 (Or.inr e4)⟩
      · rw [LTree.keys_modifyAt _ _ (fun d => DataNode.addPrefix_spec' d mask)]
        rw [← hk]
        exact LTree.find_mem_keys base t
    · obtain ⟨s1, d, _, h1, h2⟩ := add_new h base mask hv hk
      refine ⟨s1, _, h1, h2, ?_, ?_⟩
      · intro b m
        rw [WF.stored_iff h2, WF.stored_iff h]
        obtain ⟨l1, l2, e1, e2⟩ := LTree.leaves_splice base d s.node_alloc.buf.length
          (s.node_alloc.buf.length + 1) { ip := base, prefixes := [mask] } t
        rw [e1, e2]
        simp only [List.mem_append, List.mem_cons]
        constructor
        · rintro ⟨x, hx | hx | hx, e3, e4⟩
          · exact Or.inl ⟨x, Or.inl hx, e3, e4⟩
          · subst hx
            simp only [List.mem_singleton] at e4
            exact Or.inr ⟨e3.symm, e4⟩
          · exact Or.inl ⟨x, Or.inr hx, e3, e4⟩
        · rintro (⟨x, hx | hx, e3, e4⟩ | ⟨e3, e4⟩)
          · exact ⟨x, Or.inl hx, e3, e4⟩
          · exact ⟨x, Or.inr (Or.inr hx), e3, e4⟩
          · exact ⟨_, Or.inr (Or.inl rfl), e3.symm, by simp [e4]⟩
      · rw [LTree.mem_keys_splice base d _ _ _ rfl]
        exact Or.inl rfl

theorem del_none {s : IpContainer} (h : WF s none) (base : Nat) (mask : Int) :
    s.del base mask = some (s, some (-1)) := by
  unfold del
  rw [WF.rootChild_none h]

/-- The stored set after a mask is taken out of the candidate leaf. -/
theorem holds_after_del (l1 l2 : List DataNode) (dL dnew : DataNode) (mask : Int)
    (hnd : ((l1 ++ dL :: l2).map DataNode.ip).Nodup) (hip : dnew.ip = dL.ip)
    (hpre : ∀ m, m ∈ dnew.prefixes ↔ m ∈ dL.prefixes ∧ m ≠ mask) (b : Nat) (m : Int) :
    ((∃ d ∈ l1 ++ dnew :: l2, d.ip = b ∧ m ∈ d.prefixes) ↔
      (∃ d ∈ l1 ++ dL :: l2, d.ip = b ∧ m ∈ d.prefixes) ∧ ¬ (b = dL.ip ∧ m = mask)) ∧
    (dnew.prefixes = [] → ((∃ d ∈ l1 ++ l2, d.ip = b ∧ m ∈ d.prefixes) ↔
      (∃ d ∈ l1 ++ dL :: l2, d.ip = b ∧ m ∈ d.prefixes) ∧ ¬ (b = dL.ip ∧ m = mask))) := by
  have hother : ∀ d, d ∈ l1 ∨ d ∈ l2 → d.ip ≠ dL.ip := by
    intro d hd e
    simp only [List.map_append, List.map_cons] at hnd
    have h1 := List.nodup_middle.1 hnd
    simp only [List.nodup_cons, List.mem_append, List.mem_map, not_or] at h1
    rcases hd with hd | hd
    · exact h1.1.1 ⟨d, hd, e⟩
    · exact h1.1.2 ⟨d, hd, e⟩
  simp only [List.mem_append, List.mem_cons]
  constructor
  · constructor
    · rintro ⟨d, hd | hd | hd, e3, e4⟩
      · exact ⟨⟨d, Or.inl hd, e3, e4⟩, fun hc => hother d (Or.inl hd) (by rw [e3, hc.1])⟩
      · subst hd
        exact ⟨⟨dL, Or.inr (Or.inl rfl), by rw [← hip]; exact e3, ((hpre m).1 e4).1⟩,
          fun hc => ((hpre m).1 e4).2 hc.2⟩
      · exact ⟨⟨d, Or.inr (Or.inr hd), e3, e4⟩, fun hc => hother d (Or.inr hd) (by rw [e3, hc.1])⟩
    · rintro ⟨⟨d, hd | hd | hd, e3, e4⟩, hc⟩
      · exact ⟨d, Or.inl hd, e3, e4⟩
      · subst hd
        refine ⟨dnew, Or.inr (Or.inl rfl), by rw [hip]; exact e3, (hpre m).2 ⟨e4, ?_⟩⟩
        intro e
        exact hc ⟨e3.symm, e⟩
      · exact ⟨d, Or.inr (Or.inr hd), e3, e4⟩
  · intro hnil
    constructor
    · rintro ⟨d, hd | hd, e3, e4⟩
      · exact ⟨⟨d, Or.inl hd, e3, e4⟩, fun hc => hother d (Or.inl hd) (by rw [e3, hc.1])⟩
      · exact ⟨⟨d, Or.inr (Or.inr hd), e3, e4⟩, fun hc => hother d (Or.inr hd) (by rw [e3, hc.1])⟩
    · rintro ⟨⟨d, hd | hd | hd, e3, e4⟩, hc⟩
      · exact ⟨d, Or.inl hd, e3, e4⟩
      · subst hd
        exfalso
        have : m ∈ dnew.prefixes := (hpre m).2 ⟨e4, fun e => hc ⟨e3.symm, e⟩⟩
        rw [hnil] at this
        cases this
      · exact ⟨d, Or.inr hd, e3, e4⟩

end IpContainer


namespace IpContainer

theorem removePrefix_pre (d : DataNode) (mask : Int) (h : DataNode.Ascending d.prefixes) :
    (d.removePrefix mask).1.ip = d.ip ∧
      ∀ m, m ∈ (d.removePrefix mask).1.prefixes ↔ m ∈ d.prefixes ∧ m ≠ mask := by
  by_cases hm : mask ∈ d.prefixes
  · obtain ⟨_, e2, e3⟩ := DataNode.removePrefix_mem d mask h hm
    refine ⟨e2, ?_⟩
    intro m
    rw [e3, List.mem_filter]
    simp
  · rw [DataNode.removePrefix_not_mem d mask h hm]
    refine ⟨rfl, ?_⟩
    intro m
    constructor
    · intro h1
      exact ⟨h1, fun e => hm (e ▸ h1)⟩
    · intro h1
      exact h1.1

/-- Every `del` on an engine that denotes a tree succeeds as a computation; the engine then
denotes a tree (or the empty tree) and the stored set has lost the mask at the candidate
leaf. -/
theorem del_WF {s : IpContainer} {t : LTree} (h : WF s (some t)) (base : Nat) (mask : Int) :
    ∃ s1 r ot1, s.del base mask = some (s1, r) ∧ WF s1 ot1 ∧
      (∀ b m, stored s1 b m ↔ stored s b m ∧ ¬ (b = (t.find base).2.ip ∧ m = mask)) ∧
      (mask ∉ (t.find base).2.prefixes → r = some (-1) ∧ s1 = s) ∧
      (mask ∈ (t.find base).2.prefixes → (r = some 0 ∨ r = none)) ∧
      (r = none → ∀ j x, t ≠ LTree.leaf j x) := by
  have hinv : t.Inv := h.2.2.2.2.2.2
  have hok := LTree.Inv.leafOk hinv _ (LTree.find_mem_leaves base t)
  obtain ⟨hip, hpre⟩ := removePrefix_pre (t.find base).2 mask hok.1
  have hknd : (t.leaves.map DataNode.ip).Nodup := LTree.Inv.keys_nodup hinv
  by_cases hm : mask ∈ (t.find base).2.prefixes
  · by_cases hne : ((t.find base).2.removePrefix mask).1.prefixes ≠ []
    · obtain ⟨s1, h1, h2⟩ := del_keep h base mask hm hne
      refine ⟨s1, some 0, _, h1, h2, ?_, fun hc => absurd hm hc, fun _ => Or.inl rfl,
        fun e => by cases e⟩
      intro b m
      rw [WF.stored_iff h2, WF.stored_iff h]
      obtain ⟨l1, l2, e1, e2⟩ :=
        LTree.leaves_modifyAt base (fun d => (d.removePrefix mask).1) t
      rw [e1] at hknd
      rw [e1, e2]
      exact (holds_after_del l1 l2 _ _ mask hknd hip hpre b m).1
    · have he : ((t.find base).2.removePrefix mask).1.prefixes = [] := not_not.1 hne
      by_cases hin : ∀ j x, t ≠ LTree.leaf j x
      · obtain ⟨s1, t2, h1, h2, _, a1, c1, a2, c2, h3⟩ := del_last_unlink h base mask hm he hin
        refine ⟨s1, none, _, h1, h2, ?_, fun hc => absurd hm hc, fun _ => Or.inr rfl,
          fun _ => hin⟩
        intro b m
        rw [WF.stored_iff h2, WF.stored_iff h, h3, LTree.leaves_rename, LTree.leaves_rename]
        rcases LTree.leaves_removeAt base t with ⟨i, d, e⟩ | ⟨l1, l2, e1, e2⟩
        · exact absurd e (hin i d)
        · rw [e1] at hknd
          rw [e1, e2]
          exact (holds_after_del l1 l2 _ _ mask hknd hip hpre b m).2 he
      · push_neg at hin
        obtain ⟨j, x, e⟩ := hin
        subst e
        obtain ⟨s1, h1, h2⟩ := del_last_root h base mask hm he
        refine ⟨s1, some 0, none, h1, h2, ?_, fun hc => absurd hm hc, fun _ => Or.inl rfl,
          fun e => by cases e⟩
        intro b m
        rw [WF.stored_iff h]
        have := (holds_after_del [] [] _ _ mask hknd hip hpre b m).2 he
        simp only [List.append_nil, List.nil_append] at this
        refine Iff.trans ?_ this
        constructor
        · intro hs; exact absurd hs (WF.stored_none h2 b m)
        · rintro ⟨d, hd, _⟩; cases hd
  · refine ⟨s, some (-1), some t, del_absent h base mask hm, h, ?_, fun _ => ⟨rfl, rfl⟩,
      fun hc => absurd hc hm, fun e => by cases e⟩
    intro b m
    rw [WF.stored_iff h]
    obtain ⟨l1, l2, e1, _⟩ := LTree.leaves_modifyAt base (fun d => d) t
    rw [e1] at hknd
    rw [e1]
    exact (holds_after_del l1 l2 (t.find base).2 (t.find base).2 mask hknd rfl
      (fun m => ⟨fun h1 => ⟨h1, fun e => hm (e ▸ h1)⟩, fun h1 => h1.1⟩) b m).1

end IpContainer

namespace IpContainer

theorem new_eq : IpContainer.new = some stateEmpty := by decide

theorem reachable_stateEmpty : Reachable stateEmpty := ⟨[], by decide, by decide⟩

theorem reachable_stateOne : Reachable stateOne := ⟨[Call.add 128 25], by decide, by decide⟩

theorem reachable_stateTwo : Reachable stateTwo :=
  ⟨[Call.add 128 25, Call.add 130 31], by decide, by decide⟩

theorem reachable_stateTen : Reachable stateTen :=
  ⟨[Call.add 167772160 8, Call.add 167837696 16], by decide, by decide⟩

end IpContainer


namespace IpContainer

theorem WF_stateEmpty : WF stateEmpty none := ⟨rfl, rfl⟩

/-- Every call on an engine that denotes a tree succeeds as a computation and leaves an engine
that denotes a tree. -/
theorem step_WF {s : IpContainer} {ot : Option LTree} (h : WF s ot) (c : Call) :
    ∃ s1 ot1, s.step c = some s1 ∧ WF s1 ot1 := by
  cases c with
  | add base mask =>
    cases hv : validate base mask with
    | false =>
      exact ⟨s, ot, by simp only [step, add_invalid s base mask hv, Option.map_some'], h⟩
    | true =>
      obtain ⟨s1, t1, h1, h2, _⟩ := add_WF h base mask hv
      exact ⟨s1, some t1, by simp only [step, h1, Option.map_some'], h2⟩
  | del base mask =>
    cases ot with
    | none =>
      exact ⟨s, none, by simp only [step, del_none h base mask, Option.map_some'], h⟩
    | some t =>
      obtain ⟨s1, r, ot1, h1, h2, _⟩ := del_WF h base mask
      exact ⟨s1, ot1, by simp only [step, h1, Option.map_some'], h2⟩

theorem runFrom_WF (cs : List Call) : ∀ {s : IpContainer} {ot : Option LTree}, WF s ot →
    ∃ s1 ot1, runFrom s cs = some s1 ∧ WF s1 ot1 := by
  induction cs with
  | nil => intro s ot h; exact ⟨s, ot, rfl, h⟩
  | cons c cs ih =>
    intro s ot h
    obtain ⟨s1, ot1, h1, h2⟩ := step_WF h c
    obtain ⟨s2, ot2, h3, h4⟩ := ih h2
    exact ⟨s2, ot2, by simp only [runFrom, h1, h3], h4⟩

theorem run_eq (cs : List Call) : run cs = runFrom stateEmpty cs := by
  unfold run
  rw [new_eq]

/-- Every sequence of calls runs to the end: no call hits undefined behaviour or a failing
assertion. -/
theorem run_total (cs : List Call) : ∃ s ot, run cs = some s ∧ WF s ot := by
  rw [run_eq]
  exact runFrom_WF cs WF_stateEmpty

/-- Every reachable engine denotes a tree. -/
theorem Reachable.wf {s : IpContainer} (h : Reachable s) : ∃ ot, WF s ot := by
  obtain ⟨cs, _, hrun⟩ := h
  obtain ⟨s1, ot, h1, h2⟩ := run_total cs
  rw [hrun] at h1
  cases h1
  exact ⟨ot, h2⟩

theorem runFrom_append (cs1 cs2 : List Call) (s : IpContainer) :
    runFrom s (cs1 ++ cs2) = (runFrom s cs1).bind (fun s1 => runFrom s1 cs2) := by
  induction cs1 generalizing s with
  | nil => rfl
  | cons c cs ih =>
    simp only [List.cons_append, runFrom]
    cases s.step c with
    | none => rfl
    | some s1 => exact ih s1

theorem Reachable.step {s s1 : IpContainer} (h : Reachable s) (c : Call)
    (hc : c.wellTyped = true) (hs : s.step c = some s1) : Reachable s1 := by
  obtain ⟨cs, hw, hrun⟩ := h
  refine ⟨cs ++ [c], ?_, ?_⟩
  · intro x hx
    rcases List.mem_append.1 hx with hx | hx
    · exact hw x hx
    · simp only [List.mem_singleton] at hx
      rw [hx]; exact hc
  · rw [run_eq] at hrun ⊢
    rw [runFrom_append, hrun]
    simp only [Option.some_bind, runFrom, hs]

end IpContainer

namespace IpContainer

/-- C5 (the code at the failing input): in the reachable state holding 0.0.0.128/25 and
0.0.0.130/31 the prefix (0.0.0.130, 31) is stored, and `del(0.0.0.130, 31)` unlinks the leaf and
its inner parent, leaves exactly 0.0.0.128/25 behind, and ends without a `return` statement: no
value `0` is returned. -/
theorem C5_del_unlink_returns_nothing :
    Reachable stateTwo ∧ stored stateTwo 130 31 ∧
      stateTwo.del 130 31 = some (stateOne, none) :=
  ⟨reachable_stateTwo, ⟨3, _, _, rfl, rfl, by decide⟩, by decide⟩

/-- C6 (the code at the failing input): in the reachable state holding only 0.0.0.128/25 the
prefix (0.0.0.0, 25) is not stored, the descent on 0.0.0.0 ends at the leaf of key 0.0.0.128, and
`del(0.0.0.0, 25)` returns 0 and empties the tree. -/
theorem C6_del_absent_removes_other_key :
    Reachable stateOne ∧ ¬ stored stateOne 0 25 ∧ stateOne.findNode 0 = some (some 2) ∧
      stateOne.leafData (some 2) = some { ip := 128, prefixes := [25] } ∧
      stateOne.del 0 25 = some (stateEmpty, some 0) := by
  refine ⟨reachable_stateOne, ?_, by decide, by decide, by decide⟩
  rintro ⟨i, par, d, h, hip, _⟩
  have hi : i < 3 := lt_of_getElem? h
  interval_cases i
  · cases h
  · cases h
  · cases h; cases hip

/-- C10 (the code at the failing input): (0.0.0.129, 25) fails the validator of `add`, yet in the
reachable state holding 0.0.0.128/25 `del(0.0.0.129, 25)` returns 0 and removes 0.0.0.128/25. -/
theorem C10_del_invalid_returns_zero :
    Reachable stateOne ∧ validate 129 25 = false ∧
      stateOne.del 129 25 = some (stateEmpty, some 0) :=
  ⟨reachable_stateOne, by decide, by decide⟩

/-- C7: whenever `add` or `del` returns -1, the engine after the call (every slot of the arena,
hence every node, link, key and prefix set) equals the engine before the call. -/
theorem C7_failure_keeps_state (s s1 : IpContainer) (base : Nat) (mask : Int) :
    (s.add base mask = some (s1, -1) → s1 = s) ∧
      (s.del base mask = some (s1, some (-1)) → s1 = s) := by
  constructor
  · intro h
    rcases add_result s s1 base mask (-1) h with ⟨_, _, h3⟩ | ⟨_, h2⟩
    · exact h3
    · exact absurd h2 (by decide)
  · exact del_fail s s1 base mask

/-- Witness of C7: `add(0.0.0.129, 25)` and `del(0.0.0.128, 26)` both return -1 on the engine
holding 0.0.0.128/25. -/
theorem C7_failure_keeps_state_witness :
    (stateOne.add 129 25 = some (stateOne, -1) ∧ stateOne = stateOne) ∧
      (stateOne.del 128 26 = some (stateOne, some (-1)) ∧ stateOne = stateOne) :=
  ⟨⟨by decide, (C7_failure_keeps_state stateOne stateOne 129 25).1 (by decide)⟩,
    ⟨by decide, (C7_failure_keeps_state stateOne stateOne 128 26).2 (by decide)⟩⟩

/-- C8: `add(base, mask)` returns -1 and leaves the engine unchanged whenever `mask < 0`,
`mask > 32`, or one of the low `32 - mask` bits of `base` is set. -/
theorem C8_add_invalid (s : IpContainer) (base : Nat) (mask : Int)
    (h : mask < 0 ∨ mask > 32 ∨ base % 2 ^ (32 - mask).toNat ≠ 0) :
    s.add base mask = some (s, -1) := by
  have hv : validate base mask = false := by
    rw [← Bool.not_eq_true, validate_eq_true_iff]
    rintro ⟨h0, h1, _, h3, _⟩
    rcases h with h | h | h
    · omega
    · omega
    · exact h h3
  unfold add
  rw [hv]
  rfl

/-- Witness of C8: 0.0.0.129/25 has bit 0 set among its low 7 bits. -/
theorem C8_add_invalid_witness :
    ((25 : Int) < 0 ∨ (25 : Int) > 32 ∨ 129 % 2 ^ (32 - (25 : Int)).toNat ≠ 0) ∧
      stateOne.add 129 25 = some (stateOne, -1) :=
  ⟨Or.inr (Or.inr (by decide)), C8_add_invalid stateOne 129 25 (Or.inr (Or.inr (by decide)))⟩

/-- C9 (counterexample): `base = 2^31` passes the validator: on the empty engine
`add(128.0.0.0, 1)` returns 0 and stores the key. -/
theorem C9_counterexample :
    Reachable stateEmpty ∧ (2147483648 : Nat) ≥ 2 ^ 31 ∧
      stateEmpty.add 2147483648 1 = some (stateHalf, 0) ∧ stored stateHalf 2147483648 1 :=
  ⟨reachable_stateEmpty, by decide, by decide, ⟨2, _, _, rfl, rfl, by decide⟩⟩

/-- C9 (amended): `add(base, mask)` returns -1 and leaves the engine unchanged for every
`base > 2^31`, whatever the mask. -/
theorem C9_add_above_half (s : IpContainer) (base : Nat) (mask : Int) (h : base > 2 ^ 31) :
    s.add base mask = some (s, -1) := by
  have hv : validate base mask = false := by
    rw [← Bool.not_eq_true, validate_eq_true_iff]
    rintro ⟨_, _, h2, _⟩
    have : (2 : Nat) ^ 31 = 2147483648 := by norm_num
    omega
  unfold add
  rw [hv]
  rfl

/-- Witness of C9 (amended): `add(128.0.0.1, 32)` is rejected. -/
theorem C9_add_above_half_witness :
    (2147483649 : Nat) > 2 ^ 31 ∧ stateOne.add 2147483649 32 = some (stateOne, -1) :=
  ⟨by decide, C9_add_above_half stateOne 2147483649 32 (by decide)⟩

end IpContainer

namespace ChunkBuff

/-- C20: in every arena reached by `allocate` calls, `deallocate` calls on live indices and
slot writes, `1 ≤ size ≤ capacity` and `capacity ≥ 8`; `allocate` succeeds and returns the
previous size, which is at least 1 and below the new size, and leaves every live slot at its
index (whether or not the capacity doubles); the slots after `deallocate` are the same for every
capacity, so dividing the capacity by 3 moves no live slot. -/
theorem C20_arena_bounds (c : ChunkBuff) (h : Reach c) :
    (1 ≤ c.size ∧ c.size ≤ c.capacity ∧ 8 ≤ c.capacity) ∧
    (∃ c1, c.allocate = some (c1, c.size) ∧ 1 ≤ c.size ∧ c.size < c1.size ∧
      c1.size = c.size + 1 ∧ ∀ j, j < c.size → c1.buf[j]? = c.buf[j]?) ∧
    (∀ cap2 i, (c.deallocate i).map ChunkBuff.buf =
      ((ChunkBuff.mk cap2 c.buf).deallocate i).map ChunkBuff.buf) := by
  have hb := Reach.bounds h
  refine ⟨hb, ?_, ?_⟩
  · obtain ⟨cap, buf⟩ := c
    have h1 : 1 ≤ buf.length := hb.1
    refine ⟨_, IpContainer.allocate_mk cap buf h1, h1, ?_, ?_, ?_⟩
    · simp [size]
    · simp [size]
    · intro j hj
      exact List.getElem?_append_left hj
  · intro cap2 i
    obtain ⟨cap, buf⟩ := c
    exact deallocate_cap cap cap2 buf i

theorem reach_arenaGrown : Reach IpContainer.arenaGrown := by
  have r1 : Reach ⟨8, List.replicate 1 (Node.root none none)⟩ := Reach.new
  have r2 : Reach ⟨8, List.replicate 2 (Node.root none none)⟩ :=
    Reach.allocate _ _ 1 r1 (by decide)
  have r3 : Reach ⟨8, List.replicate 3 (Node.root none none)⟩ :=
    Reach.allocate _ _ 2 r2 (by decide)
  have r4 : Reach ⟨8, List.replicate 4 (Node.root none none)⟩ :=
    Reach.allocate _ _ 3 r3 (by decide)
  have r5 : Reach ⟨8, List.replicate 5 (Node.root none none)⟩ :=
    Reach.allocate _ _ 4 r4 (by decide)
  have r6 : Reach ⟨8, List.replicate 6 (Node.root none none)⟩ :=
    Reach.allocate _ _ 5 r5 (by decide)
  have r7 : Reach ⟨8, List.replicate 7 (Node.root none none)⟩ :=
    Reach.allocate _ _ 6 r6 (by decide)
  have r8 : Reach ⟨8, List.replicate 8 (Node.root none none)⟩ :=
    Reach.allocate _ _ 7 r7 (by decide)
  have r9 : Reach ⟨16, List.replicate 9 (Node.root none none)⟩ :=
    Reach.allocate _ _ 8 r8 (by decide)
  have r10 : Reach ⟨16, List.replicate 10 (Node.root none none)⟩ :=
    Reach.allocate _ _ 9 r9 (by decide)
  have r11 : Reach ⟨16, List.replicate 11 (Node.root none none)⟩ :=
    Reach.allocate _ _ 10 r10 (by decide)
  have r12 : Reach ⟨16, List.replicate 12 (Node.root none none)⟩ :=
    Reach.allocate _ _ 11 r11 (by decide)
  have r13 : Reach ⟨16, List.replicate 13 (Node.root none none)⟩ :=
    Reach.allocate _ _ 12 r12 (by decide)
  have r14 : Reach ⟨16, List.replicate 14 (Node.root none none)⟩ :=
    Reach.allocate _ _ 13 r13 (by decide)
  have r15 : Reach ⟨16, List.replicate 15 (Node.root none none)⟩ :=
    Reach.allocate _ _ 14 r14 (by decide)
  have r16 : Reach ⟨16, List.replicate 16 (Node.root none none)⟩ :=
    Reach.allocate _ _ 15 r15 (by decide)
  have r17 : Reach ⟨32, List.replicate 17 (Node.root none none)⟩ :=
    Reach.allocate _ _ 16 r16 (by decide)
  have d16 : Reach ⟨32, List.replicate 16 (Node.root none none)⟩ :=
    Reach.deallocate _ _ 16 r17 (by decide)
  have d15 : Reach ⟨32, List.replicate 15 (Node.root none none)⟩ :=
    Reach.deallocate _ _ 15 d16 (by decide)
  have d14 : Reach ⟨32, List.replicate 14 (Node.root none none)⟩ :=
    Reach.deallocate _ _ 14 d15 (by decide)
  have d13 : Reach ⟨32, List.replicate 13 (Node.root none none)⟩ :=
    Reach.deallocate _ _ 13 d14 (by decide)
  have d12 : Reach ⟨32, List.replicate 12 (Node.root none none)⟩ :=
    Reach.deallocate _ _ 12 d13 (by decide)
  have d11 : Reach ⟨32, List.replicate 11 (Node.root none none)⟩ :=
    Reach.deallocate _ _ 11 d12 (by decide)
  have d10 : Reach ⟨32, List.replicate 10 (Node.root none none)⟩ :=
    Reach.deallocate _ _ 10 d11 (by decide)
  exact d10

/-- Witness of C20: the arena after sixteen `allocate` calls and seven `deallocate` calls; the
eighth `allocate` doubles the capacity and the next `deallocate` divides it by 3, both leaving
every slot at its index. -/
theorem C20_arena_bounds_witness :
    Reach IpContainer.arenaGrown ∧
    (ChunkBuff.mk 8 (List.replicate 8 (Node.root none none))).allocate =
      some (⟨16, List.replicate 9 (Node.root none none)⟩, 8) ∧
    IpContainer.arenaGrown.deallocate 9 = some ⟨10, List.replicate 9 (Node.root none none)⟩ ∧
    ((1 ≤ IpContainer.arenaGrown.size ∧
        IpContainer.arenaGrown.size ≤ IpContainer.arenaGrown.capacity ∧
        8 ≤ IpContainer.arenaGrown.capacity) ∧
      (∃ c1, IpContainer.arenaGrown.allocate = some (c1, IpContainer.arenaGrown.size) ∧
        1 ≤ IpContainer.arenaGrown.size ∧ IpContainer.arenaGrown.size < c1.size ∧
        c1.size = IpContainer.arenaGrown.size + 1 ∧
        ∀ j, j < IpContainer.arenaGrown.size → c1.buf[j]? = IpContainer.arenaGrown.buf[j]?) ∧
      (∀ cap2 i, (IpContainer.arenaGrown.deallocate i).map ChunkBuff.buf =
        ((ChunkBuff.mk cap2 IpContainer.arenaGrown.buf).deallocate i).map ChunkBuff.buf)) :=
  ⟨reach_arenaGrown, by decide, by decide,
    C20_arena_bounds IpContainer.arenaGrown reach_arenaGrown⟩

end ChunkBuff


namespace IpContainer

/-- In an engine that denotes a tree every leaf of the arena is a leaf of the tree. -/
theorem WF.leaf_mem {s : IpContainer} {t : LTree} (h : WF s (some t)) {i : Nat}
    {par : pointer} {d : DataNode} (hb : s.node_alloc.buf[i]? = some (Node.leaf par d)) :
    i ∈ t.indices ∧ d ∈ t.leaves := by
  obtain ⟨⟨cap, buf⟩, r⟩ := s
  obtain ⟨hr, h0, h1, hrep, hnd, hrange, hinv⟩ := h
  dsimp only at hr h0 h1 hrep hrange hb
  have hlt : i < buf.length := lt_of_getElem? hb
  have hi2 : 2 ≤ i := by
    by_contra hc
    have : i = 0 ∨ i = 1 := by omega
    rcases this with e | e
    · subst e; rw [h0] at hb; cases hb
    · subst e; rw [h1] at hb; cases hb
  have hm := (hrange i).2 ⟨hi2, hlt⟩
  exact ⟨hm, LTree.Rep.leaf_of_mem hrep hm hb⟩

theorem leaves_ip_inj {t : LTree} (h : t.Inv) {d1 d2 : DataNode} (h1 : d1 ∈ t.leaves)
    (h2 : d2 ∈ t.leaves) (e : d1.ip = d2.ip) : d1 = d2 :=
  List.inj_on_of_nodup_map (LTree.Inv.keys_nodup h) h1 h2 e

/-- The stored prefixes of a key are the masks of the leaf the descent on that key ends at,
when that leaf has this key. -/
theorem WF.stored_find {s : IpContainer} {t : LTree} (h : WF s (some t)) (b : Nat) (m : Int) :
    stored s b m ↔ (t.find b).2.ip = b ∧ m ∈ (t.find b).2.prefixes := by
  have hinv : t.Inv := h.2.2.2.2.2.2
  rw [WF.stored_iff h]
  constructor
  · rintro ⟨d, hd, hip, hm⟩
    have hk : b ∈ t.keys := LTree.mem_keys.2 ⟨d, hd, hip⟩
    have hf := LTree.Inv.find_key hinv hk
    have e : d = (t.find b).2 :=
      leaves_ip_inj hinv hd (LTree.find_mem_leaves b t) (by rw [hip, hf])
    rw [← e]
    exact ⟨hip, hm⟩
  · rintro ⟨hip, hm⟩
    exact ⟨_, LTree.find_mem_leaves b t, hip, hm⟩

theorem WF.stored_leaf {s : IpContainer} {t : LTree} (h : WF s (some t)) {d : DataNode}
    (hd : d ∈ t.leaves) (m : Int) : stored s d.ip m ↔ m ∈ d.prefixes := by
  have hinv : t.Inv := h.2.2.2.2.2.2
  rw [WF.stored_find h]
  have hf := LTree.Inv.find_key hinv (LTree.mem_keys.2 ⟨d, hd, rfl⟩)
  have e : (t.find d.ip).2 = d := leaves_ip_inj hinv (LTree.find_mem_leaves _ t) hd hf
  rw [e]
  exact ⟨fun h1 => h1.2, fun h1 => ⟨rfl, h1⟩⟩

theorem WF.stored_some {s : IpContainer} {t : LTree} (h : WF s (some t)) :
    ∃ b m, stored s b m := by
  have hinv : t.Inv := h.2.2.2.2.2.2
  have hok := LTree.Inv.leafOk hinv _ (LTree.find_mem_leaves 0 t)
  obtain ⟨m, hm⟩ := List.exists_mem_of_ne_nil _ hok.2.1
  exact ⟨_, m, (WF.stored_iff h _ m).2 ⟨_, LTree.find_mem_leaves 0 t, rfl, hm⟩⟩

theorem WF.rootChild_iff {s : IpContainer} {ot : Option LTree} (h : WF s ot) :
    s.rootChild = some none ↔ ot = none := by
  cases ot with
  | none => simp [WF.rootChild_none h]
  | some t => simp [WF.rootChild h]

/-- `add` of a prefix that is stored changes nothing. -/
theorem add_same {s : IpContainer} {t : LTree} (h : WF s (some t)) (base : Nat) (mask : Int)
    (hv : validate base mask = true) (hs : stored s base mask) :
    s.add base mask = some (s, 0) := by
  obtain ⟨hk, hm⟩ := (WF.stored_find h base mask).1 hs
  have hfind := WF.findNode h base
  have hdata := WF.leafData h base
  have hroot := WF.rootChild h
  obtain ⟨⟨cap, buf⟩, r⟩ := s
  obtain ⟨hr, h0, h1, hrep, hnd, hrange, hinv⟩ := h
  dsimp only at hr h0 h1 hrep hrange
  subst hr
  have hL := LTree.Rep.find base hrep
  have hok := LTree.Inv.leafOk hinv _ (LTree.find_mem_leaves base t)
  have hadd : (t.find base).2.addPrefix mask = (t.find base).2 := by
    unfold DataNode.addPrefix DataNode.contain
    rw [(DataNode.binary_search_iff _ mask hok.1).2 hm]
    rfl
  unfold add
  rw [hv]
  simp only [Bool.not_true, Bool.false_eq_true, if_false]
  rw [hroot]
  dsimp only
  rw [hfind]
  dsimp only
  rw [hdata]
  dsimp only
  rw [if_pos hk, hadd, setLeafData_mk _ _ _ _ _ _ _ hL, list_set_same _ _ _ hL]
  rfl

end IpContainer


namespace LTree

/-- An inner node of the arena that belongs to the tree is the top of a subtree. -/
theorem Rep.inner_at {buf : List Node} {t : LTree} {p : Nat} (h : Rep buf t p) (hi : Inv t)
    {i b : Nat} {par o z : pointer} (hm : i ∈ t.indices)
    (hn : buf[i]? = some (Node.inner b par o z)) :
    ∃ zt ot q, z = some zt.idx ∧ o = some ot.idx ∧ par = some q ∧ Rep buf zt i ∧ Rep buf ot i ∧
      Inv (inner i b zt ot) ∧ b < 32 ∧ zt.indices ⊆ t.indices ∧ ot.indices ⊆ t.indices := by
  induction t generalizing p with
  | leaf j x =>
    simp only [indices, List.mem_singleton] at hm
    subst hm
    simp only [Rep] at h
    rw [h] at hn
    cases hn
  | inner j b2 zt ot ihz iho =>
    have hi2 := hi
    simp only [Rep] at h
    simp only [Inv] at hi2
    obtain ⟨hb32, hnode, hrz, hro⟩ := h
    by_cases e : i = j
    · subst e
      rw [hnode] at hn
      injection hn with hn
      injection hn with e1 e2 e3 e4
      subst e1
      refine ⟨zt, ot, p, e4.symm, e3.symm, e2.symm, hrz, hro, hi, hb32, ?_, ?_⟩
      · intro x hx
        simp only [indices, List.mem_cons, List.mem_append]
        exact Or.inr (Or.inl hx)
      · intro x hx
        simp only [indices, List.mem_cons, List.mem_append]
        exact Or.inr (Or.inr hx)
    · simp only [indices, List.mem_cons, List.mem_append] at hm
      rcases hm with hm | hm | hm
      · exact absurd hm e
      · obtain ⟨a, c, q, h1, h2, h3, h4, h5, h6, h7, h8, h9⟩ := ihz hrz hi2.2.2.2.1 hm
        refine ⟨a, c, q, h1, h2, h3, h4, h5, h6, h7, ?_, ?_⟩
        · intro x hx
          simp only [indices, List.mem_cons, List.mem_append]
          exact Or.inr (Or.inl (h8 hx))
        · intro x hx
          simp only [indices, List.mem_cons, List.mem_append]
          exact Or.inr (Or.inl (h9 hx))
      · obtain ⟨a, c, q, h1, h2, h3, h4, h5, h6, h7, h8, h9⟩ := iho hro hi2.2.2.2.2 hm
        refine ⟨a, c, q, h1, h2, h3, h4, h5, h6, h7, ?_, ?_⟩
        · intro x hx
          simp only [indices, List.mem_cons, List.mem_append]
          exact Or.inr (Or.inr (h8 hx))
        · intro x hx
          simp only [indices, List.mem_cons, List.mem_append]
          exact Or.inr (Or.inr (h9 hx))

theorem Rep.top_inner {buf : List Node} {t : LTree} {p : Nat} (h : Rep buf t p)
    {b : Nat} {par o z : pointer} (hn : buf[t.idx]? = some (Node.inner b par o z)) :
    ∃ zt ot, t = inner t.idx b zt ot := by
  cases t with
  | leaf j x =>
    simp only [Rep] at h
    simp only [idx] at hn
    rw [h] at hn
    cases hn
  | inner j b2 zt ot =>
    simp only [Rep] at h
    simp only [idx] at hn
    rw [h.2.1] at hn
    injection hn with hn
    injection hn with e1
    subst e1
    exact ⟨zt, ot, rfl⟩

theorem Rep.top_leaf {buf : List Node} {t : LTree} {p : Nat} (h : Rep buf t p)
    {par : pointer} {d : DataNode} (hn : buf[t.idx]? = some (Node.leaf par d)) :
    t = leaf t.idx d := by
  cases t with
  | leaf j x =>
    simp only [Rep] at h
    simp only [idx] at hn
    rw [h] at hn
    injection hn with hn
    injection hn with e1 e2
    subst e2
    rfl
  | inner j b2 zt ot =>
    simp only [Rep] at h
    simp only [idx] at hn
    rw [h.2.1] at hn
    cases hn

/-- The descent on the key of a leaf of the tree ends at that leaf. -/
theorem Rep.find_of_leaf {buf : List Node} {t : LTree} {p : Nat} (h : Rep buf t p) (hi : Inv t)
    {i : Nat} {par : pointer} {d : DataNode} (hm : i ∈ t.indices)
    (hb : buf[i]? = some (Node.leaf par d)) : (t.find d.ip).1 = i := by
  induction t generalizing p with
  | leaf j x =>
    simp only [indices, List.mem_singleton] at hm
    subst hm
    rfl
  | inner j b z o ihz iho =>
    simp only [Rep] at h
    simp only [Inv] at hi
    obtain ⟨hb32, hnode, hrz, hro⟩ := h
    obtain ⟨hz, ho, _, hiz, hio⟩ := hi
    simp only [indices, List.mem_cons, List.mem_append] at hm
    rcases hm with hm | hm | hm
    · subst hm
      rw [hnode] at hb
      cases hb
    · have hd := Rep.leaf_of_mem hrz hm hb
      have hbit := hz d.ip (mem_keys.2 ⟨d, hd, rfl⟩)
      have hc : ¬ ((1 <<< b) &&& d.ip ≠ 0) := by
        rw [IpContainer.one_shiftLeft_and_ne_zero, hbit]
        simp
      show (if (1 <<< b) &&& d.ip ≠ 0 then o.find d.ip else z.find d.ip).1 = i
      rw [if_neg hc]
      exact ihz hrz hiz hm
    · have hd := Rep.leaf_of_mem hro hm hb
      have hbit := ho d.ip (mem_keys.2 ⟨d, hd, rfl⟩)
      have hc : (1 <<< b) &&& d.ip ≠ 0 := (IpContainer.one_shiftLeft_and_ne_zero _ _).2 hbit
      show (if (1 <<< b) &&& d.ip ≠ 0 then o.find d.ip else z.find d.ip).1 = i
      rw [if_pos hc]
      exact iho hro hio hm

/-- A descent passes at most as many inner nodes as the branch bit of the top node allows. -/
theorem pathLen_le (ip : Nat) (t : LTree) (hi : Inv t) :
    ∀ i b z o, t = inner i b z o → t.pathLen ip ≤ b + 1 := by
  induction t with
  | leaf j x => intro i b z o e; cases e
  | inner j b2 zt ot ihz iho =>
    intro i b z o e
    injection e with e1 e2 e3 e4
    subst e2
    have hc := Inv.child_bit_lt hi
    simp only [Inv] at hi
    obtain ⟨_, _, _, hiz, hio⟩ := hi
    simp only [pathLen]
    split
    · cases ot with
      | leaf k x => simp [pathLen]
      | inner k b3 z3 o3 =>
        have := iho hio k b3 z3 o3 rfl
        have := hc.2 k b3 z3 o3 rfl
        omega
    · cases zt with
      | leaf k x => simp [pathLen]
      | inner k b3 z3 o3 =>
        have := ihz hiz k b3 z3 o3 rfl
        have := hc.1 k b3 z3 o3 rfl
        omega

theorem pathLen_le_32 {buf : List Node} {t : LTree} {p : Nat} (h : Rep buf t p) (hi : Inv t)
    (ip : Nat) : t.pathLen ip ≤ 32 := by
  cases t with
  | leaf j x => simp [pathLen]
  | inner j b z o =>
    have h1 := pathLen_le ip _ hi j b z o rfl
    simp only [Rep] at h
    have := h.1
    omega

theorem height_lt_length (t : LTree) : t.height < t.indices.length := by
  induction t with
  | leaf i d => simp [height, indices]
  | inner i b z o ihz iho =>
    simp only [height, indices, List.length_cons, List.length_append]
    omega

theorem slotsBelow_rep {buf : List Node} {t : LTree} {p : Nat} (h : Rep buf t p) :
    ∀ fuel, t.height < fuel → ChunkBuff.slotsBelow buf fuel t.idx = t.indices := by
  induction t generalizing p with
  | leaf i d =>
    intro fuel hf
    obtain ⟨f, rfl⟩ : ∃ f, fuel = f + 1 := ⟨fuel - 1, by omega⟩
    simp only [Rep] at h
    show ChunkBuff.slotsBelow buf (f + 1) i = [i]
    simp only [ChunkBuff.slotsBelow, h]
  | inner i b z o ihz iho =>
    intro fuel hf
    obtain ⟨f, rfl⟩ : ∃ f, fuel = f + 1 := ⟨fuel - 1, by omega⟩
    simp only [Rep] at h
    obtain ⟨hb32, hnode, hrz, hro⟩ := h
    simp only [height] at hf
    have hz := ihz hrz f (by omega)
    have ho := iho hro f (by omega)
    show ChunkBuff.slotsBelow buf (f + 1) i = i :: (z.indices ++ o.indices)
    simp only [ChunkBuff.slotsBelow, hnode, hz, ho]

theorem indices_length (t : LTree) : t.indices.length + 1 = 2 * t.leaves.length := by
  induction t with
  | leaf i d => simp [indices, leaves]
  | inner i b z o ihz iho =>
    simp only [indices, leaves, List.length_cons, List.length_append]
    omega

theorem count_leaf {buf : List Node} {t : LTree} {p : Nat} (h : Rep buf t p) :
    (t.indices.filter (ChunkBuff.slotIs buf Node.isLeaf)).length = t.leaves.length := by
  induction t generalizing p with
  | leaf i d =>
    simp only [Rep] at h
    simp only [indices, leaves, List.filter_cons, List.filter_nil, ChunkBuff.slotIs, h, isLeaf_leaf, if_true,
      List.length_singleton]
  | inner i b z o ihz iho =>
    simp only [Rep] at h
    obtain ⟨hb32, hnode, hrz, hro⟩ := h
    simp only [indices, leaves, List.filter_cons, List.filter_append, ChunkBuff.slotIs, hnode,
      isLeaf_inner _ _ _ _ hb32, Bool.false_eq_true, if_false, List.length_append,
      ihz hrz, iho hro]

theorem count_inner {buf : List Node} {t : LTree} {p : Nat} (h : Rep buf t p) :
    (t.indices.filter (ChunkBuff.slotIs buf Node.isInner)).length + 1 = t.leaves.length := by
  induction t generalizing p with
  | leaf i d =>
    simp only [Rep] at h
    simp only [indices, leaves, List.filter_cons, List.filter_nil, ChunkBuff.slotIs, h, isInner_leaf,
      Bool.false_eq_true, if_false, List.length_nil, List.length_singleton]
  | inner i b z o ihz iho =>
    simp only [Rep] at h
    obtain ⟨hb32, hnode, hrz, hro⟩ := h
    have hz := ihz hrz
    have ho := iho hro
    simp only [indices, leaves, List.filter_cons, List.filter_append, ChunkBuff.slotIs, hnode,
      isInner_inner _ _ _ _ hb32, if_true, List.length_append, List.length_cons]
    omega

theorem count_root {buf : List Node} {t : LTree} {p : Nat} (h : Rep buf t p) :
    (t.indices.filter (ChunkBuff.slotIs buf Node.isRoot)).length = 0 := by
  induction t generalizing p with
  | leaf i d =>
    simp only [Rep] at h
    simp only [indices, List.filter_cons, List.filter_nil, ChunkBuff.slotIs, h, isRoot_leaf,
      Bool.false_eq_true, if_false, List.length_nil]
  | inner i b z o ihz iho =>
    simp only [Rep] at h
    obtain ⟨hb32, hnode, hrz, hro⟩ := h
    simp only [indices, List.filter_cons, List.filter_append, ChunkBuff.slotIs, hnode,
      isRoot_inner _ _ _ _ hb32, Bool.false_eq_true, if_false, List.length_append,
      ihz hrz, iho hro]

end LTree

namespace IpContainer

/-- The slots of a well-formed engine from `1` on are the root and the nodes of the tree. -/
theorem WF.perm {s : IpContainer} {t : LTree} (h : WF s (some t)) :
    (1 :: t.indices).Perm (List.range' 1 (s.node_alloc.buf.length - 1)) := by
  obtain ⟨hr, h0, h1, hrep, hnd, hrange, hinv⟩ := h
  have hlen : 1 < s.node_alloc.buf.length := lt_of_getElem? h1
  rw [List.perm_ext_iff_of_nodup]
  · intro a
    simp only [List.mem_cons, List.mem_range', hrange]
    constructor
    · rintro (e | ⟨e1, e2⟩)
      · exact ⟨a - 1, by omega, by omega⟩
      · exact ⟨a - 1, by omega, by omega⟩
    · rintro ⟨i, hi, e⟩
      by_cases h1 : a = 1
      · exact Or.inl h1
      · exact Or.inr ⟨by omega, by omega⟩
  · rw [List.nodup_cons]
    refine ⟨?_, hnd⟩
    intro hc
    have := (hrange 1).1 hc
    omega
  · exact List.nodup_range' _ _

theorem WF.size {s : IpContainer} {t : LTree} (h : WF s (some t)) :
    s.node_alloc.buf.length = t.indices.length + 2 := by
  have hp := (WF.perm h).length_eq
  have hlen : 1 < s.node_alloc.buf.length := lt_of_getElem? h.2.2.1
  simp only [List.length_cons, List.length_range'] at hp
  omega

end IpContainer


namespace LTree

theorem rightmost_mem_leaves (t : LTree) : t.rightmost.2 ∈ t.leaves := by
  induction t with
  | leaf i d => simp [rightmost, leaves]
  | inner i b z o ihz iho => simp [rightmost, leaves, iho]

theorem Rep.rightmost {buf : List Node} {t : LTree} {p : Nat} (h : Rep buf t p) :
    ∃ q, buf[t.rightmost.1]? = some (Node.leaf (some q) t.rightmost.2) := by
  induction t generalizing p with
  | leaf i d => exact ⟨p, h⟩
  | inner i b z o ihz iho =>
    simp only [Rep] at h
    exact iho h.2.2.2

theorem rightLen_lt_length (t : LTree) : t.rightLen < t.indices.length := by
  induction t with
  | leaf i d => simp [rightLen, indices]
  | inner i b z o ihz iho =>
    simp only [rightLen, indices, List.length_cons, List.length_append]
    omega

theorem findAnyLoop_rep {buf : List Node} {t : LTree} {p : Nat} (cap : Nat) (h : Rep buf t p) :
    ∀ fuel, t.rightLen < fuel →
      IpContainer.findAnyLoop ⟨cap, buf⟩ fuel (some t.idx) = some (some t.rightmost.1) := by
  induction t generalizing p with
  | leaf i d =>
    intro fuel hf
    obtain ⟨f, rfl⟩ : ∃ f, fuel = f + 1 := ⟨fuel - 1, by omega⟩
    simp only [Rep] at h
    unfold IpContainer.findAnyLoop
    simp only [ChunkBuff.get, idx_leaf, h, isInner_leaf, Bool.false_eq_true, if_false,
      LTree.rightmost]
  | inner i b z o ihz iho =>
    intro fuel hf
    simp only [rightLen] at hf
    obtain ⟨f, rfl⟩ : ∃ f, fuel = f + 1 := ⟨fuel - 1, by omega⟩
    simp only [Rep] at h
    unfold IpContainer.findAnyLoop
    simp only [ChunkBuff.get, idx_inner, h.2.1, isInner_inner _ _ _ _ h.1, if_true]
    exact iho h.2.2.2 f (by omega)

theorem mem_pairs (t : LTree) (b : Nat) (m : Int) :
    (b, m) ∈ t.pairs ↔ ∃ d ∈ t.leaves, d.ip = b ∧ m ∈ d.prefixes := by
  unfold pairs
  simp only [List.mem_flatMap, List.mem_map, Prod.mk.injEq]
  constructor
  · rintro ⟨d, hd, m2, hm2, e1, e2⟩
    subst e2
    exact ⟨d, hd, e1, hm2⟩
  · rintro ⟨d, hd, e1, hm⟩
    exact ⟨d, hd, m, hm, e1, rfl⟩

end LTree

namespace IpContainer

theorem getLast_max (l : List Int) (h : DataNode.Ascending l) (m : Int)
    (hm : l.getLast? = some m) : m ∈ l ∧ ∀ x ∈ l, x ≤ m := by
  induction l with
  | nil => cases hm
  | cons a rest ih =>
    cases rest with
    | nil =>
      simp only [List.getLast?_singleton, Option.some.injEq] at hm
      subst hm
      simp
    | cons c r2 =>
      rw [List.getLast?_cons_cons] at hm
      have hp := List.pairwise_cons.1 h
      obtain ⟨g1, g2⟩ := ih hp.2 hm
      refine ⟨List.mem_cons_of_mem _ g1, ?_⟩
      intro x hx
      rcases List.mem_cons.1 hx with e | e
      · rw [e]
        exact le_of_lt (hp.1 m g1)
      · exact g2 x e

theorem WF.findAny {s : IpContainer} {t : LTree} (h : WF s (some t)) :
    s.findAny = some (some t.rightmost.1) ∧
      s.leafData (some t.rightmost.1) = some t.rightmost.2 := by
  obtain ⟨⟨cap, buf⟩, r⟩ := s
  have hlen := WF.length_bound h
  obtain ⟨hr, h0, h1, hrep, hnd, hrange, hinv⟩ := h
  dsimp only at hr h0 h1 hrep hrange
  subst hr
  obtain ⟨q, hq⟩ := LTree.Rep.rightmost hrep
  constructor
  · unfold IpContainer.findAny
    rw [rootChild_mk _ _ _ _ h1]
    dsimp only
    have hp := LTree.rightLen_lt_length t
    rw [LTree.findAnyLoop_rep cap hrep _ (by simp only [ChunkBuff.size]; omega)]
    dsimp only
    rw [get_mk, hq]
    dsimp only
    rw [LTree.isLeaf_leaf]
    rfl
  · exact leafData_mk _ _ _ _ _ _ hq

theorem WF.empty {s : IpContainer} {ot : Option LTree} (h : WF s ot) :
    s.empty = some (decide (ot = none)) := by
  unfold IpContainer.empty
  cases ot with
  | none => rw [WF.rootChild_none h]; rfl
  | some t => rw [WF.rootChild h]; rfl

/-- One iteration of the teardown loop on a non-empty tree removes the largest mask of the
rightmost leaf and nothing else. -/
theorem teardownStep_WF {s : IpContainer} {t : LTree} (h : WF s (some t)) :
    ∃ b m s1 r ot1, s.teardownStep = some (s1, r) ∧ s.del b m = some (s1, r) ∧
      b < 4294967296 ∧ 0 ≤ m ∧ m ≤ 32 ∧ WF s1 ot1 ∧
      stored s b m ∧ (∀ m2, stored s b m2 → m2 ≤ m) ∧
      (∀ b2 m2, stored s1 b2 m2 ↔ stored s b2 m2 ∧ ¬ (b2 = b ∧ m2 = m)) ∧
      r ≠ some (-1) := by
  have hinv : t.Inv := h.2.2.2.2.2.2
  have hmem := LTree.rightmost_mem_leaves t
  obtain ⟨hasc, hne, hval⟩ := LTree.Inv.leafOk hinv _ hmem
  obtain ⟨m, hm⟩ : ∃ m, t.rightmost.2.prefixes.getLast? = some m := by
    cases hl : t.rightmost.2.prefixes.getLast? with
    | none => exact absurd (List.getLast?_eq_none_iff.1 hl) hne
    | some m => exact ⟨m, rfl⟩
  obtain ⟨hm1, hm2⟩ := getLast_max _ hasc m hm
  have hfind : (t.find t.rightmost.2.ip).2 = t.rightmost.2 :=
    leaves_ip_inj hinv (LTree.find_mem_leaves _ t) hmem
      (LTree.Inv.find_key hinv (LTree.mem_keys.2 ⟨_, hmem, rfl⟩))
  obtain ⟨s1, r, ot1, g1, g2, g3, _, g5, _⟩ := del_WF h t.rightmost.2.ip m
  rw [hfind] at g3 g5
  have hv := (validate_eq_true_iff _ _).1 (hval m hm1)
  have hstep : s.teardownStep = some (s1, r) := by
    unfold IpContainer.teardownStep
    rw [(WF.findAny h).1]
    dsimp only
    rw [(WF.findAny h).2]
    dsimp only
    rw [hm]
    exact g1
  refine ⟨t.rightmost.2.ip, m, s1, r, ot1, hstep, g1, by omega, hv.1, hv.2.1, g2,
    (WF.stored_leaf h hmem m).2 hm1, ?_, g3, ?_⟩
  · intro m2 hs
    exact hm2 m2 ((WF.stored_leaf h hmem m2).1 hs)
  · intro hc
    rcases g5 hm1 with e | e
    · rw [e] at hc
      cases hc
    · rw [e] at hc
      cases hc

/-- The teardown loop ends after as many iterations as there are stored prefixes. -/
theorem teardownLoop_WF (n : Nat) :
    ∀ (l : List (Nat × Int)) {s : IpContainer} {ot : Option LTree}, l.length = n → WF s ot →
      l.Nodup → (∀ b m, stored s b m ↔ (b, m) ∈ l) →
      ∃ s2, (∀ fuel, n < fuel → s.teardownLoop fuel = some (s2, n)) ∧ WF s2 none := by
  induction n with
  | zero =>
    intro l s ot hl hwf _ hst
    have hnil : l = [] := List.length_eq_zero.1 hl
    subst hnil
    cases ot with
    | some t =>
      obtain ⟨b, m, hs⟩ := WF.stored_some hwf
      exact absurd ((hst b m).1 hs) (List.not_mem_nil _)
    | none =>
      refine ⟨s, ?_, hwf⟩
      intro fuel hf
      obtain ⟨f, rfl⟩ : ∃ f, fuel = f + 1 := ⟨fuel - 1, by omega⟩
      unfold IpContainer.teardownLoop
      rw [WF.empty hwf]
      rfl
  | succ n ih =>
    intro l s ot hl hwf hnd hst
    cases ot with
    | none =>
      obtain ⟨p, hp⟩ : ∃ p, p ∈ l := List.exists_mem_of_length_pos (by omega)
      exact absurd ((hst p.1 p.2).2 hp) (WF.stored_none hwf _ _)
    | some t =>
      obtain ⟨b, m, s1, r, ot1, g1, _, _, _, _, g2, g3, _, g4, _⟩ := teardownStep_WF hwf
      have hin : (b, m) ∈ l := (hst b m).1 g3
      have hl1 : (l.erase (b, m)).length = n := by
        rw [List.length_erase_of_mem hin]
        omega
      have hst1 : ∀ b2 m2, stored s1 b2 m2 ↔ (b2, m2) ∈ l.erase (b, m) := by
        intro b2 m2
        rw [g4, hst, List.Nodup.mem_erase_iff hnd, Ne, Prod.mk.injEq]
        exact And.comm
      obtain ⟨s2, k1, k2⟩ := ih (l.erase (b, m)) hl1 g2 (hnd.erase _) hst1
      refine ⟨s2, ?_, k2⟩
      intro fuel hf
      obtain ⟨f, rfl⟩ : ∃ f, fuel = f + 1 := ⟨fuel - 1, by omega⟩
      unfold IpContainer.teardownLoop
      rw [WF.empty hwf]
      simp only [reduceCtorEq, decide_False]
      rw [g1]
      simp only [k1 f (by omega), Option.map_some']

/-- The stored prefixes of an engine that denotes a tree can be listed without repetition. -/
theorem WF.pairs_list {s : IpContainer} {ot : Option LTree} (h : WF s ot) :
    ∃ l : List (Nat × Int), l.Nodup ∧ ∀ b m, stored s b m ↔ (b, m) ∈ l := by
  cases ot with
  | none =>
    refine ⟨[], List.nodup_nil, ?_⟩
    intro b m
    constructor
    · intro hs
      exact absurd hs (WF.stored_none h b m)
    · intro hc
      cases hc
  | some t =>
    refine ⟨t.pairs.dedup, List.nodup_dedup _, ?_⟩
    intro b m
    rw [List.mem_dedup, LTree.mem_pairs, WF.stored_iff h]

end IpContainer

namespace IpContainer

theorem reachable_stateThreeMasks : Reachable stateThreeMasks :=
  ⟨[Call.add 128 25, Call.add 128 26, Call.add 128 27], by decide, by decide⟩

theorem reachable_stateTwoMasks : Reachable stateTwoMasks :=
  ⟨[Call.add 128 25, Call.add 128 26, Call.add 128 27, Call.del 128 27], by decide, by decide⟩

/-- C3: in every reachable state, for every key `b` that has a leaf, the descent `findNode(b)`
ends at the leaf whose key is `b`, and `check(b)` returns the largest mask length stored for
`b`. -/
theorem C3_descent_finds_key (s : IpContainer) (b : Nat) (h : Reachable s)
    (hl : ∃ (i : Nat) (par : pointer) (d : DataNode),
      s.node_alloc.buf[i]? = some (Node.leaf par d) ∧ d.ip = b) :
    ∃ i d M, s.findNode b = some (some i) ∧ s.leafData (some i) = some d ∧ d.ip = b ∧
      s.check b = some M ∧ stored s b M ∧ ∀ m, stored s b m → m ≤ M := by
  obtain ⟨i, par, d, hb, hip⟩ := hl
  obtain ⟨ot, hwf⟩ := Reachable.wf h
  cases ot with
  | none =>
    obtain ⟨hr, hbuf⟩ := hwf
    rw [hbuf] at hb
    have hlt : i < 2 := lt_of_getElem? hb
    interval_cases i
    · cases hb
    · cases hb
  | some t =>
    have hinv := hwf.2.2.2.2.2.2
    obtain ⟨_, hd⟩ := WF.leaf_mem hwf hb
    have hk : b ∈ t.keys := LTree.mem_keys.2 ⟨d, hd, hip⟩
    have hf := LTree.Inv.find_key hinv hk
    have hok := LTree.Inv.leafOk hinv _ (LTree.find_mem_leaves b t)
    obtain ⟨a1, a2⟩ := DataNode.getMaxPrefixForIp_self (t.find b).2 hok.1 hok.2.1
    rw [hf] at a1 a2
    refine ⟨(t.find b).1, (t.find b).2, _, WF.findNode hwf b, WF.leafData hwf b, hf,
      WF.check hwf b, (WF.stored_find hwf b _).2 ⟨hf, a1⟩, ?_⟩
    intro m hm
    exact a2 m ((WF.stored_find hwf b m).1 hm).2

/-- Witness of C3: after `add` of /25, /26 and /27 for 0.0.0.128 `check(0.0.0.128)` returns
27, and after `del(0.0.0.128, 27)` it returns 26. -/
theorem C3_descent_finds_key_witness :
    (Reachable stateThreeMasks ∧ stateThreeMasks.check 128 = some 27 ∧
      ∃ i d M, stateThreeMasks.findNode 128 = some (some i) ∧
        stateThreeMasks.leafData (some i) = some d ∧ d.ip = 128 ∧
        stateThreeMasks.check 128 = some M ∧ stored stateThreeMasks 128 M ∧
        ∀ m, stored stateThreeMasks 128 m → m ≤ M) ∧
    (Reachable stateTwoMasks ∧ stateThreeMasks.del 128 27 = some (stateTwoMasks, some 0) ∧
      stateTwoMasks.check 128 = some 26) :=
  ⟨⟨reachable_stateThreeMasks, by decide,
    C3_descent_finds_key stateThreeMasks 128 reachable_stateThreeMasks ⟨2, _, _, rfl, rfl⟩⟩,
    ⟨reachable_stateTwoMasks, by decide, by decide⟩⟩

/-- C4: in every reachable state, for `(base, mask)` with `0 ≤ mask ≤ 32`, the low
`32 - mask` bits of `base` zero and `base < 2^31`: when `mask ≤ 31` or `base = 0`,
`add(base, mask)` returns 0 and the stored set becomes the old one plus `(base, mask)`, every
other pair being stored after the call exactly when it was stored before; when `mask = 32` and
`base ≠ 0` the validator, whose shift by 32 leaves `0xFFFFFFFF`, rejects the pair:
`add(base, 32)` returns -1 and the engine is unchanged. -/
theorem C4_add_mask_range (s : IpContainer) (base : Nat) (mask : Int) (h : Reachable s)
    (h0 : 0 ≤ mask) (h32 : mask ≤ 32) (hlow : base % 2 ^ (32 - mask).toNat = 0)
    (hb : base < 2 ^ 31) :
    (mask ≤ 31 ∨ base = 0 → ∃ s1, s.add base mask = some (s1, 0) ∧
      ∀ b m, stored s1 b m ↔ stored s b m ∨ (b = base ∧ m = mask)) ∧
    (mask = 32 ∧ base ≠ 0 → s.add base mask = some (s, -1)) := by
  have hp : (2 : Nat) ^ 31 = 2147483648 := by norm_num
  constructor
  · intro hm
    obtain ⟨ot, hwf⟩ := Reachable.wf h
    have hv : validate base mask = true := by
      rw [validate_eq_true_iff]
      refine ⟨h0, h32, by omega, hlow, ?_⟩
      intro e
      rcases hm with hm | hm
      · omega
      · exact hm
    obtain ⟨s1, t1, h1, _, h3, _⟩ := add_WF hwf base mask hv
    exact ⟨s1, h1, h3⟩
  · rintro ⟨hm, hne⟩
    apply add_invalid
    rw [← Bool.not_eq_true, validate_eq_true_iff]
    rintro ⟨_, _, _, _, h5⟩
    exact hne (h5 hm)

/-- Witness of C4: `add(0.0.0.130, 31)` on the engine holding 0.0.0.128/25 returns 0, and
`add(0.0.0.128, 32)` on the empty engine returns -1. -/
theorem C4_add_mask_range_witness :
    (Reachable stateOne ∧ stateOne.add 130 31 = some (stateTwo, 0) ∧
      ∃ s1, stateOne.add 130 31 = some (s1, 0) ∧
        ∀ b m, stored s1 b m ↔ stored stateOne b m ∨ (b = 130 ∧ m = 31)) ∧
    (Reachable stateEmpty ∧ (0 : Int) ≤ 32 ∧ (32 : Int) ≤ 32 ∧
      128 % 2 ^ (32 - (32 : Int)).toNat = 0 ∧ 128 < 2 ^ 31 ∧
      stateEmpty.add 128 32 = some (stateEmpty, -1)) :=
  ⟨⟨reachable_stateOne, by decide,
    (C4_add_mask_range stateOne 130 31 reachable_stateOne (by decide) (by decide) (by decide)
      (by decide)).1 (Or.inl (by decide))⟩,
    ⟨reachable_stateEmpty, by decide, by decide, by decide, by decide,
      (C4_add_mask_range stateEmpty 128 32 reachable_stateEmpty (by decide) (by decide)
        (by decide) (by decide)).2 ⟨rfl, by decide⟩⟩⟩

end IpContainer

namespace IpContainer

theorem testBit_netmask (n j : Nat) :
    ((4294967295 <<< n) % 4294967296).testBit j = (decide (n ≤ j) && decide (j < 32)) := by
  have e1 : (4294967296 : Nat) = 2 ^ 32 := by norm_num
  have e2 : (4294967295 : Nat) = 2 ^ 32 - 1 := by norm_num
  rw [e1, Nat.testBit_mod_two_pow, Nat.testBit_shiftLeft, e2, Nat.testBit_two_pow_sub_one]
  by_cases h1 : n ≤ j <;> by_cases h2 : j < 32 <;> simp [h1, h2] <;> omega

/-- For 32-bit words and a mask length in `1 .. 32` the comparison under the network mask is
the equality of the top `m` bits, the words with their low `32 - m` bits dropped. -/
theorem covers_iff_top (b k : Nat) (m : Int) (h1 : 1 ≤ m) (h32 : m ≤ 32)
    (hb : b < 4294967296) (hk : k < 4294967296) :
    covers b m k ↔ b / 2 ^ (32 - m).toNat = k / 2 ^ (32 - m).toNat := by
  unfold covers
  rw [netmask_eq m h1 h32]
  generalize hn : (32 - m).toNat = n
  have hb2 : ∀ j, 32 ≤ j → b.testBit j = false := fun j hj =>
    Nat.testBit_eq_false_of_lt (lt_of_lt_of_le hb (by
      have : (4294967296 : Nat) = 2 ^ 32 := by norm_num
      rw [this]; exact Nat.pow_le_pow_right (by norm_num) hj))
  have hk2 : ∀ j, 32 ≤ j → k.testBit j = false := fun j hj =>
    Nat.testBit_eq_false_of_lt (lt_of_lt_of_le hk (by
      have : (4294967296 : Nat) = 2 ^ 32 := by norm_num
      rw [this]; exact Nat.pow_le_pow_right (by norm_num) hj))
  constructor
  · intro h
    apply Nat.eq_of_testBit_eq
    intro i
    rw [← Nat.shiftRight_eq_div_pow, ← Nat.shiftRight_eq_div_pow, Nat.testBit_shiftRight,
      Nat.testBit_shiftRight]
    by_cases hi : n + i < 32
    · have := congrArg (fun x => x.testBit (n + i)) h
      simp only [Nat.testBit_and, testBit_netmask] at this
      simpa [hi] using this
    · rw [hb2 _ (by omega), hk2 _ (by omega)]
  · intro h
    apply Nat.eq_of_testBit_eq
    intro j
    simp only [Nat.testBit_and, testBit_netmask]
    by_cases hj : n ≤ j
    · have := congrArg (fun x => x.testBit (j - n)) h
      simp only [← Nat.shiftRight_eq_div_pow, Nat.testBit_shiftRight] at this
      have e : n + (j - n) = j := by omega
      rw [e] at this
      rw [this]
    · simp [hj]

/-- Under the mask of the length 0, the unshifted word, 32-bit words compare equal only when
they are equal. -/
theorem covers_zero_iff (b k : Nat) (hb : b < 4294967296) (hk : k < 4294967296) :
    covers b 0 k ↔ b = k := by
  unfold covers
  rw [netmask_zero]
  have e : (4294967295 : Nat) = 2 ^ 32 - 1 := by norm_num
  rw [e, Nat.and_pow_two_sub_one_eq_mod, Nat.and_pow_two_sub_one_eq_mod,
    Nat.mod_eq_of_lt (by norm_num; exact hb), Nat.mod_eq_of_lt (by norm_num; exact hk)]

/-- Words that compare equal under the mask of a length in `0 .. 32` have equal top bits. -/
theorem covers_top (b k : Nat) (m : Int) (h0 : 0 ≤ m) (h32 : m ≤ 32)
    (hb : b < 4294967296) (hk : k < 4294967296) (h : covers b m k) :
    b / 2 ^ (32 - m).toNat = k / 2 ^ (32 - m).toNat := by
  by_cases hm : m = 0
  · subst hm
    rw [(covers_zero_iff b k hb hk).1 h]
  · exact (covers_iff_top b k m (by omega) h32 hb hk).1 h

/-- C21: for every leaf record with key `ip` and strictly increasing prefix set `P` of mask
lengths in `0 .. 32` and every 32-bit query `q`, `getMaxPrefixForIp(q)` returns the largest `M`
in `P` that matches, and -1 when no element of `P` matches, in particular when `P` is empty;
a length `M` in `1 .. 32` matches when the top `M` bits of `ip` equal the top `M` bits of `q`,
but the length 0, whose mask the shift by 32 leaves at `0xFFFFFFFF`, matches only `q = ip`:
for the record of 0.0.0.0 with the mask 0 and the query 0.0.0.1 the result is -1. -/
theorem C21_getMaxPrefixForIp (d : DataNode) (q : Nat) (h : DataNode.Ascending d.prefixes)
    (hr : ∀ m ∈ d.prefixes, 0 ≤ m ∧ m ≤ 32) (hip : d.ip < 4294967296) (hq : q < 4294967296) :
    ((d.getMaxPrefixForIp q ∈ d.prefixes ∧
        d.ip / 2 ^ (32 - d.getMaxPrefixForIp q).toNat = q / 2 ^ (32 - d.getMaxPrefixForIp q).toNat ∧
        (d.getMaxPrefixForIp q = 0 → d.ip = q) ∧
        ∀ m ∈ d.prefixes,
          (m ≠ 0 ∧ d.ip / 2 ^ (32 - m).toNat = q / 2 ^ (32 - m).toNat) ∨ (m = 0 ∧ d.ip = q) →
          m ≤ d.getMaxPrefixForIp q) ∨
      (d.getMaxPrefixForIp q = -1 ∧
        ∀ m ∈ d.prefixes,
          (m ≠ 0 → d.ip / 2 ^ (32 - m).toNat ≠ q / 2 ^ (32 - m).toNat) ∧
          (m = 0 → d.ip ≠ q))) ∧
    (d.prefixes = [] → d.getMaxPrefixForIp q = -1) ∧
    DataNode.getMaxPrefixForIp ⟨0, [0]⟩ 1 = -1 := by
  have hcov : ∀ m ∈ d.prefixes, covers d.ip m q ↔
      ((m ≠ 0 ∧ d.ip / 2 ^ (32 - m).toNat = q / 2 ^ (32 - m).toNat) ∨ (m = 0 ∧ d.ip = q)) := by
    intro m hm
    by_cases h0 : m = 0
    · subst h0
      rw [covers_zero_iff _ _ hip hq]
      simp
    · rw [covers_iff_top _ _ _ (by have := (hr m hm).1; omega) (hr m hm).2 hip hq]
      simp [h0]
  refine ⟨?_, ?_, by decide⟩
  · rcases DataNode.getMaxPrefixForIp_spec d q h with ⟨a1, a2, a3⟩ | ⟨a1, a2⟩
    · left
      refine ⟨a1, covers_top _ _ _ (hr _ a1).1 (hr _ a1).2 hip hq a2, ?_, ?_⟩
      · intro e
        rw [e] at a2
        exact (covers_zero_iff _ _ hip hq).1 a2
      · intro m hm ht
        exact a3 m hm ((hcov m hm).2 ht)
    · right
      refine ⟨a1, ?_⟩
      intro m hm
      have hn := a2 m hm
      rw [hcov m hm] at hn
      constructor
      · intro hm0 ht
        exact hn (Or.inl ⟨hm0, ht⟩)
      · intro hm0 ht
        exact hn (Or.inr ⟨hm0, ht⟩)
  · intro he
    rcases DataNode.getMaxPrefixForIp_spec d q h with ⟨a1, _, _⟩ | ⟨a1, _⟩
    · rw [he] at a1
      cases a1
    · exact a1

/-- Witness of C21: the record of 10.0.0.0 with the masks 8 and 16, queried with 10.0.1.0,
gives 16. -/
theorem C21_getMaxPrefixForIp_witness :
    DataNode.getMaxPrefixForIp ⟨167772160, [8, 16]⟩ 167772416 = 16 ∧
    (((DataNode.getMaxPrefixForIp ⟨167772160, [8, 16]⟩ 167772416 ∈ ([8, 16] : List Int) ∧
        167772160 / 2 ^ (32 - DataNode.getMaxPrefixForIp ⟨167772160, [8, 16]⟩ 167772416).toNat =
          167772416 / 2 ^ (32 - DataNode.getMaxPrefixForIp ⟨167772160, [8, 16]⟩ 167772416).toNat ∧
        (DataNode.getMaxPrefixForIp ⟨167772160, [8, 16]⟩ 167772416 = 0 →
          167772160 = 167772416) ∧
        ∀ m ∈ ([8, 16] : List Int),
          (m ≠ 0 ∧ 167772160 / 2 ^ (32 - m).toNat = 167772416 / 2 ^ (32 - m).toNat) ∨
            (m = 0 ∧ 167772160 = 167772416) →
          m ≤ DataNode.getMaxPrefixForIp ⟨167772160, [8, 16]⟩ 167772416) ∨
      (DataNode.getMaxPrefixForIp ⟨167772160, [8, 16]⟩ 167772416 = -1 ∧
        ∀ m ∈ ([8, 16] : List Int),
          (m ≠ 0 → 167772160 / 2 ^ (32 - m).toNat ≠ 167772416 / 2 ^ (32 - m).toNat) ∧
          (m = 0 → 167772160 ≠ 167772416))) ∧
    (([8, 16] : List Int) = [] → DataNode.getMaxPrefixForIp ⟨167772160, [8, 16]⟩ 167772416 = -1) ∧
    DataNode.getMaxPrefixForIp ⟨0, [0]⟩ 1 = -1) :=
  ⟨by decide, C21_getMaxPrefixForIp ⟨167772160, [8, 16]⟩ 167772416 (by decide) (by decide)
    (by decide) (by decide)⟩

end IpContainer

namespace IpContainer

/-- C22: for every strictly increasing prefix sequence `P` and every mask `p`, `addPrefix(p)`
keeps the key and yields a strictly increasing sequence whose elements are exactly those of
`P` together with `p`; when `p` is already in `P` the record is unchanged. -/
theorem C22_addPrefix (d : DataNode) (p : Int) (h : DataNode.Ascending d.prefixes) :
    (d.addPrefix p).ip = d.ip ∧ DataNode.Ascending (d.addPrefix p).prefixes ∧
      (∀ m, m ∈ (d.addPrefix p).prefixes ↔ m ∈ d.prefixes ∨ m = p) ∧
      (p ∈ d.prefixes → d.addPrefix p = d) := by
  obtain ⟨a1, a2, a3⟩ := DataNode.addPrefix_spec d p h
  refine ⟨a1, a2, a3, ?_⟩
  intro hp
  have hc : DataNode.binary_search d.prefixes p = true := (DataNode.binary_search_iff _ _ h).2 hp
  unfold DataNode.addPrefix DataNode.contain
  rw [if_pos hc]

/-- Witness of C22: `addPrefix(26)` on the masks 25 and 27 gives 25, 26, 27. -/
theorem C22_addPrefix_witness :
    DataNode.addPrefix ⟨128, [25, 27]⟩ 26 = ⟨128, [25, 26, 27]⟩ ∧
    ((DataNode.addPrefix ⟨128, [25, 27]⟩ 26).ip = 128 ∧
      DataNode.Ascending (DataNode.addPrefix ⟨128, [25, 27]⟩ 26).prefixes ∧
      (∀ m, m ∈ (DataNode.addPrefix ⟨128, [25, 27]⟩ 26).prefixes ↔
        m ∈ ([25, 27] : List Int) ∨ m = 26) ∧
      ((26 : Int) ∈ ([25, 27] : List Int) →
        DataNode.addPrefix ⟨128, [25, 27]⟩ 26 = ⟨128, [25, 27]⟩)) :=
  ⟨by decide, C22_addPrefix ⟨128, [25, 27]⟩ 26 (by decide)⟩

/-- C23: for every strictly increasing prefix sequence `P` and every mask `p`, `removePrefix(p)`
returns 0 and leaves exactly the elements of `P` other than `p`, in order, when `p` is in `P`;
it returns -1 and leaves `P` unchanged when `p` is not in `P`. -/
theorem C23_removePrefix (d : DataNode) (p : Int) (h : DataNode.Ascending d.prefixes) :
    (p ∈ d.prefixes → (d.removePrefix p).2 = 0 ∧ (d.removePrefix p).1.ip = d.ip ∧
      (d.removePrefix p).1.prefixes = d.prefixes.filter (fun m => decide (m ≠ p))) ∧
    (p ∉ d.prefixes → d.removePrefix p = (d, -1)) :=
  ⟨DataNode.removePrefix_mem d p h, DataNode.removePrefix_not_mem d p h⟩

/-- Witness of C23: `removePrefix(26)` on the masks 25, 26, 27, and `removePrefix(24)` on the
same record. -/
theorem C23_removePrefix_witness :
    DataNode.removePrefix ⟨128, [25, 26, 27]⟩ 26 = (⟨128, [25, 27]⟩, 0) ∧
    DataNode.removePrefix ⟨128, [25, 26, 27]⟩ 24 = (⟨128, [25, 26, 27]⟩, -1) ∧
    (((26 : Int) ∈ ([25, 26, 27] : List Int) →
      (DataNode.removePrefix ⟨128, [25, 26, 27]⟩ 26).2 = 0 ∧
      (DataNode.removePrefix ⟨128, [25, 26, 27]⟩ 26).1.ip = 128 ∧
      (DataNode.removePrefix ⟨128, [25, 26, 27]⟩ 26).1.prefixes =
        ([25, 26, 27] : List Int).filter (fun m => decide (m ≠ 26))) ∧
    ((26 : Int) ∉ ([25, 26, 27] : List Int) →
      DataNode.removePrefix ⟨128, [25, 26, 27]⟩ 26 = (⟨128, [25, 26, 27]⟩, -1))) :=
  ⟨by decide, by decide, C23_removePrefix ⟨128, [25, 26, 27]⟩ 26 (by decide)⟩

/-- C24: for every pair of distinct 32-bit values `v1` and `v2`, `getDiffBit(v1, v2)` returns
the index `d` in `[0, 31]` of the most significant set bit of `v1 XOR v2`
(`2^d ≤ v1 XOR v2 < 2^(d+1)`): `v1` and `v2` differ at bit `d` and agree at every bit above
`d`. -/
theorem C24_getDiffBit (v1 v2 : Nat) (h1 : v1 < 4294967296) (h2 : v2 < 4294967296)
    (hne : v1 ≠ v2) :
    ∃ d, getDiffBit v1 v2 = some d ∧ d ≤ 31 ∧
      2 ^ d ≤ v1 ^^^ v2 ∧ v1 ^^^ v2 < 2 ^ (d + 1) ∧
      v1.testBit d ≠ v2.testBit d ∧ ∀ j, d < j → v1.testBit j = v2.testBit j := by
  obtain ⟨d, e, hd, hb, ha⟩ := getDiffBit_spec v1 v2 h1 h2 hne
  refine ⟨d, e, hd, ?_, ?_, hb, ha⟩
  · apply Nat.testBit_implies_ge
    rw [Nat.testBit_xor]
    cases c1 : v1.testBit d <;> cases c2 : v2.testBit d <;> simp_all
  · apply Nat.lt_pow_two_of_testBit
    intro j hj
    rw [Nat.testBit_xor, ha j (by omega)]
    simp

/-- Witness of C24: 0.0.0.128 and 0.0.0.130 differ first at bit 1. -/
theorem C24_getDiffBit_witness :
    getDiffBit 128 130 = some 1 ∧
    ∃ d, getDiffBit 128 130 = some d ∧ d ≤ 31 ∧
      2 ^ d ≤ 128 ^^^ 130 ∧ 128 ^^^ 130 < 2 ^ (d + 1) ∧
      Nat.testBit 128 d ≠ Nat.testBit 130 d ∧
      ∀ j, d < j → Nat.testBit 128 j = Nat.testBit 130 j :=
  ⟨by decide, C24_getDiffBit 128 130 (by decide) (by decide) (by decide)⟩

/-- C27: in every reachable state and for every 32-bit query `k`, if `check(k)` returns
`M ≥ 0` then some stored prefix `(b, M)` has its top `M` bits equal to the top `M` bits of
`k` (it matches `k` under the mask of the code). -/
theorem C27_check_sound (s : IpContainer) (k : Nat) (M : Int) (h : Reachable s)
    (hk : k < 4294967296) (hc : s.check k = some M) (hM : 0 ≤ M) :
    ∃ b, stored s b M ∧ M ≤ 32 ∧ covers b M k ∧
      b / 2 ^ (32 - M).toNat = k / 2 ^ (32 - M).toNat := by
  obtain ⟨ot, hwf⟩ := Reachable.wf h
  cases ot with
  | none =>
    rw [WF.check_none hwf k] at hc
    cases hc
    exact absurd hM (by decide)
  | some t =>
    rw [WF.check hwf k] at hc
    have hM2 : (t.find k).2.getMaxPrefixForIp k = M := Option.some.inj hc
    have hmem := LTree.find_mem_leaves k t
    have hok := LTree.Inv.leafOk hwf.2.2.2.2.2.2 _ hmem
    rcases DataNode.getMaxPrefixForIp_spec (t.find k).2 k hok.1 with ⟨a1, a2, _⟩ | ⟨a1, _⟩
    · rw [hM2] at a1 a2
      have hv := (validate_eq_true_iff _ _).1 (hok.2.2 M a1)
      have hb : (t.find k).2.ip < 4294967296 := by omega
      exact ⟨_, (WF.stored_leaf hwf hmem M).2 a1, hv.2.1, a2,
        covers_top _ _ _ hM hv.2.1 hb hk a2⟩
    · rw [hM2] at a1
      rw [a1] at hM
      exact absurd hM (by decide)

/-- Witness of C27: `check(10.1.2.3)` returns 16 on the engine holding 10.0.0.0/8 and
10.1.0.0/16. -/
theorem C27_check_sound_witness :
    Reachable stateTen ∧ stateTen.check 167838211 = some 16 ∧
      ∃ b, stored stateTen b 16 ∧ (16 : Int) ≤ 32 ∧ covers b 16 167838211 ∧
        b / 2 ^ (32 - (16 : Int)).toNat = 167838211 / 2 ^ (32 - (16 : Int)).toNat :=
  ⟨reachable_stateTen, by decide,
    C27_check_sound stateTen 167838211 16 reachable_stateTen (by decide) (by decide)
      (by decide)⟩

/-- C13: `add(0, 0)` on an empty tree returns 0, and `check(0.0.0.0)` then returns 0; but
for every other 32-bit `k`, 255.255.255.255 included, `check(k)` returns -1: the mask of the
length 0, all-ones shifted left by 32, stays `0xFFFFFFFF` and compares every bit of the
key. -/
theorem C13_default_route_lost (s : IpContainer) (h : Reachable s)
    (he : s.rootChild = some none) :
    ∃ s1, s.add 0 0 = some (s1, 0) ∧ s1.check 0 = some 0 ∧
      (∀ k, k ≠ 0 → k < 4294967296 → s1.check k = some (-1)) ∧
      s1.check 4294967295 = some (-1) := by
  obtain ⟨ot, hwf⟩ := Reachable.wf h
  have hot : ot = none := (WF.rootChild_iff hwf).1 he
  subst hot
  obtain ⟨s1, t1, h1, hwf1, hst, _⟩ := add_WF hwf 0 0 (by decide)
  have honly : ∀ k, ∀ m ∈ (t1.find k).2.prefixes, (t1.find k).2.ip = 0 ∧ m = 0 := by
    intro k m hm
    rcases (hst _ m).1 ((WF.stored_leaf hwf1 (LTree.find_mem_leaves k t1) m).2 hm) with hs | hs
    · exact absurd hs (WF.stored_none hwf _ _)
    · exact hs
  have hzero : s1.check 0 = some 0 := by
    rw [WF.check hwf1 0]
    have hok := LTree.Inv.leafOk hwf1.2.2.2.2.2.2 _ (LTree.find_mem_leaves 0 t1)
    rcases DataNode.getMaxPrefixForIp_spec (t1.find 0).2 0 hok.1 with ⟨a1, _, _⟩ | ⟨_, a2⟩
    · rw [(honly 0 _ a1).2]
    · obtain ⟨m, hm⟩ := List.exists_mem_of_ne_nil _ hok.2.1
      exfalso
      apply a2 m hm
      obtain ⟨e1, e2⟩ := honly 0 m hm
      rw [e1, e2]
      rfl
  have hall : ∀ k, k ≠ 0 → k < 4294967296 → s1.check k = some (-1) := by
    intro k hk0 hk
    rw [WF.check hwf1 k]
    have hok := LTree.Inv.leafOk hwf1.2.2.2.2.2.2 _ (LTree.find_mem_leaves k t1)
    rcases DataNode.getMaxPrefixForIp_spec (t1.find k).2 k hok.1 with ⟨a1, a2, _⟩ | ⟨a1, _⟩
    · exfalso
      obtain ⟨e1, e2⟩ := honly k _ a1
      rw [e1, e2] at a2
      exact hk0 ((covers_zero_iff 0 k (by decide) hk).1 a2).symm
    · rw [a1]
  exact ⟨s1, h1, hzero, hall, hall 4294967295 (by decide) (by decide)⟩

/-- Witness of C13: `add(0, 0)` on the freshly constructed engine, after which
`check(255.255.255.255)` returns -1. -/
theorem C13_default_route_lost_witness :
    Reachable stateEmpty ∧ stateEmpty.add 0 0 = some (stateZero, 0) ∧
      stateZero.check 4294967295 = some (-1) ∧
      ∃ s1, stateEmpty.add 0 0 = some (s1, 0) ∧ s1.check 0 = some 0 ∧
        (∀ k, k ≠ 0 → k < 4294967296 → s1.check k = some (-1)) ∧
        s1.check 4294967295 = some (-1) :=
  ⟨reachable_stateEmpty, by decide, by decide,
    C13_default_route_lost stateEmpty reachable_stateEmpty (by decide)⟩

/-- C11: for every reachable state and every valid `(b, m)`, `add(b, m)` returns 0, and a
second `add(b, m)` returns 0 and yields the same state as the first one, so `check(k)` is the
same for every `k` before and after the second call. -/
theorem C11_add_idempotent (s : IpContainer) (b : Nat) (m : Int) (h : Reachable s)
    (hv : validate b m = true) :
    ∃ s1 s2, s.add b m = some (s1, 0) ∧ s1.add b m = some (s2, 0) ∧ s2 = s1 ∧
      ∀ k, s2.check k = s1.check k := by
  obtain ⟨ot, hwf⟩ := Reachable.wf h
  obtain ⟨s1, t1, h1, hwf1, hst, _⟩ := add_WF hwf b m hv
  have hs : stored s1 b m := (hst b m).2 (Or.inr ⟨rfl, rfl⟩)
  exact ⟨s1, s1, h1, add_same hwf1 b m hv hs, rfl, fun _ => rfl⟩

/-- Witness of C11: `add(0.0.0.130, 31)` twice on the engine holding 0.0.0.128/25. -/
theorem C11_add_idempotent_witness :
    Reachable stateOne ∧ stateOne.add 130 31 = some (stateTwo, 0) ∧
      stateTwo.add 130 31 = some (stateTwo, 0) ∧
      ∃ s1 s2, stateOne.add 130 31 = some (s1, 0) ∧ s1.add 130 31 = some (s2, 0) ∧ s2 = s1 ∧
        ∀ k, s2.check k = s1.check k :=
  ⟨reachable_stateOne, by decide, by decide,
    C11_add_idempotent stateOne 130 31 reachable_stateOne (by decide)⟩

end IpContainer

namespace IpContainer

theorem WF.mem_indices {s : IpContainer} {t : LTree} (h : WF s (some t)) {i : Nat} {n : Node}
    (hb : s.node_alloc.buf[i]? = some n) (hn : ∀ par c, n ≠ Node.root par c) :
    i ∈ t.indices := by
  obtain ⟨hr, h0, h1, hrep, hnd, hrange, hinv⟩ := h
  have hlt : i < s.node_alloc.buf.length := lt_of_getElem? hb
  have hi2 : 2 ≤ i := by
    by_contra hc
    have : i = 0 ∨ i = 1 := by omega
    rcases this with e | e
    · subst e; rw [h0] at hb; cases hb; exact hn _ _ rfl
    · subst e; rw [h1] at hb; cases hb; exact hn _ _ rfl
  exact (hrange i).2 ⟨hi2, hlt⟩

theorem WF.none_slot {s : IpContainer} (h : WF s none) {i : Nat} {n : Node}
    (hb : s.node_alloc.buf[i]? = some n) : n = Node.root none none ∧ i < 2 := by
  obtain ⟨hr, hbuf⟩ := h
  rw [hbuf] at hb
  have hlt : i < 2 := lt_of_getElem? hb
  interval_cases i
  · cases hb; exact ⟨rfl, by omega⟩
  · cases hb; exact ⟨rfl, by omega⟩

/-- C14: in every state reached by `add` and `del` calls the links are consistent: slot 1 holds
the only Root, whose child is empty or a live node that is not a Root and whose parent is
slot 1; every Inner has two non-empty, distinct children whose parent fields point back to it;
every Leaf has a non-empty parent, which is the Root with this leaf as its child or an Inner
that has it as a child. -/
theorem C14_links_consistent (s : IpContainer) (h : Reachable s) :
    s.root = some 1 ∧
    (∃ ch, s.node_alloc.buf[1]? = some (Node.root none ch) ∧
      (ch = none ∨ ∃ c n, ch = some c ∧ s.node_alloc.buf[c]? = some n ∧ n.isRoot = false ∧
        n.getParent = some 1)) ∧
    (∀ (i : Nat) (n : Node), 2 ≤ i → s.node_alloc.buf[i]? = some n → n.isRoot = false) ∧
    (∀ (i b : Nat) (par o z : pointer), s.node_alloc.buf[i]? = some (Node.inner b par o z) →
      ∃ oi zi no nz, o = some oi ∧ z = some zi ∧ oi ≠ zi ∧
        s.node_alloc.buf[oi]? = some no ∧ s.node_alloc.buf[zi]? = some nz ∧
        no.isRoot = false ∧ nz.isRoot = false ∧
        no.getParent = some i ∧ nz.getParent = some i) ∧
    (∀ (i : Nat) (par : pointer) (d : DataNode),
      s.node_alloc.buf[i]? = some (Node.leaf par d) →
      ∃ q nq, par = some q ∧ s.node_alloc.buf[q]? = some nq ∧
        ((q = 1 ∧ nq = Node.root none (some i)) ∨
          ∃ b pp o z, nq = Node.inner b pp o z ∧ (o = some i ∨ z = some i))) := by
  obtain ⟨ot, hwf⟩ := Reachable.wf h
  cases ot with
  | none =>
    refine ⟨hwf.1, ⟨none, by rw [hwf.2]; rfl, Or.inl rfl⟩, ?_, ?_, ?_⟩
    · intro i n hi hb
      have := (WF.none_slot hwf hb).2
      omega
    · intro i b par o z hb
      have := (WF.none_slot hwf hb).1
      cases this
    · intro i par d hb
      have := (WF.none_slot hwf hb).1
      cases this
  | some t =>
    have hwf2 := hwf
    obtain ⟨hr, h0, h1, hrep, hnd, hrange, hinv⟩ := hwf2
    have h1n : 1 ∉ t.indices := by
      intro hc
      have := (hrange 1).1 hc
      omega
    refine ⟨hr, ?_, ?_, ?_, ?_⟩
    · obtain ⟨n, g1, _, g3, g4⟩ := LTree.Rep.top hrep
      exact ⟨_, h1, Or.inr ⟨_, n, rfl, g1, g4, g3⟩⟩
    · intro i n hi hb
      have hm := (hrange i).2 ⟨hi, lt_of_getElem? hb⟩
      obtain ⟨n2, g1, g2, g3⟩ := LTree.Rep.node_of_mem hrep hm
      rw [hb] at g1
      cases g1
      cases n with
      | root par c => exact absurd rfl (g2 par c)
      | leaf par d => exact LTree.isRoot_leaf _ _
      | inner b par o z => exact LTree.isRoot_inner _ _ _ _ (g3 _ _ _ _ rfl)
    · intro i b par o z hb
      have hm := WF.mem_indices hwf hb (by intro a c e; cases e)
      obtain ⟨zt, ot, q, e1, e2, e3, r1, r2, _, _, _, _⟩ := LTree.Rep.inner_at hrep hinv hm hb
      obtain ⟨nz, a1, _, a3, a4⟩ := LTree.Rep.top r1
      obtain ⟨no, b1, _, b3, b4⟩ := LTree.Rep.top r2
      obtain ⟨q2, _, hshape, _⟩ := LTree.Rep.around hrep hnd h1n hm
      have hne : ot.idx ≠ zt.idx := by
        rcases hshape with ⟨d, hd⟩ | ⟨b5, oi, zi, hd, _, hzo, _⟩
        · rw [hb] at hd
          cases hd
        · rw [hb] at hd
          injection hd with hd
          injection hd with _ _ c3 c4
          rw [e2] at c3
          rw [e1] at c4
          injection c3 with c3
          injection c4 with c4
          rw [c3, c4]
          exact fun e => hzo e.symm
      exact ⟨_, _, no, nz, e2, e1, hne, b1, a1, b4, a4, b3, a3⟩
    · intro i par d hb
      obtain ⟨hm, _⟩ := WF.leaf_mem hwf hb
      obtain ⟨q, _, hshape, hpar⟩ := LTree.Rep.around hrep hnd h1n hm
      have hq : par = some q := by
        rcases hshape with ⟨d2, hd⟩ | ⟨b5, oi, zi, hd, _⟩
        · rw [hb] at hd
          injection hd with hd
          injection hd with c1 _
        · rw [hb] at hd
          cases hd
      rcases hpar with ⟨g1, g2⟩ | ⟨g1, g2, bq, pq, oq, zq, g3, _, _, g4⟩
      · subst g1
        subst g2
        exact ⟨1, _, hq, h1, Or.inl ⟨rfl, rfl⟩⟩
      · refine ⟨q, _, hq, g3, Or.inr ⟨_, _, _, _, rfl, ?_⟩⟩
        rcases g4 with ⟨e, _⟩ | ⟨e, _⟩
        · exact Or.inr (by rw [e])
        · exact Or.inl (by rw [e])

/-- Witness of C14: the engine holding 0.0.0.128/25 and 0.0.0.130/31. -/
theorem C14_links_consistent_witness :
    Reachable stateTwo ∧ stateTwo.root = some 1 ∧
      ∀ (i : Nat) (par : pointer) (d : DataNode),
        stateTwo.node_alloc.buf[i]? = some (Node.leaf par d) →
        ∃ q nq, par = some q ∧ stateTwo.node_alloc.buf[q]? = some nq ∧
          ((q = 1 ∧ nq = Node.root none (some i)) ∨
            ∃ b pp o z, nq = Node.inner b pp o z ∧ (o = some i ∨ z = some i)) :=
  ⟨reachable_stateTwo, (C14_links_consistent stateTwo reachable_stateTwo).1,
    (C14_links_consistent stateTwo reachable_stateTwo).2.2.2.2⟩

/-- C15: in every state reached by `add` and `del` calls every Inner node has its branch bit
in `[0, 31]` and a branch bit greater than that of any Inner child, and every descent of
`findNode` ends at a leaf after passing at most 32 Inner nodes: the loop run with room for 33
nodes gives the result of `findNode`. -/
theorem C15_bits_decrease (s : IpContainer) (h : Reachable s) :
    (∀ (i b : Nat) (par o z : pointer),
      s.node_alloc.buf[i]? = some (Node.inner b par o z) → b ≤ 31 ∧
      ∀ (c b2 : Nat) (par2 o2 z2 : pointer), (o = some c ∨ z = some c) →
        s.node_alloc.buf[c]? = some (Node.inner b2 par2 o2 z2) → b2 < b) ∧
    (∀ k c, s.rootChild = some (some c) →
      ∃ i par d, findNodeLoop s.node_alloc k 33 (some c) = some (some i) ∧
        s.findNode k = some (some i) ∧ s.node_alloc.buf[i]? = some (Node.leaf par d)) := by
  obtain ⟨ot, hwf⟩ := Reachable.wf h
  cases ot with
  | none =>
    constructor
    · intro i b par o z hb
      have := (WF.none_slot hwf hb).1
      cases this
    · intro k c hc
      rw [WF.rootChild_none hwf] at hc
      cases hc
  | some t =>
    have hwf2 := hwf
    obtain ⟨hr, h0, h1, hrep, hnd, hrange, hinv⟩ := hwf2
    constructor
    · intro i b par o z hb
      have hm := WF.mem_indices hwf hb (by intro a c e; cases e)
      obtain ⟨zt, ot, q, e1, e2, e3, r1, r2, hi2, hb32, _, _⟩ :=
        LTree.Rep.inner_at hrep hinv hm hb
      refine ⟨by omega, ?_⟩
      intro c b2 par2 o2 z2 hc hcb
      have hlt := LTree.Inv.child_bit_lt hi2
      rcases hc with hc | hc
      · rw [e2] at hc
        injection hc with hc
        rw [← hc] at hcb
        obtain ⟨z3, o3, e⟩ := LTree.Rep.top_inner r2 hcb
        exact hlt.2 _ _ _ _ e
      · rw [e1] at hc
        injection hc with hc
        rw [← hc] at hcb
        obtain ⟨z3, o3, e⟩ := LTree.Rep.top_inner r1 hcb
        exact hlt.1 _ _ _ _ e
    · intro k c hc
      rw [WF.rootChild hwf] at hc
      injection hc with hc
      injection hc with hc
      subst hc
      have hp := LTree.pathLen_le_32 hrep hinv k
      obtain ⟨⟨cap, buf⟩, r⟩ := s
      refine ⟨(t.find k).1, _, _, LTree.findNodeLoop_rep cap k hrep 33 (by omega),
        WF.findNode hwf k, LTree.Rep.find k hrep⟩

/-- Witness of C15: the engine holding 10.0.0.0/8 and 10.1.0.0/16. -/
theorem C15_bits_decrease_witness :
    Reachable stateTen ∧
      ∀ k c, stateTen.rootChild = some (some c) →
        ∃ i par d, findNodeLoop stateTen.node_alloc k 33 (some c) = some (some i) ∧
          stateTen.findNode k = some (some i) ∧
          stateTen.node_alloc.buf[i]? = some (Node.leaf par d) :=
  ⟨reachable_stateTen, (C15_bits_decrease stateTen reachable_stateTen).2⟩

/-- C16: in every state reached by `add` and `del` calls, every Inner node with branch bit `b`
is the top of two subtrees held by the arena below it, the one under `zero` and the one under
`one`; every leaf of the `zero` subtree has bit `b` of its key clear, every leaf of the `one`
subtree has bit `b` set, and all leaves of both have identical key bits at every position
above `b`. -/
theorem C16_subtree_bits (s : IpContainer) (h : Reachable s) :
    ∀ (i b : Nat) (par o z : pointer), s.node_alloc.buf[i]? = some (Node.inner b par o z) →
      ∃ zt ot : LTree, z = some zt.idx ∧ o = some ot.idx ∧
        LTree.Rep s.node_alloc.buf zt i ∧ LTree.Rep s.node_alloc.buf ot i ∧
        (∀ k ∈ zt.keys, k.testBit b = false) ∧ (∀ k ∈ ot.keys, k.testBit b = true) ∧
        (∀ k ∈ zt.keys ++ ot.keys, ∀ k2 ∈ zt.keys ++ ot.keys, ∀ j, b < j →
          k.testBit j = k2.testBit j) := by
  obtain ⟨ot, hwf⟩ := Reachable.wf h
  cases ot with
  | none =>
    intro i b par o z hb
    have := (WF.none_slot hwf hb).1
    cases this
  | some t =>
    intro i b par o z hb
    have hm := WF.mem_indices hwf hb (by intro a c e; cases e)
    obtain ⟨zt, ot, q, e1, e2, e3, r1, r2, hi2, hb32, _, _⟩ :=
      LTree.Rep.inner_at hwf.2.2.2.1 hwf.2.2.2.2.2.2 hm hb
    simp only [LTree.Inv, LTree.keys_inner] at hi2
    exact ⟨zt, ot, e1, e2, r1, r2, hi2.1, hi2.2.1, hi2.2.2.1⟩

/-- Witness of C16: the engine holding 10.0.0.0/8 and 10.1.0.0/16, whose Inner node has the
branch bit 16. -/
theorem C16_subtree_bits_witness :
    Reachable stateTen ∧
      stateTen.node_alloc.buf[4]? = some (Node.inner 16 (some 1) (some 3) (some 2)) ∧
      ∃ zt ot : LTree, some 2 = some zt.idx ∧ some 3 = some ot.idx ∧
        LTree.Rep stateTen.node_alloc.buf zt 4 ∧ LTree.Rep stateTen.node_alloc.buf ot 4 ∧
        (∀ k ∈ zt.keys, k.testBit 16 = false) ∧ (∀ k ∈ ot.keys, k.testBit 16 = true) ∧
        (∀ k ∈ zt.keys ++ ot.keys, ∀ k2 ∈ zt.keys ++ ot.keys, ∀ j, 16 < j →
          k.testBit j = k2.testBit j) :=
  ⟨reachable_stateTen, rfl, C16_subtree_bits stateTen reachable_stateTen 4 16 _ _ _ rfl⟩

/-- C17: in every state reached by `add` and `del` calls, the prefix set of every leaf is
non-empty and strictly increasing with all elements in `[0, 32]`, and no two leaves have the
same key. -/
theorem C17_leaf_sets (s : IpContainer) (h : Reachable s) :
    (∀ (i : Nat) (par : pointer) (d : DataNode),
      s.node_alloc.buf[i]? = some (Node.leaf par d) →
      d.prefixes ≠ [] ∧ DataNode.Ascending d.prefixes ∧ ∀ m ∈ d.prefixes, 0 ≤ m ∧ m ≤ 32) ∧
    (∀ (i j : Nat) (p1 p2 : pointer) (d1 d2 : DataNode),
      s.node_alloc.buf[i]? = some (Node.leaf p1 d1) →
      s.node_alloc.buf[j]? = some (Node.leaf p2 d2) → d1.ip = d2.ip → i = j) := by
  obtain ⟨ot, hwf⟩ := Reachable.wf h
  cases ot with
  | none =>
    constructor
    · intro i par d hb
      have := (WF.none_slot hwf hb).1
      cases this
    · intro i j p1 p2 d1 d2 hb
      have := (WF.none_slot hwf hb).1
      cases this
  | some t =>
    have hrep := hwf.2.2.2.1
    have hinv := hwf.2.2.2.2.2.2
    constructor
    · intro i par d hb
      obtain ⟨_, hd⟩ := WF.leaf_mem hwf hb
      obtain ⟨a1, a2, a3⟩ := LTree.Inv.leafOk hinv d hd
      refine ⟨a2, a1, ?_⟩
      intro m hm
      have hv := (validate_eq_true_iff _ _).1 (a3 m hm)
      exact ⟨hv.1, hv.2.1⟩
    · intro i j p1 p2 d1 d2 hb1 hb2 e
      obtain ⟨hm1, _⟩ := WF.leaf_mem hwf hb1
      obtain ⟨hm2, _⟩ := WF.leaf_mem hwf hb2
      have f1 := LTree.Rep.find_of_leaf hrep hinv hm1 hb1
      have f2 := LTree.Rep.find_of_leaf hrep hinv hm2 hb2
      rw [e] at f1
      rw [← f1, ← f2]

/-- Witness of C17: the engine holding 0.0.0.128/25 and 0.0.0.130/31. -/
theorem C17_leaf_sets_witness :
    Reachable stateTwo ∧
      ∀ (i : Nat) (par : pointer) (d : DataNode),
        stateTwo.node_alloc.buf[i]? = some (Node.leaf par d) →
        d.prefixes ≠ [] ∧ DataNode.Ascending d.prefixes ∧ ∀ m ∈ d.prefixes, 0 ≤ m ∧ m ≤ 32 :=
  ⟨reachable_stateTwo, (C17_leaf_sets stateTwo reachable_stateTwo).1⟩

end IpContainer

namespace IpContainer

theorem isLeaf_root (p c : pointer) : (Node.root p c).isLeaf = false := by
  simp only [Node.isLeaf, Node.flag]; decide

theorem slotsBelow_root (buf : List Node) (fuel i : Nat) (par : pointer) (c : Nat)
    (h : buf[i]? = some (Node.root par (some c))) :
    ChunkBuff.slotsBelow buf (fuel + 1) i = i :: ChunkBuff.slotsBelow buf fuel c := by
  simp only [ChunkBuff.slotsBelow, h]

theorem liveCount_two (cap : Nat) (n0 n1 : Node) (f : Node → Bool) :
    ChunkBuff.liveCount ⟨cap, [n0, n1]⟩ f = if f n1 = true then 1 else 0 := by
  unfold ChunkBuff.liveCount ChunkBuff.size
  show ((List.filter (ChunkBuff.slotIs [n0, n1] f) [1]).length = _)
  rw [List.filter_cons]
  show ((if f n1 = true then [1] else []).length = _)
  split <;> rfl

theorem filter_cons_node (buf : List Node) (l : List Nat) (f : Node → Bool) (i : Nat) (n : Node)
    (h : buf[i]? = some n) :
    ((i :: l).filter (ChunkBuff.slotIs buf f)).length =
      (if f n = true then 1 else 0) + (l.filter (ChunkBuff.slotIs buf f)).length := by
  rw [List.filter_cons]
  simp only [ChunkBuff.slotIs, h]
  split
  · simp only [List.length_cons]
    omega
  · omega

theorem liveCount_eq {s : IpContainer} {t : LTree} (h : WF s (some t)) (f : Node → Bool) :
    s.node_alloc.liveCount f =
      ((1 :: t.indices).filter (ChunkBuff.slotIs s.node_alloc.buf f)).length := by
  unfold ChunkBuff.liveCount ChunkBuff.size
  exact ((WF.perm h).filter _).length_eq.symm

theorem WF.keys_iff {s : IpContainer} {t : LTree} (h : WF s (some t)) (b : Nat) :
    b ∈ t.keys ↔ ∃ m, stored s b m := by
  constructor
  · intro hb
    obtain ⟨d, hd, hip⟩ := LTree.mem_keys.1 hb
    have hok := LTree.Inv.leafOk h.2.2.2.2.2.2 d hd
    obtain ⟨m, hm⟩ := List.exists_mem_of_ne_nil _ hok.2.1
    exact ⟨m, (WF.stored_iff h b m).2 ⟨d, hd, hip, hm⟩⟩
  · rintro ⟨m, hm⟩
    obtain ⟨d, hd, hip, _⟩ := (WF.stored_iff h b m).1 hm
    exact LTree.mem_keys.2 ⟨d, hd, hip⟩

/-- C26: in every state reached by `add` and `del` calls no node is leaked or lost: the Root
is at index 1, the traversal that starts at the Root and follows the child links visits every
live slot exactly once, and with `L` the number of distinct keys that have a stored prefix the
live slots hold one Root, `L` leaves and `L - 1` Inner nodes: 1 live node when the tree is
empty and `2 * L` when it holds `L ≥ 1` keys. -/
theorem C26_no_leak (s : IpContainer) (h : Reachable s) :
    s.root = some 1 ∧ (∃ ch, s.node_alloc.buf[1]? = some (Node.root none ch)) ∧
    (ChunkBuff.slotsBelow s.node_alloc.buf s.node_alloc.size 1).Perm
      (List.range' 1 (s.node_alloc.size - 1)) ∧
    ∃ keys : List Nat, keys.Nodup ∧ (∀ b, b ∈ keys ↔ ∃ m, stored s b m) ∧
      s.node_alloc.liveCount Node.isRoot = 1 ∧
      s.node_alloc.liveCount Node.isLeaf = keys.length ∧
      s.node_alloc.liveCount Node.isInner = keys.length - 1 ∧
      (keys = [] → s.node_alloc.size - 1 = 1) ∧
      (keys ≠ [] → s.node_alloc.size - 1 = 2 * keys.length) := by
  obtain ⟨ot, hwf⟩ := Reachable.wf h
  cases ot with
  | none =>
    obtain ⟨⟨cap, buf⟩, r⟩ := s
    obtain ⟨hr, hbuf⟩ := hwf
    dsimp only at hr hbuf
    subst hr
    subst hbuf
    refine ⟨rfl, ⟨none, rfl⟩, ?_, [], List.nodup_nil, ?_, ?_, ?_, ?_, ?_, ?_⟩
    · exact List.Perm.refl _
    · intro b
      constructor
      · intro hb
        cases hb
      · rintro ⟨m, hm⟩
        exact absurd hm (WF.stored_none ⟨rfl, rfl⟩ b m)
    · rw [liveCount_two, LTree.isRoot_root, if_pos rfl]
    · rw [liveCount_two, isLeaf_root, if_neg (by decide)]
      rfl
    · rw [liveCount_two, LTree.isInner_root, if_neg (by decide)]
      rfl
    · intro _
      rfl
    · intro hc
      exact absurd rfl hc
  | some t =>
    have hwf2 := hwf
    obtain ⟨hr, h0, h1, hrep, hnd, hrange, hinv⟩ := hwf2
    have hsize := WF.size hwf
    have hh := LTree.height_lt_length t
    have hlen := LTree.indices_length t
    have hkl : t.keys.length = t.leaves.length := by
      unfold LTree.keys
      rw [List.length_map]
    have hpos : t.leaves.length ≠ 0 := by
      intro hc
      exact LTree.leaves_ne_nil t (List.length_eq_zero.1 hc)
    refine ⟨hr, ⟨_, h1⟩, ?_, t.keys, LTree.Inv.keys_nodup hinv, WF.keys_iff hwf, ?_, ?_, ?_,
      ?_, ?_⟩
    · have e : ChunkBuff.slotsBelow s.node_alloc.buf s.node_alloc.size 1 = 1 :: t.indices := by
        unfold ChunkBuff.size
        rw [hsize]
        rw [slotsBelow_root _ (t.indices.length + 1) 1 _ _ h1,
          LTree.slotsBelow_rep hrep _ (by omega)]
      rw [e]
      exact WF.perm hwf
    · rw [liveCount_eq hwf, filter_cons_node _ _ _ _ _ h1, LTree.count_root hrep,
        LTree.isRoot_root, if_pos rfl]
    · rw [liveCount_eq hwf, filter_cons_node _ _ _ _ _ h1, LTree.count_leaf hrep,
        isLeaf_root, if_neg (by decide), hkl]
      omega
    · have hc := LTree.count_inner hrep
      rw [liveCount_eq hwf, filter_cons_node _ _ _ _ _ h1,
        LTree.isInner_root, if_neg (by decide), hkl]
      omega
    · intro hc
      exact absurd hc (LTree.keys_ne_nil t)
    · intro _
      unfold ChunkBuff.size
      omega

/-- Witness of C26: the engine holding 0.0.0.128/25 and 0.0.0.130/31 has the live slots 1 to
4, all visited by the traversal from the Root. -/
theorem C26_no_leak_witness :
    Reachable stateTwo ∧
      ChunkBuff.slotsBelow stateTwo.node_alloc.buf stateTwo.node_alloc.size 1 = [1, 4, 2, 3] ∧
      stateTwo.root = some 1 ∧
      (ChunkBuff.slotsBelow stateTwo.node_alloc.buf stateTwo.node_alloc.size 1).Perm
        (List.range' 1 (stateTwo.node_alloc.size - 1)) :=
  ⟨reachable_stateTwo, by decide, (C26_no_leak stateTwo reachable_stateTwo).1,
    (C26_no_leak stateTwo reachable_stateTwo).2.2.1⟩

end IpContainer

namespace IpContainer

/-- A run of `add` calls stores nothing but arguments of these calls. -/
theorem runFrom_adds (all adds : List (Nat × Int)) :
    ∀ {s : IpContainer} {ot : Option LTree}, WF s ot →
      (∀ b m, stored s b m → (b, m) ∈ all) → (∀ p ∈ adds, p ∈ all) →
      ∃ s1 ot1, runFrom s (adds.map (fun p => Call.add p.1 p.2)) = some s1 ∧ WF s1 ot1 ∧
        ∀ b m, stored s1 b m → (b, m) ∈ all := by
  induction adds with
  | nil =>
    intro s ot hwf hst _
    exact ⟨s, ot, rfl, hwf, hst⟩
  | cons p rest ih =>
    intro s ot hwf hst hall
    obtain ⟨base, mask⟩ := p
    have hstep : ∃ s1 ot1, s.step (Call.add base mask) = some s1 ∧ WF s1 ot1 ∧
        ∀ b m, stored s1 b m → stored s b m ∨ (b = base ∧ m = mask) := by
      cases hv : validate base mask with
      | false =>
        exact ⟨s, ot, by simp only [step, add_invalid s base mask hv, Option.map_some'], hwf,
          fun b m hs => Or.inl hs⟩
      | true =>
        obtain ⟨s1, t1, h1, h2, h3, _⟩ := add_WF hwf base mask hv
        exact ⟨s1, some t1, by simp only [step, h1, Option.map_some'], h2,
          fun b m hs => (h3 b m).1 hs⟩
    obtain ⟨s1, ot1, h1, h2, h3⟩ := hstep
    have hst1 : ∀ b m, stored s1 b m → (b, m) ∈ all := by
      intro b m hs
      rcases h3 b m hs with h4 | ⟨e1, e2⟩
      · exact hst b m h4
      · rw [e1, e2]
        exact hall _ (List.mem_cons_self _ _)
    obtain ⟨s2, ot2, g1, g2, g3⟩ := ih h2 hst1 (fun p hp => hall p (List.mem_cons_of_mem _ hp))
    refine ⟨s2, ot2, ?_, g2, g3⟩
    simp only [List.map_cons, runFrom, h1]
    exact g1

/-- A run of `del` calls whose arguments include every stored prefix empties the tree. -/
theorem runFrom_dels (dels : List (Nat × Int)) :
    ∀ {s : IpContainer} {ot : Option LTree}, WF s ot →
      (∀ b m, stored s b m → (b, m) ∈ dels) →
      ∃ s1, runFrom s (dels.map (fun p => Call.del p.1 p.2)) = some s1 ∧ WF s1 none := by
  induction dels with
  | nil =>
    intro s ot hwf hst
    cases ot with
    | none => exact ⟨s, rfl, hwf⟩
    | some t =>
      obtain ⟨b, m, hs⟩ := WF.stored_some hwf
      exact absurd (hst b m hs) (List.not_mem_nil _)
  | cons p rest ih =>
    intro s ot hwf hst
    obtain ⟨base, mask⟩ := p
    have hstep : ∃ s1 ot1, s.step (Call.del base mask) = some s1 ∧ WF s1 ot1 ∧
        ∀ b m, stored s1 b m → (b, m) ∈ rest := by
      cases ot with
      | none =>
        refine ⟨s, none, by simp only [step, del_none hwf base mask, Option.map_some'], hwf, ?_⟩
        intro b m hs
        exact absurd hs (WF.stored_none hwf b m)
      | some t =>
        obtain ⟨s1, r, ot1, h1, h2, h3, _⟩ := del_WF hwf base mask
        refine ⟨s1, ot1, by simp only [step, h1, Option.map_some'], h2, ?_⟩
        intro b m hs
        obtain ⟨hs0, hne⟩ := (h3 b m).1 hs
        rcases List.mem_cons.1 (hst b m hs0) with e | e
        · exfalso
          injection e with e1 e2
          subst e1
          subst e2
          exact hne ⟨((WF.stored_find hwf b m).1 hs0).1.symm, rfl⟩
        · exact e
    obtain ⟨s1, ot1, h1, h2, h3⟩ := hstep
    obtain ⟨s2, g1, g2⟩ := ih h2 h3
    refine ⟨s2, ?_, g2⟩
    simp only [List.map_cons, runFrom, h1]
    exact g1

/-- C12: starting from the empty engine, for every finite sequence of `add` calls, calling
`del` with the same `(base, mask)` arguments in any order leaves the tree empty (the Root's
child is empty), so that `check` then returns -1 for every address. -/
theorem C12_del_all (adds dels : List (Nat × Int)) (hp : dels.Perm adds) :
    ∃ s, run (adds.map (fun p => Call.add p.1 p.2) ++ dels.map (fun p => Call.del p.1 p.2)) =
        some s ∧
      s.rootChild = some none ∧ ∀ k, s.check k = some (-1) := by
  obtain ⟨s1, ot1, h1, h2, h3⟩ := runFrom_adds adds adds WF_stateEmpty
    (fun b m hs => absurd hs (WF.stored_none WF_stateEmpty b m)) (fun p hp => hp)
  obtain ⟨s2, g1, g2⟩ := runFrom_dels dels h2 (fun b m hs => hp.mem_iff.2 (h3 b m hs))
  refine ⟨s2, ?_, WF.rootChild_none g2, WF.check_none g2⟩
  rw [run_eq, runFrom_append, h1]
  exact g1

/-- Witness of C12: three `add` calls, one of them on a key that is already there, and the
`del` calls in another order. -/
theorem C12_del_all_witness :
    [((130 : Nat), (31 : Int)), (128, 26), (128, 25)].Perm [(128, 25), (130, 31), (128, 26)] ∧
    ∃ s, run ([((128 : Nat), (25 : Int)), (130, 31), (128, 26)].map (fun p => Call.add p.1 p.2) ++
          [((130 : Nat), (31 : Int)), (128, 26), (128, 25)].map (fun p => Call.del p.1 p.2)) =
        some s ∧
      s.rootChild = some none ∧ ∀ k, s.check k = some (-1) :=
  ⟨by decide, C12_del_all [(128, 25), (130, 31), (128, 26)] [(130, 31), (128, 26), (128, 25)]
    (by decide)⟩

end IpContainer

namespace IpContainer

/-- C25: from every reachable state the teardown loop (pick the leaf reached by always
descending via `one`, delete its largest stored mask, repeat while the tree is non-empty)
terminates after exactly as many iterations as there are stored `(key, mask)` pairs and ends
with the Root's child empty; every iteration on a non-empty tree deletes the largest mask of a
key, removes exactly that pair from the stored set and leads to a reachable state. -/
theorem C25_teardown (s : IpContainer) (h : Reachable s) :
    (s.empty = some false →
      ∃ b m s1 r, s.teardownStep = some (s1, r) ∧ s.del b m = some (s1, r) ∧
        stored s b m ∧ (∀ m2, stored s b m2 → m2 ≤ m) ∧ ¬ stored s1 b m ∧
        (∀ b2 m2, stored s1 b2 m2 ↔ stored s b2 m2 ∧ ¬ (b2 = b ∧ m2 = m)) ∧ Reachable s1) ∧
    ∃ l : List (Nat × Int), l.Nodup ∧ (∀ b m, stored s b m ↔ (b, m) ∈ l) ∧
      ∃ s2, (∀ fuel, l.length < fuel → s.teardownLoop fuel = some (s2, l.length)) ∧
        s2.rootChild = some none ∧ s2.empty = some true := by
  obtain ⟨ot, hwf⟩ := Reachable.wf h
  constructor
  · intro he
    cases ot with
    | none =>
      rw [WF.empty hwf] at he
      cases he
    | some t =>
      obtain ⟨b, m, s1, r, ot1, g1, g2, hb, hm0, hm32, g3, g4, g5, g6, _⟩ := teardownStep_WF hwf
      refine ⟨b, m, s1, r, g1, g2, g4, g5, ?_, g6, ?_⟩
      · intro hc
        exact ((g6 b m).1 hc).2 ⟨rfl, rfl⟩
      · apply Reachable.step h (Call.del b m)
        · simp only [Call.wellTyped, Bool.and_eq_true, decide_eq_true_eq]
          omega
        · simp only [step, g2, Option.map_some']
  · obtain ⟨l, hnd, hst⟩ := WF.pairs_list hwf
    obtain ⟨s2, k1, k2⟩ := teardownLoop_WF l.length l rfl hwf hnd hst
    refine ⟨l, hnd, hst, s2, k1, WF.rootChild_none k2, ?_⟩
    rw [WF.empty k2]
    rfl

/-- Witness of C25: the teardown of the engine holding 0.0.0.128/25 and 0.0.0.130/31 takes two
iterations. -/
theorem C25_teardown_witness :
    Reachable stateTwo ∧ stateTwo.teardownLoop 3 = some (stateEmpty, 2) ∧
      (stateTwo.empty = some false →
        ∃ b m s1 r, stateTwo.teardownStep = some (s1, r) ∧ stateTwo.del b m = some (s1, r) ∧
          stored stateTwo b m ∧ (∀ m2, stored stateTwo b m2 → m2 ≤ m) ∧ ¬ stored s1 b m ∧
          (∀ b2 m2, stored s1 b2 m2 ↔ stored stateTwo b2 m2 ∧ ¬ (b2 = b ∧ m2 = m)) ∧
          Reachable s1) :=
  ⟨reachable_stateTwo, by decide, (C25_teardown stateTwo reachable_stateTwo).1⟩

end IpContainer

namespace IpContainer

/-- C19: for an arena that holds a tree in slots from 2 on, and every slot `f` that holds a
disconnected node (a live slot that is no node of the tree, the last slot being `f` or a node
of the tree), `deallocate(f)` succeeds and decreases the arena size by one; if `f` was the
last slot every remaining slot is unchanged; otherwise the former last entry now sits at index
`f`, every pointer word of a tree node or of the Root that named the old last index (the child
word of its parent, the parent words of its children) names `f`, and all other words and all
other slots are unchanged; the arena then holds the same tree, with the moved node at index
`f`. -/
theorem C19_deallocate_relocates (cap : Nat) (buf : List Node) (t : LTree) (f : Nat)
    (h1 : buf[1]? = some (Node.root none (some t.idx)))
    (hrep : LTree.Rep buf t 1) (hnd : t.indices.Nodup)
    (hrange : ∀ i ∈ t.indices, 2 ≤ i ∧ i < buf.length)
    (hf : f ∉ t.indices) (hf2 : 2 ≤ f) (hflt : f < buf.length)
    (hlast : f ≠ buf.length - 1 → buf.length - 1 ∈ t.indices) :
    ∃ c2, (ChunkBuff.mk cap buf).deallocate f = some c2 ∧ c2.size = buf.length - 1 ∧
      (c2.capacity = cap ∨ c2.capacity = cap / 3) ∧
      (f = buf.length - 1 → ∀ i, i < buf.length - 1 → c2.buf[i]? = buf[i]?) ∧
      (f ≠ buf.length - 1 → c2.buf[f]? = buf[buf.length - 1]? ∧
        (∀ i, i ∈ t.indices ∨ i = 1 → i ≠ buf.length - 1 →
          c2.buf[i]? = (buf[i]?).map (Node.renamePtr (buf.length - 1) f))) ∧
      (∀ g, g ∉ t.indices → g ≠ f → g ≠ 1 → g < buf.length - 1 → c2.buf[g]? = buf[g]?) ∧
      c2.buf[1]? = some (Node.root none (some (t.rename (buf.length - 1) f).idx)) ∧
      LTree.Rep c2.buf (t.rename (buf.length - 1) f) 1 ∧
      (t.rename (buf.length - 1) f).leaves = t.leaves := by
  have h1n : 1 ∉ t.indices := fun hm => by
    have := (hrange 1 hm).1
    omega
  obtain ⟨buf2, g1, g2, g3, g4, g5⟩ :=
    LTree.deallocate_rep cap f h1 hrep hnd hrange hf hf2 hflt hlast
  have hcap : ChunkBuff.shrunk cap (buf.length - 1) = cap ∨
      ChunkBuff.shrunk cap (buf.length - 1) = cap / 3 := by
    unfold ChunkBuff.shrunk
    split
    · exact Or.inr rfl
    · exact Or.inl rfl
  refine ⟨_, g1, g2, hcap, ?_, ?_, g5, g3, g4, LTree.leaves_rename _ _ _⟩
  · intro hl i hi
    have e := ChunkBuff.deallocate_last cap buf f hl (by omega)
    rw [g1] at e
    injection e with e
    injection e with _ e2
    show buf2[i]? = buf[i]?
    rw [e2]
    exact LTree.getElem?_dropLast_lt _ _ hi
  · intro hl
    have ha := hlast hl
    obtain ⟨M, hM, _, _⟩ := LTree.Rep.node_of_mem hrep ha
    obtain ⟨bufU, hU, hlen, hUf, hUi, hU1, hUg⟩ :=
      LTree.relocate_exec cap f (buf.length - 1) h1 hrep hnd hrange hf hf2 hflt ha M hM
    have hmove := ChunkBuff.deallocate_move cap buf bufU f M (by omega) (by omega) hM hU
    rw [g1] at hmove
    injection hmove with hmove
    injection hmove with _ e2
    show buf2[f]? = buf[buf.length - 1]? ∧ ∀ i, i ∈ t.indices ∨ i = 1 → i ≠ buf.length - 1 →
      buf2[i]? = (buf[i]?).map (Node.renamePtr (buf.length - 1) f)
    rw [e2]
    constructor
    · rw [LTree.getElem?_dropLast_lt _ _ (by omega), hUf, hM]
    · intro i hi hil
      rcases hi with him | e
      · have := hrange i him
        rw [LTree.getElem?_dropLast_lt _ _ (by omega)]
        exact hUi i him hil
      · subst e
        rw [LTree.getElem?_dropLast_lt _ _ (by omega), hU1, h1, LTree.idx_rename]
        simp only [Option.map_some', Node.renamePtr, LTree.some_rename]
        rfl

/-- Witness of C19: the arena in the middle of `del(0.0.0.128, 25)` on the engine holding
0.0.0.128/25 and 0.0.0.130/31, when the emptied leaf in slot 2 is freed and the leaf of
0.0.0.130 moves from slot 3 to slot 2. -/
theorem C19_deallocate_relocates_witness :
    arenaFree.deallocate 2 =
      some ⟨8, [Node.root none none, Node.root none (some 2), Node.leaf (some 1) ⟨130, [31]⟩]⟩ ∧
    ∃ c2, (ChunkBuff.mk 8 arenaFree.buf).deallocate 2 = some c2 ∧
      c2.size = arenaFree.buf.length - 1 ∧
      (c2.capacity = 8 ∨ c2.capacity = 8 / 3) ∧
      (2 = arenaFree.buf.length - 1 →
        ∀ i, i < arenaFree.buf.length - 1 → c2.buf[i]? = arenaFree.buf[i]?) ∧
      (2 ≠ arenaFree.buf.length - 1 →
        c2.buf[2]? = arenaFree.buf[arenaFree.buf.length - 1]? ∧
        (∀ i, i ∈ (LTree.leaf 3 ⟨130, [31]⟩).indices ∨ i = 1 → i ≠ arenaFree.buf.length - 1 →
          c2.buf[i]? =
            (arenaFree.buf[i]?).map (Node.renamePtr (arenaFree.buf.length - 1) 2))) ∧
      (∀ g, g ∉ (LTree.leaf 3 ⟨130, [31]⟩).indices → g ≠ 2 → g ≠ 1 →
        g < arenaFree.buf.length - 1 → c2.buf[g]? = arenaFree.buf[g]?) ∧
      c2.buf[1]? = some (Node.root none (some
        ((LTree.leaf 3 ⟨130, [31]⟩).rename (arenaFree.buf.length - 1) 2).idx)) ∧
      LTree.Rep c2.buf ((LTree.leaf 3 ⟨130, [31]⟩).rename (arenaFree.buf.length - 1) 2) 1 ∧
      ((LTree.leaf 3 ⟨130, [31]⟩).rename (arenaFree.buf.length - 1) 2).leaves =
        (LTree.leaf 3 ⟨130, [31]⟩).leaves :=
  ⟨by decide, C19_deallocate_relocates 8 arenaFree.buf (LTree.leaf 3 ⟨130, [31]⟩) 2 rfl rfl
    (by decide) (by decide) (by decide) (by decide) (by decide) (by decide)⟩

end IpContainer

namespace IpContainer

/-- C18: in `add` on a reachable state, when the candidate leaf `L` is not the Root's child,
`getDiffBit` of its key and `base` is `d` (so the key differs from `base`) and the Root
child's branch bit is not below `d`, the walk up from `L` ends with `parentNode` an Inner node
of the tree (not the Root) whose branch bit is strictly greater than `d`, so the assertion
`branchMask > diffBit` holds, and `node`, the node on the path below it, is one of its two
children. -/
theorem C18_walk_up (s : IpContainer) (base c L d : Nat) (dL : DataNode) (rc : Node)
    (h : Reachable s) (hc : s.rootChild = some (some c))
    (hL : s.findNode base = some (some L)) (hLc : L ≠ c)
    (hd : s.leafData (some L) = some dL) (hdiff : getDiffBit dL.ip base = some d)
    (hrc : s.get (some c) = some rc) (hrcb : ¬ rc.flag < d) :
    dL.ip ≠ base ∧
    ∃ ln node P b par o z, s.get (some L) = some ln ∧
      walkUpLoop s.node_alloc d s.node_alloc.size (some L) ln.parentField =
        some (some node, some P) ∧
      s.get (some P) = some (Node.inner b par o z) ∧
      (Node.inner b par o z).isInner = true ∧ P ≠ 1 ∧ b ≤ 31 ∧
      (Node.inner b par o z).flag > d ∧ (o = some node ∨ z = some node) ∧ node ≠ P := by
  obtain ⟨ot, hwf⟩ := Reachable.wf h
  cases ot with
  | none =>
    rw [WF.rootChild_none hwf] at hc
    cases hc
  | some t =>
    have hne : dL.ip ≠ base := by
      intro e
      rcases getDiffBitLoop_spec dL.ip base 31 with ⟨d2, _, _, hb, _⟩ | ⟨hn, _⟩
      · exact hb (by rw [e])
      · unfold getDiffBit at hdiff
        rw [hn] at hdiff
        cases hdiff
    refine ⟨hne, ?_⟩
    have hbit : dL.ip.testBit d ≠ base.testBit d := by
      rcases getDiffBitLoop_spec dL.ip base 31 with ⟨d2, e, _, hb, _⟩ | ⟨hn, _⟩
      · unfold getDiffBit at hdiff
        rw [e] at hdiff
        injection hdiff with hdiff
        rw [← hdiff]
        exact hb
      · unfold getDiffBit at hdiff
        rw [hn] at hdiff
        cases hdiff
    have hc2 := WF.rootChild hwf
    rw [hc2] at hc
    injection hc with hc
    injection hc with hc
    have hL2 := WF.findNode hwf base
    rw [hL2] at hL
    injection hL with hL
    injection hL with hL
    have hd2 := WF.leafData hwf base
    rw [hL, hd] at hd2
    injection hd2 with hd2
    obtain ⟨⟨cap, buf⟩, r⟩ := s
    have hlb := WF.length_bound hwf
    obtain ⟨hr, h0, h1, hrep, hnd, hrange, hinv⟩ := hwf
    dsimp only at hr h0 h1 hrep hrange
    rw [get_mk] at hrc
    obtain ⟨i, b, z, o, e, hdb⟩ : ∃ i b z o, t = LTree.inner i b z o ∧ d ≤ b := by
      cases t with
      | leaf j x =>
        exfalso
        apply hLc
        rw [← hL, ← hc]
        rfl
      | inner j b z o =>
        refine ⟨j, b, z, o, rfl, ?_⟩
        simp only [LTree.Rep] at hrep
        have hn := hrep.2.1
        rw [← hc] at hrc
        simp only [LTree.idx] at hrc
        rw [hn] at hrc
        injection hrc with hrc
        rw [← hrc] at hrcb
        simp only [Node.flag] at hrcb
        omega
    obtain ⟨bP, par, oP, zP, p1, p2, p3, p4, p5, p6, p7, p8⟩ :=
      LTree.spliceAt_parent base d hrep hinv hnd i b z o e hdb
    have hbP : d < bP := by
      rcases Nat.lt_or_ge d bP with hl | hg
      · exact hl
      · have e2 : bP = d := by omega
        rw [e2, ← hd2] at p3
        exact absurd p3.symm hbit
    have hLn := LTree.Rep.find base hrep
    have hwalk : walkUpLoop ⟨cap, buf⟩ d buf.length (some (t.find base).1)
        (Node.leaf (some (t.findParent base 1)) (t.find base).2).parentField =
        some (some (t.spliceAt base d 1).1, some (t.spliceAt base d 1).2) := by
      have hpl := LTree.pathLen_lt_length base t
      have := (LTree.walkUp_rep cap base d hrep hinv).2 (buf.length - t.pathLen base)
        i b z o e hdb
      rw [Nat.add_sub_cancel' (by omega)] at this
      exact this
    obtain ⟨nP, hnP, _, hb32⟩ := LTree.Rep.node_of_mem hrep p4
    rw [p1] at hnP
    injection hnP with hnP
    have hb32 := hb32 _ _ _ _ hnP.symm
    have hP1 : (t.spliceAt base d 1).2 ≠ 1 := by
      have := (hrange _).1 p4
      omega
    refine ⟨Node.leaf (some (t.findParent base 1)) (t.find base).2, (t.spliceAt base d 1).1,
      (t.spliceAt base d 1).2, bP, par, oP, zP, ?_, ?_, ?_,
      LTree.isInner_inner _ _ _ _ hb32, hP1, by omega, hbP, ?_, p6⟩
    · rw [get_mk, ← hL]
      exact hLn
    · rw [← hL]
      exact hwalk
    · rw [get_mk]
      exact p1
    · rcases p8 with e1 | e1
      · exact Or.inr e1
      · exact Or.inl e1

/-- Witness of C18: `add(0.0.0.129, 32)` on the engine holding 0.0.0.128/25 and 0.0.0.130/31:
the candidate leaf is the one of 0.0.0.128 in slot 2, the divergence bit is 0 and the walk
stops at the Inner node of slot 4, whose branch bit is 1. -/
theorem C18_walk_up_witness :
    Reachable stateTwo ∧ stateTwo.rootChild = some (some 4) ∧
      stateTwo.findNode 129 = some (some 2) ∧
      walkUpLoop stateTwo.node_alloc 0 stateTwo.node_alloc.size (some 2) (some 4) =
        some (some 2, some 4) ∧
      (128 ≠ 129 ∧
        ∃ ln node P b par o z, stateTwo.get (some 2) = some ln ∧
          walkUpLoop stateTwo.node_alloc 0 stateTwo.node_alloc.size (some 2) ln.parentField =
            some (some node, some P) ∧
          stateTwo.get (some P) = some (Node.inner b par o z) ∧
          (Node.inner b par o z).isInner = true ∧ P ≠ 1 ∧ b ≤ 31 ∧
          (Node.inner b par o z).flag > 0 ∧ (o = some node ∨ z = some node) ∧ node ≠ P) :=
  ⟨reachable_stateTwo, by decide, by decide, by decide,
    C18_walk_up stateTwo 129 4 2 0 ⟨128, [25]⟩ (Node.inner 1 (some 1) (some 3) (some 2))
      reachable_stateTwo (by decide) (by decide) (by decide) (by decide) (by decide) (by decide)
      (by decide)⟩

end IpContainer
